import Mathlib

/-!
# echfs-utils: a shallow embedding of `echfs-utils.c`

The image file is a byte store with an end-of-file position.  Every function
of the C program that touches the image becomes a Lean function that takes
the image (and the file-scope geometry variables, gathered in `Vol`) and
returns the new image.

Conventions of the embedding:

* `Option` results: `none` stands for every run that does not return
  normally with defined contents: `abort()`, a `fread` that hits the end of
  the file and leaves (part of) its buffer indeterminate, a write past the
  end of a fixed-size buffer, and a file offset that does not fit the C
  `long` handed to `fseek` (offsets are computed in `Nat`; one that reaches
  `2^63` is outside the model).
* `uint64_t` values that are compared or stored, not used as offsets, wrap
  modulo `2^64` (`u64`).
* C strings are the lists of their bytes before the terminating NUL.
* The whole image is the volume (`part_offset = 0`, neither `-m` nor `-g`).
-/

namespace Echfs

/-! ## Constants of the source -/

def SEARCH_FAILURE : Nat := 0xffffffffffffffff
def ROOT_ID : Nat := 0xffffffffffffffff
def BYTES_PER_SECT : Nat := 512
def ENTRIES_PER_SECT : Nat := 2
def FILENAME_LEN : Nat := 201
def RESERVED_BLOCKS : Nat := 16
def FILE_TYPE : Nat := 0
def DIRECTORY_TYPE : Nat := 1
def DELETED_ENTRY : Nat := 0xfffffffffffffffe
def RESERVED_BLOCK : Nat := 0xfffffffffffffff0
def END_OF_CHAIN : Nat := 0xffffffffffffffff
def fatstart : Nat := RESERVED_BLOCKS

/-- The size of the packed `entry_t`: 8+1+201+8+8+2+2+2+8+8+8. -/
def ENTRY_SIZE : Nat := 256

/-- Largest offset plus one that a C `long` (64 bit) can hold. -/
def LONG_LIMIT : Nat := 2 ^ 63

/-- Wrap-around of `uint64_t` arithmetic. -/
def u64 (x : Nat) : Nat := x % 2 ^ 64

/-! ## The image file -/

/-- The image: `size` is the end-of-file position, `byte` the stored bytes. -/
structure Image where
  size : Nat
  byte : Nat → Nat

/-- The byte at offset `p`; reading at or past the end of file yields no
data, which the callers below see as `0` in a zero-initialised buffer. -/
def Image.get (img : Image) (p : Nat) : Nat :=
  if p < img.size then img.byte p % 256 else 0

/-- Seek to `loc` and `fwrite` the `len` bytes `f 0 .. f (len-1)`.  A write
past the end of file extends the file, the gap reading as zero. -/
def Image.write (img : Image) (loc len : Nat) (f : Nat → Nat) : Image :=
  if len = 0 then img
  else
    { size := max img.size (loc + len)
      byte := fun p =>
        if loc ≤ p ∧ p < loc + len then f (p - loc)
        else if p < img.size then img.byte p else 0 }

/-- The `n` bytes at `loc` as a list. -/
def Image.read (img : Image) (loc n : Nat) : List Nat :=
  (List.range n).map (fun i => img.get (loc + i))

/-- Little-endian value of the `n` bytes at `loc` (missing bytes are 0, the
initial value of the destination variable). -/
def rdLE (img : Image) : Nat → Nat → Nat
  | 0, _ => 0
  | n + 1, loc => img.get loc + 256 * rdLE img n (loc + 1)

/-- Byte `i` of the little-endian representation of `x`. -/
def le_byte (x : Nat) (i : Nat) : Nat := x / 256 ^ i % 256

def rd_word (img : Image) (loc : Nat) : Nat := rdLE img 2 loc

def rd_qword (img : Image) (loc : Nat) : Nat := rdLE img 8 loc

def wr_qword (img : Image) (loc : Nat) (x : Nat) : Image :=
  img.write loc 8 (le_byte x)

/-! ## Geometry (the file-scope variables of the source) -/

structure Vol where
  imgsize : Nat
  blocks : Nat
  fatsize : Nat
  dirsize : Nat
  dirstart : Nat
  datastart : Nat
  bytesperblock : Nat

def Vol.SECTORS_PER_BLOCK (v : Vol) : Nat := v.bytesperblock / BYTES_PER_SECT

def Vol.BYTES_PER_BLOCK (v : Vol) : Nat := v.SECTORS_PER_BLOCK * BYTES_PER_SECT

def Vol.ENTRIES_PER_BLOCK (v : Vol) : Nat := v.SECTORS_PER_BLOCK * ENTRIES_PER_SECT

/-- Offset of allocation-table entry `b`. -/
def Vol.fat_loc (v : Vol) (b : Nat) : Nat := fatstart * v.bytesperblock + b * 8

/-- Allocation-table entry of block `b` as `rd_qword` reads it. -/
def Vol.fat (v : Vol) (img : Image) (b : Nat) : Nat := rd_qword img (v.fat_loc b)

/-- Offset of directory-table slot `i`. -/
def Vol.entry_loc (v : Vol) (i : Nat) : Nat :=
  v.dirstart * v.bytesperblock + i * ENTRY_SIZE

/-! ## Directory entries -/

/-- The packed `entry_t`; `name` is the raw 201-byte field. -/
structure entry_t where
  parent_id : Nat
  type : Nat
  name : List Nat
  atime : Nat
  mtime : Nat
  perms : Nat
  owner : Nat
  group : Nat
  ctime : Nat
  payload : Nat
  size : Nat

/-- The value of `entry_t entry = {0}`. -/
def empty_entry : entry_t :=
  { parent_id := 0, type := 0, name := List.replicate FILENAME_LEN 0, atime := 0, mtime := 0,
    perms := 0, owner := 0, group := 0, ctime := 0, payload := 0, size := 0 }

/-- Byte `i` (0 ≤ i < 256) of the packed struct. -/
def entry_byte (e : entry_t) (i : Nat) : Nat :=
  if i < 8 then le_byte e.parent_id i
  else if i < 9 then le_byte e.type 0
  else if i < 210 then e.name.getD (i - 9) 0
  else if i < 218 then le_byte e.atime (i - 210)
  else if i < 226 then le_byte e.mtime (i - 218)
  else if i < 228 then le_byte e.perms (i - 226)
  else if i < 230 then le_byte e.owner (i - 228)
  else if i < 232 then le_byte e.group (i - 230)
  else if i < 240 then le_byte e.ctime (i - 232)
  else if i < 248 then le_byte e.payload (i - 240)
  else le_byte e.size (i - 248)

/-- The struct held by the 256 bytes at `loc`. -/
def entry_at (img : Image) (loc : Nat) : entry_t :=
  { parent_id := rdLE img 8 loc
    type := img.get (loc + 8)
    name := img.read (loc + 9) FILENAME_LEN
    atime := rdLE img 8 (loc + 210)
    mtime := rdLE img 8 (loc + 218)
    perms := rdLE img 2 (loc + 226)
    owner := rdLE img 2 (loc + 228)
    group := rdLE img 2 (loc + 230)
    ctime := rdLE img 8 (loc + 232)
    payload := rdLE img 8 (loc + 240)
    size := rdLE img 8 (loc + 248) }

/-- One `fread(&entry, sizeof(entry_t), 1, image)` at stream position `loc`:
`none` when the file ends before the struct is complete. -/
def fread_entry (img : Image) (loc : Nat) : Option entry_t :=
  if loc + ENTRY_SIZE ≤ img.size then some (entry_at img loc) else none

/-- The function `rd_entry` of the source (aborts out of bounds). -/
def rd_entry (v : Vol) (img : Image) (entry : Nat) : Option entry_t :=
  let loc := v.entry_loc entry
  if LONG_LIMIT ≤ loc then none
  else if u64 ((v.dirstart + v.dirsize) * v.bytesperblock) ≤ loc then none
  else fread_entry img loc

/-- The function `wr_entry` of the source (aborts out of bounds; the bound
uses `BYTES_PER_BLOCK`). -/
def wr_entry (v : Vol) (img : Image) (entry : Nat) (e : entry_t) : Option Image :=
  let loc := v.entry_loc entry
  if LONG_LIMIT ≤ loc then none
  else if u64 ((v.dirstart + v.dirsize) * v.BYTES_PER_BLOCK) ≤ loc then none
  else some (img.write loc ENTRY_SIZE (entry_byte e))

/-- Result of `strcpy(dst, s)` on a buffer `dst`. -/
def strcpy (dst s : List Nat) : List Nat :=
  s ++ 0 :: dst.drop (s.length + 1)

/-- Whether `strcmp(field, s) == 0` for the buffer `field` and a string `s`
(no NUL, shorter than the buffer): `strcmp` reads `s.length + 1` bytes. -/
def strcmp_eq (field s : List Nat) : Bool :=
  decide (field.take (s.length + 1) = s ++ [0])

/-- The C string stored in a buffer. -/
def cstr (buf : List Nat) : List Nat := buf.takeWhile (fun c => c != 0)

/-! ## Directory table: search, path resolution, free slot, free ID -/

/-- The loop of `search` from slot `i` on, `fuel` bounding the iterations.
When the file ends before slot `i` is complete the struct is indeterminate;
if `i` is past the table both remaining tests return `SEARCH_FAILURE`. -/
def search_loop (v : Vol) (img : Image) (name : List Nat) (parent type : Nat) :
    Nat → Nat → Option Nat
  | 0, _ => none
  | fuel + 1, i =>
    match fread_entry img (v.entry_loc i) with
    | none => if u64 (v.dirsize * v.ENTRIES_PER_BLOCK) ≤ i then some SEARCH_FAILURE else none
    | some entry =>
      if entry.parent_id = 0 then some SEARCH_FAILURE
      else if u64 (v.dirsize * v.ENTRIES_PER_BLOCK) ≤ i then some SEARCH_FAILURE
      else if entry.parent_id = parent ∧ entry.type = type ∧ strcmp_eq entry.name name = true then
        some i
      else search_loop v img name parent type fuel (i + 1)

/-- The function `search` of the source: entry number, or `SEARCH_FAILURE`. -/
def search (v : Vol) (img : Image) (name : List Nat) (parent type : Nat) : Option Nat :=
  if LONG_LIMIT ≤ v.dirstart * v.bytesperblock then none
  else search_loop v img name parent type (u64 (v.dirsize * v.ENTRIES_PER_BLOCK) + 1) 0

structure path_result_t where
  target_entry : Nat
  target : entry_t
  parent : entry_t
  name : List Nat
  failure : Bool
  not_found : Bool

/-- The initial value of `result` in `path_resolver`. -/
def empty_result : path_result_t :=
  { target_entry := 0, target := empty_entry, parent := empty_entry, name := [],
    failure := false, not_found := false }

/-- The body of `path_resolver` from label `next` on, one character of the
path at a time: `parent` is the running parent, `name` the component copied
so far, the last argument the rest of the path (`[]` is the terminator).
Character 47 is `/`.  A component of more than 200 bytes overruns `name`. -/
def resolve_loop (v : Vol) (img : Image) (type : Nat) :
    entry_t → List Nat → List Nat → Option path_result_t
  | parent, name, [] =>
    match search v img name parent.payload type with
    | none => none
    | some search_res =>
      if search_res = SEARCH_FAILURE then
        some { empty_result with not_found := true, parent := parent, name := name }
      else
        match rd_entry v img search_res with
        | none => none
        | some target =>
          some { empty_result with target := target, target_entry := search_res,
                                   parent := parent, name := name }
  | parent, name, c :: rest =>
    if c = 47 then
      match search v img name parent.payload DIRECTORY_TYPE with
      | none => none
      | some search_res =>
        if search_res = SEARCH_FAILURE then some { empty_result with failure := true }
        else
          match rd_entry v img search_res with
          | none => none
          | some parent1 => resolve_loop v img type parent1 [] rest
    else if 200 ≤ name.length then none
    else resolve_loop v img type parent (name ++ [c]) rest

/-- The function `path_resolver` of the source. -/
def path_resolver (v : Vol) (img : Image) (path : List Nat) (type : Nat) :
    Option path_result_t :=
  if type = DIRECTORY_TYPE ∧ path = [47] then
    some { empty_result with target := { empty_entry with payload := ROOT_ID } }
  else if type = FILE_TYPE ∧ path = [47] then
    some { empty_result with failure := true }
  else
    resolve_loop v img type { empty_entry with payload := ROOT_ID } []
      (match path with
       | 47 :: rest => rest
       | p => p)

/-- The loop of `get_free_id` from slot `i` on with running `id`. -/
def get_free_id_loop (v : Vol) (img : Image) : Nat → Nat → Nat → Option Nat
  | 0, _, _ => none
  | fuel + 1, i, id =>
    match fread_entry img (v.entry_loc i) with
    | none => none
    | some entry =>
      if entry.parent_id = 0 then some id
      else
        get_free_id_loop v img fuel (i + 1)
          (if entry.type = 1 ∧ entry.payload = id then u64 (entry.payload + 1) else id)

/-- The function `get_free_id` of the source.  The loop has no bound of its
own; it reads at most `size / 256` whole slots before the file ends. -/
def get_free_id (v : Vol) (img : Image) : Option Nat :=
  if LONG_LIMIT ≤ v.dirstart * v.bytesperblock then none
  else get_free_id_loop v img (img.size / ENTRY_SIZE + 1) 0 1

/-- The "find empty entry" loop of `mkdir_cmd` and `import_cmd` from slot `i`. -/
def find_empty_loop (v : Vol) (img : Image) : Nat → Nat → Option Nat
  | 0, _ => none
  | fuel + 1, i =>
    match fread_entry img (v.entry_loc i) with
    | none => none
    | some entry_i =>
      if entry_i.parent_id = 0 ∨ entry_i.parent_id = DELETED_ENTRY then some i
      else find_empty_loop v img fuel (i + 1)

def find_empty (v : Vol) (img : Image) : Option Nat :=
  if LONG_LIMIT ≤ v.dirstart * v.bytesperblock then none
  else find_empty_loop v img (img.size / ENTRY_SIZE + 1) 0

/-! ## Commands -/

/-- What a command reports on `stderr`. -/
inductive Msg where
  | AlreadyExists
  | NotFound
  | NotARegularFile
  | CannotAccess
  | InvalidDirectory
  deriving DecidableEq, Repr

/-- The entry `mkdir_cmd` builds: `parent` is `path_result.parent.payload`,
`tm` the value of `time(NULL)`. -/
def mkdir_entry (parent : Nat) (name : List Nat) (id tm : Nat) : entry_t :=
  { empty_entry with
    parent_id := parent, type := DIRECTORY_TYPE, name := strcpy empty_entry.name name,
    payload := id, ctime := tm, atime := tm, mtime := tm, perms := 0o644 }

/-- The function `mkdir_cmd` of the source with `argv[3] = path`. -/
def mkdir_cmd (v : Vol) (img : Image) (path : List Nat) (tm : Nat) :
    Option (Image × List Msg) :=
  match path_resolver v img path DIRECTORY_TYPE with
  | none => none
  | some path_result =>
    if path_result.not_found = false then some (img, [Msg.AlreadyExists])
    else
      match find_empty v img with
      | none => none
      | some i =>
        match get_free_id v img with
        | none => none
        | some id =>
          match wr_entry v img i (mkdir_entry path_result.parent.payload path_result.name id tm) with
          | none => none
          | some img1 => some (img1, [])

/-! ## Chains: `import_chain`, `export_chain` -/

/-- The inner loop `for ( ; fread(&vvv, 8, 1, image), vvv; block++);` of
`import_chain`: the stream stands at the entry of `block`; the result is the
first block at or after `block` whose entry reads 0.  `none`: end of file. -/
def scan_free (v : Vol) (img : Image) : Nat → Nat → Option Nat
  | 0, _ => none
  | fuel + 1, block =>
    if v.fat_loc block + 8 ≤ img.size then
      if rd_qword img (v.fat_loc block) = 0 then some block
      else scan_free v img fuel (block + 1)
    else none

/-- The first loop of `import_chain`: `count` blocks are still to be claimed
and the scan stands at `block`; the result is the rest of `blocklist`. -/
def alloc_blocks (v : Vol) (img : Image) : Nat → Nat → Option (List Nat)
  | 0, _ => some []
  | count + 1, block =>
    match scan_free v img (img.size / 8 + 1) block with
    | none => none
    | some b =>
      match alloc_blocks v img count (b + 1) with
      | none => none
      | some rest => some (b :: rest)

/-- The second loop of `import_chain` ("copy block"): `pos` is the read
position in the source; each round writes the bytes `fread` returned. -/
def copy_blocks (v : Vol) (src : List Nat) : List Nat → Nat → Image → Option Image
  | [], _, img => some img
  | b :: rest, pos, img =>
    if LONG_LIMIT ≤ b * v.bytesperblock then none
    else
      copy_blocks v src rest (pos + min v.bytesperblock (src.length - pos))
        (img.write (b * v.bytesperblock) (min v.bytesperblock (src.length - pos))
          (fun j => src.getD (pos + j) 0))

/-- The third loop of `import_chain`: the allocation-table links. -/
def link_blocks (v : Vol) : List Nat → Image → Option Image
  | [], img => some img
  | [b], img =>
    if LONG_LIMIT ≤ v.fat_loc b then none else some (wr_qword img (v.fat_loc b) END_OF_CHAIN)
  | b :: b1 :: rest, img =>
    if LONG_LIMIT ≤ v.fat_loc b then none
    else link_blocks v (b1 :: rest) (wr_qword img (v.fat_loc b) b1)

/-- The block list `import_chain` computes for a source of `source_size`
bytes (its first loop). -/
def import_blocklist (v : Vol) (img : Image) (source_size : Nat) : Option (List Nat) :=
  alloc_blocks v img (u64 (source_size + v.bytesperblock - 1) / v.bytesperblock) 0

/-- The function `import_chain` of the source; `src` is the content of the
source file.  Result: the returned block and the image. -/
def import_chain (v : Vol) (img : Image) (src : List Nat) : Option (Nat × Image) :=
  if src.length = 0 then some (END_OF_CHAIN, img)
  else if v.bytesperblock = 0 then none
  else if u64 (src.length + v.bytesperblock - 1) / v.bytesperblock = 0 then none
  else if LONG_LIMIT ≤ fatstart * v.bytesperblock then none
  else
    match import_blocklist v img src.length with
    | none => none
    | some blocklist =>
      match copy_blocks v src blocklist 0 img with
      | none => none
      | some img1 =>
        match link_blocks v blocklist img1 with
        | none => none
        | some img2 => some (blocklist.headD 0, img2)

/-- The loop of `export_chain`: `dest` is what has been written so far (so
`ftell(dest) = dest.length`), `size` is `src.size`. -/
def export_loop (v : Vol) (img : Image) (size : Nat) : Nat → Nat → List Nat → Option (List Nat)
  | 0, _, _ => none
  | fuel + 1, cur_block, dest =>
    if cur_block = END_OF_CHAIN then some dest
    else if LONG_LIMIT ≤ cur_block * v.bytesperblock then none
    else if size ≤ u64 (dest.length + v.bytesperblock) then
      if size % v.bytesperblock = 0 then some dest
      else if cur_block * v.bytesperblock + size % v.bytesperblock ≤ img.size then
        some (dest ++ img.read (cur_block * v.bytesperblock) (size % v.bytesperblock))
      else none
    else if cur_block * v.bytesperblock + v.bytesperblock ≤ img.size then
      if LONG_LIMIT ≤ v.fat_loc cur_block then none
      else
        export_loop v img size fuel (rd_qword img (v.fat_loc cur_block))
          (dest ++ img.read (cur_block * v.bytesperblock) v.bytesperblock)
    else none

/-- The function `export_chain` of the source: the content of `dest`, which
was opened empty.  Every round but the last appends a whole block, so the
loop ends within `size / bytesperblock + 1` rounds. -/
def export_chain (v : Vol) (img : Image) (src : entry_t) : Option (List Nat) :=
  if v.bytesperblock = 0 then none
  else export_loop v img src.size (src.size / v.bytesperblock + 1) src.payload []

/-! ## `import`, `export`, `ls` -/

/-- The host side of `import`: what `stat` and `fopen` yield for `argv[3]`,
the `-f` flag and the clock. -/
structure Host where
  is_reg : Bool
  can_open : Bool
  data : List Nat
  st_mode : Nat
  st_atime : Nat
  st_mtime : Nat
  st_ctime : Nat
  force : Bool
  now : Nat

/-- Index of the first `/` in `s`, counted from `i`; `none` when the scan
runs over the end of the string. -/
def slash_from : List Nat → Nat → Option Nat
  | [], _ => none
  | c :: rest, i => if c = 47 then some i else slash_from rest (i + 1)

/-- The "make directory" loop of `import_cmd` (label `subdir`): `i` is the
index into `argv[4]`; `newdirname` always equals the first `i` bytes of the
path.  Result: image and messages of the `mkdir_cmd` calls. -/
def make_dirs (v : Vol) (path : List Nat) (tm : Nat) :
    Nat → Nat → Image → List Msg → Option (Image × List Msg)
  | 0, _, _, _ => none
  | fuel + 1, i, img, msgs =>
    match slash_from (path.drop i) i with
    | none => none
    | some j =>
      if 4096 ≤ j then none
      else
        match mkdir_cmd v img (path.take j) tm with
        | none => none
        | some (img1, m) =>
          match path_resolver v img1 path FILE_TYPE with
          | none => none
          | some r =>
            if r.failure = true then make_dirs v path tm fuel (j + 1) img1 (msgs ++ m)
            else some (img1, msgs ++ m)

/-- The new file entry `import_cmd` builds. -/
def file_entry (parent : Nat) (name : List Nat) (payload : Nat) (h : Host) : entry_t :=
  { empty_entry with
    parent_id := parent, type := FILE_TYPE, name := strcpy empty_entry.name name,
    payload := payload, size := h.data.length,
    ctime := u64 h.st_ctime, atime := u64 h.st_atime, mtime := u64 h.st_mtime,
    perms := h.st_mode % 512 }

/-- The function `import_cmd` of the source with `argv[4] = path`. -/
def import_cmd (v : Vol) (img : Image) (h : Host) (path : List Nat) :
    Option (Image × List Msg) :=
  if h.is_reg = false then some (img, [Msg.NotARegularFile])
  else
    match path_resolver v img path FILE_TYPE with
    | none => none
    | some r0 =>
      match (if r0.failure = true then make_dirs v path h.now (path.length + 1) 0 img []
             else some (img, [])) with
      | none => none
      | some (img1, msgs) =>
        match path_resolver v img1 path FILE_TYPE with
        | none => none
        | some path_result =>
          if path_result.not_found = false ∧ h.force = false then
            some (img1, msgs ++ [Msg.AlreadyExists])
          else if h.can_open = false then some (img1, msgs ++ [Msg.CannotAccess])
          else
            match import_chain v img1 h.data with
            | none => none
            | some (payload, img2) =>
              if path_result.not_found = false then
                match wr_entry v img2 path_result.target_entry
                    { path_result.target with payload := payload, mtime := u64 h.st_mtime } with
                | none => none
                | some img3 => some (img3, msgs)
              else
                match find_empty v img2 with
                | none => none
                | some i =>
                  match wr_entry v img2 i
                      (file_entry path_result.parent.payload path_result.name payload h) with
                  | none => none
                  | some img3 => some (img3, msgs)

/-- The function `export_cmd` of the source: the content of the destination
file when it was opened (`none`: not touched), and the messages. -/
def export_cmd (v : Vol) (img : Image) (path : List Nat) :
    Option (Option (List Nat) × List Msg) :=
  match path_resolver v img path FILE_TYPE with
  | none => none
  | some path_result =>
    if path_result.not_found = true then some (none, [Msg.NotFound])
    else
      match export_chain v img path_result.target with
      | none => none
      | some out => some (some out, [])

/-- The string `fputs(entryy.name, stdout)` prints: the bytes of the struct
from the name field up to the first NUL (`none` if the struct has none). -/
def entry_name_str (e : entry_t) : Option (List Nat) :=
  if 0 ∈ (List.range 247).map (fun i => entry_byte e (9 + i) % 256) then
    some (cstr ((List.range 247).map (fun i => entry_byte e (9 + i) % 256)))
  else none

/-- The loop of `ls_cmd` from slot `entry` on; the result is the list of
printed lines, without the newline (91 and 93 are the brackets). -/
def ls_loop (v : Vol) (img : Image) (id : Nat) : Nat → Nat → Option (List (List Nat))
  | 0, _ => none
  | fuel + 1, entry =>
    match rd_entry v img entry with
    | none => none
    | some entryy =>
      if entryy.parent_id = 0 then some []
      else if entryy.parent_id ≠ id then ls_loop v img id fuel (entry + 1)
      else
        match entry_name_str entryy, ls_loop v img id fuel (entry + 1) with
        | some s, some rest =>
          some ((if entryy.type = DIRECTORY_TYPE then 91 :: s ++ [93] else s) :: rest)
        | _, _ => none

/-- The function `ls_cmd` of the source; `path = none` is `argc < 4`. -/
def ls_cmd (v : Vol) (img : Image) (path : Option (List Nat)) :
    Option (List (List Nat) × List Msg) :=
  match path with
  | none => (ls_loop v img ROOT_ID (img.size / ENTRY_SIZE + 1) 0).map (fun o => (o, []))
  | some p =>
    match path_resolver v img p DIRECTORY_TYPE with
    | none => none
    | some result =>
      if result.not_found = true then some ([], [Msg.InvalidDirectory])
      else (ls_loop v img result.target.payload (img.size / ENTRY_SIZE + 1) 0).map (fun o => (o, []))

/-! ## `main`: loading the superblock; formatting -/

inductive LoadError where
  | BadSignature
  | MisalignedImage
  | DivisionByZero
  deriving DecidableEq, Repr

/-- The bytes of `"_ECH_FS_"`. -/
def SIGNATURE : List Nat := [95, 69, 67, 72, 95, 70, 83, 95]

/-- The part of `main` between the format pass and the dispatch: signature
check and geometry.  `imgsize` is the size measured when the image was
opened.  A zero block size makes `imgsize % bytesperblock` trap. -/
def load (img : Image) (imgsize : Nat) : Except LoadError Vol :=
  if img.read 4 8 ≠ SIGNATURE then Except.error LoadError.BadSignature
  else if rd_qword img 28 = 0 then Except.error LoadError.DivisionByZero
  else if imgsize % rd_qword img 28 ≠ 0 then Except.error LoadError.MisalignedImage
  else
    let bytesperblock := rd_qword img 28
    let blocks := imgsize / bytesperblock
    let fatsize :=
      u64 (blocks * 8) / bytesperblock + (if u64 (blocks * 8) % bytesperblock ≠ 0 then 1 else 0)
    let dirsize := rd_qword img 20
    Except.ok
      { imgsize := imgsize, blocks := blocks, fatsize := fatsize, dirsize := dirsize,
        dirstart := u64 (fatstart + fatsize),
        datastart := u64 (RESERVED_BLOCKS + fatsize + dirsize),
        bytesperblock := bytesperblock }

/-- The zeroing loop of `format_pass1`: `i` is the loop variable, which is
also the stream position. -/
def zero_loop (bytesperblock imgsize : Nat) : Nat → Nat → Image → Image
  | 0, _, img => img
  | fuel + 1, i, img =>
    if i < imgsize then
      zero_loop bytesperblock imgsize fuel (i + bytesperblock)
        (img.write i bytesperblock (fun _ => 0))
    else img

/-- The function `format_pass1` of the source: `bpb` is `atoi(argv[3])`,
`uuid0`, `uuid1` the two halves of the random UUID.  `none`: `abort()`. -/
def format_pass1 (img : Image) (imgsize bpb uuid0 uuid1 : Nat) (quick : Bool) : Option Image :=
  if bpb = 0 ∨ bpb % 512 ≠ 0 then none
  else if imgsize % bpb ≠ 0 then none
  else
    let blocks := imgsize / bpb
    let img1 := img.write 4 8 (fun i => SIGNATURE.getD i 0)
    let img2 := wr_qword img1 12 blocks
    let img3 := wr_qword img2 20 (blocks / 20)
    let img4 := wr_qword img3 28 bpb
    let img5 := wr_qword img4 40 uuid0
    let img6 := wr_qword img5 48 uuid1
    if quick = false then
      some (zero_loop bpb imgsize (imgsize / bpb + 1) (RESERVED_BLOCKS * bpb) img6)
    else some img6

/-- The loop of `format_pass2`: `count` entries are still to be written at
`loc`. -/
def reserve_loop : Nat → Nat → Image → Option Image
  | 0, _, img => some img
  | count + 1, loc, img =>
    if LONG_LIMIT ≤ loc then none
    else reserve_loop count (loc + 8) (wr_qword img loc RESERVED_BLOCK)

/-- The function `format_pass2` of the source. -/
def format_pass2 (v : Vol) (img : Image) : Option Image :=
  reserve_loop (u64 (RESERVED_BLOCKS + v.fatsize + v.dirsize)) (fatstart * v.bytesperblock) img

/-- The run of `main` for the actions `format` (`quick = false`) and
`quick-format` on an image opened with size `img.size`. -/
def format_cmd (img : Image) (bpb uuid0 uuid1 : Nat) (quick : Bool) : Option Image :=
  match format_pass1 img img.size bpb uuid0 uuid1 quick with
  | none => none
  | some img1 =>
    match load img1 img.size with
    | Except.error _ => some img1
    | Except.ok v => format_pass2 v img1

/-! ## Specification-side definitions -/

/-- Allocation-table size as section 3 of the spec states it:
`F = ceil(N * 8 / B)`. -/
def spec_fatsize (N B : Nat) : Nat := (N * 8 + B - 1) / B

/-- The geometry section 3 of the spec gives to a freshly formatted image of
`S` bytes with block size `B`: `N = S / B`, `D = N / 20`, directory table
from block `16 + F`, data from block `16 + F + D`. -/
def spec_geometry (S B : Nat) : Vol :=
  { imgsize := S, blocks := S / B, fatsize := spec_fatsize (S / B) B, dirsize := S / B / 20,
    dirstart := 16 + spec_fatsize (S / B) B,
    datastart := 16 + spec_fatsize (S / B) B + S / B / 20,
    bytesperblock := B }

/-- An image of `n` bytes, all zero. -/
def blank (n : Nat) : Image := { size := n, byte := fun _ => 0 }

/-- A 32 KiB image (64 blocks of 512 bytes) that is all zero except for a
stale directory entry where a format with `B = 512` puts slot 0 (offset
`17 * 512 = 8704`): `parent_id = ROOT_ID`, type file, name `"x"`. -/
def stale_image : Image :=
  { size := 32768
    byte := fun p => if 8704 ≤ p ∧ p < 8712 then 255 else if p = 8713 then 120 else 0 }

/-- The blocks `b` with `lo ≤ b < lo + n` whose allocation-table entry reads
0, in increasing order. -/
def free_from (v : Vol) (img : Image) (lo n : Nat) : List Nat :=
  (List.range' lo n).filter (fun b => decide (v.fat img b = 0))

/-- The blocks below `M` whose allocation-table entry reads 0, in increasing
order (the free list a first-fit scan walks). -/
def free_blocks (v : Vol) (img : Image) (M : Nat) : List Nat := free_from v img 0 M

/-- Number of blocks a source of `s` bytes needs: `K = ceil(s / B)`. -/
def blocks_needed (v : Vol) (s : Nat) : Nat := (s + v.bytesperblock - 1) / v.bytesperblock

/-- The `K` lowest-indexed blocks below `M` whose allocation-table entry
reads 0, in increasing order. -/
def lowest_free (v : Vol) (img : Image) (M K : Nat) : List Nat := (free_blocks v img M).take K

/-- The geometry `main` computes for a 32 KiB image with 512-byte blocks:
64 blocks, `F = 1`, `D = 3`, directory from block 17, data from block 20. -/
def vol32k : Vol := spec_geometry 32768 512

/-- A freshly formatted volume: the bytes `format 512` leaves in a zeroed
32 KiB image (UUID halves 7 and 9), in closed form: the signature, `N = 64`
at offset 12, `D = 3` at 20, `B = 512` at 28, and `RESERVED_BLOCK` in the 20
allocation-table entries from offset 8192 (`fresh32k_is_format`). -/
def fresh32k : Image :=
  { size := 32768
    byte := fun p =>
      if 8192 ≤ p ∧ p < 8352 then (if p % 8 = 0 then 240 else 255)
      else if 4 ≤ p ∧ p < 12 then SIGNATURE.getD (p - 4) 0
      else if p = 12 then 64
      else if p = 20 then 3
      else if p = 29 then 2
      else if p = 40 then 7
      else if p = 48 then 9
      else 0 }

/-- A source file of `n` bytes, byte `i` being `i mod 256`. -/
def pattern_file (n : Nat) : List Nat := (List.range n).map (fun i => i % 256)

/-- A well-formed chain: `bs` is the list of blocks reached from `head`
through the allocation-table links, the link of the last one being
`END_OF_CHAIN`; every block and its allocation-table entry lie inside the
image file. -/
def is_chain (v : Vol) (img : Image) : Nat → List Nat → Bool
  | head, [] => decide (head = END_OF_CHAIN)
  | head, b :: rest =>
    decide (head = b) && decide (b ≠ END_OF_CHAIN) &&
      decide ((b + 1) * v.bytesperblock ≤ img.size) &&
      decide (v.fat_loc b + 8 ≤ img.size) && is_chain v img (v.fat img b) rest

/-- The concatenation of the blocks of a chain. -/
def chain_bytes (v : Vol) (img : Image) (bs : List Nat) : List Nat :=
  (bs.map (fun b => img.read (b * v.bytesperblock) v.bytesperblock)).flatten

/-- The number of bytes `export_chain` writes for a file of `size` bytes:
`size`, but `size - B` when `size` is a positive multiple of `B`. -/
def export_len (B size : Nat) : Nat :=
  if size % B = 0 ∧ size ≠ 0 then size - B else size

/-- A regular, readable host file with content `data` (mode 0644, times 1,
2, 3), imported without `-f` at time 5. -/
def host_file (data : List Nat) : Host :=
  { is_reg := true, can_open := true, data := data, st_mode := 0o100644,
    st_atime := 1, st_mtime := 2, st_ctime := 3, force := false, now := 5 }

/-- The path `/hello`. -/
def path_hello : List Nat := [47, 104, 101, 108, 108, 111]

/-- A 32 KiB image with 512-byte blocks holding one chain, 20 → 21: the
allocation table starts at 8192, entry 20 (offset 8352) is 21, entry 21
(offset 8360) is `END_OF_CHAIN`; from block 20 on byte `p` holds `p mod 256`. -/
def chain_image : Image :=
  { size := 32768
    byte := fun p =>
      if p = 8352 then 21
      else if 8360 ≤ p ∧ p < 8368 then 255
      else if 10240 ≤ p then p % 256
      else 0 }

/-- The path `/a`. -/
def path_a : List Nat := [47, 97]

/-- The path `/a/b`. -/
def path_a_b : List Nat := [47, 97, 47, 98]

/-- The path `/x`. -/
def path_x : List Nat := [47, 120]

/-- Scenario S2 on the 32 KiB volume: `fresh32k` with the entry of `/a`
(ID 1, created at time 1000) in slot 0 (offset `17 * 512`). -/
def after_mkdir_a : Image :=
  fresh32k.write 8704 256 (entry_byte (mkdir_entry ROOT_ID [97] 1 1000))

/-- The components of a path as `path_resolver` cuts them: the text after
an optional leading `/`, split at every `/`; `acc` is the component being
collected. -/
def split_acc : List Nat → List Nat → List (List Nat)
  | [], acc => [acc]
  | c :: rest, acc => if c = 47 then acc :: split_acc rest [] else split_acc rest (acc ++ [c])

def components (path : List Nat) : List (List Nat) :=
  split_acc (match path with
    | 47 :: rest => rest
    | p => p) []

/-- The last component of a path. -/
def last_component (path : List Nat) : List Nat := (components path).getLastD []

/-- A two-byte source file, `hi`. -/
def small_file : List Nat := [104, 105]

/-- The fresh 32 KiB volume after `import` of `small_file` to `/x`: the data
in block 20 (offset 10240), `END_OF_CHAIN` in allocation-table entry 20
(offset 8352), the file entry in slot 0 (offset 8704). -/
def after_import_x : Image :=
  (wr_qword (fresh32k.write 10240 2 (fun j => small_file.getD (0 + j) 0)) 8352 END_OF_CHAIN).write
    8704 256 (entry_byte (file_entry ROOT_ID [120] 20 (host_file small_file)))

/-- An `entry_t` value whose fields fit their C types: the values a struct
in memory can hold. -/
def entry_ok (e : entry_t) : Prop :=
  e.parent_id < 2 ^ 64 ∧ e.type < 256 ∧ e.name.length = FILENAME_LEN ∧ (∀ c, c ∈ e.name → c < 256) ∧
    e.atime < 2 ^ 64 ∧ e.mtime < 2 ^ 64 ∧ e.perms < 2 ^ 16 ∧ e.owner < 2 ^ 16 ∧
    e.group < 2 ^ 16 ∧ e.ctime < 2 ^ 64 ∧ e.payload < 2 ^ 64 ∧ e.size < 2 ^ 64

/-- The file name `abcdefghijklmno` (15 bytes). -/
def long_name : List Nat := [97, 98, 99, 100, 101, 102, 103, 104, 105, 106, 107, 108, 109, 110, 111]

/-- The path `/y`. -/
def path_y : List Nat := [47, 121]

/-- `host_file data` imported with `-f`. -/
def forced_file (data : List Nat) : Host := { host_file data with force := true }

/-- A full 32 KiB volume as `format 512`, `import` of a 22528-byte file to
`/abcdefghijklmno` and `import` of an empty file to `/y` leave it: the
allocation-table entries 0..19 are reserved and 20..63 form the chain of the
first file (`AT[b] = b + 1`, `AT[63] = END_OF_CHAIN`), slot 0 holds the entry
of the first file (payload 20, size 22528), slot 1 the entry of `/y`
(payload `END_OF_CHAIN`, size 0). -/
def full_image : Image :=
  (({ size := 32768
      byte := fun p =>
        if 8352 ≤ p ∧ p < 8704 then
          (if (p - 8192) / 8 < 63 then (if p % 8 = 0 then (p - 8192) / 8 + 1 else 0) else 255)
        else fresh32k.byte p } : Image).write 8704 256
      (entry_byte { empty_entry with
        parent_id := ROOT_ID, type := FILE_TYPE, name := strcpy empty_entry.name long_name,
        payload := 20, size := 22528, ctime := 3, atime := 1, mtime := 2, perms := 420 })).write
    8960 256
      (entry_byte { empty_entry with
        parent_id := ROOT_ID, type := FILE_TYPE, name := strcpy empty_entry.name [121],
        payload := END_OF_CHAIN, size := 0, ctime := 3, atime := 1, mtime := 2, perms := 420 })

/-- The path `/a/f`. -/
def path_a_f : List Nat := [47, 97, 47, 102]

/-- The path `/b/g`. -/
def path_b_g : List Nat := [47, 98, 47, 103]

/-- The fields of an entry that identify it: parent, type, name as a C
string, payload. -/
def entry_key (e : entry_t) : Nat × Nat × List Nat × Nat :=
  (e.parent_id, e.type, cstr e.name, e.payload)

/-- A 32 KiB image with the signature at offset 4 and zero everywhere else:
the block size stored at offset 28 is 0. -/
def zero_block_image : Image :=
  { size := 32768, byte := fun p => if 4 ≤ p ∧ p < 12 then SIGNATURE.getD (p - 4) 0 else 0 }

/-- A 32 KiB image with the signature, block size 512 at offset 28 and the
directory size `2 ^ 64 - 1` at offset 20. -/
def huge_dir_image : Image :=
  { size := 32768
    byte := fun p =>
      if 4 ≤ p ∧ p < 12 then SIGNATURE.getD (p - 4) 0
      else if 20 ≤ p ∧ p < 28 then 255
      else if p = 29 then 2
      else 0 }

/-- The component-wise walk of a path, in the words of the spec: `parent` is
the entry of the directory reached so far (`p_(i-1)` is its payload) and the
list holds the components still to walk.  Every component but the last is
looked up as a directory under the running parent, and a miss there is a
failure; the last one is looked up with the requested type, and a miss there
is not-found, with the parent and the name returned. -/
def spec_walk (v : Vol) (img : Image) (t : Nat) : entry_t → List (List Nat) → Option path_result_t
  | _, [] => none
  | parent, [c] =>
    match search v img c parent.payload t with
    | none => none
    | some s =>
      if s = SEARCH_FAILURE then
        some { empty_result with not_found := true, parent := parent, name := c }
      else
        match rd_entry v img s with
        | none => none
        | some target =>
          some { empty_result with target := target, target_entry := s, parent := parent,
                                   name := c }
  | parent, c :: c2 :: cs =>
    match search v img c parent.payload DIRECTORY_TYPE with
    | none => none
    | some s =>
      if s = SEARCH_FAILURE then some { empty_result with failure := true }
      else
        match rd_entry v img s with
        | none => none
        | some parent1 => spec_walk v img t parent1 (c2 :: cs)

/-- The walk of `/c1/.../ck` from the root, whose pseudo-entry has payload
`ROOT_ID`. -/
def spec_resolve (v : Vol) (img : Image) (comps : List (List Nat)) (t : Nat) :
    Option path_result_t :=
  spec_walk v img t { empty_entry with payload := ROOT_ID } comps

/-- Invariant I4: the allocation-table entries of the blocks below the first
data block (blocks `0 .. 16 + F + D - 1`) all read `RESERVED_BLOCK`. -/
def reserved_ok (v : Vol) (img : Image) : Prop :=
  ∀ b, b < RESERVED_BLOCKS + v.fatsize + v.dirsize → v.fat img b = RESERVED_BLOCK

/-- Number of slots of the directory table: `D * entries_per_block`. -/
def Vol.slots (v : Vol) : Nat := v.dirsize * v.ENTRIES_PER_BLOCK

/-- The entry held by slot `j` of the directory table. -/
def Vol.slot (v : Vol) (img : Image) (j : Nat) : entry_t := entry_at img (v.entry_loc j)

/-- A live entry: its `parent_id` is neither 0 (never used) nor
`DELETED_ENTRY` (tombstone). -/
def live (e : entry_t) : Prop := e.parent_id ≠ 0 ∧ e.parent_id ≠ DELETED_ENTRY

/-- A block index as invariant I1 wants it: `END_OF_CHAIN`, or the index of
a data block, in `[16 + F + D, N)`. -/
def block_ok (v : Vol) (x : Nat) : Prop :=
  x = END_OF_CHAIN ∨ (RESERVED_BLOCKS + v.fatsize + v.dirsize ≤ x ∧ x < v.blocks)

/-- Invariant I1: the payload of every live file entry of the directory
table and every chain link (non-zero allocation-table entry of a data block)
is `END_OF_CHAIN` or the index of a data block. -/
def I1 (v : Vol) (img : Image) : Prop :=
  (∀ j, j < v.slots → live (v.slot img j) → (v.slot img j).type = FILE_TYPE →
    block_ok v (v.slot img j).payload) ∧
  (∀ b, RESERVED_BLOCKS + v.fatsize + v.dirsize ≤ b → b < v.blocks →
    v.fat img b = 0 ∨ block_ok v (v.fat img b))

/-- One operation on an image: `mkdir path` run at time `tm`, `import` of
the host file `h` to `path`, `export` of `path`. -/
inductive Op where
  | mk_dir (path : List Nat) (tm : Nat)
  | imp (h : Host) (path : List Nat)
  | exp (path : List Nat)

/-- One run of `main` with the given action on the image: the superblock is
loaded from the image and the command runs with that geometry.  The result
is the image the run leaves (`none`: the run aborted or its behaviour is
undefined); a run that stops at the superblock checks leaves the image
as it was, and so does `export`. -/
def apply_op (img : Image) : Op → Option Image
  | Op.mk_dir path tm =>
    match load img img.size with
    | Except.error _ => some img
    | Except.ok v => (mkdir_cmd v img path tm).map (fun r => r.1)
  | Op.imp h path =>
    match load img img.size with
    | Except.error _ => some img
    | Except.ok v => (import_cmd v img h path).map (fun r => r.1)
  | Op.exp path =>
    match load img img.size with
    | Except.error _ => some img
    | Except.ok v => (export_cmd v img path).map (fun _ => img)

/-- A sequence of operations, each run on the image the previous one left. -/
def apply_ops : Image → List Op → Option Image
  | img, [] => some img
  | img, op :: rest =>
    match apply_op img op with
    | none => none
    | some img1 => apply_ops img1 rest

/-- A C string as `argv` holds it: bytes 1..255. -/
def c_string (s : List Nat) : Bool := s.all (fun c => decide (0 < c ∧ c < 256))

/-- The source of an `import` fits in the free data blocks: the number of
blocks it needs is at most the number of blocks below `N` whose
allocation-table entry reads 0. -/
def source_fits (img : Image) (h : Host) : Bool :=
  match load img img.size with
  | Except.error _ => true
  | Except.ok v => decide (blocks_needed v h.data.length ≤ (free_blocks v img v.blocks).length)

/-- The inputs of an operation are well formed: paths are C strings, the
clock value fits the 64-bit time fields, and the source of an import fits in
the free data blocks of the image it is run on. -/
def op_ok (img : Image) : Op → Bool
  | Op.mk_dir path tm => c_string path && decide (tm < 2 ^ 64)
  | Op.imp h path => c_string path && decide (h.now < 2 ^ 64) && source_fits img h
  | Op.exp path => c_string path

/-- Every operation of the sequence is well formed on the image it is run
on. -/
def ops_ok : Image → List Op → Bool
  | _, [] => true
  | img, op :: rest =>
    op_ok img op &&
      (match apply_op img op with
       | none => true
       | some img1 => ops_ok img1 rest)

/-- A name field as `strcpy` into a zeroed struct leaves it: at most 200
bytes other than NUL, then NUL up to the end of the 201-byte field. -/
def name_ok (field : List Nat) : Prop :=
  ∃ s : List Nat, s.length ≤ 200 ∧ (∀ c, c ∈ s → c ≠ 0) ∧
    field = s ++ List.replicate (201 - s.length) 0

/-- The payloads of the directory entries in slots `i .. i + m - 1`, in
table order. -/
def dir_ids_from (v : Vol) (img : Image) (i m : Nat) : List Nat :=
  ((List.range' i m).filter (fun j => decide ((v.slot img j).type = DIRECTORY_TYPE))).map
    (fun j => (v.slot img j).payload)

/-- The payloads of the directory entries in slots `0 .. n - 1`, in table
order. -/
def dir_ids (v : Vol) (img : Image) (n : Nat) : List Nat := dir_ids_from v img 0 n

/-- Two entries with the same key `(parent_id, type, name)`. -/
def same_key (e1 e2 : entry_t) : Prop :=
  e1.parent_id = e2.parent_id ∧ e1.type = e2.type ∧ cstr e1.name = cstr e2.name

/-- The shape of the directory table in a reachable state: the slots
`0 .. n - 1` hold live entries and every byte of the table after them is 0;
parents are the root or one of the directory IDs `1 .. k`; the directories,
in table order, carry the IDs `1, 2, .., k`; file payloads satisfy I1; keys
are pairwise different. -/
structure DirInv (v : Vol) (img : Image) (n k : Nat) : Prop where
  hn : n ≤ v.slots
  rest_zero : ∀ p, v.entry_loc n ≤ p → p < v.entry_loc v.slots → img.get p = 0
  parent_ok : ∀ j, j < n →
    (v.slot img j).parent_id = ROOT_ID ∨
      (1 ≤ (v.slot img j).parent_id ∧ (v.slot img j).parent_id ≤ k)
  type_ok : ∀ j, j < n →
    (v.slot img j).type = FILE_TYPE ∨ (v.slot img j).type = DIRECTORY_TYPE
  names : ∀ j, j < n → name_ok (v.slot img j).name
  payload_ok : ∀ j, j < n → (v.slot img j).type = FILE_TYPE → block_ok v (v.slot img j).payload
  ids : dir_ids v img n = List.range' 1 k
  uniq : ∀ i j, i < n → j < n → i ≠ j → ¬ same_key (v.slot img i) (v.slot img j)

/-- The arithmetic of a geometry loaded from an image of `S` bytes with a
block size that is a multiple of 512 and tables that lie inside the image. -/
structure Geo (v : Vol) (S : Nat) : Prop where
  hB512 : 512 ≤ v.bytesperblock
  hBPB : v.BYTES_PER_BLOCK = v.bytesperblock
  hNB : v.blocks * v.bytesperblock = S
  hS : S < 2 ^ 63
  hFB : v.blocks * 8 ≤ v.fatsize * v.bytesperblock
  hds : v.dirstart = 16 + v.fatsize
  hF1 : 1 ≤ v.fatsize
  hfit : 16 + v.fatsize + v.dirsize ≤ v.blocks
  hslots : v.slots * 256 = v.dirsize * v.bytesperblock
  hend : v.entry_loc v.slots = (16 + v.fatsize + v.dirsize) * v.bytesperblock
  hendS : (16 + v.fatsize + v.dirsize) * v.bytesperblock ≤ S

/-- The state invariant of a volume reached from a full format: `v` is the
geometry `main` loads, the block size is a multiple of 512, the tables lie
inside the image, I4 holds, every allocation-table entry of a data block is
free or satisfies I1, and the directory table has the shape `DirInv`. -/
structure Inv (v : Vol) (img : Image) : Prop where
  hload : load img img.size = Except.ok v
  hsz : img.size < LONG_LIMIT
  hB : v.bytesperblock % 512 = 0
  hfit : RESERVED_BLOCKS + v.fatsize + v.dirsize ≤ v.blocks
  hI4 : reserved_ok v img
  links : ∀ b, RESERVED_BLOCKS + v.fatsize + v.dirsize ≤ b → b < v.blocks →
    v.fat img b = 0 ∨ block_ok v (v.fat img b)
  dir : ∃ n k, DirInv v img n k

/-- A host file of 1025 bytes (three blocks of 512 bytes), every byte 1. -/
def three_block_file : Host := host_file (List.replicate 1025 1)

/-- A 10 KiB image (20 blocks of 512 bytes: `F = 1`, `D = 1`, data blocks 18
and 19) after a full format and an `import` of `three_block_file` to `/x`. -/
def oversize_state : Option Image :=
  (format_cmd (blank 10240) 512 7 9 false).bind
    (fun img1 => apply_ops img1 [Op.imp three_block_file path_x])

/-- Three operations: `mkdir /a`, `import` of a two-byte file to `/a/f`,
`export` of `/a/f`. -/
def sample_ops : List Op :=
  [Op.mk_dir path_a 1000, Op.imp (host_file small_file) path_a_f, Op.exp path_a_f]

/-- Three operations: `mkdir /a`, `mkdir /a/b`, `import` of a two-byte file
to `/b/g` (which creates `/b`). -/
def sample_dirs : List Op :=
  [Op.mk_dir path_a 1000, Op.mk_dir path_a_b 1001, Op.imp (host_file small_file) path_b_g]

/-- Three operations: `import` of a two-byte file to `/x`, the same with
`-f`, and `mkdir /x`. -/
def sample_names : List Op :=
  [Op.imp (host_file small_file) path_x, Op.imp (forced_file small_file) path_x,
    Op.mk_dir path_x 1000]

/-- The fresh 32 KiB volume with two directory entries written by hand, in
the order a foreign tool may leave them: slot 0 holds directory `a` with ID
2, slot 1 holds directory `b` with ID 1; slot 2 is never used. -/
def unordered_ids_image : Image :=
  (fresh32k.write 8704 256 (entry_byte (mkdir_entry ROOT_ID [97] 2 1000))).write 8960 256
    (entry_byte (mkdir_entry ROOT_ID [98] 1 1000))

/-- The condition of the spec on a search result `i`: inside the table, the
entry in slot `i` has the key searched for (`parent_id`, type, NUL-terminated
name), and every slot before it is in use (`parent_id ≠ 0`). -/
def search_hit (v : Vol) (img : Image) (name : List Nat) (parent type : Nat) (i : Nat) : Prop :=
  i < v.dirsize * v.ENTRIES_PER_BLOCK ∧ (v.slot img i).parent_id = parent ∧
    (v.slot img i).type = type ∧ cstr (v.slot img i).name = name ∧
    ∀ j, j < i → (v.slot img j).parent_id ≠ 0

/-- The resolution of the destination that `import_cmd` acts on: when the
first resolution fails, that of the path in the image the "make directory"
loop leaves. -/
def import_dest (v : Vol) (img : Image) (h : Host) (path : List Nat) : Option path_result_t :=
  match path_resolver v img path FILE_TYPE with
  | none => none
  | some r0 =>
    if r0.failure = true then
      match make_dirs v path h.now (path.length + 1) 0 img [] with
      | none => none
      | some (img1, _) => path_resolver v img1 path FILE_TYPE
    else some r0

/-- The image `img1` keeps, of `img`: the size, every byte before the
directory table (superblock and allocation table), every byte after it (the
data blocks), and slot `t` of the directory table. -/
def kept (v : Vol) (t : Nat) (img img1 : Image) : Prop :=
  img1.size = img.size ∧
    (∀ p, p < v.dirstart * v.bytesperblock → img1.get p = img.get p) ∧
    (∀ p, (v.dirstart + v.dirsize) * v.bytesperblock ≤ p → img1.get p = img.get p) ∧
    (∀ p, v.entry_loc t ≤ p → p < v.entry_loc t + 256 → img1.get p = img.get p)

/-- Scenario for the frame of `import`: the fresh 32 KiB volume after
the import of the two-byte file to `/x`, and a second import, of a
1000-byte file, to `/y`. -/
def second_import : Option (Image × List Msg) :=
  import_cmd vol32k after_import_x (host_file (pattern_file 1000)) path_y

/-- The fresh 32 KiB volume in which every 256-byte slot from the start of
the directory table (offset 8704) to the end of the file begins with
`DELETED_ENTRY`: the six slots of the directory table are tombstones, and the
data blocks hold bytes that read the same way.  No slot has `parent_id = 0`. -/
def tombstone_image : Image :=
  { size := 32768
    byte := fun p =>
      if 8704 ≤ p ∧ p % 256 < 8 then (if p % 256 = 0 then 254 else 255)
      else fresh32k.byte p }

/-! # Lemmas and theorems -/

theorem get_lt (img : Image) (p : Nat) : img.get p < 256 := by
  unfold Image.get
  split
  · exact Nat.mod_lt _ (by norm_num)
  · norm_num

theorem get_write (img : Image) (loc len : Nat) (f : Nat → Nat) (p : Nat) :
    (img.write loc len f).get p =
      if loc ≤ p ∧ p < loc + len then f (p - loc) % 256 else img.get p := by
  unfold Image.write
  by_cases hl : len = 0
  · subst hl
    have : ¬ (loc ≤ p ∧ p < loc + 0) := by omega
    rw [if_neg this]
    simp
  · simp only [hl, if_false]
    unfold Image.get
    simp only
    by_cases h : loc ≤ p ∧ p < loc + len
    · have : p < max img.size (loc + len) := lt_of_lt_of_le h.2 (le_max_right _ _)
      simp [h, this]
    · simp only [h, if_false]
      by_cases hs : p < img.size
      · have : p < max img.size (loc + len) := lt_of_lt_of_le hs (le_max_left _ _)
        simp [hs, this]
      · simp [hs]

theorem size_write (img : Image) (loc len : Nat) (f : Nat → Nat) :
    (img.write loc len f).size = if len = 0 then img.size else max img.size (loc + len) := by
  unfold Image.write
  split <;> rfl

theorem size_write_le (img : Image) (loc len : Nat) (f : Nat → Nat) :
    img.size ≤ (img.write loc len f).size := by
  rw [size_write]; split
  · exact le_refl _
  · exact le_max_left _ _

theorem size_write_of_le (img : Image) (loc len : Nat) (f : Nat → Nat)
    (h : loc + len ≤ img.size) : (img.write loc len f).size = img.size := by
  rw [size_write]; split
  · rfl
  · exact max_eq_left h

theorem rdLE_congr (img img1 : Image) (n : Nat) :
    ∀ loc, (∀ i, i < n → img1.get (loc + i) = img.get (loc + i)) →
      rdLE img1 n loc = rdLE img n loc := by
  induction n with
  | zero => intro loc _; rfl
  | succ n ih =>
    intro loc h
    simp only [rdLE]
    rw [ih (loc + 1) (fun i hi => by have := h (i + 1) (by omega); rwa [show loc + 1 + i = loc + (i + 1) by omega])]
    have := h 0 (by omega)
    simp at this
    rw [this]

theorem rdLE_lt (img : Image) (n : Nat) : ∀ loc, rdLE img n loc < 256 ^ n := by
  induction n with
  | zero => intro loc; simp [rdLE]
  | succ n ih =>
    intro loc
    simp only [rdLE]
    have h1 := get_lt img loc
    have h2 := ih (loc + 1)
    rw [pow_succ]
    omega

theorem le_byte_rdLE (img : Image) (n : Nat) :
    ∀ loc i, i < n → le_byte (rdLE img n loc) i = img.get (loc + i) := by
  induction n with
  | zero => intro loc i hi; omega
  | succ n ih =>
    intro loc i hi
    simp only [rdLE]
    have h1 := get_lt img loc
    cases i with
    | zero =>
      simp only [le_byte, pow_zero, Nat.div_one, Nat.add_zero]
      omega
    | succ j =>
      have := ih (loc + 1) j (by omega)
      simp only [le_byte] at this ⊢
      rw [show loc + (j + 1) = loc + 1 + j by omega, ← this, pow_succ, mul_comm (256 ^ j) 256,
        ← Nat.div_div_eq_div_mul]
      congr 2
      omega

theorem rdLE_le_byte (x : Nat) (n : Nat) :
    ∀ (img : Image) (loc : Nat), (∀ i, i < n → img.get (loc + i) = le_byte x i % 256) →
      rdLE img n loc = x % 256 ^ n := by
  induction n generalizing x with
  | zero => intro img loc _; simp [rdLE, Nat.mod_one]
  | succ n ih =>
    intro img loc h
    simp only [rdLE]
    have h0 := h 0 (by omega)
    simp only [le_byte, pow_zero, Nat.div_one, Nat.add_zero, Nat.mod_mod] at h0
    have := ih (x / 256) img (loc + 1) (fun i hi => by
      have := h (i + 1) (by omega)
      rw [show loc + 1 + i = loc + (i + 1) by omega, this]
      simp only [le_byte, pow_succ, mul_comm (256 ^ i) 256, Nat.div_div_eq_div_mul])
    rw [this, h0, pow_succ, mul_comm (256 ^ n) 256, Nat.mod_mul]
    

theorem le_byte_lt (x i : Nat) : le_byte x i < 256 := Nat.mod_lt _ (by norm_num)

theorem get_wr_qword (img : Image) (loc x p : Nat) :
    (wr_qword img loc x).get p =
      if loc ≤ p ∧ p < loc + 8 then le_byte x (p - loc) else img.get p := by
  unfold wr_qword
  rw [get_write]
  split
  · exact Nat.mod_eq_of_lt (le_byte_lt _ _)
  · rfl

theorem size_wr_qword_le (img : Image) (loc x : Nat) : img.size ≤ (wr_qword img loc x).size :=
  size_write_le _ _ _ _

theorem size_wr_qword (img : Image) (loc x : Nat) :
    (wr_qword img loc x).size = max img.size (loc + 8) := by
  unfold wr_qword; rw [size_write]; simp

theorem rd_qword_eq (img : Image) (loc x : Nat)
    (h : ∀ i, i < 8 → img.get (loc + i) = le_byte x i) : rd_qword img loc = x % 2 ^ 64 := by
  unfold rd_qword
  rw [rdLE_le_byte x 8 img loc (fun i hi => by rw [h i hi, Nat.mod_eq_of_lt (le_byte_lt _ _)])]
  norm_num

theorem rd_qword_congr (img img1 : Image) (loc : Nat)
    (h : ∀ i, i < 8 → img1.get (loc + i) = img.get (loc + i)) :
    rd_qword img1 loc = rd_qword img loc := rdLE_congr img img1 8 loc h

theorem rd_qword_lt (img : Image) (loc : Nat) : rd_qword img loc < 2 ^ 64 := by
  have := rdLE_lt img 8 loc
  unfold rd_qword
  norm_num at this ⊢
  exact this

/-- Bytes after the zeroing loop, for a start and an end that are multiples
of the block size. -/
theorem get_zero_loop (B S : Nat) (hB : 0 < B) (hS : S % B = 0) :
    ∀ (fuel i : Nat) (img : Image), i % B = 0 → S ≤ i + fuel * B → ∀ p,
      (zero_loop B S fuel i img).get p = if i ≤ p ∧ p < S then 0 else img.get p := by
  intro fuel
  induction fuel with
  | zero =>
    intro i img _ hf p
    simp only [zero_loop]
    have : ¬ (i ≤ p ∧ p < S) := by omega
    rw [if_neg this]
  | succ fuel ih =>
    intro i img hi hf p
    simp only [zero_loop]
    by_cases h : i < S
    · rw [if_pos h]
      have hiB : i + B ≤ S := by
        obtain ⟨a, ha⟩ := Nat.dvd_of_mod_eq_zero hi
        obtain ⟨b, hb⟩ := Nat.dvd_of_mod_eq_zero hS
        subst ha hb
        have hab : a < b := Nat.lt_of_mul_lt_mul_left h
        calc B * a + B = B * (a + 1) := by ring
          _ ≤ B * b := Nat.mul_le_mul_left B hab
      rw [ih (i + B) _ (by rw [Nat.add_mod_right]; exact hi)
        (by rw [Nat.succ_mul] at hf; omega) p, get_write]
      by_cases h1 : i + B ≤ p ∧ p < S
      · rw [if_pos h1, if_pos ⟨by omega, h1.2⟩]
      · rw [if_neg h1]
        by_cases h2 : i ≤ p ∧ p < i + B
        · rw [if_pos h2, if_pos ⟨h2.1, by omega⟩]
        · rw [if_neg h2, if_neg (by omega)]
    · rw [if_neg h, if_neg (by omega)]

theorem size_zero_loop_le (B S : Nat) :
    ∀ (fuel i : Nat) (img : Image), img.size ≤ (zero_loop B S fuel i img).size := by
  intro fuel
  induction fuel with
  | zero => intro i img; exact le_refl _
  | succ fuel ih =>
    intro i img
    simp only [zero_loop]
    split
    · exact le_trans (size_write_le _ _ _ _) (ih _ _)
    · exact le_refl _

theorem reserve_loop_spec :
    ∀ (count loc : Nat) (img : Image), loc + 8 * count ≤ LONG_LIMIT →
      ∃ img1, reserve_loop count loc img = some img1 ∧ img.size ≤ img1.size ∧
        (count ≠ 0 → loc + 8 * count ≤ img1.size) ∧
        (loc + 8 * count ≤ img.size → img1.size = img.size) ∧
        ∀ p, img1.get p =
          if loc ≤ p ∧ p < loc + 8 * count then le_byte RESERVED_BLOCK ((p - loc) % 8)
          else img.get p := by
  intro count
  induction count with
  | zero =>
    intro loc img _
    refine ⟨img, rfl, le_refl _, fun h => absurd rfl h, fun _ => rfl, fun p => ?_⟩
    rw [if_neg (by omega)]
  | succ count ih =>
    intro loc img h
    obtain ⟨img1, h1, hs, hs2, hs3, hg⟩ := ih (loc + 8) (wr_qword img loc RESERVED_BLOCK) (by omega)
    have hlt : ¬ LONG_LIMIT ≤ loc := by omega
    refine ⟨img1, ?_, le_trans (size_wr_qword_le _ _ _) hs, ?_, ?_, fun p => ?_⟩
    · simp only [reserve_loop, if_neg hlt]; exact h1
    · intro _
      by_cases hc : count = 0
      · subst hc
        have := size_wr_qword img loc RESERVED_BLOCK
        have h3 : loc + 8 ≤ (wr_qword img loc RESERVED_BLOCK).size := by
          rw [this]; exact le_max_right _ _
        omega
      · have := hs2 hc; omega
    · intro hle
      rw [hs3 (by rw [size_wr_qword]; have := le_max_left img.size (loc + 8); omega), size_wr_qword]
      exact max_eq_left (by omega)
    · rw [hg p, get_wr_qword]
      by_cases h1 : loc + 8 ≤ p ∧ p < loc + 8 + 8 * count
      · rw [if_pos h1, if_pos (by omega)]
        congr 1; omega
      · rw [if_neg h1]
        by_cases h2 : loc ≤ p ∧ p < loc + 8
        · rw [if_pos h2, if_pos (by omega)]
          congr 1; omega
        · rw [if_neg h2, if_neg (by omega)]

theorem ceil_div_eq (x B : Nat) (hB : 0 < B) :
    x / B + (if x % B ≠ 0 then 1 else 0) = (x + B - 1) / B := by
  have h1 := Nat.div_add_mod x B
  have h2 := Nat.mod_lt x hB
  by_cases h : x % B = 0
  · simp only [h, ne_eq, not_true_eq_false, if_false, Nat.add_zero]
    symm
    apply Nat.div_eq_of_lt_le
    · rw [mul_comm]; omega
    · rw [Nat.add_mul, mul_comm]; omega
  · simp only [h, ne_eq, not_false_eq_true, if_true]
    symm
    apply Nat.div_eq_of_lt_le
    · rw [Nat.add_mul, mul_comm]; omega
    · rw [Nat.add_mul, Nat.add_mul, mul_comm]; omega

theorem size_zero_loop_eq (B S : Nat) (hS : S % B = 0) :
    ∀ (fuel i : Nat) (img : Image), i % B = 0 → S ≤ img.size →
      (zero_loop B S fuel i img).size = img.size := by
  intro fuel
  induction fuel with
  | zero => intro i img _ _; rfl
  | succ fuel ih =>
    intro i img hi hle
    simp only [zero_loop]
    by_cases h : i < S
    · rw [if_pos h]
      have hiB : i + B ≤ S := by
        obtain ⟨a, ha⟩ := Nat.dvd_of_mod_eq_zero hi
        obtain ⟨b, hb⟩ := Nat.dvd_of_mod_eq_zero hS
        subst ha hb
        have hab : a < b := Nat.lt_of_mul_lt_mul_left h
        calc B * a + B = B * (a + 1) := by ring
          _ ≤ B * b := Nat.mul_le_mul_left B hab
      have hsz := size_write_of_le img i B (fun _ => 0) (by omega)
      rw [ih (i + B) _ (by rw [Nat.add_mod_right]; exact hi) (by rw [hsz]; exact hle), hsz]
    · rw [if_neg h]

theorem format_pass1_spec (img : Image) (S B u0 u1 : Nat) (quick : Bool)
    (hB : 0 < B) (h512 : B % 512 = 0) (hS : S % B = 0) :
    ∃ img1, format_pass1 img S B u0 u1 quick = some img1 ∧ img.size ≤ img1.size ∧
      (56 ≤ img.size → S ≤ img.size → img1.size = img.size) ∧
      ∀ p, img1.get p =
        if quick = false ∧ 16 * B ≤ p ∧ p < S then 0
        else if 48 ≤ p ∧ p < 56 then le_byte u1 (p - 48)
        else if 40 ≤ p ∧ p < 48 then le_byte u0 (p - 40)
        else if 28 ≤ p ∧ p < 36 then le_byte B (p - 28)
        else if 20 ≤ p ∧ p < 28 then le_byte (S / B / 20) (p - 20)
        else if 12 ≤ p ∧ p < 20 then le_byte (S / B) (p - 12)
        else if 4 ≤ p ∧ p < 12 then SIGNATURE.getD (p - 4) 0
        else img.get p := by
  have hc1 : ¬ (B = 0 ∨ B % 512 ≠ 0) := by omega
  have hc2 : ¬ (S % B ≠ 0) := by omega
  have hsig : ∀ p, 4 ≤ p ∧ p < 4 + 8 → SIGNATURE.getD (p - 4) 0 % 256 = SIGNATURE.getD (p - 4) 0 := by
    intro p hp
    have h8 : p - 4 < 8 := by omega
    have hall : ∀ k, k < 8 → SIGNATURE.getD k 0 % 256 = SIGNATURE.getD k 0 := by decide
    exact hall _ h8
  have hget6 : ∀ p, (wr_qword (wr_qword (wr_qword (wr_qword (wr_qword
        (img.write 4 8 (fun i => SIGNATURE.getD i 0)) 12 (S / B)) 20 (S / B / 20)) 28 B)
          40 u0) 48 u1).get p =
        if 48 ≤ p ∧ p < 56 then le_byte u1 (p - 48)
        else if 40 ≤ p ∧ p < 48 then le_byte u0 (p - 40)
        else if 28 ≤ p ∧ p < 36 then le_byte B (p - 28)
        else if 20 ≤ p ∧ p < 28 then le_byte (S / B / 20) (p - 20)
        else if 12 ≤ p ∧ p < 20 then le_byte (S / B) (p - 12)
        else if 4 ≤ p ∧ p < 12 then SIGNATURE.getD (p - 4) 0
        else img.get p := by
    intro p
    simp only [get_wr_qword, get_write]
    by_cases h4 : 4 ≤ p ∧ p < 4 + 8
    · simp only [if_pos h4, hsig p h4, show (4 ≤ p ∧ p < 12) from h4, and_self, if_true]
    · simp only [if_neg h4, show ¬ (4 ≤ p ∧ p < 12) from h4, if_false]
  have hsize6 : 56 ≤ img.size → (wr_qword (wr_qword (wr_qword (wr_qword (wr_qword
        (img.write 4 8 (fun i => SIGNATURE.getD i 0)) 12 (S / B)) 20 (S / B / 20)) 28 B)
          40 u0) 48 u1).size = img.size := by
    intro h
    have e1 := size_write_of_le img 4 8 (fun i => SIGNATURE.getD i 0) (by omega)
    have e2 := size_write_of_le _ 12 8 (le_byte (S / B)) (show 12 + 8 ≤ _ by rw [e1]; omega)
    rw [e1] at e2
    have e3 := size_write_of_le _ 20 8 (le_byte (S / B / 20)) (show 20 + 8 ≤ _ by rw [e2]; omega)
    rw [e2] at e3
    have e4 := size_write_of_le _ 28 8 (le_byte B) (show 28 + 8 ≤ _ by rw [e3]; omega)
    rw [e3] at e4
    have e5 := size_write_of_le _ 40 8 (le_byte u0) (show 40 + 8 ≤ _ by rw [e4]; omega)
    rw [e4] at e5
    have e6 := size_write_of_le _ 48 8 (le_byte u1) (show 48 + 8 ≤ _ by rw [e5]; omega)
    rw [e5] at e6
    exact e6
  cases quick with
  | true =>
    refine ⟨_, by simp only [format_pass1, if_neg hc1, if_neg hc2]; rfl, ?_, ?_, ?_⟩
    · exact le_trans (size_write_le _ _ _ _) (le_trans (size_wr_qword_le _ _ _)
        (le_trans (size_wr_qword_le _ _ _) (le_trans (size_wr_qword_le _ _ _)
          (le_trans (size_wr_qword_le _ _ _) (size_wr_qword_le _ _ _)))))
    · intro h _; exact hsize6 h
    · intro p
      rw [hget6 p]
      exact (if_neg (fun h => Bool.noConfusion h.1)).symm
  | false =>
    refine ⟨_, by simp only [format_pass1, if_neg hc1, if_neg hc2]; rfl, ?_, ?_, ?_⟩
    · exact le_trans (le_trans (size_write_le _ _ _ _) (le_trans (size_wr_qword_le _ _ _)
        (le_trans (size_wr_qword_le _ _ _) (le_trans (size_wr_qword_le _ _ _)
          (le_trans (size_wr_qword_le _ _ _) (size_wr_qword_le _ _ _)))))) (size_zero_loop_le _ _ _ _ _)
    · intro h hle
      rw [size_zero_loop_eq B S hS _ _ _ (by simp [RESERVED_BLOCKS]) (by rw [hsize6 h]; exact hle)]
      exact hsize6 h
    · intro p
      have hfuel : S ≤ RESERVED_BLOCKS * B + (S / B + 1) * B := by
        have := Nat.div_add_mod S B
        rw [Nat.add_mul, mul_comm (S / B) B]
        omega
      rw [get_zero_loop B S hB hS _ _ _ (by simp [RESERVED_BLOCKS]) hfuel p, hget6 p]
      simp only [RESERVED_BLOCKS, true_and]

theorem read_congr (img img1 : Image) (loc n : Nat)
    (h : ∀ i, i < n → img1.get (loc + i) = img.get (loc + i)) :
    img1.read loc n = img.read loc n := by
  unfold Image.read
  apply List.map_congr_left
  intro i hi
  exact h i (List.mem_range.mp hi)

theorem load_congr (img img1 : Image) (S : Nat) (h : ∀ p, p < 36 → img1.get p = img.get p) :
    load img1 S = load img S := by
  have h1 : img1.read 4 8 = img.read 4 8 := read_congr _ _ _ _ (fun i hi => h _ (by omega))
  have h2 : rd_qword img1 28 = rd_qword img 28 := rd_qword_congr _ _ _ (fun i hi => h _ (by omega))
  have h3 : rd_qword img1 20 = rd_qword img 20 := rd_qword_congr _ _ _ (fun i hi => h _ (by omega))
  unfold load
  rw [h1, h2, h3]

theorem load_formatted (img : Image) (S B : Nat) (hB : 0 < B) (h512 : B % 512 = 0)
    (hS : S % B = 0) (hsz : S < 2 ^ 63) (hb : B < 2 ^ 64)
    (hsig : ∀ p, 4 ≤ p → p < 12 → img.get p = SIGNATURE.getD (p - 4) 0)
    (hD : ∀ p, 20 ≤ p → p < 28 → img.get p = le_byte (S / B / 20) (p - 20))
    (hBB : ∀ p, 28 ≤ p → p < 36 → img.get p = le_byte B (p - 28)) :
    load img S = Except.ok (spec_geometry S B) := by
  have hN512 : S / B ≤ S / 512 := Nat.div_le_div_left (by omega) (by norm_num)
  have h1 : img.read 4 8 = SIGNATURE := by
    simp only [Image.read, List.range_succ, List.range_zero, List.nil_append, List.map_append,
      List.map_cons, List.map_nil, List.cons_append, hsig, SIGNATURE]
    simp [hsig, SIGNATURE]
  have h2 : rd_qword img 28 = B := by
    rw [rd_qword_eq img 28 B (fun i hi => by rw [hBB _ (by omega) (by omega)]; congr 1; omega)]
    exact Nat.mod_eq_of_lt hb
  have h3 : rd_qword img 20 = S / B / 20 := by
    rw [rd_qword_eq img 20 (S / B / 20) (fun i hi => by rw [hD _ (by omega) (by omega)]; congr 1; omega)]
    exact Nat.mod_eq_of_lt (by omega)
  have hu : u64 (S / B * 8) = S / B * 8 := Nat.mod_eq_of_lt (by omega)
  have hF : spec_fatsize (S / B) B ≤ S / B * 8 / 512 + 1 := by
    unfold spec_fatsize
    rw [← ceil_div_eq _ _ hB]
    have : S / B * 8 / B ≤ S / B * 8 / 512 := Nat.div_le_div_left (by omega) (by norm_num)
    split <;> omega
  unfold load
  rw [h1, h2, h3]
  simp only [ne_eq, not_true_eq_false, if_false, hS, hu, ceil_div_eq _ _ hB]
  rw [if_neg (by omega)]
  simp only [spec_geometry, spec_fatsize, fatstart, RESERVED_BLOCKS, u64]
  unfold spec_fatsize at hF
  rw [Nat.mod_eq_of_lt (by omega), Nat.mod_eq_of_lt (by omega)]

theorem spec_geometry_bounds (S B : Nat) (hB : 0 < B) (h512 : B % 512 = 0) :
    S / B ≤ S / 512 ∧ spec_fatsize (S / B) B ≤ S / B * 8 / 512 + 1 ∧
      S / B * 8 ≤ spec_fatsize (S / B) B * B := by
  have hN512 : S / B ≤ S / 512 := Nat.div_le_div_left (by omega) (by norm_num)
  refine ⟨hN512, ?_, ?_⟩
  · unfold spec_fatsize
    rw [← ceil_div_eq _ _ hB]
    have : S / B * 8 / B ≤ S / B * 8 / 512 := Nat.div_le_div_left (by omega) (by norm_num)
    split <;> omega
  · unfold spec_fatsize
    rw [← ceil_div_eq _ _ hB]
    have h1 := Nat.div_add_mod (S / B * 8) B
    have h2 := Nat.mod_lt (S / B * 8) hB
    rw [Nat.add_mul, mul_comm _ B]
    split
    · omega
    · rename_i h; simp only [ne_eq, not_not] at h; omega

theorem format_cmd_spec (img : Image) (B u0 u1 : Nat) (quick : Bool)
    (hB : 0 < B) (h512 : B % 512 = 0) (hS : img.size % B = 0)
    (hsz : img.size < 2 ^ 63) (hb : B < 2 ^ 31) :
    ∃ img1, format_cmd img B u0 u1 quick = some img1 ∧ img.size ≤ img1.size ∧
      (56 ≤ img.size →
        16 * B + 8 * (16 + spec_fatsize (img.size / B) B + img.size / B / 20) ≤ img.size →
        img1.size = img.size) ∧
      load img1 img.size = Except.ok (spec_geometry img.size B) ∧
      ∀ p, img1.get p =
        if 16 * B ≤ p ∧
            p < 16 * B + 8 * (16 + spec_fatsize (img.size / B) B + img.size / B / 20) then
          le_byte RESERVED_BLOCK ((p - 16 * B) % 8)
        else if quick = false ∧ 16 * B ≤ p ∧ p < img.size then 0
        else if 48 ≤ p ∧ p < 56 then le_byte u1 (p - 48)
        else if 40 ≤ p ∧ p < 48 then le_byte u0 (p - 40)
        else if 28 ≤ p ∧ p < 36 then le_byte B (p - 28)
        else if 20 ≤ p ∧ p < 28 then le_byte (img.size / B / 20) (p - 20)
        else if 12 ≤ p ∧ p < 20 then le_byte (img.size / B) (p - 12)
        else if 4 ≤ p ∧ p < 12 then SIGNATURE.getD (p - 4) 0
        else img.get p := by
  obtain ⟨img1, h1, hs1, hs1e, hg1⟩ := format_pass1_spec img img.size B u0 u1 quick hB h512 hS
  obtain ⟨hN, hF, _⟩ := spec_geometry_bounds img.size B hB h512
  have h16 : 8192 ≤ 16 * B := by omega
  have hload1 : load img1 img.size = Except.ok (spec_geometry img.size B) := by
    apply load_formatted img1 img.size B hB h512 hS hsz (by omega)
    · intro p h4 h12
      rw [hg1 p, if_neg (by omega), if_neg (by omega), if_neg (by omega), if_neg (by omega),
        if_neg (by omega), if_neg (by omega), if_pos ⟨h4, h12⟩]
    · intro p h4 h12
      rw [hg1 p, if_neg (by omega), if_neg (by omega), if_neg (by omega), if_neg (by omega),
        if_pos ⟨h4, h12⟩]
    · intro p h4 h12
      rw [hg1 p, if_neg (by omega), if_neg (by omega), if_neg (by omega), if_pos ⟨h4, h12⟩]
  have hcount : u64 (RESERVED_BLOCKS + (spec_geometry img.size B).fatsize +
      (spec_geometry img.size B).dirsize) =
        16 + spec_fatsize (img.size / B) B + img.size / B / 20 := by
    simp only [spec_geometry, RESERVED_BLOCKS, u64]
    exact Nat.mod_eq_of_lt (by omega)
  obtain ⟨img2, h2, hs2, _, hs2e, hg2⟩ := reserve_loop_spec
    (16 + spec_fatsize (img.size / B) B + img.size / B / 20) (16 * B) img1
    (by simp only [LONG_LIMIT]; omega)
  refine ⟨img2, ?_, le_trans hs1 hs2, ?_, ?_, ?_⟩
  · simp only [format_cmd, h1, hload1, format_pass2, hcount]
    exact h2
  · intro h56 hle
    have e1 := hs1e h56 (le_refl _)
    rw [hs2e (by rw [e1]; exact hle), e1]
  · rw [load_congr img1 img2 img.size (fun p hp => by rw [hg2 p, if_neg (by omega)])]
    exact hload1
  · intro p
    rw [hg2 p, hg1 p]

/-- C4 (format result).  For a block size `B` that is a positive multiple of
512 (below `2^31`, being the result of `atoi`) and an image whose size is a
multiple of `B` (below `2^63`, being a file size), `format` and
`quick-format` return an image that holds `_ECH_FS_` at offset 4, the u64
`N = size / B` at offset 12, `N / 20` at offset 20 and `B` at offset 28; the
next run of `main` computes from it the geometry `N`, `F = ceil(8N/B)`,
`D = N/20`; the allocation-table entries `0 .. 16+F+D-1` equal
`RESERVED_BLOCK`; and bytes 4..35 are the same for every other image of the
same size formatted with the same `B`, whatever its content, UUID or mode. -/
theorem format_result (img : Image) (B u0 u1 : Nat) (quick : Bool)
    (hB : 0 < B) (h512 : B % 512 = 0) (hS : img.size % B = 0)
    (hsz : img.size < 2 ^ 63) (hb : B < 2 ^ 31) :
    ∃ img1, format_cmd img B u0 u1 quick = some img1 ∧
      img1.read 4 8 = SIGNATURE ∧
      rd_qword img1 12 = img.size / B ∧
      rd_qword img1 20 = img.size / B / 20 ∧
      rd_qword img1 28 = B ∧
      load img1 img.size = Except.ok (spec_geometry img.size B) ∧
      (∀ b, b < 16 + spec_fatsize (img.size / B) B + img.size / B / 20 →
        (spec_geometry img.size B).fat img1 b = RESERVED_BLOCK) ∧
      (∀ (img2 : Image) (v0 v1 : Nat) (q2 : Bool) (img3 : Image), img2.size = img.size →
        format_cmd img2 B v0 v1 q2 = some img3 → ∀ p, 4 ≤ p → p < 36 → img3.get p = img1.get p) := by
  obtain ⟨img1, h1, _, _, hload, hg⟩ := format_cmd_spec img B u0 u1 quick hB h512 hS hsz hb
  obtain ⟨hN, hF, _⟩ := spec_geometry_bounds img.size B hB h512
  have h16 : 8192 ≤ 16 * B := by omega
  have hlow : ∀ p, p < 36 → img1.get p =
      if 28 ≤ p ∧ p < 36 then le_byte B (p - 28)
      else if 20 ≤ p ∧ p < 28 then le_byte (img.size / B / 20) (p - 20)
      else if 12 ≤ p ∧ p < 20 then le_byte (img.size / B) (p - 12)
      else if 4 ≤ p ∧ p < 12 then SIGNATURE.getD (p - 4) 0
      else img.get p := by
    intro p hp
    rw [hg p, if_neg (by omega), if_neg (by omega), if_neg (by omega), if_neg (by omega)]
  refine ⟨img1, h1, ?_, ?_, ?_, ?_, hload, ?_, ?_⟩
  · have hsig : ∀ p, 4 ≤ p → p < 12 → img1.get p = SIGNATURE.getD (p - 4) 0 := by
      intro p h4 h12
      rw [hlow p (by omega), if_neg (by omega), if_neg (by omega), if_neg (by omega),
        if_pos ⟨h4, h12⟩]
    simp only [Image.read, List.range_succ, List.range_zero, List.nil_append, List.map_append,
      List.map_cons, List.map_nil, List.cons_append, hsig, SIGNATURE]
    simp [hsig, SIGNATURE]
  · rw [rd_qword_eq img1 12 (img.size / B) (fun i hi => by
      rw [hlow _ (by omega), if_neg (by omega), if_neg (by omega), if_pos (by omega)]
      congr 1; omega)]
    exact Nat.mod_eq_of_lt (by omega)
  · rw [rd_qword_eq img1 20 (img.size / B / 20) (fun i hi => by
      rw [hlow _ (by omega), if_neg (by omega), if_pos (by omega)]
      congr 1; omega)]
    exact Nat.mod_eq_of_lt (by omega)
  · rw [rd_qword_eq img1 28 B (fun i hi => by
      rw [hlow _ (by omega), if_pos (by omega)]
      congr 1; omega)]
    exact Nat.mod_eq_of_lt (by omega)
  · intro b hb
    simp only [Vol.fat, Vol.fat_loc, spec_geometry, fatstart, RESERVED_BLOCKS]
    rw [rd_qword_eq img1 _ RESERVED_BLOCK (fun i hi => by
      rw [hg _, if_pos (by omega)]
      congr 1; omega)]
    rfl
  · intro img2 v0 v1 q2 img3 hsize h3 p h4 h36
    obtain ⟨img3', h3', _, _, _, hg3⟩ := format_cmd_spec img2 B v0 v1 q2 hB h512
      (by rw [hsize]; exact hS) (by rw [hsize]; exact hsz) hb
    rw [h3] at h3'
    cases h3'
    rw [hlow p h36, hg3 p, if_neg (by omega), if_neg (by omega), if_neg (by omega),
      if_neg (by omega), hsize]
    by_cases c1 : 28 ≤ p ∧ p < 36
    · rw [if_pos c1, if_pos c1]
    · rw [if_neg c1, if_neg c1]
      by_cases c2 : 20 ≤ p ∧ p < 28
      · rw [if_pos c2, if_pos c2]
      · rw [if_neg c2, if_neg c2]
        by_cases c3 : 12 ≤ p ∧ p < 20
        · rw [if_pos c3, if_pos c3]
        · rw [if_neg c3, if_neg c3, if_pos (by omega), if_pos (by omega)]

/-- Scenario S1: a 1 048 576-byte image formatted with `B = 512` has
`N = 2048`, `D = 102`, `F = 32` and allocation-table entries 0..149 reserved. -/
theorem format_result_witness :
    ∃ img1, format_cmd (blank 1048576) 512 7 9 false = some img1 ∧
      img1.read 4 8 = SIGNATURE ∧ rd_qword img1 12 = 2048 ∧ rd_qword img1 20 = 102 ∧
      rd_qword img1 28 = 512 ∧ spec_fatsize 2048 512 = 32 ∧
      (∀ b, b < 150 → rd_qword img1 (16 * 512 + b * 8) = RESERVED_BLOCK) := by
  obtain ⟨img1, h1, h2, h3, h4, h5, _, h6, _⟩ :=
    format_result (blank 1048576) 512 7 9 false (by decide) (by decide) (by decide)
      (by decide) (by decide)
  exact ⟨img1, h1, h2, h3, h4, h5, by decide, fun b hb => h6 b hb⟩

theorem rdLE_zero (img : Image) (n loc : Nat) (h : ∀ i, i < n → img.get (loc + i) = 0) :
    rdLE img n loc = 0 := by
  rw [rdLE_le_byte 0 n img loc (fun i hi => by rw [h i hi]; simp [le_byte])]
  simp

set_option maxRecDepth 100000 in
/-- C5, counterexample: after `quick-format 512` of `stale_image` slot 0 of
the directory table has `parent_id = ROOT_ID`, `search` finds the file `x`
in the root and `ls` of the root prints `x`. -/
theorem quick_format_keeps_stale_entries :
    (format_cmd stale_image 512 0 0 true).map (fun img1 =>
      ((load img1 img1.size).toOption.map (fun v =>
        ((entry_at img1 (v.entry_loc 0)).parent_id,
         search v img1 [120] ROOT_ID FILE_TYPE,
         ls_cmd v img1 none)))) =
      some (some (ROOT_ID, some 0, some ([[120]], []))) := by
  rfl

/-- C5 as the code has it.  After a full format of an image of at least 20
blocks (so that the directory table has a block), the image keeps its size,
the next run computes the geometry `N, F, D`, every byte of the directory
table is 0 (slot 0 has `parent_id = 0`), `search` finds nothing, `ls` of the
root prints nothing and the allocation-table entries of the data blocks are
0.  After a quick format, every byte from the end of the reserved
allocation-table entries on keeps the value it had before. -/
theorem format_leaves_no_entries (img : Image) (B u0 u1 : Nat)
    (hB : 0 < B) (h512 : B % 512 = 0) (hS : img.size % B = 0)
    (hsz : img.size < 2 ^ 63) (hb : B < 2 ^ 31) (h20 : 20 * B ≤ img.size) :
    (∃ img1, format_cmd img B u0 u1 false = some img1 ∧
      load img1 img1.size = Except.ok (spec_geometry img.size B) ∧
      (∀ p, (spec_geometry img.size B).dirstart * B ≤ p →
        p < (spec_geometry img.size B).datastart * B → img1.get p = 0) ∧
      (entry_at img1 ((spec_geometry img.size B).entry_loc 0)).parent_id = 0 ∧
      (∀ name parent type,
        search (spec_geometry img.size B) img1 name parent type = some SEARCH_FAILURE) ∧
      ls_cmd (spec_geometry img.size B) img1 none = some ([], []) ∧
      (∀ b, (spec_geometry img.size B).datastart ≤ b → b < img.size / B →
        (spec_geometry img.size B).fat img1 b = 0)) ∧
    (∃ img1, format_cmd img B u0 u1 true = some img1 ∧
      ∀ p, 16 * B + 8 * (spec_geometry img.size B).datastart ≤ p → img1.get p = img.get p) := by
  obtain ⟨hN512, hF, hFB⟩ := spec_geometry_bounds img.size B hB h512
  have hNB : img.size / B * B = img.size := Nat.div_mul_cancel (Nat.dvd_of_mod_eq_zero hS)
  have h16 : 8192 ≤ 16 * B := by omega
  refine ⟨?_, ?_⟩
  · obtain ⟨img1, h1, hs1, hs1e, hload, hg⟩ := format_cmd_spec img B u0 u1 false hB h512 hS hsz hb
    have hN20 : 20 ≤ img.size / B := by
      apply Nat.le_of_mul_le_mul_right _ hB
      rw [hNB]; exact h20
    have hF512 : 512 * spec_fatsize (img.size / B) B ≤ spec_fatsize (img.size / B) B * B := by
      rw [mul_comm]; exact Nat.mul_le_mul_left _ (by omega)
    have hD512 : 512 * (img.size / B / 20) ≤ img.size / B / 20 * B := by
      rw [mul_comm]; exact Nat.mul_le_mul_left _ (by omega)
    have hsum : (16 + spec_fatsize (img.size / B) B + img.size / B / 20) * B ≤ img.size :=
      le_of_le_of_eq (Nat.mul_le_mul_right B
        (by omega : 16 + spec_fatsize (img.size / B) B + img.size / B / 20 ≤ img.size / B)) hNB
    rw [Nat.add_mul, Nat.add_mul] at hsum
    have hds : (spec_geometry img.size B).dirstart * B
        = 16 * B + spec_fatsize (img.size / B) B * B := by
      simp only [spec_geometry]; rw [Nat.add_mul]
    have hdt : (spec_geometry img.size B).datastart * B
        = 16 * B + spec_fatsize (img.size / B) B * B + img.size / B / 20 * B := by
      simp only [spec_geometry]; rw [Nat.add_mul, Nat.add_mul]
    have hdd : ((spec_geometry img.size B).dirstart + (spec_geometry img.size B).dirsize)
        * (spec_geometry img.size B).bytesperblock
        = 16 * B + spec_fatsize (img.size / B) B * B + img.size / B / 20 * B := by
      simp only [spec_geometry]; rw [Nat.add_mul, Nat.add_mul]
    have hbpb : (spec_geometry img.size B).bytesperblock = B := rfl
    have hloc0 : (spec_geometry img.size B).entry_loc 0
        = 16 * B + spec_fatsize (img.size / B) B * B := by
      simp only [Vol.entry_loc, hbpb, hds, Nat.zero_mul, Nat.add_zero]
    generalize hX : spec_fatsize (img.size / B) B * B = X at *
    generalize hY : img.size / B / 20 * B = Y at *
    have hsize : img1.size = img.size := hs1e (by omega) (by omega)
    have hzero : ∀ p, 16 * B + X ≤ p → p < 16 * B + X + Y → img1.get p = 0 := by
      intro p hp1 hp2
      rw [hg p, if_neg (by omega), if_pos ⟨rfl, by omega, by omega⟩]
    have hfread : fread_entry img1 ((spec_geometry img.size B).entry_loc 0)
        = some (entry_at img1 ((spec_geometry img.size B).entry_loc 0)) := by
      unfold fread_entry
      rw [if_pos (by rw [hloc0, hsize]; simp only [ENTRY_SIZE]; omega)]
    have hpid : (entry_at img1 ((spec_geometry img.size B).entry_loc 0)).parent_id = 0 := by
      simp only [entry_at]
      exact rdLE_zero _ _ _ (fun i hi => hzero _ (by rw [hloc0]; omega) (by rw [hloc0]; omega))
    refine ⟨img1, h1, by rw [hsize]; exact hload, ?_, hpid, ?_, ?_, ?_⟩
    · intro p hp1 hp2
      rw [hds] at hp1; rw [hdt] at hp2
      exact hzero p hp1 hp2
    · intro name parent type
      unfold search
      rw [if_neg (by rw [hbpb, hds]; simp only [LONG_LIMIT]; omega)]
      simp only [search_loop, hfread, hpid, if_true]
    · simp only [ls_cmd, ls_loop]
      have hrd : rd_entry (spec_geometry img.size B) img1 0
          = some (entry_at img1 ((spec_geometry img.size B).entry_loc 0)) := by
        unfold rd_entry
        simp only
        rw [if_neg (by rw [hloc0]; simp only [LONG_LIMIT]; omega),
          if_neg (by rw [hdd, hloc0, u64, Nat.mod_eq_of_lt (by omega)]; omega)]
        exact hfread
      simp only [hrd, hpid, if_true, Option.map_some']
    · intro b hb1 hb2
      simp only [Vol.fat, Vol.fat_loc, rd_qword, hbpb, fatstart, RESERVED_BLOCKS]
      simp only [spec_geometry] at hb1
      apply rdLE_zero
      intro i hi
      rw [hg _, if_neg (by omega), if_pos ⟨rfl, by omega, by omega⟩]
  · obtain ⟨img1, h1, _, _, _, hg⟩ := format_cmd_spec img B u0 u1 true hB h512 hS hsz hb
    refine ⟨img1, h1, fun p hp => ?_⟩
    simp only [spec_geometry] at hp
    rw [hg p, if_neg (by omega), if_neg (fun h => Bool.noConfusion h.1), if_neg (by omega),
      if_neg (by omega), if_neg (by omega), if_neg (by omega), if_neg (by omega),
      if_neg (by omega)]

/-- Scenario S1 continued: the full format of a zeroed 1 MiB image with
`B = 512` leaves slot 0 (offset `48 * 512`) empty and `ls` silent. -/
theorem format_leaves_no_entries_witness :
    ∃ img1, format_cmd (blank 1048576) 512 7 9 false = some img1 ∧
      (entry_at img1 (48 * 512)).parent_id = 0 ∧
      search (spec_geometry 1048576 512) img1 [97] ROOT_ID DIRECTORY_TYPE = some SEARCH_FAILURE ∧
      ls_cmd (spec_geometry 1048576 512) img1 none = some ([], []) := by
  obtain ⟨⟨img1, h1, _, _, h4, h5, h6, _⟩, _⟩ :=
    format_leaves_no_entries (blank 1048576) 512 7 9 (by decide) (by decide) (by decide)
      (by decide) (by decide) (by decide)
  exact ⟨img1, h1, h4, h5 _ _ _, h6⟩

theorem scan_free_sound (v : Vol) (img : Image) :
    ∀ (fuel block z : Nat), scan_free v img fuel block = some z →
      block ≤ z ∧ v.fat img z = 0 ∧ v.fat_loc z + 8 ≤ img.size ∧
        ∀ j, block ≤ j → j < z → v.fat img j ≠ 0 := by
  intro fuel
  induction fuel with
  | zero => intro block z h; simp [scan_free] at h
  | succ fuel ih =>
    intro block z h
    simp only [scan_free] at h
    split at h
    · rename_i hsz
      split at h
      · rename_i hz
        cases h
        exact ⟨le_refl _, hz, hsz, fun j h1 h2 => by omega⟩
      · rename_i hz
        obtain ⟨h1, h2, h3, h4⟩ := ih _ _ h
        refine ⟨by omega, h2, h3, fun j hj1 hj2 => ?_⟩
        by_cases hjb : j = block
        · subst hjb; exact hz
        · exact h4 j (by omega) hj2
    · cases h

theorem free_from_succ (v : Vol) (img : Image) (lo n : Nat) :
    free_from v img lo (n + 1) =
      if v.fat img lo = 0 then lo :: free_from v img (lo + 1) n
      else free_from v img (lo + 1) n := by
  unfold free_from
  rw [List.range'_succ, List.filter_cons]
  by_cases h : v.fat img lo = 0 <;> simp [h]

/-- The scan finds the head of the free list. -/
theorem scan_free_complete (v : Vol) (img : Image) :
    ∀ (n fuel block z : Nat) (rest : List Nat), n ≤ fuel →
      v.fat_loc (block + n) ≤ img.size → free_from v img block n = z :: rest →
      scan_free v img fuel block = some z ∧ block ≤ z ∧ z < block + n ∧
        rest = free_from v img (z + 1) (block + n - (z + 1)) := by
  intro n
  induction n with
  | zero => intro fuel block z rest _ _ h; simp [free_from] at h
  | succ n ih =>
    intro fuel block z rest hf hsz h
    cases fuel with
    | zero => omega
    | succ fuel =>
      rw [free_from_succ] at h
      have hin : v.fat_loc block + 8 ≤ img.size := by
        simp only [Vol.fat_loc] at hsz ⊢; omega
      simp only [scan_free, if_pos hin]
      by_cases hz : v.fat img block = 0
      · rw [if_pos hz] at h
        have hz' : rd_qword img (v.fat_loc block) = 0 := hz
        rw [if_pos hz']
        injection h with h1 h2
        subst h1
        refine ⟨rfl, le_refl _, by omega, ?_⟩
        rw [show block + (n + 1) - (block + 1) = n by omega, h2]
      · rw [if_neg hz] at h
        have hz' : ¬ rd_qword img (v.fat_loc block) = 0 := hz
        rw [if_neg hz']
        obtain ⟨h1, h2, h3, h4⟩ := ih fuel (block + 1) z rest (by omega)
          (by rw [show block + 1 + n = block + (n + 1) by omega]; exact hsz) h
        refine ⟨h1, by omega, by omega, ?_⟩
        rw [h4, show block + 1 + n - (z + 1) = block + (n + 1) - (z + 1) by omega]

theorem alloc_blocks_complete (v : Vol) (img : Image) :
    ∀ (k block n : Nat), v.fat_loc (block + n) ≤ img.size →
      k ≤ (free_from v img block n).length →
      alloc_blocks v img k block = some ((free_from v img block n).take k) := by
  intro k
  induction k with
  | zero => intro block n _ _; simp [alloc_blocks]
  | succ k ih =>
    intro block n hsz hk
    match hfl : free_from v img block n with
    | [] => rw [hfl] at hk; simp at hk
    | z :: rest =>
      have hn8 : n ≤ img.size / 8 + 1 := by
        simp only [Vol.fat_loc] at hsz; omega
      obtain ⟨h1, h2, h3, h4⟩ := scan_free_complete v img n (img.size / 8 + 1) block z rest hn8 hsz hfl
      rw [hfl] at hk
      simp only [List.length_cons] at hk
      have := ih (z + 1) (block + n - (z + 1))
        (by rw [show z + 1 + (block + n - (z + 1)) = block + n by omega]; exact hsz)
        (by rw [← h4]; omega)
      simp only [alloc_blocks, h1, this, ← h4, List.take_succ_cons]

theorem alloc_blocks_sound (v : Vol) (img : Image) :
    ∀ (k block : Nat) (bl : List Nat), alloc_blocks v img k block = some bl →
      bl.length = k ∧ (∀ b, b ∈ bl → block ≤ b ∧ v.fat img b = 0 ∧ v.fat_loc b + 8 ≤ img.size) ∧
        bl.Pairwise (fun a b => a < b) := by
  intro k
  induction k with
  | zero =>
    intro block bl h
    simp only [alloc_blocks] at h
    cases h
    simp
  | succ k ih =>
    intro block bl h
    simp only [alloc_blocks] at h
    split at h
    · cases h
    · rename_i b hb
      split at h
      · cases h
      · rename_i rest hrest
        cases h
        obtain ⟨h1, h2, h3, _⟩ := scan_free_sound v img _ _ _ hb
        obtain ⟨g1, g2, g3⟩ := ih _ _ hrest
        refine ⟨by simp [g1], ?_, ?_⟩
        · intro x hx
          rcases List.mem_cons.mp hx with hx | hx
          · subst hx; exact ⟨h1, h2, h3⟩
          · obtain ⟨a1, a2, a3⟩ := g2 x hx
            exact ⟨by omega, a2, a3⟩
        · rw [List.pairwise_cons]
          exact ⟨fun x hx => by have := (g2 x hx).1; omega, g3⟩

theorem block_disjoint (B b b1 j : Nat) (hne : b ≠ b1) (hj : j < B) :
    ¬ (b1 * B ≤ b * B + j ∧ b * B + j < b1 * B + B) := by
  rcases Nat.lt_or_gt_of_ne hne with h | h
  · have : (b + 1) * B ≤ b1 * B := Nat.mul_le_mul_right B h
    rw [Nat.add_mul] at this
    omega
  · have : (b1 + 1) * B ≤ b * B := Nat.mul_le_mul_right B h
    rw [Nat.add_mul] at this
    omega

theorem copy_blocks_frame (v : Vol) (src : List Nat) :
    ∀ (bl : List Nat) (pos : Nat) (img img1 : Image),
      copy_blocks v src bl pos img = some img1 →
      img.size ≤ img1.size ∧
      ((∀ b, b ∈ bl → b * v.bytesperblock + v.bytesperblock ≤ img.size) → img1.size = img.size) ∧
      (∀ b, b ∈ bl → b * v.bytesperblock < LONG_LIMIT) ∧
      ∀ p, (∀ b, b ∈ bl → ¬ (b * v.bytesperblock ≤ p ∧ p < b * v.bytesperblock + v.bytesperblock)) →
        img1.get p = img.get p := by
  intro bl
  induction bl with
  | nil =>
    intro pos img img1 h
    simp only [copy_blocks] at h
    cases h
    exact ⟨le_refl _, fun _ => rfl, fun b hb => by simp at hb, fun p _ => rfl⟩
  | cons b rest ih =>
    intro pos img img1 h
    simp only [copy_blocks] at h
    split at h
    · cases h
    · rename_i hlim
      obtain ⟨h1, h2, h3, h4⟩ := ih _ _ _ h
      refine ⟨le_trans (size_write_le _ _ _ _) h1, ?_, ?_, ?_⟩
      · intro hin
        have hb := hin b (List.mem_cons_self _ _)
        have e := size_write_of_le img (b * v.bytesperblock)
          (min v.bytesperblock (src.length - pos)) (fun j => src.getD (pos + j) 0)
          (by have := Nat.min_le_left v.bytesperblock (src.length - pos); omega)
        rw [h2 (fun x hx => by rw [e]; exact hin x (List.mem_cons_of_mem _ hx)), e]
      · intro x hx
        rcases List.mem_cons.mp hx with hx | hx
        · subst hx; omega
        · exact h3 x hx
      · intro p hp
        rw [h4 p (fun x hx => hp x (List.mem_cons_of_mem _ hx)), get_write]
        have := hp b (List.mem_cons_self _ _)
        have := Nat.min_le_left v.bytesperblock (src.length - pos)
        rw [if_neg (by omega)]

theorem copy_blocks_content (v : Vol) (src : List Nat) :
    ∀ (bl : List Nat) (pos : Nat) (img img1 : Image),
      copy_blocks v src bl pos img = some img1 → bl.Nodup →
      ∀ i j, i < bl.length → j < v.bytesperblock →
        pos + i * v.bytesperblock + j < src.length →
        img1.get (bl.getD i 0 * v.bytesperblock + j)
          = src.getD (pos + i * v.bytesperblock + j) 0 % 256 := by
  intro bl
  induction bl with
  | nil => intro pos img img1 _ _ i j hi; simp at hi
  | cons b rest ih =>
    intro pos img img1 h hnd i j hi hj hlen
    simp only [copy_blocks] at h
    split at h
    · cases h
    · rw [List.nodup_cons] at hnd
      cases i with
      | zero =>
        obtain ⟨_, _, _, h4⟩ := copy_blocks_frame v src _ _ _ _ h
        simp only [List.getD_cons_zero, Nat.zero_mul, Nat.add_zero] at hlen ⊢
        rw [h4 _ (fun x hx => block_disjoint _ b x j (fun e => hnd.1 (e ▸ hx)) hj), get_write,
          if_pos ⟨by omega, by
            have : j < min v.bytesperblock (src.length - pos) := by
              rw [Nat.lt_min]; omega
            omega⟩]
        congr 2
        omega
      | succ i =>
        have hfull : min v.bytesperblock (src.length - pos) = v.bytesperblock := by
          rw [Nat.add_mul] at hlen
          apply Nat.min_eq_left
          omega
        rw [hfull] at h
        simp only [List.getD_cons_succ]
        simp only [List.length_cons] at hi
        rw [ih _ _ _ h hnd.2 i j (by omega) hj (by rw [Nat.add_mul] at hlen; omega)]
        congr 2
        rw [Nat.add_mul]; omega

theorem fat_wr_same (v : Vol) (img : Image) (b x : Nat) :
    v.fat (wr_qword img (v.fat_loc b) x) b = u64 x := by
  unfold Vol.fat u64
  apply rd_qword_eq
  intro i hi
  rw [get_wr_qword, if_pos (by omega)]
  congr 1; omega

theorem link_blocks_spec (v : Vol) :
    ∀ (bl : List Nat) (img img1 : Image), link_blocks v bl img = some img1 →
      img.size ≤ img1.size ∧
      ((∀ b, b ∈ bl → v.fat_loc b + 8 ≤ img.size) → img1.size = img.size) ∧
      (∀ p, (∀ b, b ∈ bl → ¬ (v.fat_loc b ≤ p ∧ p < v.fat_loc b + 8)) →
        img1.get p = img.get p) ∧
      (bl.Nodup → ∀ i, i < bl.length →
        v.fat img1 (bl.getD i 0) = u64 (bl.getD (i + 1) END_OF_CHAIN)) := by
  intro bl
  induction bl with
  | nil =>
    intro img img1 h
    simp only [link_blocks] at h
    cases h
    exact ⟨le_refl _, fun _ => rfl, fun p _ => rfl, fun _ i hi => by simp at hi⟩
  | cons b rest ih =>
    intro img img1 h
    have key : ∀ (x : Nat) (img2 : Image), img1.size ≥ (wr_qword img (v.fat_loc b) x).size →
        (((∀ c, c ∈ rest → v.fat_loc c + 8 ≤ (wr_qword img (v.fat_loc b) x).size) →
          img1.size = (wr_qword img (v.fat_loc b) x).size)) →
        (∀ p, (∀ c, c ∈ rest → ¬ (v.fat_loc c ≤ p ∧ p < v.fat_loc c + 8)) →
          img1.get p = (wr_qword img (v.fat_loc b) x).get p) →
        img.size ≤ img1.size ∧
        ((∀ c, c ∈ b :: rest → v.fat_loc c + 8 ≤ img.size) → img1.size = img.size) ∧
        (∀ p, (∀ c, c ∈ b :: rest → ¬ (v.fat_loc c ≤ p ∧ p < v.fat_loc c + 8)) →
          img1.get p = img.get p) ∧
        ((b :: rest).Nodup → v.fat img1 b = u64 x) := by
      intro x _ h1 h2 h3
      have e : (∀ c, c ∈ b :: rest → v.fat_loc c + 8 ≤ img.size) →
          (wr_qword img (v.fat_loc b) x).size = img.size := fun hin =>
        size_write_of_le _ _ _ _ (hin b (List.mem_cons_self _ _))
      refine ⟨le_trans (size_wr_qword_le _ _ _) h1, ?_, ?_, ?_⟩
      · intro hin
        rw [h2 (fun c hc => by rw [e hin]; exact hin c (List.mem_cons_of_mem _ hc)), e hin]
      · intro p hp
        rw [h3 p (fun c hc => hp c (List.mem_cons_of_mem _ hc)), get_wr_qword,
          if_neg (hp b (List.mem_cons_self _ _))]
      · intro hnd
        rw [List.nodup_cons] at hnd
        rw [← fat_wr_same v img b x]
        unfold Vol.fat
        apply rd_qword_congr
        intro i hi
        apply h3
        intro c hc
        have hcb : c ≠ b := fun e => hnd.1 (e ▸ hc)
        simp only [Vol.fat_loc]
        omega
    cases rest with
    | nil =>
      simp only [link_blocks] at h
      split at h
      · cases h
      · cases h
        obtain ⟨k1, k2, k3, k4⟩ := key END_OF_CHAIN img (le_refl _) (fun _ => rfl) (fun p _ => rfl)
        refine ⟨k1, k2, k3, fun hnd i hi => ?_⟩
        simp only [List.length_singleton] at hi
        have : i = 0 := by omega
        subst this
        simpa using k4 hnd
    | cons b1 rest1 =>
      simp only [link_blocks] at h
      split at h
      · cases h
      · obtain ⟨g1, g2, g3, g4⟩ := ih _ _ h
        obtain ⟨k1, k2, k3, k4⟩ := key b1 img g1 g2 g3
        refine ⟨k1, k2, k3, fun hnd i hi => ?_⟩
        cases i with
        | zero => simpa using k4 hnd
        | succ i =>
          simp only [List.getD_cons_succ]
          simp only [List.length_cons] at hi
          exact g4 (List.nodup_cons.mp hnd).2 i (by simpa using hi)

theorem copy_blocks_total (v : Vol) (src : List Nat) :
    ∀ (bl : List Nat) (pos : Nat) (img : Image),
      (∀ b, b ∈ bl → b * v.bytesperblock < LONG_LIMIT) →
      ∃ img1, copy_blocks v src bl pos img = some img1 := by
  intro bl
  induction bl with
  | nil => intro pos img _; exact ⟨img, rfl⟩
  | cons b rest ih =>
    intro pos img h
    have hb := h b (List.mem_cons_self _ _)
    simp only [copy_blocks, if_neg (Nat.not_le.mpr hb)]
    exact ih _ _ (fun x hx => h x (List.mem_cons_of_mem _ hx))

theorem link_blocks_total (v : Vol) :
    ∀ (bl : List Nat) (img : Image), (∀ b, b ∈ bl → v.fat_loc b < LONG_LIMIT) →
      ∃ img1, link_blocks v bl img = some img1 := by
  intro bl
  induction bl with
  | nil => intro img _; exact ⟨img, rfl⟩
  | cons b rest ih =>
    intro img h
    have hb := h b (List.mem_cons_self _ _)
    cases rest with
    | nil =>
      simp only [link_blocks, if_neg (Nat.not_le.mpr hb)]
      exact ⟨_, rfl⟩
    | cons b1 rest1 =>
      simp only [link_blocks, if_neg (Nat.not_le.mpr hb)]
      exact ih _ (fun x hx => h x (List.mem_cons_of_mem _ hx))

theorem mem_free_from (v : Vol) (img : Image) (lo n b : Nat) :
    b ∈ free_from v img lo n ↔ (lo ≤ b ∧ b < lo + n) ∧ v.fat img b = 0 := by
  unfold free_from
  rw [List.mem_filter, List.mem_range'_1]
  simp

theorem pairwise_lt_nodup (l : List Nat) (h : l.Pairwise (fun a b => a < b)) : l.Nodup :=
  List.Pairwise.imp (fun hab => Nat.ne_of_lt hab) h

/-- C2 (import_chain layout).  Let the first `M` allocation-table entries lie
inside the image file and hold at least `K = ceil(s / B)` zero entries, `s`
being the size of the source (sizes within the range of `long`).  For
`s = 0` `import_chain` returns `END_OF_CHAIN` and the image as it was.  For
`s > 0` its block list is the list of the `K` lowest-indexed blocks whose
entry is 0, strictly ascending; after the copy loop the image has the source
bytes `[i*B, min((i+1)*B, s))` at offset `b_i * B`; the result has
`AT[b_i] = b_{i+1}`, `AT[b_{K-1}] = END_OF_CHAIN`, the same data bytes
wherever no link entry of a claimed block was written over them, no other
byte changed, and `b_0` is returned. -/
theorem import_chain_layout (v : Vol) (img : Image) (src : List Nat) (M : Nat)
    (hB : 0 < v.bytesperblock) (hM : v.fat_loc M ≤ img.size)
    (hsz : img.size < LONG_LIMIT) (hMB : M * v.bytesperblock ≤ LONG_LIMIT)
    (hsrc : src.length < LONG_LIMIT)
    (hK : blocks_needed v src.length ≤ (free_blocks v img M).length) :
    (src.length = 0 → import_chain v img src = some (END_OF_CHAIN, img)) ∧
    (0 < src.length →
      ∃ img1 img2,
        import_blocklist v img src.length
          = some (lowest_free v img M (blocks_needed v src.length)) ∧
        copy_blocks v src
          (lowest_free v img M (blocks_needed v src.length)) 0 img
          = some img1 ∧
        import_chain v img src
          = some ((lowest_free v img M (blocks_needed v src.length)).headD 0, img2) ∧
        (lowest_free v img M (blocks_needed v src.length)).length
            = blocks_needed v src.length ∧
        0 < blocks_needed v src.length ∧
        (lowest_free v img M (blocks_needed v src.length)).Pairwise (fun a b => a < b) ∧
        (∀ b, b ∈ lowest_free v img M (blocks_needed v src.length) → b < M ∧ v.fat img b = 0) ∧
        (∀ i j, i < blocks_needed v src.length → j < v.bytesperblock →
          i * v.bytesperblock + j < src.length →
          img1.get ((lowest_free v img M (blocks_needed v src.length)).getD i 0
                * v.bytesperblock + j)
            = src.getD (i * v.bytesperblock + j) 0 % 256) ∧
        (∀ i, i < blocks_needed v src.length →
          v.fat img2 ((lowest_free v img M (blocks_needed v src.length)).getD i 0)
            = (lowest_free v img M (blocks_needed v src.length)).getD (i + 1) END_OF_CHAIN) ∧
        (∀ p, (∀ b, b ∈ lowest_free v img M (blocks_needed v src.length) →
              ¬ (v.fat_loc b ≤ p ∧ p < v.fat_loc b + 8)) → img2.get p = img1.get p) ∧
        (∀ p, (∀ b, b ∈ lowest_free v img M (blocks_needed v src.length) →
              ¬ (b * v.bytesperblock ≤ p ∧ p < b * v.bytesperblock + v.bytesperblock)) →
            img1.get p = img.get p)) := by
  simp only [lowest_free, blocks_needed] at hK ⊢
  refine ⟨fun h0 => by simp only [import_chain, h0, if_true], fun hs => ?_⟩
  generalize hKdef : (src.length + v.bytesperblock - 1) / v.bytesperblock = K at *
  have hKpos : 0 < K := by
    rw [← hKdef]
    exact Nat.div_pos (by omega) hB
  have hM1 : 1 ≤ M := by
    rcases Nat.eq_zero_or_pos M with h | h
    · subst h
      simp [free_blocks, free_from] at hK
      omega
    · exact h
  have hBlim : v.bytesperblock ≤ LONG_LIMIT :=
    le_trans (Nat.le_mul_of_pos_left _ hM1) hMB
  have hu : u64 (src.length + v.bytesperblock - 1) = src.length + v.bytesperblock - 1 := by
    unfold u64
    apply Nat.mod_eq_of_lt
    simp only [LONG_LIMIT] at hBlim hsrc
    omega
  have hbl : import_blocklist v img src.length = some ((free_blocks v img M).take K) := by
    unfold import_blocklist
    rw [hu, hKdef]
    exact alloc_blocks_complete v img K 0 M (by simpa using hM) hK
  obtain ⟨hlen, hmem, hpw⟩ := alloc_blocks_sound v img K 0 _
    (by unfold import_blocklist at hbl; rw [hu, hKdef] at hbl; exact hbl)
  have hmemM : ∀ b, b ∈ (free_blocks v img M).take K → b < M ∧ v.fat img b = 0 := by
    intro b hb
    have := (mem_free_from v img 0 M b).mp (List.mem_of_mem_take hb)
    exact ⟨by omega, this.2⟩
  have hnd := pairwise_lt_nodup _ hpw
  obtain ⟨img1, hc⟩ := copy_blocks_total v src ((free_blocks v img M).take K) 0 img
    (fun b hb => by
      have h1 := (hmemM b hb).1
      have : (b + 1) * v.bytesperblock ≤ M * v.bytesperblock := Nat.mul_le_mul_right _ h1
      rw [Nat.add_mul] at this
      omega)
  obtain ⟨img2, hl⟩ := link_blocks_total v ((free_blocks v img M).take K) img1
    (fun b hb => by have := (hmem b hb).2.2; omega)
  obtain ⟨_, _, _, hcf⟩ := copy_blocks_frame v src _ _ _ _ hc
  have hcc := copy_blocks_content v src _ _ _ _ hc hnd
  obtain ⟨_, _, hlf, hlc⟩ := link_blocks_spec v _ _ _ hl
  refine ⟨img1, img2, hbl, hc, ?_, hlen, hKpos, hpw, hmemM, ?_, ?_, hlf, hcf⟩
  · have h16 : ¬ LONG_LIMIT ≤ fatstart * v.bytesperblock := by
      simp only [Vol.fat_loc] at hM; omega
    simp only [import_chain, if_neg (Nat.ne_of_gt hs), if_neg (Nat.ne_of_gt hB), hu, hKdef,
      if_neg (Nat.ne_of_gt hKpos), if_neg h16, hbl, hc, hl]
  · intro i j hi hj hij
    have := hcc i j (by rw [hlen]; exact hi) hj (by omega)
    rw [this]
    congr 2
    omega
  · intro i hi
    rw [hlc hnd i (by rw [hlen]; exact hi)]
    unfold u64
    apply Nat.mod_eq_of_lt
    by_cases hlast : i + 1 < ((free_blocks v img M).take K).length
    · have hmem1 : ((free_blocks v img M).take K).getD (i + 1) END_OF_CHAIN
          ∈ (free_blocks v img M).take K := by
        rw [List.getD_eq_getElem _ _ hlast]
        exact List.getElem_mem _
      have := (hmemM _ hmem1).1
      have hM63 : M ≤ LONG_LIMIT := le_trans (Nat.le_mul_of_pos_right _ hB) hMB
      simp only [LONG_LIMIT] at hM63
      omega
    · rw [List.getD_eq_default _ _ (by omega)]
      simp [END_OF_CHAIN]

set_option maxRecDepth 1000000 in
/-- Scenario S4 on a freshly formatted 32 KiB volume (`B = 512`, data from
block 20): a 1000-byte file gets blocks 20 and 21, `AT[20] = 21`,
`AT[21] = END_OF_CHAIN`, 512 data bytes in block 20 and 488 in block 21. -/
theorem import_chain_layout_witness :
    ∃ img2, import_chain vol32k fresh32k (pattern_file 1000) = some (20, img2) ∧
      vol32k.fat img2 20 = 21 ∧ vol32k.fat img2 21 = END_OF_CHAIN ∧
      (∀ j, j < 512 → img2.get (20 * 512 + j) = j % 256) ∧
      (∀ j, j < 488 → img2.get (21 * 512 + j) = (512 + j) % 256) := by
  have hfree : lowest_free vol32k fresh32k 64 2 = [20, 21] := by decide
  have hk : blocks_needed vol32k (pattern_file 1000).length = 2 := by decide
  obtain ⟨_, h⟩ := import_chain_layout vol32k fresh32k (pattern_file 1000) 64
    (by decide) (by decide) (by decide) (by decide) (by decide) (by decide)
  obtain ⟨img1, img2, _, _, h3, _, _, _, _, h8, h9, h10, _⟩ := h (by decide)
  rw [hk, hfree] at h3 h8 h9 h10
  have hpat : ∀ k, k < 1000 → (pattern_file 1000).getD k 0 = k % 256 := by
    intro k hk
    simp [pattern_file, List.getD_eq_getElem?_getD, hk]
  refine ⟨img2, h3, h9 0 (by decide), h9 1 (by decide), ?_, ?_⟩
  · intro j hj
    rw [h10 _ (by
      intro b hb
      simp only [List.mem_cons, List.mem_singleton, List.not_mem_nil, or_false] at hb
      rcases hb with rfl | rfl <;> simp only [vol32k, spec_geometry, Vol.fat_loc, fatstart, RESERVED_BLOCKS] <;> omega)]
    have := h8 0 j (by decide) hj (by simp [vol32k, spec_geometry, pattern_file]; omega)
    simp only [vol32k, spec_geometry, List.getD_cons_zero, Nat.zero_mul, Nat.zero_add] at this
    rw [this, hpat j (by omega)]
    omega
  · intro j hj
    rw [h10 _ (by
      intro b hb
      simp only [List.mem_cons, List.mem_singleton, List.not_mem_nil, or_false] at hb
      rcases hb with rfl | rfl <;> simp only [vol32k, spec_geometry, Vol.fat_loc, fatstart, RESERVED_BLOCKS] <;> omega)]
    have := h8 1 j (by decide) (by simp [vol32k, spec_geometry]; omega) (by simp [vol32k, spec_geometry, pattern_file]; omega)
    simp only [vol32k, spec_geometry, List.getD_cons_succ, List.getD_cons_zero, Nat.one_mul] at this
    rw [this, hpat _ (by omega)]
    omega

theorem length_read (img : Image) (loc n : Nat) : (img.read loc n).length = n := by
  simp [Image.read]

theorem take_read (img : Image) (loc n k : Nat) (hk : k ≤ n) :
    (img.read loc n).take k = img.read loc k := by
  unfold Image.read
  rw [← List.map_take]
  congr 1
  rw [List.take_range]
  rw [Nat.min_eq_left hk]

theorem is_chain_cons (v : Vol) (img : Image) (head b : Nat) (rest : List Nat) :
    is_chain v img head (b :: rest) = true ↔
      head = b ∧ b ≠ END_OF_CHAIN ∧ (b + 1) * v.bytesperblock ≤ img.size ∧
        v.fat_loc b + 8 ≤ img.size ∧ is_chain v img (v.fat img b) rest = true := by
  simp only [is_chain, Bool.and_eq_true, decide_eq_true_eq, and_assoc]

theorem is_chain_nil (v : Vol) (img : Image) (head : Nat) :
    is_chain v img head [] = true ↔ head = END_OF_CHAIN := by
  simp only [is_chain, decide_eq_true_eq]

theorem is_chain_unique (v : Vol) (img : Image) :
    ∀ (bs1 bs2 : List Nat) (head : Nat), is_chain v img head bs1 = true →
      is_chain v img head bs2 = true → bs1 = bs2 := by
  intro bs1
  induction bs1 with
  | nil =>
    intro bs2 head h1 h2
    rw [is_chain_nil] at h1
    cases bs2 with
    | nil => rfl
    | cons b rest =>
      rw [is_chain_cons] at h2
      exact absurd (h2.1 ▸ h1) h2.2.1
  | cons a rest1 ih =>
    intro bs2 head h1 h2
    rw [is_chain_cons] at h1
    cases bs2 with
    | nil =>
      rw [is_chain_nil] at h2
      exact absurd (h1.1 ▸ h2) h1.2.1
    | cons b rest2 =>
      rw [is_chain_cons] at h2
      have hab : a = b := h1.1.symm.trans h2.1
      subst hab
      rw [ih rest2 _ h1.2.2.2.2 h2.2.2.2.2]

theorem is_chain_suffix (v : Vol) (img : Image) :
    ∀ (l1 : List Nat) (head b : Nat) (l2 : List Nat), is_chain v img head (l1 ++ b :: l2) = true →
      is_chain v img (v.fat img b) l2 = true := by
  intro l1
  induction l1 with
  | nil =>
    intro head b l2 h
    rw [List.nil_append, is_chain_cons] at h
    exact h.2.2.2.2
  | cons a l1 ih =>
    intro head b l2 h
    rw [List.cons_append, is_chain_cons] at h
    exact ih _ _ _ h.2.2.2.2

theorem is_chain_nodup (v : Vol) (img : Image) :
    ∀ (bs : List Nat) (head : Nat), is_chain v img head bs = true → bs.Nodup := by
  intro bs
  induction bs with
  | nil => intro _ _; exact List.nodup_nil
  | cons b rest ih =>
    intro head h
    rw [is_chain_cons] at h
    rw [List.nodup_cons]
    refine ⟨fun hmem => ?_, ih _ h.2.2.2.2⟩
    obtain ⟨l1, l2, hsplit⟩ := List.append_of_mem hmem
    have h2 := h.2.2.2.2
    rw [hsplit] at h2
    have h3 := is_chain_suffix v img l1 _ b l2 h2
    rw [← hsplit] at h2
    have := is_chain_unique v img _ _ _ h2 h3
    have hl := congrArg List.length this
    rw [hsplit] at hl
    simp at hl
    omega

theorem is_chain_mem (v : Vol) (img : Image) :
    ∀ (bs : List Nat) (head : Nat), is_chain v img head bs = true →
      ∀ b, b ∈ bs → (b + 1) * v.bytesperblock ≤ img.size ∧ v.fat_loc b + 8 ≤ img.size ∧
        b ≠ END_OF_CHAIN := by
  intro bs
  induction bs with
  | nil => intro _ _ b hb; simp at hb
  | cons a rest ih =>
    intro head h b hb
    rw [is_chain_cons] at h
    rcases List.mem_cons.mp hb with hb | hb
    · subst hb; exact ⟨h.2.2.1, h.2.2.2.1, h.2.1⟩
    · exact ih _ h.2.2.2.2 b hb

/-- A well-formed chain fits in the image: its blocks are distinct. -/
theorem is_chain_length (v : Vol) (img : Image) (bs : List Nat) (head : Nat)
    (hB : 0 < v.bytesperblock) (h : is_chain v img head bs = true) :
    bs.length * v.bytesperblock ≤ img.size := by
  have hnd := is_chain_nodup v img bs head h
  have hsub : bs ⊆ List.range (img.size / v.bytesperblock) := by
    intro b hb
    rw [List.mem_range]
    have := (is_chain_mem v img bs head h b hb).1
    rw [Nat.lt_iff_add_one_le, Nat.le_div_iff_mul_le hB]
    exact this
  have := (List.subperm_of_subset hnd hsub).length_le
  rw [List.length_range] at this
  calc bs.length * v.bytesperblock ≤ img.size / v.bytesperblock * v.bytesperblock :=
        Nat.mul_le_mul_right _ this
    _ ≤ img.size := Nat.div_mul_le_self _ _

theorem export_len_step (B R : Nat) (hR : B < R) :
    export_len B R = B + export_len B (R - B) := by
  have hmod : (R - B) % B = R % B := by
    conv_rhs => rw [show R = R - B + B by omega, Nat.add_mod_right]
  unfold export_len
  rw [hmod]
  by_cases h : R % B = 0
  · have h2 : 2 * B ≤ R := by
      obtain ⟨q, hq⟩ := Nat.dvd_of_mod_eq_zero h
      subst hq
      have hq2 : 2 ≤ q := by
        rcases Nat.lt_or_ge q 2 with hlt | hge
        · have : q = 0 ∨ q = 1 := by omega
          rcases this with rfl | rfl <;> simp at hR
        · exact hge
      calc 2 * B = B * 2 := by ring
        _ ≤ B * q := Nat.mul_le_mul_left B hq2
    rw [if_pos ⟨h, by omega⟩, if_pos ⟨h, by omega⟩]; omega
  · rw [if_neg (fun c => h c.1), if_neg (fun c => h c.1)]; omega

theorem take_read_append (img : Image) (loc n t : Nat) (X : List Nat) :
    (img.read loc n ++ X).take (n + t) = img.read loc n ++ X.take t := by
  have := @List.take_append _ (img.read loc n) X t
  rw [length_read] at this
  exact this

theorem export_loop_spec (v : Vol) (img : Image) (size : Nat) (hB : 0 < v.bytesperblock)
    (hsz : img.size < LONG_LIMIT) (hsize : size ≤ img.size) :
    ∀ (bs : List Nat) (cur : Nat) (dest : List Nat) (fuel : Nat),
      is_chain v img cur bs = true → dest.length % v.bytesperblock = 0 → dest.length ≤ size →
      size - dest.length ≤ bs.length * v.bytesperblock →
      (size - dest.length) / v.bytesperblock + 1 ≤ fuel →
      export_loop v img size fuel cur dest
        = some (dest ++ (chain_bytes v img bs).take
            (export_len v.bytesperblock (size - dest.length))) := by
  intro bs
  induction bs with
  | nil =>
    intro cur dest fuel hc _ hd hrem hfuel
    rw [is_chain_nil] at hc
    cases fuel with
    | zero => exact absurd hfuel (Nat.not_succ_le_zero _)
    | succ fuel =>
      simp only [export_loop, if_pos hc, chain_bytes, List.map_nil, List.flatten_nil, List.take_nil,
        List.append_nil]
  | cons b rest ih =>
    intro cur dest fuel hc hmod hd hrem hfuel
    rw [is_chain_cons] at hc
    obtain ⟨hcur, hne, hin, hfat, hrest⟩ := hc
    subst hcur
    rw [Nat.add_mul] at hin
    simp only [Nat.one_mul] at hin
    cases fuel with
    | zero => exact absurd hfuel (Nat.not_succ_le_zero _)
    | succ fuel =>
      have hu : u64 (dest.length + v.bytesperblock) = dest.length + v.bytesperblock := by
        unfold u64
        apply Nat.mod_eq_of_lt
        simp only [LONG_LIMIT] at hsz
        omega
      have hsmod : size % v.bytesperblock = (size - dest.length) % v.bytesperblock := by
        calc size % v.bytesperblock = (size - dest.length + dest.length) % v.bytesperblock := by
              rw [Nat.sub_add_cancel hd]
          _ = (size - dest.length) % v.bytesperblock := by
              rw [Nat.add_mod, hmod, Nat.add_zero, Nat.mod_mod]
      have hcb : chain_bytes v img (cur :: rest)
          = img.read (cur * v.bytesperblock) v.bytesperblock ++ chain_bytes v img rest := by
        simp only [chain_bytes, List.map_cons, List.flatten_cons]
      simp only [export_loop, if_neg hne, if_neg (show ¬ LONG_LIMIT ≤ cur * v.bytesperblock by omega),
        hu]
      by_cases hfin : size ≤ dest.length + v.bytesperblock
      · rw [if_pos hfin, hsmod]
        by_cases hz : (size - dest.length) % v.bytesperblock = 0
        · rw [if_pos hz]
          have hl : export_len v.bytesperblock (size - dest.length) = 0 := by
            unfold export_len
            by_cases h0 : size - dest.length = 0
            · rw [if_neg (fun c => c.2 h0)]; exact h0
            · rw [if_pos ⟨hz, h0⟩]
              have : size - dest.length = v.bytesperblock := by
                rcases Nat.lt_or_ge (size - dest.length) v.bytesperblock with h | h
                · rw [Nat.mod_eq_of_lt h] at hz; omega
                · omega
              omega
          rw [hl, List.take_zero, List.append_nil]
        · rw [if_neg hz]
          have hlt : size - dest.length < v.bytesperblock := by
            rcases Nat.lt_or_ge (size - dest.length) v.bytesperblock with h | h
            · exact h
            · have : size - dest.length = v.bytesperblock := by omega
              rw [this, Nat.mod_self] at hz
              exact absurd rfl hz
          rw [Nat.mod_eq_of_lt hlt, if_pos (by omega)]
          have hl : export_len v.bytesperblock (size - dest.length) = size - dest.length := by
            unfold export_len
            rw [if_neg (fun c => hz c.1)]
          rw [hl, hcb, List.take_append_of_le_length (by rw [length_read]; omega),
            take_read _ _ _ _ (by omega)]
      · rw [if_neg hfin, if_pos (by omega), if_neg (show ¬ LONG_LIMIT ≤ v.fat_loc cur by omega)]
        have hdiv : (size - dest.length) / v.bytesperblock
            = (size - (dest.length + v.bytesperblock)) / v.bytesperblock + 1 := by
          rw [← Nat.add_div_right _ hB]
          congr 1; omega
        have := ih (v.fat img cur) (dest ++ img.read (cur * v.bytesperblock) v.bytesperblock) fuel hrest
          (by rw [List.length_append, length_read, Nat.add_mod_right]; exact hmod)
          (by rw [List.length_append, length_read]; omega)
          (by
            rw [List.length_append, length_read]
            simp only [List.length_cons, Nat.add_mul, Nat.one_mul] at hrem
            omega)
          (by rw [List.length_append, length_read]; omega)
        rw [show rd_qword img (v.fat_loc cur) = v.fat img cur from rfl, this,
          export_len_step _ _ (show v.bytesperblock < size - dest.length by omega), hcb,
          List.length_append, length_read, List.append_assoc]
        congr 2
        rw [show size - (dest.length + v.bytesperblock) = size - dest.length - v.bytesperblock by omega]
        rw [take_read_append]

/-- C3 (export_chain output).  For a file entry whose chain from `payload`
is well formed (blocks `bs`) and has at least `ceil(size / B)` blocks,
`export_chain` writes to the empty destination exactly the first `L` bytes
of the concatenation of the chain's blocks, where `L = size` when
`size mod B ≠ 0` or `size = 0`, and `L = size - B` when `size` is a positive
multiple of `B`. -/
theorem export_chain_output (v : Vol) (img : Image) (e : entry_t) (bs : List Nat)
    (hB : 0 < v.bytesperblock) (hsz : img.size < LONG_LIMIT)
    (hchain : is_chain v img e.payload bs = true)
    (hlen : blocks_needed v e.size ≤ bs.length) :
    export_chain v img e
        = some ((chain_bytes v img bs).take (export_len v.bytesperblock e.size)) ∧
      (e.size % v.bytesperblock ≠ 0 ∨ e.size = 0 → export_len v.bytesperblock e.size = e.size) ∧
      (e.size % v.bytesperblock = 0 → 0 < e.size →
        export_len v.bytesperblock e.size = e.size - v.bytesperblock) := by
  have hfit : e.size ≤ bs.length * v.bytesperblock := by
    unfold blocks_needed at hlen
    have h1 := Nat.div_add_mod (e.size + v.bytesperblock - 1) v.bytesperblock
    have h2 := Nat.mod_lt (e.size + v.bytesperblock - 1) hB
    have h3 : v.bytesperblock * ((e.size + v.bytesperblock - 1) / v.bytesperblock)
        ≤ v.bytesperblock * bs.length := Nat.mul_le_mul_left _ hlen
    rw [mul_comm v.bytesperblock bs.length] at h3
    omega
  have hsize : e.size ≤ img.size := le_trans hfit (is_chain_length v img bs _ hB hchain)
  refine ⟨?_, ?_, ?_⟩
  · have := export_loop_spec v img e.size hB hsz hsize bs e.payload [] (e.size / v.bytesperblock + 1)
      hchain (by simp) (by simp) (by simpa using hfit) (by simp)
    simp only [export_chain, if_neg (Nat.ne_of_gt hB)]
    rw [this]
    simp
  · intro h
    unfold export_len
    rcases h with h | h
    · rw [if_neg (fun c => h c.1)]
    · rw [if_neg (fun c => c.2 h)]
  · intro h1 h2
    unfold export_len
    rw [if_pos ⟨h1, by omega⟩]

set_option maxRecDepth 1000000 in
/-- A 1000-byte file stored in the chain 20 → 21 of `chain_image` exports as
the 512 bytes of block 20 followed by the first 488 bytes of block 21. -/
theorem export_chain_output_witness :
    export_chain vol32k chain_image { empty_entry with payload := 20, size := 1000 }
      = some (pattern_file 1000) := by
  have h := (export_chain_output vol32k chain_image { empty_entry with payload := 20, size := 1000 }
    [20, 21] (by decide) (by decide) (by rfl) (by decide)).1
  rw [h]
  rfl

theorem le_byte_small (x i : Nat) (hx : x < 256) : le_byte x i = if i = 0 then x else 0 := by
  unfold le_byte
  cases i with
  | zero => simp [Nat.mod_eq_of_lt hx]
  | succ n =>
    have : x / 256 ^ (n + 1) = 0 := by
      apply Nat.div_eq_of_lt
      calc x < 256 := hx
        _ = 256 ^ 1 := by norm_num
        _ ≤ 256 ^ (n + 1) := Nat.pow_le_pow_right (by norm_num) (by omega)
    simp [this]

/-- The closed form `fresh32k` is what `format 512` produces from a zeroed
32 KiB image: same size, same bytes. -/
theorem fresh32k_is_format :
    ∃ img1, format_cmd (blank 32768) 512 7 9 false = some img1 ∧ img1.size = fresh32k.size ∧
      load img1 32768 = Except.ok vol32k ∧ ∀ p, img1.get p = fresh32k.get p := by
  obtain ⟨img1, h1, _, h3, h4, h5⟩ := format_cmd_spec (blank 32768) 512 7 9 false
    (by decide) (by decide) (by decide) (by decide) (by decide)
  refine ⟨img1, h1, h3 (by decide) (by decide), h4, fun p => ?_⟩
  rw [h5 p]
  have hF : spec_fatsize ((blank 32768).size / 512) 512 = 1 := by decide
  have hS : (blank 32768).size = 32768 := rfl
  rw [hF, hS]
  by_cases h56 : p < 56
  · have hb : (blank 32768).get p = 0 := by simp [Image.get, blank]
    rw [hb]
    interval_cases p <;> rfl
  · have hres : ∀ k, k < 8 → le_byte RESERVED_BLOCK k = if k = 0 then 240 else 255 := by decide
    rw [hres _ (Nat.mod_lt _ (by norm_num))]
    have n1 : ¬ (48 ≤ p ∧ p < 56) := by omega
    have n2 : ¬ (40 ≤ p ∧ p < 48) := by omega
    have n3 : ¬ (28 ≤ p ∧ p < 36) := by omega
    have n4 : ¬ (20 ≤ p ∧ p < 28) := by omega
    have n5 : ¬ (12 ≤ p ∧ p < 20) := by omega
    have n6 : ¬ (4 ≤ p ∧ p < 12) := by omega
    have n7 : ¬ p = 12 := by omega
    have n8 : ¬ p = 20 := by omega
    have n9 : ¬ p = 29 := by omega
    have n10 : ¬ p = 40 := by omega
    have n11 : ¬ p = 48 := by omega
    simp only [fresh32k, Image.get, blank, n1, n2, n3, n4, n5, n6, n7, n8, n9, n10, n11, if_false]
    split_ifs <;> omega

/-- C9 (import without force is atomic on conflict).  When the source is a
regular file, the destination resolves to a file entry (neither `failure`
nor `not_found`) and `-f` is not given, `import` reports `AlreadyExists` and
returns the image as it was: no block is claimed, no entry written. -/
theorem import_conflict_atomic (v : Vol) (img : Image) (h : Host) (path : List Nat)
    (r : path_result_t) (hreg : h.is_reg = true)
    (hres : path_resolver v img path FILE_TYPE = some r)
    (hfail : r.failure = false) (hfound : r.not_found = false) (hforce : h.force = false) :
    import_cmd v img h path = some (img, [Msg.AlreadyExists]) := by
  simp [import_cmd, hreg, hres, hfail, hfound, hforce]

set_option maxRecDepth 100000 in
/-- Scenario S6 on the 32 KiB volume: after `import` of a file to `/x`, a
second `import` to `/x` without `-f` reports `AlreadyExists` and leaves the
image as it is. -/
theorem import_conflict_atomic_witness :
    import_cmd vol32k fresh32k (host_file small_file) path_x = some (after_import_x, []) ∧
      import_cmd vol32k after_import_x (host_file small_file) path_x
        = some (after_import_x, [Msg.AlreadyExists]) :=
  ⟨rfl, import_conflict_atomic vol32k after_import_x (host_file small_file) path_x _ rfl rfl rfl
    rfl rfl⟩

theorem fread_entry_eq (img : Image) (loc : Nat) (h : loc + ENTRY_SIZE ≤ img.size) :
    fread_entry img loc = some (entry_at img loc) := by
  unfold fread_entry
  rw [if_pos h]

theorem entry_loc_mono (v : Vol) (i j : Nat) (h : i ≤ j) : v.entry_loc i ≤ v.entry_loc j := by
  simp only [Vol.entry_loc, ENTRY_SIZE]
  omega

theorem find_empty_loop_spec (v : Vol) (img : Image) (i0 : Nat)
    (hin : v.entry_loc i0 + ENTRY_SIZE ≤ img.size)
    (hbefore : ∀ j, j < i0 → (entry_at img (v.entry_loc j)).parent_id ≠ 0 ∧
      (entry_at img (v.entry_loc j)).parent_id ≠ DELETED_ENTRY)
    (hat : (entry_at img (v.entry_loc i0)).parent_id = 0 ∨
      (entry_at img (v.entry_loc i0)).parent_id = DELETED_ENTRY) :
    ∀ (n i fuel : Nat), i + n = i0 → n < fuel → find_empty_loop v img fuel i = some i0 := by
  intro n
  induction n with
  | zero =>
    intro i fuel hi hf
    cases fuel with
    | zero => omega
    | succ fuel =>
      have : i = i0 := by omega
      subst this
      simp only [find_empty_loop, fread_entry_eq img _ hin, if_pos hat]
  | succ n ih =>
    intro i fuel hi hf
    cases fuel with
    | zero => omega
    | succ fuel =>
      have hlt : i < i0 := by omega
      have hin2 : v.entry_loc i + ENTRY_SIZE ≤ img.size :=
        le_trans (Nat.add_le_add_right (entry_loc_mono v i i0 (by omega)) _) hin
      have hb := hbefore i hlt
      simp only [find_empty_loop, fread_entry_eq img _ hin2,
        if_neg (show ¬ ((entry_at img (v.entry_loc i)).parent_id = 0 ∨
          (entry_at img (v.entry_loc i)).parent_id = DELETED_ENTRY) from
            fun c => c.elim hb.1 hb.2)]
      exact ih (i + 1) fuel (by omega) (by omega)

theorem find_empty_spec (v : Vol) (img : Image) (i0 : Nat)
    (hsz : img.size < LONG_LIMIT)
    (hin : v.entry_loc i0 + ENTRY_SIZE ≤ img.size)
    (hbefore : ∀ j, j < i0 → (entry_at img (v.entry_loc j)).parent_id ≠ 0 ∧
      (entry_at img (v.entry_loc j)).parent_id ≠ DELETED_ENTRY)
    (hat : (entry_at img (v.entry_loc i0)).parent_id = 0 ∨
      (entry_at img (v.entry_loc i0)).parent_id = DELETED_ENTRY) :
    find_empty v img = some i0 := by
  unfold find_empty
  have h1 : ¬ LONG_LIMIT ≤ v.dirstart * v.bytesperblock := by
    simp only [Vol.entry_loc] at hin; omega
  rw [if_neg h1]
  apply find_empty_loop_spec v img i0 hin hbefore hat i0 0 _ (by omega)
  simp only [Vol.entry_loc, ENTRY_SIZE] at hin ⊢
  omega

theorem get_free_id_loop_lt (v : Vol) (img : Image) :
    ∀ (fuel i id r : Nat), id < 2 ^ 64 → get_free_id_loop v img fuel i id = some r → r < 2 ^ 64 := by
  intro fuel
  induction fuel with
  | zero => intro i id r _ h; simp [get_free_id_loop] at h
  | succ fuel ih =>
    intro i id r hid h
    simp only [get_free_id_loop] at h
    split at h
    · cases h
    · split at h
      · cases h; exact hid
      · refine ih _ _ _ ?_ h
        split
        · exact Nat.mod_lt _ (by norm_num)
        · exact hid

theorem get_free_id_lt (v : Vol) (img : Image) (id : Nat) (h : get_free_id v img = some id) :
    id < 2 ^ 64 := by
  unfold get_free_id at h
  split at h
  · cases h
  · exact get_free_id_loop_lt v img _ _ _ _ (by norm_num) h

theorem entry_byte_parent (e : entry_t) (i : Nat) (h : i < 8) :
    entry_byte e i = le_byte e.parent_id i := by
  simp only [entry_byte, if_pos h]

theorem entry_byte_type (e : entry_t) : entry_byte e 8 = le_byte e.type 0 := by
  simp [entry_byte]

theorem entry_byte_name (e : entry_t) (i : Nat) (h : i < 201) :
    entry_byte e (9 + i) = e.name.getD i 0 := by
  unfold entry_byte
  rw [if_neg (show ¬ (9 + i < 8) by omega),
    if_neg (show ¬ (9 + i < 9) by omega),
    if_pos (show 9 + i < 210 by omega),
    Nat.add_sub_cancel_left]

theorem entry_byte_atime (e : entry_t) (i : Nat) (h : i < 8) :
    entry_byte e (210 + i) = le_byte e.atime i := by
  unfold entry_byte
  rw [if_neg (show ¬ (210 + i < 8) by omega),
    if_neg (show ¬ (210 + i < 9) by omega),
    if_neg (show ¬ (210 + i < 210) by omega),
    if_pos (show 210 + i < 218 by omega),
    Nat.add_sub_cancel_left]

theorem entry_byte_mtime (e : entry_t) (i : Nat) (h : i < 8) :
    entry_byte e (218 + i) = le_byte e.mtime i := by
  unfold entry_byte
  rw [if_neg (show ¬ (218 + i < 8) by omega),
    if_neg (show ¬ (218 + i < 9) by omega),
    if_neg (show ¬ (218 + i < 210) by omega),
    if_neg (show ¬ (218 + i < 218) by omega),
    if_pos (show 218 + i < 226 by omega),
    Nat.add_sub_cancel_left]

theorem entry_byte_perms (e : entry_t) (i : Nat) (h : i < 2) :
    entry_byte e (226 + i) = le_byte e.perms i := by
  unfold entry_byte
  rw [if_neg (show ¬ (226 + i < 8) by omega),
    if_neg (show ¬ (226 + i < 9) by omega),
    if_neg (show ¬ (226 + i < 210) by omega),
    if_neg (show ¬ (226 + i < 218) by omega),
    if_neg (show ¬ (226 + i < 226) by omega),
    if_pos (show 226 + i < 228 by omega),
    Nat.add_sub_cancel_left]

theorem entry_byte_owner (e : entry_t) (i : Nat) (h : i < 2) :
    entry_byte e (228 + i) = le_byte e.owner i := by
  unfold entry_byte
  rw [if_neg (show ¬ (228 + i < 8) by omega),
    if_neg (show ¬ (228 + i < 9) by omega),
    if_neg (show ¬ (228 + i < 210) by omega),
    if_neg (show ¬ (228 + i < 218) by omega),
    if_neg (show ¬ (228 + i < 226) by omega),
    if_neg (show ¬ (228 + i < 228) by omega),
    if_pos (show 228 + i < 230 by omega),
    Nat.add_sub_cancel_left]

theorem entry_byte_group (e : entry_t) (i : Nat) (h : i < 2) :
    entry_byte e (230 + i) = le_byte e.group i := by
  unfold entry_byte
  rw [if_neg (show ¬ (230 + i < 8) by omega),
    if_neg (show ¬ (230 + i < 9) by omega),
    if_neg (show ¬ (230 + i < 210) by omega),
    if_neg (show ¬ (230 + i < 218) by omega),
    if_neg (show ¬ (230 + i < 226) by omega),
    if_neg (show ¬ (230 + i < 228) by omega),
    if_neg (show ¬ (230 + i < 230) by omega),
    if_pos (show 230 + i < 232 by omega),
    Nat.add_sub_cancel_left]

theorem entry_byte_ctime (e : entry_t) (i : Nat) (h : i < 8) :
    entry_byte e (232 + i) = le_byte e.ctime i := by
  unfold entry_byte
  rw [if_neg (show ¬ (232 + i < 8) by omega),
    if_neg (show ¬ (232 + i < 9) by omega),
    if_neg (show ¬ (232 + i < 210) by omega),
    if_neg (show ¬ (232 + i < 218) by omega),
    if_neg (show ¬ (232 + i < 226) by omega),
    if_neg (show ¬ (232 + i < 228) by omega),
    if_neg (show ¬ (232 + i < 230) by omega),
    if_neg (show ¬ (232 + i < 232) by omega),
    if_pos (show 232 + i < 240 by omega),
    Nat.add_sub_cancel_left]

theorem entry_byte_payload (e : entry_t) (i : Nat) (h : i < 8) :
    entry_byte e (240 + i) = le_byte e.payload i := by
  unfold entry_byte
  rw [if_neg (show ¬ (240 + i < 8) by omega),
    if_neg (show ¬ (240 + i < 9) by omega),
    if_neg (show ¬ (240 + i < 210) by omega),
    if_neg (show ¬ (240 + i < 218) by omega),
    if_neg (show ¬ (240 + i < 226) by omega),
    if_neg (show ¬ (240 + i < 228) by omega),
    if_neg (show ¬ (240 + i < 230) by omega),
    if_neg (show ¬ (240 + i < 232) by omega),
    if_neg (show ¬ (240 + i < 240) by omega),
    if_pos (show 240 + i < 248 by omega),
    Nat.add_sub_cancel_left]

theorem entry_byte_size (e : entry_t) (i : Nat) (h : i < 8) :
    entry_byte e (248 + i) = le_byte e.size i := by
  unfold entry_byte
  rw [if_neg (show ¬ (248 + i < 8) by omega),
    if_neg (show ¬ (248 + i < 9) by omega),
    if_neg (show ¬ (248 + i < 210) by omega),
    if_neg (show ¬ (248 + i < 218) by omega),
    if_neg (show ¬ (248 + i < 226) by omega),
    if_neg (show ¬ (248 + i < 228) by omega),
    if_neg (show ¬ (248 + i < 230) by omega),
    if_neg (show ¬ (248 + i < 232) by omega),
    if_neg (show ¬ (248 + i < 240) by omega),
    if_neg (show ¬ (248 + i < 248) by omega),
    Nat.add_sub_cancel_left]

theorem rdLE_eq_of_bytes (img : Image) (n loc x : Nat) (hx : x < 256 ^ n)
    (h : ∀ i, i < n → img.get (loc + i) = le_byte x i % 256) : rdLE img n loc = x := by
  rw [rdLE_le_byte x n img loc h, Nat.mod_eq_of_lt hx]

/-- An image region that holds the bytes of a well-formed `e` reads back as `e`. -/
theorem entry_at_of_bytes (img : Image) (loc : Nat) (e : entry_t) (hok : entry_ok e)
    (h : ∀ k, k < 256 → img.get (loc + k) = entry_byte e k % 256) : entry_at img loc = e := by
  obtain ⟨h1, h2, h3, h4, h5, h6, h7, h8, h9, h10, h11, h12⟩ := hok
  have e1 : rdLE img 8 loc = e.parent_id := rdLE_eq_of_bytes _ _ _ _ (by norm_num; exact h1)
    (fun i hi => by rw [h i (by omega), entry_byte_parent e i hi])
  have e2 : img.get (loc + 8) = e.type := by
    rw [h 8 (by omega), entry_byte_type, Nat.mod_eq_of_lt (le_byte_lt _ _)]
    simp only [le_byte, pow_zero, Nat.div_one]
    exact Nat.mod_eq_of_lt h2
  have e3 : img.read (loc + 9) FILENAME_LEN = e.name := by
    apply List.ext_getElem
    · rw [length_read, h3]
    · intro i hi1 hi2
      rw [length_read] at hi1
      simp only [FILENAME_LEN] at hi1
      simp only [Image.read, List.getElem_map, List.getElem_range]
      rw [show loc + 9 + i = loc + (9 + i) by omega, h (9 + i) (by omega), entry_byte_name e i hi1,
        List.getD_eq_getElem _ _ hi2]
      exact Nat.mod_eq_of_lt (h4 _ (List.getElem_mem _))
  have e4 : rdLE img 8 (loc + 210) = e.atime := rdLE_eq_of_bytes _ _ _ _ (by norm_num; exact h5)
    (fun i hi => by rw [show loc + 210 + i = loc + (210 + i) by omega, h _ (by omega),
      entry_byte_atime e i hi])
  have e5 : rdLE img 8 (loc + 218) = e.mtime := rdLE_eq_of_bytes _ _ _ _ (by norm_num; exact h6)
    (fun i hi => by rw [show loc + 218 + i = loc + (218 + i) by omega, h _ (by omega),
      entry_byte_mtime e i hi])
  have e6 : rdLE img 2 (loc + 226) = e.perms := rdLE_eq_of_bytes _ _ _ _ (by norm_num; exact h7)
    (fun i hi => by rw [show loc + 226 + i = loc + (226 + i) by omega, h _ (by omega),
      entry_byte_perms e i hi])
  have e7 : rdLE img 2 (loc + 228) = e.owner := rdLE_eq_of_bytes _ _ _ _ (by norm_num; exact h8)
    (fun i hi => by rw [show loc + 228 + i = loc + (228 + i) by omega, h _ (by omega),
      entry_byte_owner e i hi])
  have e8 : rdLE img 2 (loc + 230) = e.group := rdLE_eq_of_bytes _ _ _ _ (by norm_num; exact h9)
    (fun i hi => by rw [show loc + 230 + i = loc + (230 + i) by omega, h _ (by omega),
      entry_byte_group e i hi])
  have e9 : rdLE img 8 (loc + 232) = e.ctime := rdLE_eq_of_bytes _ _ _ _ (by norm_num; exact h10)
    (fun i hi => by rw [show loc + 232 + i = loc + (232 + i) by omega, h _ (by omega),
      entry_byte_ctime e i hi])
  have e10 : rdLE img 8 (loc + 240) = e.payload := rdLE_eq_of_bytes _ _ _ _ (by norm_num; exact h11)
    (fun i hi => by rw [show loc + 240 + i = loc + (240 + i) by omega, h _ (by omega),
      entry_byte_payload e i hi])
  have e11 : rdLE img 8 (loc + 248) = e.size := rdLE_eq_of_bytes _ _ _ _ (by norm_num; exact h12)
    (fun i hi => by rw [show loc + 248 + i = loc + (248 + i) by omega, h _ (by omega),
      entry_byte_size e i hi])
  simp only [entry_at, e1, e2, e3, e4, e5, e6, e7, e8, e9, e10, e11]

theorem entry_at_write (img : Image) (loc : Nat) (e : entry_t) (hok : entry_ok e) :
    entry_at (img.write loc ENTRY_SIZE (entry_byte e)) loc = e := by
  apply entry_at_of_bytes _ _ _ hok
  intro k hk
  rw [get_write, if_pos (by simp only [ENTRY_SIZE]; omega)]
  congr 2; omega

theorem entry_at_ok (img : Image) (loc : Nat) : entry_ok (entry_at img loc) := by
  have q : ∀ l, rdLE img 8 l < 2 ^ 64 := fun l => by have := rdLE_lt img 8 l; norm_num at this ⊢; exact this
  have w : ∀ l, rdLE img 2 l < 2 ^ 16 := fun l => by have := rdLE_lt img 2 l; norm_num at this ⊢; exact this
  refine ⟨q _, get_lt _ _, length_read _ _ _, ?_, q _, q _, w _, w _, w _, q _, q _, q _⟩
  intro c hc
  simp only [entry_at, Image.read, List.mem_map] at hc
  obtain ⟨i, _, rfl⟩ := hc
  exact get_lt _ _

/-- The struct read from the image has the bytes of the image. -/
theorem entry_byte_entry_at (img : Image) (loc k : Nat) (hk : k < 256) :
    entry_byte (entry_at img loc) k = img.get (loc + k) := by
  by_cases c0 : k < 8
  · rw [entry_byte_parent _ _ c0]
    exact le_byte_rdLE img 8 loc k c0
  by_cases c1 : k < 9
  · have : k = 8 := by omega
    subst this
    rw [entry_byte_type]
    simp only [entry_at, le_byte, pow_zero, Nat.div_one]
    exact Nat.mod_eq_of_lt (get_lt _ _)
  by_cases c2 : k < 210
  · rw [show k = 9 + (k - 9) by omega, entry_byte_name _ _ (by omega)]
    simp only [entry_at, Image.read, FILENAME_LEN]
    rw [List.getD_eq_getElem _ _ (by simp; omega)]
    simp only [List.getElem_map, List.getElem_range]
    rw [show loc + 9 + (k - 9) = loc + (9 + (k - 9)) by omega]
  by_cases c3 : k < 218
  · rw [show k = 210 + (k - 210) by omega, entry_byte_atime _ _ (by omega)]
    simp only [entry_at]
    rw [le_byte_rdLE img 8 _ _ (by omega)]
    rw [show loc + 210 + (k - 210) = loc + (210 + (k - 210)) by omega]
  by_cases c4 : k < 226
  · rw [show k = 218 + (k - 218) by omega, entry_byte_mtime _ _ (by omega)]
    simp only [entry_at]
    rw [le_byte_rdLE img 8 _ _ (by omega)]
    rw [show loc + 218 + (k - 218) = loc + (218 + (k - 218)) by omega]
  by_cases c5 : k < 228
  · rw [show k = 226 + (k - 226) by omega, entry_byte_perms _ _ (by omega)]
    simp only [entry_at]
    rw [le_byte_rdLE img 2 _ _ (by omega)]
    rw [show loc + 226 + (k - 226) = loc + (226 + (k - 226)) by omega]
  by_cases c6 : k < 230
  · rw [show k = 228 + (k - 228) by omega, entry_byte_owner _ _ (by omega)]
    simp only [entry_at]
    rw [le_byte_rdLE img 2 _ _ (by omega)]
    rw [show loc + 228 + (k - 228) = loc + (228 + (k - 228)) by omega]
  by_cases c7 : k < 232
  · rw [show k = 230 + (k - 230) by omega, entry_byte_group _ _ (by omega)]
    simp only [entry_at]
    rw [le_byte_rdLE img 2 _ _ (by omega)]
    rw [show loc + 230 + (k - 230) = loc + (230 + (k - 230)) by omega]
  by_cases c8 : k < 240
  · rw [show k = 232 + (k - 232) by omega, entry_byte_ctime _ _ (by omega)]
    simp only [entry_at]
    rw [le_byte_rdLE img 8 _ _ (by omega)]
    rw [show loc + 232 + (k - 232) = loc + (232 + (k - 232)) by omega]
  by_cases c9 : k < 248
  · rw [show k = 240 + (k - 240) by omega, entry_byte_payload _ _ (by omega)]
    simp only [entry_at]
    rw [le_byte_rdLE img 8 _ _ (by omega)]
    rw [show loc + 240 + (k - 240) = loc + (240 + (k - 240)) by omega]
  · rw [show k = 248 + (k - 248) by omega, entry_byte_size _ _ (by omega)]
    simp only [entry_at]
    rw [le_byte_rdLE img 8 _ _ (by omega)]
    rw [show loc + 248 + (k - 248) = loc + (248 + (k - 248)) by omega]

theorem fread_entry_some (img : Image) (loc : Nat) (e : entry_t) (h : fread_entry img loc = some e) :
    e = entry_at img loc ∧ loc + ENTRY_SIZE ≤ img.size := by
  unfold fread_entry at h
  split at h
  · cases h; exact ⟨rfl, by assumption⟩
  · cases h

theorem rd_entry_some (v : Vol) (img : Image) (i : Nat) (e : entry_t)
    (h : rd_entry v img i = some e) :
    e = entry_at img (v.entry_loc i) ∧ v.entry_loc i + ENTRY_SIZE ≤ img.size ∧
      v.entry_loc i < u64 ((v.dirstart + v.dirsize) * v.bytesperblock) := by
  unfold rd_entry at h
  simp only at h
  split at h
  · cases h
  · split at h
    · cases h
    · obtain ⟨h1, h2⟩ := fread_entry_some _ _ _ h
      exact ⟨h1, h2, by omega⟩

theorem split_acc_ne_nil : ∀ (rest acc : List Nat), split_acc rest acc ≠ [] := by
  intro rest
  induction rest with
  | nil => intro acc; simp [split_acc]
  | cons c rest ih =>
    intro acc
    simp only [split_acc]
    split
    · simp
    · exact ih _

theorem getLastD_cons_of_ne_nil (a : List Nat) (l : List (List Nat)) (h : l ≠ []) :
    (a :: l).getLastD [] = l.getLastD [] := by
  cases l with
  | nil => exact absurd rfl h
  | cons b l => simp [List.getLastD]

/-- What `path_resolver` reports about a path it could walk: the name is the
last component, at most 200 bytes long, and the parent's payload is a u64. -/
theorem resolve_loop_props (v : Vol) (img : Image) (type : Nat) :
    ∀ (rest : List Nat) (parent : entry_t) (acc : List Nat) (r : path_result_t),
      resolve_loop v img type parent acc rest = some r → r.failure = false →
      acc.length ≤ 200 → parent.payload < 2 ^ 64 → (∀ c, c ∈ acc → c < 256) →
      (∀ c, c ∈ rest → c < 256) →
      r.name.length ≤ 200 ∧ r.parent.payload < 2 ^ 64 ∧ (∀ c, c ∈ r.name → c < 256) ∧
        r.name = (split_acc rest acc).getLastD [] := by
  intro rest
  induction rest with
  | nil =>
    intro parent acc r h _ hacc hp hb _
    simp only [resolve_loop] at h
    split at h
    · cases h
    · split at h
      · cases h
        exact ⟨hacc, hp, hb, by simp [split_acc, List.getLastD]⟩
      · split at h
        · cases h
        · cases h
          exact ⟨hacc, hp, hb, by simp [split_acc, List.getLastD]⟩
  | cons c rest ih =>
    intro parent acc r h hf hacc hp hb hr
    simp only [resolve_loop] at h
    split at h
    · rename_i hc
      split at h
      · cases h
      · split at h
        · cases h
          simp [empty_result] at hf
        · split at h
          · cases h
          · rename_i parent1 hrd
            obtain ⟨e1, _, _⟩ := rd_entry_some _ _ _ _ hrd
            have hp1 : parent1.payload < 2 ^ 64 := by
              rw [e1]; exact (entry_at_ok img _).2.2.2.2.2.2.2.2.2.2.1
            obtain ⟨g1, g2, g3, g4⟩ := ih parent1 [] r h hf (by simp) hp1 (by simp)
              (fun x hx => hr x (List.mem_cons_of_mem _ hx))
            refine ⟨g1, g2, g3, ?_⟩
            rw [g4]
            simp only [split_acc, if_pos hc]
            rw [getLastD_cons_of_ne_nil _ _ (split_acc_ne_nil _ _)]
    · rename_i hc
      split at h
      · cases h
      · rename_i hlen
        obtain ⟨g1, g2, g3, g4⟩ := ih parent (acc ++ [c]) r h hf
          (by rw [List.length_append]; simp; omega) hp
          (by
            intro x hx
            rcases List.mem_append.mp hx with hx | hx
            · exact hb x hx
            · simp at hx; subst hx; exact hr _ (List.mem_cons_self _ _))
          (fun x hx => hr x (List.mem_cons_of_mem _ hx))
        refine ⟨g1, g2, g3, ?_⟩
        rw [g4]
        simp only [split_acc, if_neg hc]

theorem resolve_loop_flags (v : Vol) (img : Image) (type : Nat) :
    ∀ (rest : List Nat) (parent : entry_t) (acc : List Nat) (r : path_result_t),
      resolve_loop v img type parent acc rest = some r → r.not_found = true → r.failure = false := by
  intro rest
  induction rest with
  | nil =>
    intro parent acc r h _
    simp only [resolve_loop] at h
    split at h
    · cases h
    · split at h
      · cases h; rfl
      · split at h
        · cases h
        · cases h; rfl
  | cons c rest ih =>
    intro parent acc r h hnf
    simp only [resolve_loop] at h
    split at h
    · split at h
      · cases h
      · split at h
        · cases h
          simp [empty_result] at hnf
        · split at h
          · cases h
          · exact ih _ _ _ h hnf
    · split at h
      · cases h
      · exact ih _ _ _ h hnf

theorem path_resolver_props (v : Vol) (img : Image) (path : List Nat) (type : Nat)
    (r : path_result_t) (h : path_resolver v img path type = some r)
    (hnf : r.not_found = true) (hb : ∀ c, c ∈ path → c < 256) :
    r.failure = false ∧ r.name.length ≤ 200 ∧ r.parent.payload < 2 ^ 64 ∧
      (∀ c, c ∈ r.name → c < 256) ∧ r.name = last_component path := by
  unfold path_resolver at h
  split at h
  · cases h; simp [empty_result] at hnf
  · split at h
    · cases h; simp [empty_result] at hnf
    · have hf : r.failure = false := resolve_loop_flags v img type _ _ _ r h hnf
      have hrest : ∀ c, c ∈ (match path with | 47 :: rest => rest | p => p) → c < 256 := by
        intro c hc
        split at hc
        · exact hb c (List.mem_cons_of_mem _ hc)
        · exact hb c hc
      obtain ⟨g1, g2, g3, g4⟩ := resolve_loop_props v img type _ _ _ r h hf (by simp)
        (by simp [ROOT_ID]) (by simp) hrest
      exact ⟨hf, g1, g2, g3, g4⟩

theorem strcpy_empty (name : List Nat) (h : name.length ≤ 200) :
    strcpy empty_entry.name name = name ++ List.replicate (201 - name.length) 0 := by
  simp only [strcpy, empty_entry, FILENAME_LEN, List.drop_replicate]
  rw [show 201 - name.length = (201 - (name.length + 1)) + 1 by omega, List.replicate_succ]

theorem mkdir_entry_ok (parent : Nat) (name : List Nat) (id tm : Nat)
    (hp : parent < 2 ^ 64) (hn : name.length ≤ 200) (hb : ∀ c, c ∈ name → c < 256)
    (hid : id < 2 ^ 64) (htm : tm < 2 ^ 64) : entry_ok (mkdir_entry parent name id tm) := by
  refine ⟨hp, by simp [mkdir_entry, DIRECTORY_TYPE], ?_, ?_, htm, htm, by simp [mkdir_entry],
    by simp [mkdir_entry, empty_entry], by simp [mkdir_entry, empty_entry], htm, hid,
    by simp [mkdir_entry, empty_entry]⟩
  · simp only [mkdir_entry, strcpy_empty name hn, List.length_append, List.length_replicate,
      FILENAME_LEN]
    omega
  · intro c hc
    simp only [mkdir_entry, strcpy_empty name hn] at hc
    rcases List.mem_append.mp hc with hc | hc
    · exact hb c hc
    · rw [(List.mem_replicate.mp hc).2]; norm_num

/-- The write of `mkdir`, given the identifier.  On a volume whose block
size is a multiple of 512 and whose directory table lies inside the image,
let the path (a byte string) resolve as a directory with `not_found`, let
`i0` be the first slot whose `parent_id` is 0 or `DELETED_ENTRY`, lying
inside the directory table, and let `get_free_id` return `id`.  Then `mkdir`
succeeds without a message and writes the new entry, with payload `id`, into
slot `i0` and nowhere else. -/
theorem mkdir_cmd_writes (v : Vol) (img : Image) (path : List Nat) (tm : Nat)
    (r : path_result_t) (i0 id : Nat)
    (hB : v.bytesperblock % 512 = 0) (hsz : img.size < LONG_LIMIT)
    (htable : (v.dirstart + v.dirsize) * v.bytesperblock ≤ img.size)
    (hpath : ∀ c, c ∈ path → c < 256) (htm : tm < 2 ^ 64)
    (hres : path_resolver v img path DIRECTORY_TYPE = some r) (hnf : r.not_found = true)
    (hbefore : ∀ j, j < i0 → (entry_at img (v.entry_loc j)).parent_id ≠ 0 ∧
      (entry_at img (v.entry_loc j)).parent_id ≠ DELETED_ENTRY)
    (hat : (entry_at img (v.entry_loc i0)).parent_id = 0 ∨
      (entry_at img (v.entry_loc i0)).parent_id = DELETED_ENTRY)
    (htab : v.entry_loc i0 < (v.dirstart + v.dirsize) * v.bytesperblock)
    (hid : get_free_id v img = some id) :
    ∃ img1, mkdir_cmd v img path tm = some (img1, []) ∧ img1.size = img.size ∧
      entry_at img1 (v.entry_loc i0) =
        { parent_id := r.parent.payload, type := 1,
          name := last_component path ++ List.replicate (201 - (last_component path).length) 0,
          atime := tm, mtime := tm, perms := 0o644, owner := 0, group := 0, ctime := tm,
          payload := id, size := 0 } ∧
      (last_component path).length ≤ 200 ∧
      ∀ p, ¬ (v.entry_loc i0 ≤ p ∧ p < v.entry_loc i0 + 256) → img1.get p = img.get p := by
  obtain ⟨_, hn, hp, hnb, hname⟩ := path_resolver_props v img path DIRECTORY_TYPE r hres hnf hpath
  have hBq : 512 * (v.bytesperblock / 512) = v.bytesperblock :=
    Nat.mul_div_cancel' (Nat.dvd_of_mod_eq_zero hB)
  have hBPB : v.BYTES_PER_BLOCK = v.bytesperblock := by
    simp only [Vol.BYTES_PER_BLOCK, Vol.SECTORS_PER_BLOCK, BYTES_PER_SECT]
    rw [mul_comm]; exact hBq
  have hdz : v.dirsize * v.bytesperblock = 512 * (v.dirsize * (v.bytesperblock / 512)) := by
    rw [← mul_assoc, mul_comm 512, mul_assoc, hBq]
  have hin : v.entry_loc i0 + ENTRY_SIZE ≤ img.size := by
    rw [Nat.add_mul] at htab htable
    simp only [Vol.entry_loc, ENTRY_SIZE] at htab ⊢
    omega
  have hfe := find_empty_spec v img i0 hsz hin hbefore hat
  have hidlt := get_free_id_lt v img id hid
  have hok := mkdir_entry_ok r.parent.payload r.name id tm hp hn hnb hidlt htm
  have hwr : wr_entry v img i0 (mkdir_entry r.parent.payload r.name id tm)
      = some (img.write (v.entry_loc i0) ENTRY_SIZE
          (entry_byte (mkdir_entry r.parent.payload r.name id tm))) := by
    unfold wr_entry
    simp only
    rw [if_neg (by simp only [ENTRY_SIZE] at hin; omega), hBPB, u64,
      Nat.mod_eq_of_lt (by simp only [LONG_LIMIT] at hsz; omega), if_neg (by omega)]
  refine ⟨img.write (v.entry_loc i0) ENTRY_SIZE
      (entry_byte (mkdir_entry r.parent.payload r.name id tm)), ?_,
    size_write_of_le _ _ _ _ hin, ?_, by rw [← hname]; exact hn, ?_⟩
  · simp only [mkdir_cmd, hres, hnf, hfe, hid, hwr]
    simp
  · rw [entry_at_write _ _ _ hok, ← hname]
    have := strcpy_empty r.name hn
    simp only [empty_entry] at this
    simp only [mkdir_entry, empty_entry, DIRECTORY_TYPE, this]
  · intro p hp
    rw [get_write, if_neg (by simp only [ENTRY_SIZE]; exact hp)]

/-- The scan of `get_free_id` ends when some slot inside the file has
`parent_id = 0`. -/
theorem get_free_id_loop_total (v : Vol) (img : Image) (z : Nat)
    (hz : (entry_at img (v.entry_loc z)).parent_id = 0)
    (hzin : v.entry_loc z + ENTRY_SIZE ≤ img.size) :
    ∀ (fuel i id : Nat), i ≤ z → z - i < fuel →
      ∃ r, get_free_id_loop v img fuel i id = some r := by
  intro fuel
  induction fuel with
  | zero => intro i id _ h; omega
  | succ fuel ih =>
    intro i id hi hf
    have hin : v.entry_loc i + ENTRY_SIZE ≤ img.size := by
      have := entry_loc_mono v i z hi
      omega
    simp only [get_free_id_loop, fread_entry_eq img _ hin]
    by_cases h0 : (entry_at img (v.entry_loc i)).parent_id = 0
    · exact ⟨id, by simp only [if_pos h0]⟩
    · simp only [if_neg h0]
      have hne : i ≠ z := fun c => h0 (c ▸ hz)
      exact ih (i + 1) _ (by omega) (by omega)

/-- `get_free_id` returns when some slot inside the file has `parent_id = 0`. -/
theorem get_free_id_total (v : Vol) (img : Image) (z : Nat) (hsz : img.size < LONG_LIMIT)
    (hz : (entry_at img (v.entry_loc z)).parent_id = 0)
    (hzin : v.entry_loc z + ENTRY_SIZE ≤ img.size) : ∃ id, get_free_id v img = some id := by
  unfold get_free_id
  rw [if_neg (by simp only [Vol.entry_loc] at hzin; omega)]
  apply get_free_id_loop_total v img z hz hzin _ 0 1 (Nat.zero_le _)
  have : (z + 1) * ENTRY_SIZE ≤ img.size := by
    simp only [Vol.entry_loc, ENTRY_SIZE] at hzin ⊢
    omega
  have := (Nat.le_div_iff_mul_le (by decide : 0 < ENTRY_SIZE)).mpr this
  omega

set_option maxRecDepth 1000000 in
set_option maxHeartbeats 4000000 in
/-- C7 (as stated, refuted): `tombstone_image` loads as the 32 KiB volume,
`/a` resolves as a directory with `not_found` (parent `ROOT_ID`, name `a`),
and the first slot whose `parent_id` is 0 or `DELETED_ENTRY` is slot 0, inside
the directory table: the conditions of the claim hold.  But no slot up to the
end of the file has `parent_id = 0`, the only exit of the scan of
`get_free_id`: the scan does not end, and `mkdir_cmd` writes nothing and does
not return. -/
theorem mkdir_needs_unused_slot :
    load tombstone_image tombstone_image.size = Except.ok vol32k ∧
      (path_resolver vol32k tombstone_image path_a DIRECTORY_TYPE).map
          (fun r => (r.not_found, r.parent.payload, r.name)) = some (true, ROOT_ID, [97]) ∧
      (entry_at tombstone_image (vol32k.entry_loc 0)).parent_id = DELETED_ENTRY ∧
      vol32k.entry_loc 0 < (vol32k.dirstart + vol32k.dirsize) * vol32k.bytesperblock ∧
      find_empty vol32k tombstone_image = some 0 ∧
      get_free_id vol32k tombstone_image = none ∧
      mkdir_cmd vol32k tombstone_image path_a 1000 = none := by
  refine ⟨by rfl, by rfl, by rfl, by decide, by rfl, by rfl, by rfl⟩

/-- C7 (amended: mkdir creation).  On a volume whose block size is a multiple
of 512 and whose directory table lies inside the image, let the path (a byte
string) resolve as a directory with `not_found`, let `i0` be the first slot
whose `parent_id` is 0 or `DELETED_ENTRY`, lying inside the directory table,
and let some slot `z` with `parent_id = 0` lie inside the image file.  Then
`get_free_id` returns an identifier `id`, `mkdir` succeeds without a message,
slot `i0` holds afterwards the entry with `parent_id` = the resolved
parent's payload, type 1, name = the last path component (NUL padded),
payload `id`, perms `0o644`, atime = mtime = ctime = the current time and
owner = group = size = 0; no byte outside slot `i0` changes and the image
keeps its size. -/
theorem mkdir_creates (v : Vol) (img : Image) (path : List Nat) (tm : Nat)
    (r : path_result_t) (i0 z : Nat)
    (hB : v.bytesperblock % 512 = 0) (hsz : img.size < LONG_LIMIT)
    (htable : (v.dirstart + v.dirsize) * v.bytesperblock ≤ img.size)
    (hpath : ∀ c, c ∈ path → c < 256) (htm : tm < 2 ^ 64)
    (hres : path_resolver v img path DIRECTORY_TYPE = some r) (hnf : r.not_found = true)
    (hbefore : ∀ j, j < i0 → (entry_at img (v.entry_loc j)).parent_id ≠ 0 ∧
      (entry_at img (v.entry_loc j)).parent_id ≠ DELETED_ENTRY)
    (hat : (entry_at img (v.entry_loc i0)).parent_id = 0 ∨
      (entry_at img (v.entry_loc i0)).parent_id = DELETED_ENTRY)
    (htab : v.entry_loc i0 < (v.dirstart + v.dirsize) * v.bytesperblock)
    (hz : (entry_at img (v.entry_loc z)).parent_id = 0)
    (hzin : v.entry_loc z + ENTRY_SIZE ≤ img.size) :
    ∃ img1 id, get_free_id v img = some id ∧
      mkdir_cmd v img path tm = some (img1, []) ∧ img1.size = img.size ∧
      entry_at img1 (v.entry_loc i0) =
        { parent_id := r.parent.payload, type := 1,
          name := last_component path ++ List.replicate (201 - (last_component path).length) 0,
          atime := tm, mtime := tm, perms := 0o644, owner := 0, group := 0, ctime := tm,
          payload := id, size := 0 } ∧
      (last_component path).length ≤ 200 ∧
      ∀ p, ¬ (v.entry_loc i0 ≤ p ∧ p < v.entry_loc i0 + 256) → img1.get p = img.get p := by
  obtain ⟨id, hid⟩ := get_free_id_total v img z hsz hz hzin
  obtain ⟨img1, h⟩ := mkdir_cmd_writes v img path tm r i0 id hB hsz htable hpath htm hres hnf
    hbefore hat htab hid
  exact ⟨img1, id, hid, h⟩

set_option maxRecDepth 100000 in
/-- Scenarios S2 and S3 on the fresh 32 KiB volume: `mkdir /a` puts into
slot 0 the entry (parent `ROOT_ID`, type 1, name `a`, payload 1), and the
following `mkdir /a/b` puts into slot 1 the entry (parent 1, name `b`,
payload 2).  The never-used slots are slot 0, then slot 1. -/
theorem mkdir_creates_witness :
    mkdir_cmd vol32k fresh32k path_a 1000 = some (after_mkdir_a, []) ∧
      entry_at after_mkdir_a (vol32k.entry_loc 0) =
        { parent_id := ROOT_ID, type := 1, name := 97 :: List.replicate 200 0,
          atime := 1000, mtime := 1000, perms := 0o644, owner := 0, group := 0, ctime := 1000,
          payload := 1, size := 0 } ∧
      ∃ img2, mkdir_cmd vol32k after_mkdir_a path_a_b 1001 = some (img2, []) ∧
        entry_at img2 (vol32k.entry_loc 1) =
          { parent_id := 1, type := 1, name := 98 :: List.replicate 200 0,
            atime := 1001, mtime := 1001, perms := 0o644, owner := 0, group := 0, ctime := 1001,
            payload := 2, size := 0 } := by
  obtain ⟨img1, id1, hid1, h1, _, h3, _⟩ := mkdir_creates vol32k fresh32k path_a 1000 _ 0 0
    (by decide) (by decide) (by decide) (by decide) (by decide) rfl rfl
    (by intro j hj; omega) (Or.inl rfl) (by decide) rfl (by decide)
  obtain ⟨img2, id2, hid2, g1, _, g3, _⟩ :=
    mkdir_creates vol32k after_mkdir_a path_a_b 1001 _ 1 1
      (by decide) (by decide) (by decide) (by decide) (by decide) rfl rfl
      (by
        intro j hj
        have : j = 0 := by omega
        subst this
        decide) (Or.inl rfl) (by decide) rfl (by decide)
  have e1 : img1 = after_mkdir_a := by
    have : mkdir_cmd vol32k fresh32k path_a 1000 = some (after_mkdir_a, []) := rfl
    rw [this] at h1
    injection h1 with h1
    injection h1 with h1
    exact h1.symm
  have i1 : id1 = 1 := by
    have : get_free_id vol32k fresh32k = some 1 := rfl
    rw [this] at hid1
    injection hid1 with hid1
    exact hid1.symm
  have i2 : id2 = 2 := by
    have : get_free_id vol32k after_mkdir_a = some 2 := rfl
    rw [this] at hid2
    injection hid2 with hid2
    exact hid2.symm
  subst e1 i1 i2
  exact ⟨h1, h3, img2, g1, g3⟩

theorem wr_entry_some (v : Vol) (img img1 : Image) (i : Nat) (e : entry_t)
    (h : wr_entry v img i e = some img1) :
    512 ≤ v.bytesperblock ∧ img1 = img.write (v.entry_loc i) ENTRY_SIZE (entry_byte e) ∧
      v.entry_loc i < LONG_LIMIT ∧
      v.entry_loc i < u64 ((v.dirstart + v.dirsize) * v.BYTES_PER_BLOCK) := by
  unfold wr_entry at h
  simp only at h
  split at h
  · cases h
  · split at h
    · cases h
    · rename_i h1 h2
      cases h
      refine ⟨?_, rfl, by omega, by omega⟩
      by_contra hlt
      have : v.bytesperblock / 512 = 0 := Nat.div_eq_of_lt (by omega)
      simp [Vol.BYTES_PER_BLOCK, Vol.SECTORS_PER_BLOCK, BYTES_PER_SECT, this, u64] at h2

/-- `wr_entry` changes no byte below the directory table. -/
theorem wr_entry_frame (v : Vol) (img img1 : Image) (i : Nat) (e : entry_t)
    (h : wr_entry v img i e = some img1) :
    512 ≤ v.bytesperblock ∧ img.size ≤ img1.size ∧
      ∀ p, ¬ (v.entry_loc i ≤ p ∧ p < v.entry_loc i + 256) → img1.get p = img.get p := by
  obtain ⟨h1, h2, _, _⟩ := wr_entry_some v img img1 i e h
  subst h2
  refine ⟨h1, size_write_le _ _ _ _, fun p hp => ?_⟩
  rw [get_write, if_neg (by simp only [ENTRY_SIZE]; exact hp)]

theorem mkdir_cmd_frame (v : Vol) (img img1 : Image) (path : List Nat) (tm : Nat) (m : List Msg)
    (h : mkdir_cmd v img path tm = some (img1, m)) :
    img1 = img ∨ (512 ≤ v.bytesperblock ∧ img.size ≤ img1.size ∧
      ∃ i, ∀ p, ¬ (v.entry_loc i ≤ p ∧ p < v.entry_loc i + 256) → img1.get p = img.get p) := by
  unfold mkdir_cmd at h
  split at h
  · cases h
  · split at h
    · cases h; exact Or.inl rfl
    · split at h
      · cases h
      · split at h
        · cases h
        · split at h
          · cases h
          · rename_i img2 hwr
            cases h
            obtain ⟨h1, h2, h3⟩ := wr_entry_frame _ _ _ _ _ hwr
            exact Or.inr ⟨h1, h2, _, h3⟩

theorem mkdir_cmd_below (v : Vol) (img img1 : Image) (path : List Nat) (tm : Nat) (m : List Msg)
    (h : mkdir_cmd v img path tm = some (img1, m)) :
    (img1 = img ∨ 512 ≤ v.bytesperblock) ∧ img.size ≤ img1.size ∧
      ∀ p, p < v.dirstart * v.bytesperblock → img1.get p = img.get p := by
  rcases mkdir_cmd_frame v img img1 path tm m h with h1 | ⟨h1, h2, i, h3⟩
  · subst h1; exact ⟨Or.inl rfl, le_refl _, fun _ _ => rfl⟩
  · refine ⟨Or.inr h1, h2, fun p hp => h3 p ?_⟩
    simp only [Vol.entry_loc]
    omega

theorem make_dirs_below (v : Vol) (path : List Nat) (tm : Nat) :
    ∀ (fuel i : Nat) (img : Image) (msgs : List Msg) (img1 : Image) (m : List Msg),
      make_dirs v path tm fuel i img msgs = some (img1, m) →
      (img1 = img ∨ 512 ≤ v.bytesperblock) ∧ img.size ≤ img1.size ∧
        ∀ p, p < v.dirstart * v.bytesperblock → img1.get p = img.get p := by
  intro fuel
  induction fuel with
  | zero => intro i img msgs img1 m h; simp [make_dirs] at h
  | succ fuel ih =>
    intro i img msgs img1 m h
    simp only [make_dirs] at h
    split at h
    · cases h
    · split at h
      · cases h
      · split at h
        · cases h
        · rename_i imga ma hmk
          obtain ⟨a1, a2, a3⟩ := mkdir_cmd_below _ _ _ _ _ _ hmk
          split at h
          · cases h
          · split at h
            · obtain ⟨b1, b2, b3⟩ := ih _ _ _ _ _ h
              refine ⟨?_, le_trans a2 b2, fun p hp => by rw [b3 p hp, a3 p hp]⟩
              rcases b1 with b1 | b1
              · rw [b1]; exact a1
              · exact Or.inr b1
            · cases h
              exact ⟨a1, a2, a3⟩

theorem reserve_loop_frame :
    ∀ (count loc : Nat) (img img1 : Image), reserve_loop count loc img = some img1 →
      ∀ q, q < loc → img1.get q = img.get q := by
  intro count
  induction count with
  | zero => intro loc img img1 h q _; simp only [reserve_loop] at h; cases h; rfl
  | succ count ih =>
    intro loc img img1 h q hq
    simp only [reserve_loop] at h
    split at h
    · cases h
    · rw [ih _ _ _ h q (by omega), get_wr_qword, if_neg (by omega)]

theorem load_fields (img : Image) (S : Nat) (v : Vol) (h : load img S = Except.ok v) :
    img.read 4 8 = SIGNATURE ∧ v.bytesperblock = rd_qword img 28 ∧ v.bytesperblock ≠ 0 ∧
      S % v.bytesperblock = 0 ∧ v.imgsize = S ∧ v.blocks = S / v.bytesperblock ∧
      v.fatsize = u64 (v.blocks * 8) / v.bytesperblock
        + (if u64 (v.blocks * 8) % v.bytesperblock ≠ 0 then 1 else 0) ∧
      v.dirsize = rd_qword img 20 ∧ v.dirstart = u64 (fatstart + v.fatsize) ∧
      v.datastart = u64 (RESERVED_BLOCKS + v.fatsize + v.dirsize) := by
  unfold load at h
  split at h
  · cases h
  · rename_i hsig
    split at h
    · cases h
    · rename_i hz
      split at h
      · cases h
      · rename_i hal
        simp only at h
        injection h with h
        subst h
        simp only [ne_eq, not_not] at hsig hal
        exact ⟨hsig, rfl, hz, hal, rfl, rfl, rfl, rfl, rfl, rfl⟩

/-- Every byte `import_chain` changes lies in a block it claimed or in the
allocation-table entry of one; the claimed blocks had entry 0. -/
theorem import_chain_frame (v : Vol) (img img2 : Image) (src : List Nat) (pl : Nat)
    (h : import_chain v img src = some (pl, img2)) :
    ∃ bl : List Nat,
      (∀ b, b ∈ bl → v.fat img b = 0 ∧ v.fat_loc b + 8 ≤ img.size ∧
        b * v.bytesperblock < LONG_LIMIT) ∧
      bl.Pairwise (fun a b => a < b) ∧
      (pl = END_OF_CHAIN ∨ pl ∈ bl) ∧
      img.size ≤ img2.size ∧
      ((∀ b, b ∈ bl → b * v.bytesperblock + v.bytesperblock ≤ img.size) → img2.size = img.size) ∧
      ∀ p, (∀ b, b ∈ bl →
          ¬ (b * v.bytesperblock ≤ p ∧ p < b * v.bytesperblock + v.bytesperblock) ∧
          ¬ (v.fat_loc b ≤ p ∧ p < v.fat_loc b + 8)) → img2.get p = img.get p := by
  unfold import_chain at h
  split at h
  · cases h
    exact ⟨[], fun b hb => by simp at hb, List.Pairwise.nil, Or.inl rfl, le_refl _, fun _ => rfl,
      fun p _ => rfl⟩
  · split at h
    · cases h
    · split at h
      · cases h
      · rename_i hK
        split at h
        · cases h
        · split at h
          · cases h
          · rename_i bl hbl
            split at h
            · cases h
            · rename_i img1 hc
              split at h
              · cases h
              · rename_i img2' hl
                cases h
                unfold import_blocklist at hbl
                obtain ⟨a1, a2, a3⟩ := alloc_blocks_sound v img _ _ _ hbl
                obtain ⟨c1, c2, c3, c4⟩ := copy_blocks_frame v src _ _ _ _ hc
                obtain ⟨l1, l2, l3, _⟩ := link_blocks_spec v _ _ _ hl
                refine ⟨bl, fun b hb => ⟨(a2 b hb).2.1, (a2 b hb).2.2, c3 b hb⟩, a3, Or.inr ?_,
                  le_trans c1 l1, ?_, ?_⟩
                · cases bl with
                  | nil => simp at a1; exact absurd a1.symm hK
                  | cons b rest => simp
                · intro hin
                  have e1 := c2 hin
                  rw [l2 (fun b hb => by rw [e1]; exact (a2 b hb).2.2), e1]
                · intro p hp
                  rw [l3 p (fun b hb => (hp b hb).2), c4 p (fun b hb => (hp b hb).1)]

/-- The shape of every run of `import_cmd` that returns: the "make
directory" loop yields `img1`; then either nothing else is written, or
`import_chain` runs on `img1` and one `wr_entry` follows. -/
theorem import_cmd_cases (v : Vol) (img img3 : Image) (h : Host) (path : List Nat)
    (m : List Msg) (hrun : import_cmd v img h path = some (img3, m)) :
    ∃ img1, (img1 = img ∨ 512 ≤ v.bytesperblock) ∧ img.size ≤ img1.size ∧
      (∀ p, p < v.dirstart * v.bytesperblock → img1.get p = img.get p) ∧
      (img3 = img1 ∨ ∃ pl img2 i e, import_chain v img1 h.data = some (pl, img2) ∧
        wr_entry v img2 i e = some img3) := by
  unfold import_cmd at hrun
  split at hrun
  · cases hrun
    exact ⟨img, Or.inl rfl, le_refl _, fun _ _ => rfl, Or.inl rfl⟩
  · split at hrun
    · cases hrun
    · rename_i r0 _
      split at hrun
      · cases hrun
      · rename_i img1 msgs hmd
        have hfr : (img1 = img ∨ 512 ≤ v.bytesperblock) ∧ img.size ≤ img1.size ∧
            ∀ p, p < v.dirstart * v.bytesperblock → img1.get p = img.get p := by
          split at hmd
          · exact make_dirs_below _ _ _ _ _ _ _ _ _ hmd
          · cases hmd
            exact ⟨Or.inl rfl, le_refl _, fun _ _ => rfl⟩
        refine ⟨img1, hfr.1, hfr.2.1, hfr.2.2, ?_⟩
        split at hrun
        · cases hrun
        · split at hrun
          · cases hrun; exact Or.inl rfl
          · split at hrun
            · cases hrun; exact Or.inl rfl
            · split at hrun
              · cases hrun
              · rename_i pl img2 hic
                split at hrun
                · split at hrun
                  · cases hrun
                  · rename_i img3' hwr
                    cases hrun
                    exact Or.inr ⟨pl, img2, _, _, hic, hwr⟩
                · split at hrun
                  · cases hrun
                  · split at hrun
                    · cases hrun
                    · rename_i img3' hwr
                      cases hrun
                      exact Or.inr ⟨pl, img2, _, _, hic, hwr⟩

theorem fat_pos_size (v : Vol) (img : Image) (b : Nat) (h : v.fat img b ≠ 0) :
    v.fat_loc b < img.size := by
  by_contra hlt
  apply h
  unfold Vol.fat rd_qword
  apply rdLE_zero
  intro i _
  unfold Image.get
  rw [if_neg (by omega)]

/-- On a loaded volume with 512-byte blocks or larger whose allocation-table
entry 0 is not free, the directory table starts at block 17 or later. -/
theorem loaded_dirstart (img : Image) (v : Vol) (hload : load img img.size = Except.ok v)
    (hsz : img.size < LONG_LIMIT) (hB : 512 ≤ v.bytesperblock) (h0 : v.fat img 0 ≠ 0) :
    17 ≤ v.dirstart := by
  obtain ⟨_, _, _, hal, _, hN, hF, _, hds, _⟩ := load_fields img img.size v hload
  have hpos := fat_pos_size v img 0 h0
  have hN1 : 1 ≤ v.blocks := by
    rw [hN]
    apply Nat.div_pos _ (by omega)
    obtain ⟨q, hq⟩ := Nat.dvd_of_mod_eq_zero hal
    rcases Nat.eq_zero_or_pos q with h | h
    · subst h; simp at hq; omega
    · rw [hq]; exact Nat.le_mul_of_pos_right _ h
  have hNle : v.blocks ≤ img.size / 512 := by
    rw [hN]; exact Nat.div_le_div_left hB (by norm_num)
  simp only [LONG_LIMIT] at hsz
  have hu : u64 (v.blocks * 8) = v.blocks * 8 := Nat.mod_eq_of_lt (by omega)
  rw [hu, ceil_div_eq _ _ (by omega)] at hF
  have hF1 : 1 ≤ v.fatsize := by
    rw [hF]
    exact Nat.div_pos (by omega) (by omega)
  have hF2 : v.fatsize ≤ v.blocks * 8 / 512 + 1 := by
    rw [hF, ← ceil_div_eq _ _ (show 0 < v.bytesperblock by omega)]
    have : v.blocks * 8 / v.bytesperblock ≤ v.blocks * 8 / 512 :=
      Nat.div_le_div_left hB (by norm_num)
    split <;> omega
  rw [hds]
  simp only [u64, fatstart, RESERVED_BLOCKS]
  rw [Nat.mod_eq_of_lt (by omega)]
  omega

theorem format_cmd_frame (img img1 : Image) (B u0 u1 : Nat) (quick : Bool) (hB64 : B < 2 ^ 64)
    (h : format_cmd img B u0 u1 quick = some img1) :
    ∀ q, q < 16 * B → ¬ (4 ≤ q ∧ q < 36) → ¬ (40 ≤ q ∧ q < 56) → img1.get q = img.get q := by
  intro q hq h1 h2
  unfold format_cmd at h
  split at h
  · cases h
  · rename_i i1 hp1
    have hcond : 0 < B ∧ B % 512 = 0 ∧ img.size % B = 0 := by
      unfold format_pass1 at hp1
      split at hp1
      · cases hp1
      · split at hp1
        · cases hp1
        · omega
    obtain ⟨i1', e1, _, _, hg⟩ := format_pass1_spec img img.size B u0 u1 quick hcond.1 hcond.2.1
      hcond.2.2
    rw [hp1] at e1
    cases e1
    have hi1 : i1.get q = img.get q := by
      rw [hg q, if_neg (by omega), if_neg (by omega), if_neg (by omega), if_neg (by omega),
        if_neg (by omega), if_neg (by omega), if_neg (by omega)]
    split at h
    · cases h; exact hi1
    · rename_i v hv
      have hvB : v.bytesperblock = B := by
        rw [(load_fields _ _ _ hv).2.1]
        rw [rd_qword_eq i1 28 B (fun i hi => by
          rw [hg _, if_neg (by omega), if_neg (by omega), if_neg (by omega), if_pos (by omega),
            Nat.add_sub_cancel_left])]
        exact Nat.mod_eq_of_lt hB64
      unfold format_pass2 at h
      rw [reserve_loop_frame _ _ _ _ h q (by rw [hvB]; simp only [fatstart, RESERVED_BLOCKS]; exact hq)]
      exact hi1

/-- C6 (boot-area frame).  Let `p` be one of the bytes 0-3, 36-39, 56-509.
`format` and `quick-format` (block size a u64) leave byte `p` unchanged, and
inside blocks 0..15 they change nothing but bytes 4-35 and 40-55.  On a
loaded volume whose allocation-table entries `0 .. 16+F+D-1` equal
`RESERVED_BLOCK`, `mkdir` and `import` leave byte `p` unchanged. -/
theorem boot_area_frame (img : Image) (p : Nat)
    (hp : p < 4 ∨ (36 ≤ p ∧ p < 40) ∨ (56 ≤ p ∧ p < 510)) :
    (∀ (B u0 u1 : Nat) (quick : Bool) (img1 : Image), B < 2 ^ 64 →
      format_cmd img B u0 u1 quick = some img1 →
      img1.get p = img.get p ∧
      ∀ q, q < 16 * B → ¬ (4 ≤ q ∧ q < 36) → ¬ (40 ≤ q ∧ q < 56) → img1.get q = img.get q) ∧
    (∀ v : Vol, load img img.size = Except.ok v → img.size < LONG_LIMIT →
      (∀ b, b < RESERVED_BLOCKS + v.fatsize + v.dirsize → v.fat img b = RESERVED_BLOCK) →
      (∀ (path : List Nat) (tm : Nat) (img1 : Image) (m : List Msg),
        mkdir_cmd v img path tm = some (img1, m) → img1.get p = img.get p) ∧
      (∀ (h : Host) (path : List Nat) (img1 : Image) (m : List Msg),
        import_cmd v img h path = some (img1, m) → img1.get p = img.get p)) := by
  have hp510 : p < 510 := by omega
  refine ⟨?_, ?_⟩
  · intro B u0 u1 quick img1 hB64 h
    have hfr := format_cmd_frame img img1 B u0 u1 quick hB64 h
    refine ⟨?_, hfr⟩
    have hB : 512 ≤ B := by
      unfold format_cmd format_pass1 at h
      split at h
      · cases h
      · rename_i i1 hp1
        split at hp1
        · cases hp1
        · omega
    exact hfr p (by omega) (by omega) (by omega)
  · intro v hload hsz hI4
    have h0 : v.fat img 0 ≠ 0 := by
      rw [hI4 0 (by simp [RESERVED_BLOCKS])]
      simp [RESERVED_BLOCK]
    refine ⟨?_, ?_⟩
    · intro path tm img1 m h
      obtain ⟨h1, _, h3⟩ := mkdir_cmd_below v img img1 path tm m h
      rcases h1 with h1 | h1
      · rw [h1]
      · have hds := loaded_dirstart img v hload hsz h1 h0
        apply h3
        have : 17 * 512 ≤ v.dirstart * v.bytesperblock := Nat.mul_le_mul hds h1
        omega
    · intro h path img3 m hrun
      obtain ⟨img1, h1, _, h3, h4⟩ := import_cmd_cases v img img3 h path m hrun
      have key : 512 ≤ v.bytesperblock → 17 * 512 ≤ v.dirstart * v.bytesperblock := fun hB =>
        Nat.mul_le_mul (loaded_dirstart img v hload hsz hB h0) hB
      have him1 : img1.get p = img.get p := by
        rcases h1 with h1 | h1
        · rw [h1]
        · exact h3 p (by have := key h1; omega)
      rcases h4 with h4 | ⟨pl, img2, i, e, hic, hwr⟩
      · rw [h4]; exact him1
      · obtain ⟨hB, _, hw⟩ := wr_entry_frame v img2 img3 i e hwr
        have hk := key hB
        obtain ⟨bl, hbl, _, _, _, _, hfr⟩ := import_chain_frame v img1 img2 h.data pl hic
        have hk17 : 17 * v.bytesperblock ≤ v.dirstart * v.bytesperblock :=
          Nat.mul_le_mul_right _ (loaded_dirstart img v hload hsz hB h0)
        have h01 : v.fat img1 0 ≠ 0 := by
          have : v.fat img1 0 = v.fat img 0 := by
            unfold Vol.fat
            apply rd_qword_congr
            intro i hi
            apply h3
            simp only [Vol.fat_loc, fatstart, RESERVED_BLOCKS]
            omega
          rw [this]; exact h0
        rw [hw p (by simp only [Vol.entry_loc]; omega), hfr p ?_, him1]
        intro b hb
        have hb0 : b ≠ 0 := fun c => h01 (c ▸ (hbl b hb).1)
        have hbB : 512 ≤ b * v.bytesperblock :=
          le_trans hB (Nat.le_mul_of_pos_left _ (Nat.pos_of_ne_zero hb0))
        simp only [Vol.fat_loc, fatstart, RESERVED_BLOCKS]
        constructor <;> omega

set_option maxRecDepth 100000 in
/-- Byte 100 of the fresh 32 KiB volume survives a quick format, `mkdir /a`
and `import` of a file to `/x`. -/
theorem boot_area_frame_witness :
    (∃ img1, format_cmd fresh32k 512 1 2 true = some img1 ∧ img1.get 100 = fresh32k.get 100) ∧
      mkdir_cmd vol32k fresh32k path_a 1000 = some (after_mkdir_a, []) ∧
      after_mkdir_a.get 100 = fresh32k.get 100 ∧
      import_cmd vol32k fresh32k (host_file small_file) path_x = some (after_import_x, []) ∧
      after_import_x.get 100 = fresh32k.get 100 := by
  have hp : 100 < 4 ∨ (36 ≤ 100 ∧ 100 < 40) ∨ (56 ≤ 100 ∧ 100 < 510) := by decide
  have hI4 : ∀ b, b < RESERVED_BLOCKS + vol32k.fatsize + vol32k.dirsize →
      vol32k.fat fresh32k b = RESERVED_BLOCK := by decide
  obtain ⟨img1, h1, _⟩ := format_cmd_spec fresh32k 512 1 2 true (by decide) (by decide)
    (by decide) (by decide) (by decide)
  have hvol := (boot_area_frame fresh32k 100 hp).2 vol32k rfl (by decide) hI4
  exact ⟨⟨img1, h1, ((boot_area_frame fresh32k 100 hp).1 512 1 2 true img1 (by decide) h1).1⟩,
    rfl, hvol.1 path_a 1000 after_mkdir_a [] rfl,
    rfl, hvol.2 (host_file small_file) path_x after_import_x [] rfl⟩

theorem entry_byte_update (e : entry_t) (pl mt k : Nat)
    (h1 : ¬ (218 ≤ k ∧ k < 226)) (h2 : ¬ (240 ≤ k ∧ k < 248)) :
    entry_byte { e with payload := pl, mtime := mt } k = entry_byte e k := by
  unfold entry_byte
  by_cases c0 : k < 8
  · rw [if_pos c0, if_pos c0]
  rw [if_neg c0, if_neg c0]
  by_cases c1 : k < 9
  · rw [if_pos c1, if_pos c1]
  rw [if_neg c1, if_neg c1]
  by_cases c2 : k < 210
  · rw [if_pos c2, if_pos c2]
  rw [if_neg c2, if_neg c2]
  by_cases c3 : k < 218
  · rw [if_pos c3, if_pos c3]
  rw [if_neg c3, if_neg c3, if_neg (show ¬ k < 226 by omega), if_neg (show ¬ k < 226 by omega)]
  by_cases c5 : k < 228
  · rw [if_pos c5, if_pos c5]
  rw [if_neg c5, if_neg c5]
  by_cases c6 : k < 230
  · rw [if_pos c6, if_pos c6]
  rw [if_neg c6, if_neg c6]
  by_cases c7 : k < 232
  · rw [if_pos c7, if_pos c7]
  rw [if_neg c7, if_neg c7]
  by_cases c8 : k < 240
  · rw [if_pos c8, if_pos c8]
  rw [if_neg c8, if_neg c8, if_neg (show ¬ k < 248 by omega), if_neg (show ¬ k < 248 by omega)]

/-- A resolution that is neither `failure` nor `not_found` and went through
the directory table returns the entry `rd_entry` reads at `target_entry`. -/
theorem resolve_loop_found (v : Vol) (img : Image) (type : Nat) :
    ∀ (rest : List Nat) (parent : entry_t) (acc : List Nat) (r : path_result_t),
      resolve_loop v img type parent acc rest = some r → r.failure = false →
      r.not_found = false → rd_entry v img r.target_entry = some r.target := by
  intro rest
  induction rest with
  | nil =>
    intro parent acc r h _ hnf
    simp only [resolve_loop] at h
    split at h
    · cases h
    · split at h
      · cases h; simp at hnf
      · split at h
        · cases h
        · rename_i hrd
          cases h
          exact hrd
  | cons c rest ih =>
    intro parent acc r h hf hnf
    simp only [resolve_loop] at h
    split at h
    · split at h
      · cases h
      · split at h
        · cases h
          simp [empty_result] at hf
        · split at h
          · cases h
          · exact ih _ _ _ h hf hnf
    · split at h
      · cases h
      · exact ih _ _ _ h hf hnf

theorem path_resolver_found (v : Vol) (img : Image) (path : List Nat) (r : path_result_t)
    (h : path_resolver v img path FILE_TYPE = some r) (hf : r.failure = false)
    (hnf : r.not_found = false) : rd_entry v img r.target_entry = some r.target := by
  unfold path_resolver at h
  split at h
  · rename_i c; simp [FILE_TYPE, DIRECTORY_TYPE] at c
  · split at h
    · cases h; simp at hf
    · exact resolve_loop_found v img _ _ _ _ r h hf hnf

/-- Geometry of a loaded volume with blocks of at least 512 bytes. -/
theorem loaded_geometry (img : Image) (v : Vol) (hload : load img img.size = Except.ok v)
    (hsz : img.size < LONG_LIMIT) (hB : 512 ≤ v.bytesperblock) :
    v.blocks * v.bytesperblock = img.size ∧ v.blocks * 8 ≤ v.fatsize * v.bytesperblock ∧
      v.dirstart = 16 + v.fatsize ∧ v.fatsize ≤ v.blocks * 8 / 512 + 1 ∧
      v.blocks ≤ img.size / 512 := by
  obtain ⟨_, _, _, hal, _, hN, hF, _, hds, _⟩ := load_fields img img.size v hload
  have hNle : v.blocks ≤ img.size / 512 := by
    rw [hN]; exact Nat.div_le_div_left hB (by norm_num)
  simp only [LONG_LIMIT] at hsz
  have hu : u64 (v.blocks * 8) = v.blocks * 8 := Nat.mod_eq_of_lt (by omega)
  rw [hu] at hF
  have hF2 : v.fatsize ≤ v.blocks * 8 / 512 + 1 := by
    rw [hF]
    have : v.blocks * 8 / v.bytesperblock ≤ v.blocks * 8 / 512 :=
      Nat.div_le_div_left hB (by norm_num)
    split <;> omega
  refine ⟨?_, ?_, ?_, hF2, hNle⟩
  · rw [hN]; exact Nat.div_mul_cancel (Nat.dvd_of_mod_eq_zero hal)
  · rw [hF]
    have h1 := Nat.div_add_mod (v.blocks * 8) v.bytesperblock
    have h2 := Nat.mod_lt (v.blocks * 8) (show 0 < v.bytesperblock by omega)
    rw [Nat.add_mul, mul_comm _ v.bytesperblock]
    split
    · omega
    · rename_i h; simp only [ne_eq, not_not] at h; omega
  · rw [hds]
    simp only [u64, fatstart, RESERVED_BLOCKS]
    exact Nat.mod_eq_of_lt (by omega)

/-- A run of `import_chain` on a non-empty source when the first `M`
allocation-table entries lie in the image and hold enough zero entries: the
result, the blocks claimed, the frame and the contents. -/
theorem import_chain_run (v : Vol) (img : Image) (src : List Nat) (M : Nat)
    (hB : 0 < v.bytesperblock) (hM : v.fat_loc M ≤ img.size)
    (hsz : img.size < LONG_LIMIT) (hMB : M * v.bytesperblock ≤ LONG_LIMIT)
    (hsrc : src.length < LONG_LIMIT) (hs : 0 < src.length)
    (hK : blocks_needed v src.length ≤ (free_blocks v img M).length) :
    ∃ img2,
      import_chain v img src
        = some ((lowest_free v img M (blocks_needed v src.length)).headD 0, img2) ∧
      (lowest_free v img M (blocks_needed v src.length)).length = blocks_needed v src.length ∧
      0 < blocks_needed v src.length ∧
      (lowest_free v img M (blocks_needed v src.length)).Pairwise (fun a b => a < b) ∧
      (∀ b, b ∈ lowest_free v img M (blocks_needed v src.length) → b < M ∧ v.fat img b = 0) ∧
      (lowest_free v img M (blocks_needed v src.length)).headD 0
        ∈ lowest_free v img M (blocks_needed v src.length) ∧
      img.size ≤ img2.size ∧
      ((∀ b, b ∈ lowest_free v img M (blocks_needed v src.length) →
        b * v.bytesperblock + v.bytesperblock ≤ img.size) → img2.size = img.size) ∧
      (∀ p, (∀ b, b ∈ lowest_free v img M (blocks_needed v src.length) →
          ¬ (b * v.bytesperblock ≤ p ∧ p < b * v.bytesperblock + v.bytesperblock) ∧
          ¬ (v.fat_loc b ≤ p ∧ p < v.fat_loc b + 8)) → img2.get p = img.get p) ∧
      (∀ i, i < blocks_needed v src.length →
        v.fat img2 ((lowest_free v img M (blocks_needed v src.length)).getD i 0)
          = (lowest_free v img M (blocks_needed v src.length)).getD (i + 1) END_OF_CHAIN) ∧
      (∀ i j, i < blocks_needed v src.length → j < v.bytesperblock →
        i * v.bytesperblock + j < src.length →
        (∀ b, b ∈ lowest_free v img M (blocks_needed v src.length) →
          ¬ (v.fat_loc b ≤ (lowest_free v img M (blocks_needed v src.length)).getD i 0
                * v.bytesperblock + j ∧
             (lowest_free v img M (blocks_needed v src.length)).getD i 0 * v.bytesperblock + j
                < v.fat_loc b + 8)) →
        img2.get ((lowest_free v img M (blocks_needed v src.length)).getD i 0
            * v.bytesperblock + j)
          = src.getD (i * v.bytesperblock + j) 0 % 256) := by
  simp only [lowest_free, blocks_needed] at hK ⊢
  generalize hKdef : (src.length + v.bytesperblock - 1) / v.bytesperblock = K at *
  have hKpos : 0 < K := by
    rw [← hKdef]
    exact Nat.div_pos (by omega) hB
  have hM1 : 1 ≤ M := by
    rcases Nat.eq_zero_or_pos M with h | h
    · subst h
      simp [free_blocks, free_from] at hK
      omega
    · exact h
  have hBlim : v.bytesperblock ≤ LONG_LIMIT :=
    le_trans (Nat.le_mul_of_pos_left _ hM1) hMB
  have hu : u64 (src.length + v.bytesperblock - 1) = src.length + v.bytesperblock - 1 := by
    unfold u64
    apply Nat.mod_eq_of_lt
    simp only [LONG_LIMIT] at hBlim hsrc
    omega
  have hbl : import_blocklist v img src.length = some ((free_blocks v img M).take K) := by
    unfold import_blocklist
    rw [hu, hKdef]
    exact alloc_blocks_complete v img K 0 M (by simpa using hM) hK
  obtain ⟨hlen, hmem, hpw⟩ := alloc_blocks_sound v img K 0 _
    (by unfold import_blocklist at hbl; rw [hu, hKdef] at hbl; exact hbl)
  have hmemM : ∀ b, b ∈ (free_blocks v img M).take K → b < M ∧ v.fat img b = 0 := by
    intro b hb
    have := (mem_free_from v img 0 M b).mp (List.mem_of_mem_take hb)
    exact ⟨by omega, this.2⟩
  have hnd := pairwise_lt_nodup _ hpw
  obtain ⟨img1, hc⟩ := copy_blocks_total v src ((free_blocks v img M).take K) 0 img
    (fun b hb => by
      have h1 := (hmemM b hb).1
      have : (b + 1) * v.bytesperblock ≤ M * v.bytesperblock := Nat.mul_le_mul_right _ h1
      rw [Nat.add_mul] at this
      omega)
  obtain ⟨img2, hl⟩ := link_blocks_total v ((free_blocks v img M).take K) img1
    (fun b hb => by have := (hmem b hb).2.2; omega)
  obtain ⟨c1, c2, _, hcf⟩ := copy_blocks_frame v src _ _ _ _ hc
  have hcc := copy_blocks_content v src _ _ _ _ hc hnd
  obtain ⟨l1, l2, hlf, hlc⟩ := link_blocks_spec v _ _ _ hl
  have hhead : ((free_blocks v img M).take K).headD 0 ∈ (free_blocks v img M).take K := by
    cases hbl' : (free_blocks v img M).take K with
    | nil => rw [hbl'] at hlen; simp at hlen; omega
    | cons b rest => simp
  refine ⟨img2, ?_, hlen, hKpos, hpw, hmemM, hhead, le_trans c1 l1, ?_, ?_, ?_, ?_⟩
  · have h16 : ¬ LONG_LIMIT ≤ fatstart * v.bytesperblock := by
      simp only [Vol.fat_loc] at hM; omega
    simp only [import_chain, if_neg (Nat.ne_of_gt hs), if_neg (Nat.ne_of_gt hB), hu, hKdef,
      if_neg (Nat.ne_of_gt hKpos), if_neg h16, hbl, hc, hl]
  · intro hin
    have e1 := c2 hin
    rw [l2 (fun b hb => by rw [e1]; exact (hmem b hb).2.2), e1]
  · intro p hp
    rw [hlf p (fun b hb => (hp b hb).2), hcf p (fun b hb => (hp b hb).1)]
  · intro i hi
    rw [hlc hnd i (by rw [hlen]; exact hi)]
    unfold u64
    apply Nat.mod_eq_of_lt
    by_cases hlast : i + 1 < ((free_blocks v img M).take K).length
    · have hmem1 : ((free_blocks v img M).take K).getD (i + 1) END_OF_CHAIN
          ∈ (free_blocks v img M).take K := by
        rw [List.getD_eq_getElem _ _ hlast]
        exact List.getElem_mem _
      have := (hmemM _ hmem1).1
      have hM63 : M ≤ LONG_LIMIT := le_trans (Nat.le_mul_of_pos_right _ hB) hMB
      simp only [LONG_LIMIT] at hM63
      omega
    · rw [List.getD_eq_default _ _ (by omega)]
      simp [END_OF_CHAIN]
  · intro i j hi hj hij hno
    rw [hlf _ hno]
    have := hcc i j (by rw [hlen]; exact hi) hj (by omega)
    rw [this, Nat.zero_add]

/-- C10 as the code has it (force overwrite frame).  On a loaded volume with
block size a multiple of 512 whose allocation-table entries `0 .. 16+F+D-1`
equal `RESERVED_BLOCK`, let the destination resolve to a file entry at slot
`t` and let the source fit in the free blocks below `N`.  Then `import -f`
succeeds; slot `t` holds the old entry with only `payload` (the head of the
new chain, `END_OF_CHAIN` for an empty source) and `mtime` replaced - `size`
included in what stays; every other byte of the directory table is
unchanged; every allocation-table entry that was non-zero keeps its value
(the old chain is not freed); and the image keeps its size. -/
theorem import_force_frame (v : Vol) (img : Image) (h : Host) (path : List Nat)
    (r : path_result_t)
    (hload : load img img.size = Except.ok v) (hsz : img.size < LONG_LIMIT)
    (hB : v.bytesperblock % 512 = 0)
    (hI4 : ∀ b, b < RESERVED_BLOCKS + v.fatsize + v.dirsize → v.fat img b = RESERVED_BLOCK)
    (hreg : h.is_reg = true) (hopen : h.can_open = true) (hforce : h.force = true)
    (hsrc : h.data.length < LONG_LIMIT)
    (hfit : blocks_needed v h.data.length ≤ (free_blocks v img v.blocks).length)
    (hres : path_resolver v img path FILE_TYPE = some r)
    (hf : r.failure = false) (hnf : r.not_found = false) :
    ∃ img3 pl, import_cmd v img h path = some (img3, []) ∧
      pl = (if h.data.length = 0 then END_OF_CHAIN
            else (lowest_free v img v.blocks (blocks_needed v h.data.length)).headD 0) ∧
      img3.size = img.size ∧
      r.target = entry_at img (v.entry_loc r.target_entry) ∧
      entry_at img3 (v.entry_loc r.target_entry)
        = { r.target with payload := pl, mtime := u64 h.st_mtime } ∧
      (∀ p, v.dirstart * v.bytesperblock ≤ p →
        p < (v.dirstart + v.dirsize) * v.bytesperblock →
        ¬ (v.entry_loc r.target_entry + 218 ≤ p ∧ p < v.entry_loc r.target_entry + 226) →
        ¬ (v.entry_loc r.target_entry + 240 ≤ p ∧ p < v.entry_loc r.target_entry + 248) →
        img3.get p = img.get p) ∧
      (∀ b, b < v.blocks → v.fat img b ≠ 0 → v.fat img3 b = v.fat img b) := by
  have hB0 : v.bytesperblock ≠ 0 := (load_fields img img.size v hload).2.2.1
  have hB512 : 512 ≤ v.bytesperblock := by omega
  obtain ⟨hNB, hFB, hds, hF2, hNle⟩ := loaded_geometry img v hload hsz hB512
  have hBq : 512 * (v.bytesperblock / 512) = v.bytesperblock :=
    Nat.mul_div_cancel' (Nat.dvd_of_mod_eq_zero hB)
  have hBPB : v.BYTES_PER_BLOCK = v.bytesperblock := by
    simp only [Vol.BYTES_PER_BLOCK, Vol.SECTORS_PER_BLOCK, BYTES_PER_SECT]
    rw [mul_comm]; exact hBq
  obtain ⟨htgt, hLin, hLtab⟩ := rd_entry_some v img _ _ (path_resolver_found v img path r hres hf hnf)
  -- the slot
  have hLds : v.dirstart * v.bytesperblock ≤ v.entry_loc r.target_entry := by
    simp only [Vol.entry_loc]; omega
  have hAT : fatstart * v.bytesperblock + v.blocks * 8 ≤ v.dirstart * v.bytesperblock := by
    rw [hds, Nat.add_mul]; simp only [fatstart, RESERVED_BLOCKS]; omega
  -- the run of import_chain
  have hrun : ∃ pl img2, import_chain v img h.data = some (pl, img2) ∧
      pl = (if h.data.length = 0 then END_OF_CHAIN
            else (lowest_free v img v.blocks (blocks_needed v h.data.length)).headD 0) ∧
      pl < 2 ^ 64 ∧ img2.size = img.size ∧
      (∀ p, fatstart * v.bytesperblock ≤ p → p < (v.dirstart + v.dirsize) * v.bytesperblock →
        (∀ b, b < v.blocks → v.fat img b = 0 → ¬ (v.fat_loc b ≤ p ∧ p < v.fat_loc b + 8)) →
        img2.get p = img.get p) := by
    by_cases hs : h.data.length = 0
    · refine ⟨END_OF_CHAIN, img, by simp only [import_chain, hs, if_true], by rw [if_pos hs],
        by simp [END_OF_CHAIN], rfl, fun _ _ _ _ => rfl⟩
    · have hs' : 0 < h.data.length := Nat.pos_of_ne_zero hs
      have hKpos : 0 < blocks_needed v h.data.length :=
        Nat.div_pos (by omega) (by omega)
      -- a free block below N exists, so the regions lie inside the image
      obtain ⟨b0, hb0⟩ : ∃ b0, b0 ∈ free_blocks v img v.blocks := by
        cases hfb : free_blocks v img v.blocks with
        | nil => rw [hfb] at hfit; simp at hfit; omega
        | cons b rest => exact ⟨b, List.mem_cons_self _ _⟩
      have hb0' := (mem_free_from v img 0 v.blocks b0).mp hb0
      have hdata : ∀ b, b < v.blocks → v.fat img b = 0 →
          (v.dirstart + v.dirsize) * v.bytesperblock ≤ b * v.bytesperblock ∧
          b * v.bytesperblock + v.bytesperblock ≤ img.size := by
        intro b hbN hb
        have hge : RESERVED_BLOCKS + v.fatsize + v.dirsize ≤ b := by
          by_contra hlt
          have := hI4 b (by omega)
          rw [hb] at this
          simp [RESERVED_BLOCK] at this
        constructor
        · apply Nat.mul_le_mul_right
          rw [hds]; simp only [RESERVED_BLOCKS] at hge; omega
        · have : (b + 1) * v.bytesperblock ≤ v.blocks * v.bytesperblock :=
            Nat.mul_le_mul_right _ hbN
          rw [Nat.add_mul, Nat.one_mul, hNB] at this
          exact this
      have hd0 := hdata b0 (by omega) hb0'.2
      have hM : v.fat_loc v.blocks ≤ img.size := by
        have : v.dirstart * v.bytesperblock ≤ (v.dirstart + v.dirsize) * v.bytesperblock :=
          Nat.mul_le_mul_right _ (by omega)
        simp only [Vol.fat_loc]
        omega
      obtain ⟨img2, g1, _, _, _, g5, g6, _, g8, g9, _, _⟩ := import_chain_run v img h.data v.blocks
        (by omega) hM hsz (by rw [hNB]; omega) hsrc hs' hfit
      refine ⟨_, img2, g1, by rw [if_neg hs], ?_, ?_, ?_⟩
      · have := (g5 _ g6).1
        simp only [LONG_LIMIT] at hsz
        omega
      · exact g8 (fun b hb => (hdata b (g5 b hb).1 (g5 b hb).2).2)
      · intro p hp1 hp2 hno
        apply g9
        intro b hb
        have hb' := g5 b hb
        exact ⟨by have := (hdata b hb'.1 hb'.2).1; omega, hno b hb'.1 hb'.2⟩
  obtain ⟨pl, img2, hic, hpl, hpl64, hsz2, hfr2⟩ := hrun
  have hLds2 : v.entry_loc r.target_entry < (v.dirstart + v.dirsize) * v.bytesperblock := by
    have : u64 ((v.dirstart + v.dirsize) * v.bytesperblock)
        ≤ (v.dirstart + v.dirsize) * v.bytesperblock := Nat.mod_le _ _
    omega
  have hwr : wr_entry v img2 r.target_entry { r.target with payload := pl, mtime := u64 h.st_mtime }
      = some (img2.write (v.entry_loc r.target_entry) ENTRY_SIZE
          (entry_byte { r.target with payload := pl, mtime := u64 h.st_mtime })) := by
    unfold wr_entry
    simp only
    rw [if_neg (by simp only [ENTRY_SIZE] at hLin; omega), hBPB, if_neg (by omega)]
  have hok : entry_ok { r.target with payload := pl, mtime := u64 h.st_mtime } := by
    have := entry_at_ok img (v.entry_loc r.target_entry)
    rw [← htgt] at this
    obtain ⟨a1, a2, a3, a4, a5, _, a7, a8, a9, a10, _, a12⟩ := this
    exact ⟨a1, a2, a3, a4, a5, Nat.mod_lt _ (by norm_num), a7, a8, a9, a10, hpl64, a12⟩
  refine ⟨img2.write (v.entry_loc r.target_entry) ENTRY_SIZE
      (entry_byte { r.target with payload := pl, mtime := u64 h.st_mtime }), pl, ?_, hpl, ?_, htgt,
    entry_at_write _ _ _ hok, ?_, ?_⟩
  · simp [import_cmd, hreg, hres, hf, hnf, hforce, hopen, hic, hwr]
  · rw [size_write_of_le _ _ _ _ (by rw [hsz2]; exact hLin), hsz2]
  · intro p hp1 hp2 hm hpay
    rw [get_write]
    by_cases hin : v.entry_loc r.target_entry ≤ p ∧ p < v.entry_loc r.target_entry + ENTRY_SIZE
    · rw [if_pos hin]
      simp only [ENTRY_SIZE] at hin
      rw [entry_byte_update _ _ _ _ (by omega) (by omega), htgt,
        entry_byte_entry_at _ _ _ (by omega),
        show v.entry_loc r.target_entry + (p - v.entry_loc r.target_entry) = p by omega]
      exact Nat.mod_eq_of_lt (get_lt _ _)
    · rw [if_neg hin]
      apply hfr2 p (by simp only [fatstart, RESERVED_BLOCKS] at hAT ⊢; omega) hp2
      intro b hbN _
      simp only [Vol.fat_loc]
      omega
  · intro b hbN hb
    unfold Vol.fat
    apply rd_qword_congr
    intro i hi
    rw [get_write, if_neg (by simp only [Vol.fat_loc, ENTRY_SIZE]; omega)]
    apply hfr2 _ (by simp only [Vol.fat_loc]; omega)
      (by
        have : v.dirstart * v.bytesperblock ≤ (v.dirstart + v.dirsize) * v.bytesperblock :=
          Nat.mul_le_mul_right _ (by omega)
        simp only [Vol.fat_loc]; omega)
    intro b' _ hb'
    have hne : b' ≠ b := fun c => hb (c ▸ hb')
    simp only [Vol.fat_loc]
    omega

set_option maxRecDepth 1000000 in
/-- C10, counterexample.  `full_image` loads as a volume, its
allocation-table entries 0..19 are reserved, `/y` resolves to the file entry
in slot 1, and no block is free.  `import -f` of a two-byte file to `/y`
then claims "block" 67, whose allocation-table entry is bytes 24..31 of
slot 0: the name stored in slot 0 - another directory entry - changes from
`abcdefghijklmno` to that text followed by eight bytes 255, and the image
grows to 34306 bytes. -/
theorem import_force_damages_other_entry :
    load full_image full_image.size = Except.ok vol32k ∧
      (∀ b, b < RESERVED_BLOCKS + vol32k.fatsize + vol32k.dirsize →
        vol32k.fat full_image b = RESERVED_BLOCK) ∧
      (path_resolver vol32k full_image path_y FILE_TYPE).map
        (fun r => (r.failure, r.not_found, r.target_entry)) = some (false, false, 1) ∧
      cstr (entry_at full_image (vol32k.entry_loc 0)).name = long_name ∧
      (import_cmd vol32k full_image (forced_file small_file) path_y).map
        (fun res => (cstr (entry_at res.1 (vol32k.entry_loc 0)).name, res.1.size, res.2))
        = some (long_name ++ List.replicate 8 255, 34306, []) := by
  refine ⟨rfl, by decide, rfl, rfl, rfl⟩

set_option maxRecDepth 1000000 in
/-- Force overwrite on the 32 KiB volume holding `/x` (chain 20, size 2):
`import -f` of the 1000-byte pattern file to `/x` sets the payload of slot 0
to 21, leaves its size at 2 and leaves `AT[20] = END_OF_CHAIN`. -/
theorem import_force_frame_witness :
    ∃ img3, import_cmd vol32k after_import_x (forced_file (pattern_file 1000)) path_x
        = some (img3, []) ∧
      (entry_at img3 (vol32k.entry_loc 0)).payload = 21 ∧
      (entry_at img3 (vol32k.entry_loc 0)).size = 2 ∧
      (entry_at img3 (vol32k.entry_loc 0)).name = (entry_at after_import_x (vol32k.entry_loc 0)).name ∧
      vol32k.fat img3 20 = END_OF_CHAIN ∧ img3.size = after_import_x.size := by
  obtain ⟨img3, pl, h1, h2, h3, h4, h5, _, h7⟩ := import_force_frame vol32k after_import_x
    (forced_file (pattern_file 1000)) path_x _ rfl (by decide) (by decide) (by decide) rfl rfl rfl
    (by decide) (by decide) rfl rfl rfl
  have hpl : pl = 21 := by rw [h2]; rfl
  subst hpl
  have h5' : entry_at img3 (vol32k.entry_loc 0)
      = { entry_at after_import_x (vol32k.entry_loc 0) with payload := 21, mtime := 2 } := h5
  refine ⟨img3, h1, by rw [h5'], by rw [h5']; rfl, by rw [h5'], ?_, h3⟩
  rw [h7 20 (by decide) (by decide)]
  rfl

set_option maxRecDepth 1000000 in
/-- C1 at the failing input.  On the freshly formatted 32 KiB volume
(`B = 512`, 44 usable blocks) `import` of a 512-byte file to `/x` followed
by `export` of `/x` yields an empty file: `export_chain` writes
`size mod B = 0` bytes of the only block.  The same round trip returns the
original for a two-byte file and for an empty file. -/
theorem roundtrip_loses_last_block :
    (import_cmd vol32k fresh32k (host_file (pattern_file 512)) path_x).bind
        (fun r => export_cmd vol32k r.1 path_x) = some (some [], []) ∧
      (pattern_file 512).length = 512 ∧
      (import_cmd vol32k fresh32k (host_file small_file) path_x).bind
        (fun r => export_cmd vol32k r.1 path_x) = some (some small_file, []) ∧
      (import_cmd vol32k fresh32k (host_file []) path_x).bind
        (fun r => export_cmd vol32k r.1 path_x) = some (some [], []) := by
  refine ⟨rfl, rfl, rfl, rfl⟩

/-- Whenever the resolver sets `failure` the target it returns is the zeroed
struct. -/
theorem resolve_loop_failure_target (v : Vol) (img : Image) (type : Nat) :
    ∀ (rest : List Nat) (parent : entry_t) (acc : List Nat) (r : path_result_t),
      resolve_loop v img type parent acc rest = some r → r.failure = true →
      r.target = empty_entry ∧ r.not_found = false := by
  intro rest
  induction rest with
  | nil =>
    intro parent acc r h hf
    simp only [resolve_loop] at h
    split at h
    · cases h
    · split at h
      · cases h; simp [empty_result] at hf
      · split at h
        · cases h
        · cases h; simp [empty_result] at hf
  | cons c rest ih =>
    intro parent acc r h hf
    simp only [resolve_loop] at h
    split at h
    · split at h
      · cases h
      · split at h
        · cases h; exact ⟨rfl, rfl⟩
        · split at h
          · cases h
          · exact ih _ _ _ h hf
    · split at h
      · cases h
      · exact ih _ _ _ h hf

theorem path_resolver_failure_target (v : Vol) (img : Image) (path : List Nat) (type : Nat)
    (r : path_result_t) (h : path_resolver v img path type = some r) (hf : r.failure = true) :
    r.target = empty_entry ∧ r.not_found = false := by
  unfold path_resolver at h
  split at h
  · cases h; simp [empty_result] at hf
  · split at h
    · cases h; exact ⟨rfl, rfl⟩
    · exact resolve_loop_failure_target v img type _ _ _ r h hf

/-- With `failure` set and `not_found` clear, `export_cmd` opens the
destination and runs `export_chain` on the zeroed target: the destination is
left empty and nothing is reported. -/
theorem export_cmd_failure (v : Vol) (img : Image) (path : List Nat) (r : path_result_t)
    (h : path_resolver v img path FILE_TYPE = some r) (hf : r.failure = true)
    (hB : v.bytesperblock ≠ 0) : export_cmd v img path = some (some [], []) := by
  obtain ⟨ht, hnf⟩ := path_resolver_failure_target v img path FILE_TYPE r h hf
  unfold export_cmd
  rw [h]
  simp only [hnf, Bool.false_eq_true, if_false, ht]
  have : export_chain v img empty_entry = some [] := by
    unfold export_chain
    rw [if_neg hB]
    simp [empty_entry, export_loop, END_OF_CHAIN, LONG_LIMIT, u64]
  rw [this]

/-- When the terminal component alone is missing, `export_cmd` reports
`NotFound` and leaves the destination alone. -/
theorem export_cmd_not_found (v : Vol) (img : Image) (path : List Nat) (r : path_result_t)
    (h : path_resolver v img path FILE_TYPE = some r) (hnf : r.not_found = true) :
    export_cmd v img path = some (none, [Msg.NotFound]) := by
  unfold export_cmd
  rw [h]
  simp only [hnf, if_true]

/-- C11 (code evaluated at the failing input): on the freshly formatted
32 KiB volume, the path `/a/b` has a missing non-terminal component and the
resolver sets `failure`; `export_cmd` tests `not_found` only, opens the
destination and leaves it empty without any message.  The same happens for
the path `/`.  Only when the terminal component is the missing one (`/a`)
does it report `NotFound` with the destination untouched. -/
theorem export_missing_parent_opens_destination :
    (path_resolver vol32k fresh32k path_a_b FILE_TYPE).map (fun r => (r.failure, r.not_found))
        = some (true, false) ∧
      export_cmd vol32k fresh32k path_a_b = some (some [], []) ∧
      export_cmd vol32k fresh32k [47] = some (some [], []) ∧
      export_cmd vol32k fresh32k path_a = some (none, [Msg.NotFound]) := by
  refine ⟨by rfl, by rfl, by rfl, by rfl⟩

/-- C18: `path_resolver` never returns with both `failure` and `not_found`
set, so exactly one of failure, not-found and found (neither flag) holds; for
the path `/` with type directory it returns, whatever the image holds, the
found result whose target has payload `ROOT_ID`, and for `/` with type file
it returns failure. -/
theorem resolver_flags (v : Vol) (img : Image) (path : List Nat) (type : Nat)
    (r : path_result_t) (h : path_resolver v img path type = some r) :
    ¬ (r.failure = true ∧ r.not_found = true) ∧
      path_resolver v img [47] DIRECTORY_TYPE
        = some { empty_result with target := { empty_entry with payload := ROOT_ID } } ∧
      path_resolver v img [47] FILE_TYPE = some { empty_result with failure := true } := by
  refine ⟨?_, ?_, ?_⟩
  · rintro ⟨hf, hnf⟩
    have := (path_resolver_failure_target v img path type r h hf).2
    rw [this] at hnf
    cases hnf
  · simp [path_resolver]
  · simp [path_resolver, FILE_TYPE, DIRECTORY_TYPE]

theorem resolver_flags_witness :
    path_resolver vol32k fresh32k path_a DIRECTORY_TYPE
        = some { empty_result with not_found := true,
                                   parent := { empty_entry with payload := ROOT_ID },
                                   name := [97] } ∧
      (¬ ((false : Bool) = true ∧ (true : Bool) = true) ∧
        path_resolver vol32k fresh32k [47] DIRECTORY_TYPE
          = some { empty_result with target := { empty_entry with payload := ROOT_ID } } ∧
        path_resolver vol32k fresh32k [47] FILE_TYPE
          = some { empty_result with failure := true }) :=
  ⟨by rfl, resolver_flags vol32k fresh32k path_a DIRECTORY_TYPE
    { empty_result with not_found := true,
                        parent := { empty_entry with payload := ROOT_ID }, name := [97] }
    (by rfl)⟩

set_option maxRecDepth 100000 in
set_option maxHeartbeats 4000000 in
/-- C12 (code evaluated at the failing input): `import` of a two-byte file to
`/a/f` on the freshly formatted 32 KiB volume.  The `subdir` loop starts at
the leading `/`, so its first `mkdir_cmd` call gets the empty prefix and
creates a directory with the empty name under the root (ID 1, slot 0); `/a`
follows with ID 2 in slot 1 and the file entry, with parent 2, in slot 2.
Two directory entries are created for one missing prefix, and `ls` of the
root shows both.  A later import to `/b/g` reports `AlreadyExists` for the
empty prefix. -/
theorem import_creates_empty_named_directory :
    (import_cmd vol32k fresh32k (host_file small_file) path_a_f).map
        (fun r => (r.2, (rd_entry vol32k r.1 0).map entry_key,
          (rd_entry vol32k r.1 1).map entry_key, (rd_entry vol32k r.1 2).map entry_key,
          (rd_entry vol32k r.1 3).map (fun e => e.parent_id), ls_cmd vol32k r.1 none))
      = some ([], some (ROOT_ID, DIRECTORY_TYPE, [], 1), some (ROOT_ID, DIRECTORY_TYPE, [97], 2),
          some (2, FILE_TYPE, [102], 20), some 0, some ([[91, 93], [91, 97, 93]], [])) ∧
    ((import_cmd vol32k fresh32k (host_file small_file) path_a_f).bind
        (fun r => import_cmd vol32k r.1 (host_file small_file) path_b_g)).map (fun r => r.2)
      = some [Msg.AlreadyExists] := by
  refine ⟨by rfl, by rfl⟩

/-- What `load` does on an image whose stored block size `B` is not 0 (and
whose size is below `2 ^ 60`): `BadSignature` exactly when the bytes 4..11
are not the signature, else `MisalignedImage` exactly when the size is not a
multiple of `B`, else the geometry `N = size / B`, `F = ceil(8N / B)`, `D`
the value at offset 20, directory start `16 + F`, data start
`(16 + F + D) mod 2 ^ 64`, with `F * B ≥ 8 N`. -/
theorem load_spec (img : Image) (S : Nat) (hB : rd_qword img 28 ≠ 0) (hS : S < 2 ^ 60) :
    (img.read 4 8 ≠ SIGNATURE → load img S = Except.error LoadError.BadSignature) ∧
    (img.read 4 8 = SIGNATURE → S % rd_qword img 28 ≠ 0 →
      load img S = Except.error LoadError.MisalignedImage) ∧
    (img.read 4 8 = SIGNATURE → S % rd_qword img 28 = 0 →
      load img S = Except.ok
        { imgsize := S, blocks := S / rd_qword img 28,
          fatsize := spec_fatsize (S / rd_qword img 28) (rd_qword img 28),
          dirsize := rd_qword img 20,
          dirstart := 16 + spec_fatsize (S / rd_qword img 28) (rd_qword img 28),
          datastart :=
            u64 (16 + spec_fatsize (S / rd_qword img 28) (rd_qword img 28) + rd_qword img 20),
          bytesperblock := rd_qword img 28 } ∧
      (S / rd_qword img 28) * 8
        ≤ spec_fatsize (S / rd_qword img 28) (rd_qword img 28) * rd_qword img 28) := by
  have hBpos : 0 < rd_qword img 28 := Nat.pos_of_ne_zero hB
  have hN : S / rd_qword img 28 ≤ S := Nat.div_le_self _ _
  have hu : u64 (S / rd_qword img 28 * 8) = S / rd_qword img 28 * 8 :=
    Nat.mod_eq_of_lt (by omega)
  have hF := ceil_div_eq (S / rd_qword img 28 * 8) (rd_qword img 28) hBpos
  have hFle : spec_fatsize (S / rd_qword img 28) (rd_qword img 28)
      ≤ S / rd_qword img 28 * 8 + 1 := by
    unfold spec_fatsize
    rw [← hF]
    have := Nat.div_le_self (S / rd_qword img 28 * 8) (rd_qword img 28)
    split_ifs <;> omega
  have hFB : (S / rd_qword img 28) * 8
      ≤ spec_fatsize (S / rd_qword img 28) (rd_qword img 28) * rd_qword img 28 := by
    unfold spec_fatsize
    rw [← hF]
    have h1 := Nat.div_add_mod (S / rd_qword img 28 * 8) (rd_qword img 28)
    have h2 := Nat.mod_lt (S / rd_qword img 28 * 8) hBpos
    rw [Nat.add_mul, Nat.mul_comm (S / rd_qword img 28 * 8 / rd_qword img 28)]
    split_ifs with h0
    · rw [Nat.one_mul]; omega
    · rw [Nat.zero_mul]; omega
  refine ⟨?_, ?_, ?_⟩
  · intro hsig
    unfold load
    rw [if_pos hsig]
  · intro hsig hmis
    unfold load
    rw [if_neg (not_not.mpr hsig), if_neg hB, if_pos hmis]
  · intro hsig hal
    refine ⟨?_, ?_⟩
    · unfold load
      rw [if_neg (not_not.mpr hsig), if_neg hB, if_neg (not_not.mpr hal)]
      simp only [hu, fatstart, RESERVED_BLOCKS]
      rw [hF]
      have hd : u64 (16 + spec_fatsize (S / rd_qword img 28) (rd_qword img 28))
          = 16 + spec_fatsize (S / rd_qword img 28) (rd_qword img 28) := by
        unfold spec_fatsize at hFle ⊢
        exact Nat.mod_eq_of_lt (by omega)
      unfold spec_fatsize at hd ⊢
      rw [hd]
    · exact hFB

/-- C20 (code evaluated at the failing input): an image with the signature
and the block size 0 at offset 28.  `main` computes `imgsize % bytesperblock`
with a zero divisor, which traps: the run ends neither with `BadSignature`,
nor with `MisalignedImage`, nor with a geometry. -/
theorem load_zero_block_size_traps :
    zero_block_image.read 4 8 = SIGNATURE ∧ rd_qword zero_block_image 28 = 0 ∧
      load zero_block_image zero_block_image.size = Except.error LoadError.DivisionByZero := by
  refine ⟨by rfl, by rfl, by rfl⟩

/-- The geometry sums are taken in `uint64_t`: with `D = 2 ^ 64 - 1` stored
at offset 20 the data start computed for a 32 KiB image with 512-byte blocks
is block 16. -/
theorem load_huge_dirsize_wraps :
    load huge_dir_image huge_dir_image.size
      = Except.ok { imgsize := 32768, blocks := 64, fatsize := 1, dirsize := 2 ^ 64 - 1,
                    dirstart := 17, datastart := 16, bytesperblock := 512 } := by
  rfl

/-- What a successful `search_loop` found: the first slot at or after `i`
that matches, inside the table and the file, every slot before it being in
use and not matching. -/
theorem search_loop_sound (v : Vol) (img : Image) (name : List Nat) (parent type : Nat) :
    ∀ (fuel i s : Nat), search_loop v img name parent type fuel i = some s →
      s ≠ SEARCH_FAILURE →
      i ≤ s ∧ s < u64 (v.dirsize * v.ENTRIES_PER_BLOCK) ∧ v.entry_loc s + ENTRY_SIZE ≤ img.size ∧
        (entry_at img (v.entry_loc s)).parent_id ≠ 0 ∧
        (entry_at img (v.entry_loc s)).parent_id = parent ∧
        (entry_at img (v.entry_loc s)).type = type ∧
        strcmp_eq (entry_at img (v.entry_loc s)).name name = true ∧
        ∀ j, i ≤ j → j < s → (entry_at img (v.entry_loc j)).parent_id ≠ 0 ∧
          ¬ ((entry_at img (v.entry_loc j)).parent_id = parent ∧
              (entry_at img (v.entry_loc j)).type = type ∧
              strcmp_eq (entry_at img (v.entry_loc j)).name name = true) := by
  intro fuel
  induction fuel with
  | zero => intro i s h; simp [search_loop] at h
  | succ fuel ih =>
    intro i s h hs
    simp only [search_loop] at h
    split at h
    · split at h
      · cases h; exact absurd rfl hs
      · cases h
    · rename_i entry hrd
      obtain ⟨he, hin⟩ := fread_entry_some img _ entry hrd
      subst he
      split at h
      · cases h; exact absurd rfl hs
      · rename_i hp0
        split at h
        · cases h; exact absurd rfl hs
        · rename_i hbound
          split at h
          · rename_i hm
            cases h
            exact ⟨le_refl _, by omega, hin, hp0, hm.1, hm.2.1, hm.2.2,
              fun j h1 h2 => by omega⟩
          · rename_i hm
            obtain ⟨h1, h2, h3, h4, h5, h6, h7, h8⟩ := ih (i + 1) s h hs
            refine ⟨by omega, h2, h3, h4, h5, h6, h7, ?_⟩
            intro j hj1 hj2
            by_cases hji : j = i
            · subst hji; exact ⟨hp0, hm⟩
            · exact h8 j (by omega) hj2

theorem search_sound (v : Vol) (img : Image) (name : List Nat) (parent type s : Nat)
    (h : search v img name parent type = some s) (hs : s ≠ SEARCH_FAILURE) :
    s < u64 (v.dirsize * v.ENTRIES_PER_BLOCK) ∧ v.entry_loc s + ENTRY_SIZE ≤ img.size ∧
      (entry_at img (v.entry_loc s)).parent_id ≠ 0 ∧
      (entry_at img (v.entry_loc s)).parent_id = parent ∧
      (entry_at img (v.entry_loc s)).type = type ∧
      strcmp_eq (entry_at img (v.entry_loc s)).name name = true ∧
      ∀ j, j < s → (entry_at img (v.entry_loc j)).parent_id ≠ 0 ∧
        ¬ ((entry_at img (v.entry_loc j)).parent_id = parent ∧
            (entry_at img (v.entry_loc j)).type = type ∧
            strcmp_eq (entry_at img (v.entry_loc j)).name name = true) := by
  unfold search at h
  split at h
  · cases h
  · obtain ⟨_, h2, h3, h4, h5, h6, h7, h8⟩ := search_loop_sound v img name parent type _ 0 s h hs
    exact ⟨h2, h3, h4, h5, h6, h7, fun j hj => h8 j (Nat.zero_le _) hj⟩

/-- The first component `split_acc` cuts extends the accumulator. -/
theorem split_acc_head (rest : List Nat) :
    ∀ acc : List Nat, ∃ c cs, split_acc rest acc = c :: cs ∧ acc.length ≤ c.length := by
  induction rest with
  | nil => intro acc; exact ⟨acc, [], rfl, le_refl _⟩
  | cons x rest ih =>
    intro acc
    simp only [split_acc]
    split
    · exact ⟨acc, _, rfl, le_refl _⟩
    · obtain ⟨c, cs, h1, h2⟩ := ih (acc ++ [x])
      refine ⟨c, cs, h1, ?_⟩
      simp at h2
      omega

/-- The character loop of `path_resolver` is the component-wise walk, as
long as no component overruns the 200-byte name buffer. -/
theorem resolve_loop_walk (v : Vol) (img : Image) (t : Nat) :
    ∀ (rest : List Nat) (parent : entry_t) (acc : List Nat),
      (∀ c, c ∈ split_acc rest acc → c.length ≤ 200) →
      resolve_loop v img t parent acc rest = spec_walk v img t parent (split_acc rest acc) := by
  intro rest
  induction rest with
  | nil =>
    intro parent acc _
    simp only [resolve_loop, split_acc, spec_walk]
    try rfl
  | cons x rest ih =>
    intro parent acc hlen
    simp only [resolve_loop, split_acc]
    by_cases hx : x = 47
    · simp only [hx, if_true]
      simp only [split_acc, hx, if_true] at hlen
      obtain ⟨c2, cs, h2, _⟩ := split_acc_head rest []
      rw [h2]
      simp only [spec_walk]
      cases hsr : search v img acc parent.payload DIRECTORY_TYPE with
      | none => rfl
      | some s =>
        simp only
        split
        · rfl
        · cases hrd : rd_entry v img s with
          | none => rfl
          | some parent1 =>
            simp only
            rw [← h2]
            apply ih
            intro c hc
            exact hlen c (List.mem_cons_of_mem _ hc)
    · simp only [hx, if_false]
      simp only [split_acc, hx, if_false] at hlen
      obtain ⟨c, cs, h1, h2⟩ := split_acc_head rest (acc ++ [x])
      have hc := hlen c (by rw [h1]; exact List.mem_cons_self _ _)
      simp at h2
      rw [if_neg (by omega)]
      exact ih parent (acc ++ [x]) hlen

/-- A target the character loop returns is the entry in the slot `search`
found: it has the parent's payload as `parent_id`, the requested type and
the last component as name. -/
theorem resolve_loop_target (v : Vol) (img : Image) (type : Nat) :
    ∀ (rest : List Nat) (parent : entry_t) (acc : List Nat) (r : path_result_t),
      resolve_loop v img type parent acc rest = some r → r.failure = false →
      r.not_found = false →
      search v img r.name r.parent.payload type = some r.target_entry ∧
      r.target_entry ≠ SEARCH_FAILURE ∧
      r.target = entry_at img (v.entry_loc r.target_entry) ∧
      r.target.parent_id = r.parent.payload ∧ r.target.type = type ∧
      strcmp_eq r.target.name r.name = true := by
  intro rest
  induction rest with
  | nil =>
    intro parent acc r h _ hnf
    simp only [resolve_loop] at h
    split at h
    · cases h
    · rename_i s hsr
      split at h
      · cases h; simp at hnf
      · rename_i hs
        split at h
        · cases h
        · rename_i target hrd
          cases h
          obtain ⟨he, _, _⟩ := rd_entry_some v img s target hrd
          obtain ⟨_, _, _, h5, h6, h7, _⟩ := search_sound v img acc parent.payload type s hsr hs
          subst he
          exact ⟨hsr, hs, rfl, h5, h6, h7⟩
  | cons c rest ih =>
    intro parent acc r h hf hnf
    simp only [resolve_loop] at h
    split at h
    · split at h
      · cases h
      · split at h
        · cases h; simp at hf
        · split at h
          · cases h
          · exact ih _ _ _ h hf hnf
    · split at h
      · cases h
      · exact ih _ _ _ h hf hnf

/-- Any path but `/` goes through the character loop. -/
theorem path_resolver_general (v : Vol) (img : Image) (path : List Nat) (t : Nat) :
    path ≠ [47] →
    path_resolver v img path t
      = resolve_loop v img t { empty_entry with payload := ROOT_ID } []
          (match path with
           | 47 :: rest => rest
           | p => p) := by
  intro hroot
  unfold path_resolver
  rw [if_neg (fun h => hroot h.2), if_neg (fun h => hroot h.2)]
  try rfl

/-- C17 (as stated, refuted): `/` is the path with `k = 1` whose one
component is empty.  On the freshly formatted 32 KiB volume the walk of the
claim looks the empty name up under the root and reports not-found for
either type; `path_resolver` special-cases the path and returns failure for
type file, and found (target payload `ROOT_ID`, no search) for type
directory. -/
theorem resolver_root_is_not_a_walk :
    components [47] = [[]] ∧
      search vol32k fresh32k [] ROOT_ID FILE_TYPE = some SEARCH_FAILURE ∧
      search vol32k fresh32k [] ROOT_ID DIRECTORY_TYPE = some SEARCH_FAILURE ∧
      (spec_resolve vol32k fresh32k (components [47]) FILE_TYPE).map
          (fun r => (r.failure, r.not_found)) = some (false, true) ∧
      (path_resolver vol32k fresh32k [47] FILE_TYPE).map
          (fun r => (r.failure, r.not_found)) = some (true, false) ∧
      (spec_resolve vol32k fresh32k (components [47]) DIRECTORY_TYPE).map
          (fun r => (r.failure, r.not_found)) = some (false, true) ∧
      (path_resolver vol32k fresh32k [47] DIRECTORY_TYPE).map
          (fun r => (r.failure, r.not_found)) = some (false, false) := by
  refine ⟨by rfl, by rfl, by rfl, by rfl, by rfl, by rfl, by rfl⟩

/-- C17 (amended): for every volume, every path other than `/` whose
components are at most 200 bytes long, and every type, `path_resolver` is
the component-wise walk `spec_resolve` of the path's components: failure
when the lookup of a non-terminal component as a directory under the running
parent finds nothing, otherwise name and parent of the terminal component,
with not-found when its lookup with the requested type finds nothing, and
otherwise the slot that lookup found and the entry stored there, which has
the parent's payload as `parent_id`, the requested type and the terminal
component as name. -/
theorem resolver_is_walk (v : Vol) (img : Image) (path : List Nat) (t : Nat)
    (hroot : path ≠ [47]) (hlen : ∀ c, c ∈ components path → c.length ≤ 200) :
    path_resolver v img path t = spec_resolve v img (components path) t ∧
      ∀ r, path_resolver v img path t = some r → r.failure = false → r.not_found = false →
        search v img r.name r.parent.payload t = some r.target_entry ∧
        r.target_entry ≠ SEARCH_FAILURE ∧
        r.target = entry_at img (v.entry_loc r.target_entry) ∧
        r.target.parent_id = r.parent.payload ∧ r.target.type = t ∧
        strcmp_eq r.target.name r.name = true := by
  refine ⟨?_, ?_⟩
  · rw [path_resolver_general v img path t hroot]
    exact resolve_loop_walk v img t _ _ _ hlen
  · intro r hr hf hnf
    rw [path_resolver_general v img path t hroot] at hr
    exact resolve_loop_target v img t _ _ _ r hr hf hnf

set_option maxRecDepth 100000 in
theorem resolver_is_walk_witness :
    path_a_b ≠ [47] ∧ (∀ c, c ∈ components path_a_b → c.length ≤ 200) ∧
      path_resolver vol32k after_mkdir_a path_a_b FILE_TYPE
        = spec_resolve vol32k after_mkdir_a (components path_a_b) FILE_TYPE ∧
      (spec_resolve vol32k after_mkdir_a (components path_a_b) FILE_TYPE).map
          (fun r => (r.failure, r.not_found, r.name, r.parent.payload))
        = some (false, true, [98], 1) :=
  ⟨by decide, by decide,
    (resolver_is_walk vol32k after_mkdir_a path_a_b FILE_TYPE (by decide) (by decide)).1,
    by rfl⟩

theorem le_byte_reserved (i : Nat) (h : i < 8) :
    le_byte RESERVED_BLOCK i = 240 ∨ le_byte RESERVED_BLOCK i = 255 := by
  interval_cases i <;> simp [le_byte, RESERVED_BLOCK]

/-- The bytes of a reserved allocation-table entry. -/
theorem reserved_byte (v : Vol) (img : Image) (hI4 : reserved_ok v img) (b i : Nat)
    (hb : b < RESERVED_BLOCKS + v.fatsize + v.dirsize) (hi : i < 8) :
    img.get (v.fat_loc b + i) = le_byte RESERVED_BLOCK i := by
  have h := hI4 b hb
  unfold Vol.fat rd_qword at h
  rw [← le_byte_rdLE img 8 (v.fat_loc b) i hi, h]

/-- Every byte of the reserved part of the allocation table is 240 or 255. -/
theorem reserved_region (v : Vol) (img : Image) (hI4 : reserved_ok v img) (p : Nat)
    (h1 : fatstart * v.bytesperblock ≤ p)
    (h2 : p < fatstart * v.bytesperblock + 8 * (RESERVED_BLOCKS + v.fatsize + v.dirsize)) :
    img.get p = 240 ∨ img.get p = 255 := by
  have hb : (p - fatstart * v.bytesperblock) / 8 < RESERVED_BLOCKS + v.fatsize + v.dirsize := by
    apply Nat.div_lt_of_lt_mul
    omega
  have hi : (p - fatstart * v.bytesperblock) % 8 < 8 := Nat.mod_lt _ (by norm_num)
  have hp : p = v.fat_loc ((p - fatstart * v.bytesperblock) / 8)
      + (p - fatstart * v.bytesperblock) % 8 := by
    have := Nat.div_add_mod (p - fatstart * v.bytesperblock) 8
    simp only [Vol.fat_loc]
    omega
  rw [hp, reserved_byte v img hI4 _ _ hb hi]
  exact le_byte_reserved _ hi

/-- Entries are reserved as soon as their bytes are those of the reserved
entries of another image. -/
theorem reserved_ok_congr (v : Vol) (img img1 : Image) (hI4 : reserved_ok v img)
    (h : ∀ p, fatstart * v.bytesperblock ≤ p →
      p < fatstart * v.bytesperblock + 8 * (RESERVED_BLOCKS + v.fatsize + v.dirsize) →
      img1.get p = img.get p) : reserved_ok v img1 := by
  intro b hb
  rw [← hI4 b hb]
  unfold Vol.fat
  apply rd_qword_congr
  intro i hi
  apply h
  · simp only [Vol.fat_loc]; omega
  · simp only [Vol.fat_loc]; omega

theorem rdLE_mod (img : Image) (n loc : Nat) : rdLE img (n + 1) loc % 256 = img.get loc := by
  simp only [rdLE]
  rw [Nat.add_mul_mod_self_left]
  exact Nat.mod_eq_of_lt (get_lt img loc)

/-- A slot whose `parent_id` reads 0 or `DELETED_ENTRY` does not start inside
the reserved part of the allocation table. -/
theorem free_slot_after_reserved (v : Vol) (img : Image) (hI4 : reserved_ok v img) (L : Nat)
    (hL : fatstart * v.bytesperblock ≤ L)
    (hfree : (entry_at img L).parent_id = 0 ∨ (entry_at img L).parent_id = DELETED_ENTRY) :
    fatstart * v.bytesperblock + 8 * (RESERVED_BLOCKS + v.fatsize + v.dirsize) ≤ L := by
  by_contra hlt
  have hb := reserved_region v img hI4 L hL (by omega)
  have hm : (entry_at img L).parent_id % 256 = img.get L := rdLE_mod img 7 L
  rcases hfree with h | h
  · rw [h] at hm; simp at hm; omega
  · rw [h] at hm; simp [DELETED_ENTRY] at hm; omega

/-- A slot whose type byte is 0 has its bytes from offset 8 on outside the
reserved part of the allocation table. -/
theorem file_slot_after_reserved (v : Vol) (img : Image) (hI4 : reserved_ok v img) (L : Nat)
    (hL : fatstart * v.bytesperblock ≤ L) (htype : (entry_at img L).type = 0) :
    fatstart * v.bytesperblock + 8 * (RESERVED_BLOCKS + v.fatsize + v.dirsize) ≤ L + 8 := by
  by_contra hlt
  have hb := reserved_region v img hI4 (L + 8) (by omega) (by omega)
  have : (entry_at img L).type = img.get (L + 8) := rfl
  omega

theorem find_empty_loop_sound (v : Vol) (img : Image) :
    ∀ (fuel i i0 : Nat), find_empty_loop v img fuel i = some i0 →
      i ≤ i0 ∧ v.entry_loc i0 + ENTRY_SIZE ≤ img.size ∧
        ((entry_at img (v.entry_loc i0)).parent_id = 0 ∨
          (entry_at img (v.entry_loc i0)).parent_id = DELETED_ENTRY) ∧
        ∀ j, i ≤ j → j < i0 → (entry_at img (v.entry_loc j)).parent_id ≠ 0 ∧
          (entry_at img (v.entry_loc j)).parent_id ≠ DELETED_ENTRY := by
  intro fuel
  induction fuel with
  | zero => intro i i0 h; simp [find_empty_loop] at h
  | succ fuel ih =>
    intro i i0 h
    simp only [find_empty_loop] at h
    split at h
    · cases h
    · rename_i e hrd
      obtain ⟨he, hin⟩ := fread_entry_some img _ e hrd
      subst he
      split at h
      · rename_i hfree
        cases h
        exact ⟨le_refl _, hin, hfree, fun j h1 h2 => by omega⟩
      · rename_i hn
        obtain ⟨h1, h2, h3, h4⟩ := ih (i + 1) i0 h
        refine ⟨by omega, h2, h3, ?_⟩
        intro j hj1 hj2
        by_cases hji : j = i
        · subst hji
          exact ⟨fun c => hn (Or.inl c), fun c => hn (Or.inr c)⟩
        · exact h4 j (by omega) hj2

/-- The slot `find_empty` returns is the first whose `parent_id` reads 0 or
`DELETED_ENTRY`, and it lies inside the file. -/
theorem find_empty_sound (v : Vol) (img : Image) (i0 : Nat) (h : find_empty v img = some i0) :
    v.entry_loc i0 + ENTRY_SIZE ≤ img.size ∧
      ((entry_at img (v.entry_loc i0)).parent_id = 0 ∨
        (entry_at img (v.entry_loc i0)).parent_id = DELETED_ENTRY) ∧
      ∀ j, j < i0 → (entry_at img (v.entry_loc j)).parent_id ≠ 0 ∧
        (entry_at img (v.entry_loc j)).parent_id ≠ DELETED_ENTRY := by
  unfold find_empty at h
  split at h
  · cases h
  · obtain ⟨_, h2, h3, h4⟩ := find_empty_loop_sound v img _ 0 i0 h
    exact ⟨h2, h3, fun j hj => h4 j (Nat.zero_le _) hj⟩

/-- The two ways `mkdir_cmd` returns. -/
theorem mkdir_cmd_cases (v : Vol) (img img1 : Image) (path : List Nat) (tm : Nat) (m : List Msg)
    (h : mkdir_cmd v img path tm = some (img1, m)) :
    ∃ r, path_resolver v img path DIRECTORY_TYPE = some r ∧
      ((r.not_found = false ∧ img1 = img ∧ m = [Msg.AlreadyExists]) ∨
        (r.not_found = true ∧ m = [] ∧ ∃ i id, find_empty v img = some i ∧
          get_free_id v img = some id ∧
          wr_entry v img i (mkdir_entry r.parent.payload r.name id tm) = some img1)) := by
  unfold mkdir_cmd at h
  split at h
  · cases h
  · rename_i r hr
    refine ⟨r, hr, ?_⟩
    split at h
    · rename_i hnf
      cases h
      exact Or.inl ⟨hnf, rfl, rfl⟩
    · rename_i hnf
      split at h
      · cases h
      · rename_i i hi
        split at h
        · cases h
        · rename_i id hid
          split at h
          · cases h
          · rename_i img2 hwr
            cases h
            exact Or.inr ⟨by simpa using hnf, rfl, i, id, hi, hid, hwr⟩

/-- Writing an entry into a slot that `find_empty` returned keeps the
reserved allocation-table entries, the size of the file and everything
outside the slot. -/
theorem wr_free_slot (v : Vol) (img img1 : Image) (i : Nat) (e : entry_t)
    (hds : 512 ≤ v.bytesperblock → fatstart ≤ v.dirstart)
    (hI4 : reserved_ok v img) (hfe : find_empty v img = some i)
    (hwr : wr_entry v img i e = some img1) :
    reserved_ok v img1 ∧ img1.size = img.size ∧
      fatstart * v.bytesperblock + 8 * (RESERVED_BLOCKS + v.fatsize + v.dirsize)
        ≤ v.entry_loc i ∧
      ∀ p, ¬ (v.entry_loc i ≤ p ∧ p < v.entry_loc i + 256) → img1.get p = img.get p := by
  obtain ⟨hB, himg, _, _⟩ := wr_entry_some v img img1 i e hwr
  obtain ⟨hin, hfree, _⟩ := find_empty_sound v img i hfe
  have hL : fatstart * v.bytesperblock ≤ v.entry_loc i := by
    have := Nat.mul_le_mul_right v.bytesperblock (hds hB)
    simp only [Vol.entry_loc]
    omega
  have hafter := free_slot_after_reserved v img hI4 _ hL hfree
  have hframe : ∀ p, ¬ (v.entry_loc i ≤ p ∧ p < v.entry_loc i + 256) →
      img1.get p = img.get p := by
    intro p hp
    rw [himg, get_write, if_neg (by simp only [ENTRY_SIZE]; exact hp)]
  refine ⟨?_, ?_, hafter, hframe⟩
  · apply reserved_ok_congr v img img1 hI4
    intro p _ h2
    exact hframe p (by omega)
  · rw [himg]
    exact size_write_of_le img _ _ _ hin

/-- The command `mkdir` keeps invariant I4 and the file size. -/
theorem mkdir_cmd_reserved (v : Vol) (img img1 : Image) (path : List Nat) (tm : Nat)
    (m : List Msg) (hds : 512 ≤ v.bytesperblock → fatstart ≤ v.dirstart)
    (hI4 : reserved_ok v img) (h : mkdir_cmd v img path tm = some (img1, m)) :
    reserved_ok v img1 ∧ img1.size = img.size := by
  obtain ⟨r, _, hc⟩ := mkdir_cmd_cases v img img1 path tm m h
  rcases hc with ⟨_, himg, _⟩ | ⟨_, _, i, id, hfe, _, hwr⟩
  · subst himg; exact ⟨hI4, rfl⟩
  · obtain ⟨h1, h2, _, _⟩ := wr_free_slot v img img1 i _ hds hI4 hfe hwr
    exact ⟨h1, h2⟩

/-- The "make directory" loop of `import_cmd` keeps invariant I4 and the
file size, and ends with a path that resolves without failure. -/
theorem make_dirs_reserved (v : Vol) (path : List Nat) (tm : Nat)
    (hds : 512 ≤ v.bytesperblock → fatstart ≤ v.dirstart) :
    ∀ (fuel i : Nat) (img : Image) (msgs : List Msg) (img1 : Image) (m : List Msg),
      reserved_ok v img → make_dirs v path tm fuel i img msgs = some (img1, m) →
      reserved_ok v img1 ∧ img1.size = img.size ∧
        ∃ r, path_resolver v img1 path FILE_TYPE = some r ∧ r.failure = false := by
  intro fuel
  induction fuel with
  | zero => intro i img msgs img1 m _ h; simp [make_dirs] at h
  | succ fuel ih =>
    intro i img msgs img1 m hI4 h
    simp only [make_dirs] at h
    split at h
    · cases h
    · split at h
      · cases h
      · split at h
        · cases h
        · rename_i img2 m2 hmk
          obtain ⟨h1, h2⟩ := mkdir_cmd_reserved v img img2 _ tm m2 hds hI4 hmk
          split at h
          · cases h
          · rename_i r hr
            split at h
            · obtain ⟨h3, h4, h5⟩ := ih _ img2 _ img1 m h1 h
              exact ⟨h3, by omega, h5⟩
            · rename_i hf
              cases h
              exact ⟨h1, h2, r, hr, by simpa using hf⟩

/-- The "make directory" loop ends only when the destination resolves
without failure. -/
theorem make_dirs_resolved (v : Vol) (path : List Nat) (tm : Nat) :
    ∀ (fuel i : Nat) (img : Image) (msgs : List Msg) (img1 : Image) (m : List Msg),
      make_dirs v path tm fuel i img msgs = some (img1, m) →
      ∃ r, path_resolver v img1 path FILE_TYPE = some r ∧ r.failure = false := by
  intro fuel
  induction fuel with
  | zero => intro i img msgs img1 m h; simp [make_dirs] at h
  | succ fuel ih =>
    intro i img msgs img1 m h
    simp only [make_dirs] at h
    split at h
    · cases h
    · split at h
      · cases h
      · split at h
        · cases h
        · split at h
          · cases h
          · rename_i r hr
            split at h
            · exact ih _ _ _ img1 m h
            · rename_i hf
              cases h
              exact ⟨r, hr, by simpa using hf⟩

/-- The ways `import_cmd` returns: `img1` is the image after the "make
directory" loop, `r` the resolution of the destination in it, `img2` the
image after `import_chain`. -/
theorem import_cmd_run (v : Vol) (img img3 : Image) (h : Host) (path : List Nat)
    (m : List Msg) (hrun : import_cmd v img h path = some (img3, m)) :
    (h.is_reg = false ∧ img3 = img) ∨
    ∃ img1 msgs r,
      (img1 = img ∨ make_dirs v path h.now (path.length + 1) 0 img [] = some (img1, msgs)) ∧
      path_resolver v img1 path FILE_TYPE = some r ∧ r.failure = false ∧
      (img3 = img1 ∨ ∃ pl img2, import_chain v img1 h.data = some (pl, img2) ∧
        ((r.not_found = false ∧
            wr_entry v img2 r.target_entry
              { r.target with payload := pl, mtime := u64 h.st_mtime } = some img3) ∨
          (r.not_found = true ∧ ∃ i, find_empty v img2 = some i ∧
            wr_entry v img2 i (file_entry r.parent.payload r.name pl h) = some img3))) := by
  unfold import_cmd at hrun
  split at hrun
  · rename_i hreg
    cases hrun
    exact Or.inl ⟨hreg, rfl⟩
  · right
    split at hrun
    · cases hrun
    · rename_i r0 hr0
      split at hrun
      · cases hrun
      · rename_i img1 msgs hmk
        have hfirst : (img1 = img ∨
            make_dirs v path h.now (path.length + 1) 0 img [] = some (img1, msgs)) ∧
            ∃ r, path_resolver v img1 path FILE_TYPE = some r ∧ r.failure = false := by
          split at hmk
          · rename_i hf
            exact ⟨Or.inr hmk, make_dirs_resolved v path h.now _ _ _ _ img1 msgs hmk⟩
          · rename_i hf
            cases hmk
            exact ⟨Or.inl rfl, r0, hr0, by simpa using hf⟩
        obtain ⟨hfst, r, hr, hrf⟩ := hfirst
        refine ⟨img1, msgs, r, hfst, hr, hrf, ?_⟩
        rw [hr] at hrun
        simp only at hrun
        split at hrun
        · cases hrun; exact Or.inl rfl
        · split at hrun
          · cases hrun; exact Or.inl rfl
          · split at hrun
            · cases hrun
            · rename_i pl img2 hch
              right
              refine ⟨pl, img2, hch, ?_⟩
              split at hrun
              · rename_i hnf
                split at hrun
                · cases hrun
                · rename_i img4 hwr
                  cases hrun
                  exact Or.inl ⟨hnf, hwr⟩
              · rename_i hnf
                split at hrun
                · cases hrun
                · rename_i i hfe
                  split at hrun
                  · cases hrun
                  · rename_i img4 hwr
                    cases hrun
                    exact Or.inr ⟨by simpa using hnf, i, hfe, hwr⟩

/-- Under invariant I4 every block `import_chain` claims is a data block or
lies beyond: none is in the reserved, allocation-table or directory-table
region. -/
theorem import_blocklist_reserved (v : Vol) (img : Image) (hI4 : reserved_ok v img)
    (n : Nat) (bl : List Nat) (h : import_blocklist v img n = some bl) :
    ∀ b, b ∈ bl → RESERVED_BLOCKS + v.fatsize + v.dirsize ≤ b := by
  intro b hb
  unfold import_blocklist at h
  obtain ⟨_, h2, _⟩ := alloc_blocks_sound v img _ 0 bl h
  by_contra hlt
  have := hI4 b (by omega)
  rw [(h2 b hb).2.1] at this
  simp [RESERVED_BLOCK] at this

/-- The function `import_chain` leaves the reserved part of the allocation
table alone. -/
theorem import_chain_reserved (v : Vol) (img img2 : Image) (src : List Nat) (pl : Nat)
    (hB : 512 ≤ v.bytesperblock) (hX : 17 ≤ RESERVED_BLOCKS + v.fatsize + v.dirsize)
    (hI4 : reserved_ok v img) (h : import_chain v img src = some (pl, img2)) :
    (∀ p, p < fatstart * v.bytesperblock + 8 * (RESERVED_BLOCKS + v.fatsize + v.dirsize) →
      img2.get p = img.get p) ∧ reserved_ok v img2 := by
  obtain ⟨bl, hbl, _, _, _, _, hframe⟩ := import_chain_frame v img img2 src pl h
  have hge : ∀ b, b ∈ bl → RESERVED_BLOCKS + v.fatsize + v.dirsize ≤ b := by
    intro b hb
    by_contra hlt
    have := hI4 b (by omega)
    rw [(hbl b hb).1] at this
    simp [RESERVED_BLOCK] at this
  have hsame : ∀ p,
      p < fatstart * v.bytesperblock + 8 * (RESERVED_BLOCKS + v.fatsize + v.dirsize) →
      img2.get p = img.get p := by
    intro p hp
    apply hframe
    intro b hb
    have h1 := hge b hb
    have h2 : (RESERVED_BLOCKS + v.fatsize + v.dirsize) * v.bytesperblock
        ≤ b * v.bytesperblock := Nat.mul_le_mul_right _ h1
    have h3 : (RESERVED_BLOCKS + v.fatsize + v.dirsize) * v.bytesperblock
        = 16 * v.bytesperblock
          + (RESERVED_BLOCKS + v.fatsize + v.dirsize - 16) * v.bytesperblock := by
      rw [← Nat.add_mul]
      congr 1
      simp only [RESERVED_BLOCKS] at hX ⊢
      omega
    have h4 : (RESERVED_BLOCKS + v.fatsize + v.dirsize - 16) * 512
        ≤ (RESERVED_BLOCKS + v.fatsize + v.dirsize - 16) * v.bytesperblock :=
      Nat.mul_le_mul_left _ hB
    simp only [fatstart, RESERVED_BLOCKS, Vol.fat_loc] at *
    constructor <;> omega
  exact ⟨hsame, reserved_ok_congr v img img2 hI4 (fun p _ h2 => hsame p h2)⟩

/-- Rewriting the entry of a file with a new payload and modification time
keeps the reserved allocation-table entries: `target` is the entry the slot
held in `img1`, an image with the same reserved entries. -/
theorem wr_target_reserved (v : Vol) (img1 img2 img3 : Image) (t pl mt : Nat)
    (hds : 512 ≤ v.bytesperblock → fatstart ≤ v.dirstart)
    (hI41 : reserved_ok v img1) (hI42 : reserved_ok v img2)
    (htype : (entry_at img1 (v.entry_loc t)).type = 0)
    (hwr : wr_entry v img2 t
      { entry_at img1 (v.entry_loc t) with payload := pl, mtime := mt } = some img3) :
    reserved_ok v img3 := by
  obtain ⟨hB, himg, _, _⟩ := wr_entry_some v img2 img3 t _ hwr
  have hL : fatstart * v.bytesperblock ≤ v.entry_loc t := by
    have := Nat.mul_le_mul_right v.bytesperblock (hds hB)
    simp only [Vol.entry_loc]
    omega
  have hafter := file_slot_after_reserved v img1 hI41 _ hL htype
  intro b hb
  unfold Vol.fat
  have hval : RESERVED_BLOCK = RESERVED_BLOCK % 2 ^ 64 := by decide
  rw [hval]
  apply rd_qword_eq
  intro i hi
  have hp2 : v.fat_loc b + i
      < fatstart * v.bytesperblock + 8 * (RESERVED_BLOCKS + v.fatsize + v.dirsize) := by
    simp only [Vol.fat_loc]; omega
  rw [himg, get_write]
  split
  · rename_i hin
    have hk : v.fat_loc b + i - v.entry_loc t < 8 := by omega
    rw [entry_byte_update _ _ _ _ (by omega) (by omega), entry_byte_entry_at _ _ _ (by omega),
      Nat.mod_eq_of_lt (get_lt _ _), Nat.add_sub_cancel' hin.1]
    exact reserved_byte v img1 hI41 b i hb hi
  · exact reserved_byte v img2 hI42 b i hb hi

/-- The command `import` keeps invariant I4. -/
theorem import_cmd_reserved (v : Vol) (img img3 : Image) (h : Host) (path : List Nat)
    (m : List Msg) (hds : 512 ≤ v.bytesperblock → fatstart ≤ v.dirstart ∧ 1 ≤ v.fatsize)
    (hI4 : reserved_ok v img) (hrun : import_cmd v img h path = some (img3, m)) :
    reserved_ok v img3 := by
  have hds1 : 512 ≤ v.bytesperblock → fatstart ≤ v.dirstart := fun hB => (hds hB).1
  rcases import_cmd_run v img img3 h path m hrun with ⟨_, h1⟩ | ⟨img1, msgs, r, hfst, hr, hrf, hrest⟩
  · subst h1; exact hI4
  · have hI41 : reserved_ok v img1 := by
      rcases hfst with h1 | h1
      · subst h1; exact hI4
      · exact (make_dirs_reserved v path h.now hds1 _ _ img [] img1 msgs hI4 h1).1
    rcases hrest with h3 | ⟨pl, img2, hch, hfin⟩
    · subst h3; exact hI41
    · rcases hfin with ⟨hnf, hwr⟩ | ⟨hnf, i, hfe, hwr⟩
      · obtain ⟨hB, _⟩ := wr_entry_some v img2 img3 _ _ hwr
        have hI42 := (import_chain_reserved v img1 img2 h.data pl hB
          (by have := (hds hB).2; simp only [RESERVED_BLOCKS]; omega) hI41 hch).2
        have htgt : r.target = entry_at img1 (v.entry_loc r.target_entry) ∧
            r.target.type = FILE_TYPE := by
          have hroot : path ≠ [47] := by
            intro hp
            subst hp
            simp [path_resolver, FILE_TYPE, DIRECTORY_TYPE] at hr
            subst hr
            simp at hrf
          rw [path_resolver_general v img1 path FILE_TYPE hroot] at hr
          obtain ⟨_, _, h3, _, h5, _⟩ := resolve_loop_target v img1 FILE_TYPE _ _ _ r hr hrf hnf
          exact ⟨h3, h5⟩
        rw [htgt.1] at hwr
        apply wr_target_reserved v img1 img2 img3 r.target_entry pl _ hds1 hI41 hI42 _ hwr
        rw [← htgt.1]
        exact htgt.2
      · obtain ⟨hB, _⟩ := wr_entry_some v img2 img3 _ _ hwr
        have hI42 := (import_chain_reserved v img1 img2 h.data pl hB
          (by have := (hds hB).2; simp only [RESERVED_BLOCKS]; omega) hI41 hch).2
        exact (wr_free_slot v img2 img3 i _ hds1 hI42 hfe hwr).1

/-- C14: on a loaded volume where invariant I4 holds (the allocation-table
entries of blocks `0 .. 16 + F + D - 1` read `RESERVED_BLOCK`), every
`mkdir_cmd` and every `import_cmd` run leaves I4 in force, and every block
`import_chain` claims on such a volume has an index of at least
`16 + F + D`, so that no block of the reserved, allocation-table or
directory-table region is claimed.  (`export_cmd` and `ls_cmd` never write to
the image: they return no image at all.) -/
theorem reserved_entries_preserved (img : Image) (v : Vol)
    (hload : load img img.size = Except.ok v) (hsz : img.size < LONG_LIMIT)
    (hI4 : reserved_ok v img) :
    (∀ (path : List Nat) (tm : Nat) (img1 : Image) (m : List Msg),
      mkdir_cmd v img path tm = some (img1, m) → reserved_ok v img1) ∧
    (∀ (h : Host) (path : List Nat) (img1 : Image) (m : List Msg),
      import_cmd v img h path = some (img1, m) → reserved_ok v img1) ∧
    (∀ (n : Nat) (bl : List Nat), import_blocklist v img n = some bl →
      ∀ b, b ∈ bl → RESERVED_BLOCKS + v.fatsize + v.dirsize ≤ b) := by
  have hds : 512 ≤ v.bytesperblock → fatstart ≤ v.dirstart ∧ 1 ≤ v.fatsize := by
    intro hB
    have h0 : v.fat img 0 ≠ 0 := by
      rw [hI4 0 (by simp only [RESERVED_BLOCKS]; omega)]
      simp [RESERVED_BLOCK]
    have h17 := loaded_dirstart img v hload hsz hB h0
    obtain ⟨_, _, h3, _⟩ := loaded_geometry img v hload hsz hB
    simp only [fatstart, RESERVED_BLOCKS]
    omega
  refine ⟨?_, ?_, ?_⟩
  · intro path tm img1 m h
    exact (mkdir_cmd_reserved v img img1 path tm m (fun hB => (hds hB).1) hI4 h).1
  · intro h path img1 m hrun
    exact import_cmd_reserved v img img1 h path m hds hI4 hrun
  · intro n bl h
    exact import_blocklist_reserved v img hI4 n bl h

theorem reserved_ok_fresh32k : reserved_ok vol32k fresh32k := by
  intro b hb
  have hb20 : b < 20 := hb
  interval_cases b <;> rfl

set_option maxRecDepth 100000 in
theorem reserved_entries_preserved_witness :
    load fresh32k fresh32k.size = Except.ok vol32k ∧ reserved_ok vol32k fresh32k ∧
      mkdir_cmd vol32k fresh32k path_a 1000 = some (after_mkdir_a, []) ∧
      reserved_ok vol32k after_mkdir_a ∧
      import_cmd vol32k fresh32k (host_file small_file) path_x = some (after_import_x, []) ∧
      reserved_ok vol32k after_import_x ∧
      import_blocklist vol32k fresh32k 2 = some [20] :=
  ⟨by rfl, reserved_ok_fresh32k, by rfl,
    (reserved_entries_preserved fresh32k vol32k (by rfl) (by decide) reserved_ok_fresh32k).1
      path_a 1000 after_mkdir_a [] (by rfl),
    by rfl,
    (reserved_entries_preserved fresh32k vol32k (by rfl) (by decide) reserved_ok_fresh32k).2.1
      (host_file small_file) path_x after_import_x [] (by rfl),
    by rfl⟩

theorem entry_at_congr (img img1 : Image) (loc : Nat)
    (h : ∀ k, k < 256 → img1.get (loc + k) = img.get (loc + k)) :
    entry_at img1 loc = entry_at img loc := by
  apply entry_at_of_bytes img1 loc _ (entry_at_ok img loc)
  intro k hk
  rw [entry_byte_entry_at img loc k hk, h k hk, Nat.mod_eq_of_lt (get_lt _ _)]

theorem slot_congr (v : Vol) (img img1 : Image) (j : Nat)
    (h : ∀ p, v.entry_loc j ≤ p → p < v.entry_loc j + 256 → img1.get p = img.get p) :
    v.slot img1 j = v.slot img j := by
  unfold Vol.slot
  apply entry_at_congr
  intro k hk
  exact h _ (by omega) (by omega)

theorem entry_loc_eq (v : Vol) (j : Nat) :
    v.entry_loc j = v.dirstart * v.bytesperblock + j * 256 := rfl

/-- The arithmetic facts of a loaded geometry. -/
theorem geo_of_load (img : Image) (v : Vol) (hload : load img img.size = Except.ok v)
    (hsz : img.size < LONG_LIMIT) (hB : v.bytesperblock % 512 = 0)
    (hfit : RESERVED_BLOCKS + v.fatsize + v.dirsize ≤ v.blocks)
    (hI4 : reserved_ok v img) : Geo v img.size := by
  obtain ⟨_, _, hB0, _⟩ := load_fields img img.size v hload
  have hB512 : 512 ≤ v.bytesperblock := by omega
  obtain ⟨h1, h2, h3, _, _⟩ := loaded_geometry img v hload hsz hB512
  have h0 : v.fat img 0 ≠ 0 := by
    rw [hI4 0 (by simp only [RESERVED_BLOCKS]; omega)]
    simp [RESERVED_BLOCK]
  have h17 := loaded_dirstart img v hload hsz hB512 h0
  have hBPB : v.BYTES_PER_BLOCK = v.bytesperblock := by
    simp only [Vol.BYTES_PER_BLOCK, Vol.SECTORS_PER_BLOCK, BYTES_PER_SECT]
    have := Nat.div_add_mod v.bytesperblock 512
    omega
  have hslots : v.slots * 256 = v.dirsize * v.bytesperblock := by
    simp only [Vol.slots, Vol.ENTRIES_PER_BLOCK, Vol.SECTORS_PER_BLOCK, BYTES_PER_SECT,
      ENTRIES_PER_SECT]
    have := Nat.div_add_mod v.bytesperblock 512
    have hq : v.bytesperblock = v.bytesperblock / 512 * 512 := by omega
    calc v.dirsize * (v.bytesperblock / 512 * 2) * 256
        = v.dirsize * (v.bytesperblock / 512 * 512) := by ring
      _ = v.dirsize * v.bytesperblock := by rw [← hq]
  have hend : v.entry_loc v.slots = (16 + v.fatsize + v.dirsize) * v.bytesperblock := by
    rw [entry_loc_eq, hslots, h3]
    ring
  simp only [RESERVED_BLOCKS] at hfit
  have hendS : (16 + v.fatsize + v.dirsize) * v.bytesperblock ≤ img.size := by
    rw [← h1]
    exact Nat.mul_le_mul_right _ hfit
  simp only [LONG_LIMIT] at hsz
  exact ⟨hB512, hBPB, h1, hsz, h2, h3, by omega, hfit, hslots, hend, hendS⟩

theorem Inv.geo {v : Vol} {img : Image} (h : Inv v img) : Geo v img.size :=
  geo_of_load img v h.hload h.hsz h.hB h.hfit h.hI4

/-- Slot `j < slots` lies between the start and the end of the table. -/
theorem Geo.slot_in {v : Vol} {S : Nat} (g : Geo v S) (j : Nat) (hj : j < v.slots) :
    (16 + v.fatsize) * v.bytesperblock ≤ v.entry_loc j ∧
      v.entry_loc j + 256 ≤ (16 + v.fatsize + v.dirsize) * v.bytesperblock ∧
      v.entry_loc j + 256 ≤ S := by
  have h1 := g.hend
  have h2 := g.hendS
  have h3 := g.hds
  simp only [entry_loc_eq] at h1 ⊢
  rw [h3] at h1 ⊢
  omega

/-- The allocation-table entries of the blocks below `N` lie before the
directory table. -/
theorem Geo.fat_in {v : Vol} {S : Nat} (g : Geo v S) (b : Nat) (hb : b < v.blocks) :
    v.fat_loc b + 8 ≤ (16 + v.fatsize) * v.bytesperblock := by
  have h1 := g.hFB
  simp only [Vol.fat_loc, fatstart, RESERVED_BLOCKS]
  rw [Nat.add_mul]
  omega

theorem fat_congr (v : Vol) (img img1 : Image) (b : Nat)
    (h : ∀ p, v.fat_loc b ≤ p → p < v.fat_loc b + 8 → img1.get p = img.get p) :
    v.fat img1 b = v.fat img b := by
  unfold Vol.fat
  apply rd_qword_congr
  intro i hi
  exact h _ (by omega) (by omega)

theorem dir_ids_from_congr_fields (v : Vol) (img img1 : Image) (i m : Nat)
    (h : ∀ j, i ≤ j → j < i + m → (v.slot img1 j).type = (v.slot img j).type ∧
      ((v.slot img j).type = DIRECTORY_TYPE → (v.slot img1 j).payload = (v.slot img j).payload)) :
    dir_ids_from v img1 i m = dir_ids_from v img i m := by
  unfold dir_ids_from
  have hf : (List.range' i m).filter
        (fun j => decide ((v.slot img1 j).type = DIRECTORY_TYPE))
      = (List.range' i m).filter (fun j => decide ((v.slot img j).type = DIRECTORY_TYPE)) := by
    apply List.filter_congr
    intro j hj
    rw [List.mem_range'_1] at hj
    rw [(h j hj.1 hj.2).1]
  rw [hf]
  apply List.map_congr_left
  intro j hj
  rw [List.mem_filter, List.mem_range'_1] at hj
  exact (h j hj.1.1 hj.1.2).2 (by simpa using hj.2)

theorem dir_ids_from_congr (v : Vol) (img img1 : Image) (i m : Nat)
    (h : ∀ j, i ≤ j → j < i + m → v.slot img1 j = v.slot img j) :
    dir_ids_from v img1 i m = dir_ids_from v img i m := by
  apply dir_ids_from_congr_fields
  intro j h1 h2
  rw [h j h1 h2]
  exact ⟨rfl, fun _ => rfl⟩

theorem dir_ids_from_succ (v : Vol) (img : Image) (i m : Nat) :
    dir_ids_from v img i (m + 1)
      = dir_ids_from v img i m
        ++ (if (v.slot img (i + m)).type = DIRECTORY_TYPE then [(v.slot img (i + m)).payload]
            else []) := by
  simp only [dir_ids_from]
  rw [List.range'_concat, List.filter_append, List.map_append]
  simp only [Nat.one_mul, List.filter_cons, List.filter_nil]
  congr 1
  by_cases h : (v.slot img (i + m)).type = DIRECTORY_TYPE
  · simp [h]
  · simp [h]

theorem mem_dir_ids (v : Vol) (img : Image) (n j : Nat) (hj : j < n)
    (ht : (v.slot img j).type = DIRECTORY_TYPE) : (v.slot img j).payload ∈ dir_ids v img n := by
  simp only [dir_ids, dir_ids_from, List.mem_map, List.mem_filter, List.mem_range']
  exact ⟨j, ⟨⟨j, hj, by omega⟩, by simpa using ht⟩, rfl⟩

theorem length_dir_ids_from (v : Vol) (img : Image) (i m : Nat) :
    (dir_ids_from v img i m).length ≤ m := by
  simp only [dir_ids_from, List.length_map]
  calc _ ≤ (List.range' i m).length := List.length_filter_le _ _
    _ = m := List.length_range' _ _ _

/-- The directory table keeps its shape when its bytes are the same. -/
theorem DirInv_congr (v : Vol) (img img1 : Image) (n k : Nat) (h : DirInv v img n k)
    (hsame : ∀ p, v.entry_loc 0 ≤ p → p < v.entry_loc v.slots → img1.get p = img.get p) :
    DirInv v img1 n k := by
  have hslot : ∀ j, j < n → v.slot img1 j = v.slot img j := by
    intro j hj
    apply slot_congr
    intro p h1 h2
    have hn := h.hn
    apply hsame
    · simp only [entry_loc_eq] at h1 ⊢; omega
    · simp only [entry_loc_eq] at h2 ⊢; omega
  refine ⟨h.hn, ?_, ?_, ?_, ?_, ?_, ?_, ?_⟩
  · intro p h1 h2
    rw [hsame p (by simp only [entry_loc_eq] at h1 ⊢; omega) h2]
    exact h.rest_zero p h1 h2
  · intro j hj; rw [hslot j hj]; exact h.parent_ok j hj
  · intro j hj; rw [hslot j hj]; exact h.type_ok j hj
  · intro j hj; rw [hslot j hj]; exact h.names j hj
  · intro j hj; rw [hslot j hj]; exact h.payload_ok j hj
  · rw [← h.ids]
    exact dir_ids_from_congr v img img1 0 n (fun j _ hj => hslot j (by omega))
  · intro i j hi hj hij
    rw [hslot i hi, hslot j hj]
    exact h.uniq i j hi hj hij

/-- The slots after a write of one slot. -/
theorem slot_write (v : Vol) (img : Image) (n : Nat) (e : entry_t) (hok : entry_ok e) :
    v.slot (img.write (v.entry_loc n) ENTRY_SIZE (entry_byte e)) n = e ∧
      ∀ j, j ≠ n → v.slot (img.write (v.entry_loc n) ENTRY_SIZE (entry_byte e)) j
        = v.slot img j := by
  refine ⟨entry_at_write img _ e hok, ?_⟩
  intro j hj
  apply slot_congr
  intro p h1 h2
  rw [get_write, if_neg]
  simp only [entry_loc_eq, ENTRY_SIZE] at h1 h2 ⊢
  omega

/-- Appending a new entry in the first unused slot keeps the shape of the
directory table. -/
theorem DirInv_add (v : Vol) (img : Image) (n k k1 : Nat) (e : entry_t)
    (h : DirInv v img n k) (hn : n < v.slots) (hok : entry_ok e)
    (hparent : e.parent_id = ROOT_ID ∨ (1 ≤ e.parent_id ∧ e.parent_id ≤ k))
    (hname : name_ok e.name)
    (hkind : (e.type = DIRECTORY_TYPE ∧ e.payload = k + 1 ∧ k1 = k + 1) ∨
      (e.type = FILE_TYPE ∧ block_ok v e.payload ∧ k1 = k))
    (hnew : ∀ j, j < n → ¬ same_key (v.slot img j) e) :
    DirInv v (img.write (v.entry_loc n) ENTRY_SIZE (entry_byte e)) (n + 1) k1 := by
  obtain ⟨hs1, hs2⟩ := slot_write v img n e hok
  have hk : k ≤ k1 := by rcases hkind with ⟨_, _, h⟩ | ⟨_, _, h⟩ <;> omega
  have hslot : ∀ j, j < n → v.slot (img.write (v.entry_loc n) ENTRY_SIZE (entry_byte e)) j
      = v.slot img j := fun j hj => hs2 j (by omega)
  have hcase : ∀ j, j < n + 1 → j < n ∨ j = n := fun j hj => by omega
  refine ⟨hn, ?_, ?_, ?_, ?_, ?_, ?_, ?_⟩
  · intro p h1 h2
    rw [get_write, if_neg (by simp only [entry_loc_eq, ENTRY_SIZE] at h1 ⊢; omega)]
    exact h.rest_zero p (by simp only [entry_loc_eq] at h1 ⊢; omega) h2
  · intro j hj
    rcases hcase j hj with h1 | h1
    · rw [hslot j h1]
      rcases h.parent_ok j h1 with h2 | h2
      · exact Or.inl h2
      · exact Or.inr ⟨h2.1, by omega⟩
    · subst h1; rw [hs1]
      rcases hparent with h2 | h2
      · exact Or.inl h2
      · exact Or.inr ⟨h2.1, by omega⟩
  · intro j hj
    rcases hcase j hj with h1 | h1
    · rw [hslot j h1]; exact h.type_ok j h1
    · subst h1; rw [hs1]
      rcases hkind with ⟨h2, _, _⟩ | ⟨h2, _, _⟩
      · exact Or.inr h2
      · exact Or.inl h2
  · intro j hj
    rcases hcase j hj with h1 | h1
    · rw [hslot j h1]; exact h.names j h1
    · subst h1; rw [hs1]; exact hname
  · intro j hj
    rcases hcase j hj with h1 | h1
    · rw [hslot j h1]; exact h.payload_ok j h1
    · subst h1; rw [hs1]
      intro ht
      rcases hkind with ⟨h2, _, _⟩ | ⟨_, h2, _⟩
      · rw [h2] at ht; simp [FILE_TYPE, DIRECTORY_TYPE] at ht
      · exact h2
  · unfold dir_ids
    rw [dir_ids_from_succ, dir_ids_from_congr v img _ 0 n (fun j _ hj => hslot j (by omega))]
    have hids := h.ids
    unfold dir_ids at hids
    rw [hids, Nat.zero_add, hs1]
    rcases hkind with ⟨h2, h3, h4⟩ | ⟨h2, _, h4⟩
    · rw [if_pos h2, h3, h4, List.range'_concat]
      simp only [Nat.one_mul]
      rw [Nat.add_comm 1 k]
    · rw [if_neg (by rw [h2]; simp [FILE_TYPE, DIRECTORY_TYPE]), h4, List.append_nil]
  · intro i j hi hj hij
    rcases hcase i hi with h1 | h1 <;> rcases hcase j hj with h2 | h2
    · rw [hslot i h1, hslot j h2]; exact h.uniq i j h1 h2 hij
    · subst h2; rw [hslot i h1, hs1]; exact hnew i h1
    · subst h1; rw [hslot j h2, hs1]
      intro hk
      exact hnew j h2 ⟨hk.1.symm, hk.2.1.symm, hk.2.2.symm⟩
    · omega

theorem entry_ok_update (e : entry_t) (hok : entry_ok e) (pl mt : Nat) (hpl : pl < 2 ^ 64)
    (hmt : mt < 2 ^ 64) : entry_ok { e with payload := pl, mtime := mt } := by
  obtain ⟨h1, h2, h3, h4, h5, _, h7, h8, h9, h10, _, h12⟩ := hok
  exact ⟨h1, h2, h3, h4, h5, hmt, h7, h8, h9, h10, hpl, h12⟩

/-- Rewriting the payload and the modification time of a file entry keeps
the shape of the directory table. -/
theorem DirInv_update (v : Vol) (img : Image) (n k t pl mt : Nat)
    (h : DirInv v img n k) (ht : t < n) (htype : (v.slot img t).type = FILE_TYPE)
    (hpl : block_ok v pl) (hpl64 : pl < 2 ^ 64) (hmt : mt < 2 ^ 64) :
    DirInv v (img.write (v.entry_loc t) ENTRY_SIZE
      (entry_byte { v.slot img t with payload := pl, mtime := mt })) n k := by
  have hok : entry_ok { v.slot img t with payload := pl, mtime := mt } :=
    entry_ok_update _ (entry_at_ok img (v.entry_loc t)) pl mt hpl64 hmt
  obtain ⟨hs1, hs2⟩ := slot_write v img t _ hok
  have hget : ∀ p, v.entry_loc n ≤ p →
      (img.write (v.entry_loc t) ENTRY_SIZE
        (entry_byte { v.slot img t with payload := pl, mtime := mt })).get p = img.get p := by
    intro p h1
    rw [get_write, if_neg (by simp only [entry_loc_eq, ENTRY_SIZE] at h1 ⊢; omega)]
  generalize img.write (v.entry_loc t) ENTRY_SIZE
    (entry_byte { v.slot img t with payload := pl, mtime := mt }) = img1 at hs1 hs2 hget ⊢
  have hn := h.hn
  have hp : ∀ j, (v.slot img1 j).parent_id = (v.slot img j).parent_id := by
    intro j
    by_cases hjt : j = t
    · subst hjt; rw [hs1]
    · rw [hs2 j hjt]
  have hty : ∀ j, (v.slot img1 j).type = (v.slot img j).type := by
    intro j
    by_cases hjt : j = t
    · subst hjt; rw [hs1]
    · rw [hs2 j hjt]
  have hnm : ∀ j, (v.slot img1 j).name = (v.slot img j).name := by
    intro j
    by_cases hjt : j = t
    · subst hjt; rw [hs1]
    · rw [hs2 j hjt]
  refine ⟨h.hn, ?_, ?_, ?_, ?_, ?_, ?_, ?_⟩
  · intro p h1 h2
    rw [hget p h1]
    exact h.rest_zero p h1 h2
  · intro j hj
    rw [hp j]; exact h.parent_ok j hj
  · intro j hj
    rw [hty j]; exact h.type_ok j hj
  · intro j hj
    rw [hnm j]; exact h.names j hj
  · intro j hj
    by_cases hjt : j = t
    · subst hjt; rw [hs1]; intro _; exact hpl
    · rw [hs2 j hjt]; exact h.payload_ok j hj
  · rw [← h.ids]
    unfold dir_ids
    apply dir_ids_from_congr_fields
    intro j _ _
    refine ⟨hty j, ?_⟩
    intro hd
    by_cases hjt : j = t
    · subst hjt; rw [htype] at hd; simp [FILE_TYPE, DIRECTORY_TYPE] at hd
    · rw [hs2 j hjt]
  · intro i j hi hj hij hk
    apply h.uniq i j hi hj hij
    unfold same_key at hk ⊢
    rw [hp i, hp j, hty i, hty j, hnm i, hnm j] at hk
    exact hk

theorem cstr_padded (s : List Nat) (m : Nat) (hs : ∀ c, c ∈ s → c ≠ 0) :
    cstr (s ++ List.replicate m 0) = s := by
  unfold cstr
  induction s with
  | nil =>
    cases m with
    | zero => rfl
    | succ m => simp [List.replicate_succ]
  | cons c s ih =>
    have hc : c ≠ 0 := hs c (List.mem_cons_self _ _)
    simp only [List.cons_append, List.takeWhile_cons]
    rw [if_pos (by simpa using hc)]
    congr 1
    exact ih (fun x hx => hs x (List.mem_cons_of_mem _ hx))

/-- For a well-formed name field, `strcmp` with the stored C string is 0. -/
theorem strcmp_of_cstr (field : List Nat) (h : name_ok field) :
    strcmp_eq field (cstr field) = true := by
  obtain ⟨s, hlen, hs, hf⟩ := h
  rw [hf, cstr_padded s _ hs]
  unfold strcmp_eq
  have : (s ++ List.replicate (201 - s.length) 0).take (s.length + 1) = s ++ [0] := by
    obtain ⟨m, hm⟩ : ∃ m, 201 - s.length = m + 1 := ⟨200 - s.length, by omega⟩
    rw [hm, List.replicate_succ, List.take_append_eq_append_take]
    simp
  simpa using this

theorem name_ok_strcpy (s : List Nat) (hlen : s.length ≤ 200) (hs : ∀ c, c ∈ s → c ≠ 0) :
    name_ok (strcpy empty_entry.name s) ∧ cstr (strcpy empty_entry.name s) = s := by
  rw [strcpy_empty s hlen]
  exact ⟨⟨s, hlen, hs, rfl⟩, cstr_padded s _ hs⟩

/-- A `search` that fails has passed every live slot of a contiguous prefix
without a match. -/
theorem search_loop_miss (v : Vol) (img : Image) (name : List Nat) (parent type n : Nat)
    (hn : n ≤ u64 (v.dirsize * v.ENTRIES_PER_BLOCK))
    (hlive : ∀ j, j < n → (entry_at img (v.entry_loc j)).parent_id ≠ 0) :
    ∀ (fuel i : Nat), search_loop v img name parent type fuel i = some SEARCH_FAILURE →
      ∀ j, i ≤ j → j < n →
        ¬ ((entry_at img (v.entry_loc j)).parent_id = parent ∧
            (entry_at img (v.entry_loc j)).type = type ∧
            strcmp_eq (entry_at img (v.entry_loc j)).name name = true) := by
  have hu : u64 (v.dirsize * v.ENTRIES_PER_BLOCK) < 2 ^ 64 := Nat.mod_lt _ (by norm_num)
  intro fuel
  induction fuel with
  | zero => intro i h; simp [search_loop] at h
  | succ fuel ih =>
    intro i h j hij hjn
    have hin : i < n := by omega
    simp only [search_loop] at h
    split at h
    · rw [if_neg (by omega)] at h
      cases h
    · rename_i entry hrd
      obtain ⟨he, _⟩ := fread_entry_some img _ entry hrd
      subst he
      rw [if_neg (hlive i hin), if_neg (by omega)] at h
      split at h
      · simp only [Option.some.injEq, SEARCH_FAILURE] at h
        omega
      · rename_i hm
        by_cases hji : j = i
        · subst hji; exact hm
        · exact ih (i + 1) h j (by omega) hjn

theorem search_miss (v : Vol) (img : Image) (name : List Nat) (parent type n : Nat)
    (hn : n ≤ u64 (v.dirsize * v.ENTRIES_PER_BLOCK))
    (hlive : ∀ j, j < n → (entry_at img (v.entry_loc j)).parent_id ≠ 0)
    (h : search v img name parent type = some SEARCH_FAILURE) :
    ∀ j, j < n →
      ¬ ((entry_at img (v.entry_loc j)).parent_id = parent ∧
          (entry_at img (v.entry_loc j)).type = type ∧
          strcmp_eq (entry_at img (v.entry_loc j)).name name = true) := by
  unfold search at h
  split at h
  · cases h
  · exact fun j hj => search_loop_miss v img name parent type n hn hlive _ 0 h j (Nat.zero_le _) hj

/-- Generic invariant of the running parent of the character loop. -/
theorem resolve_loop_parent (v : Vol) (img : Image) (type : Nat) (P : entry_t → Prop)
    (hstep : ∀ name pp s e, search v img name pp DIRECTORY_TYPE = some s → s ≠ SEARCH_FAILURE →
      rd_entry v img s = some e → P e) :
    ∀ (rest : List Nat) (parent : entry_t) (acc : List Nat) (r : path_result_t),
      P parent → resolve_loop v img type parent acc rest = some r → r.failure = false →
      P r.parent := by
  intro rest
  induction rest with
  | nil =>
    intro parent acc r hP h _
    simp only [resolve_loop] at h
    split at h
    · cases h
    · split at h
      · cases h; exact hP
      · split at h
        · cases h
        · cases h; exact hP
  | cons c rest ih =>
    intro parent acc r hP h hf
    simp only [resolve_loop] at h
    split at h
    · split at h
      · cases h
      · rename_i s hsr
        split at h
        · cases h; simp at hf
        · rename_i hs
          split at h
          · cases h
          · rename_i parent1 hrd
            exact ih _ _ _ (hstep _ _ _ _ hsr hs hrd) h hf
    · split at h
      · cases h
      · exact ih _ _ _ hP h hf

/-- A not-found result comes from a failed `search` for the returned name
under the returned parent. -/
theorem resolve_loop_miss (v : Vol) (img : Image) (type : Nat) :
    ∀ (rest : List Nat) (parent : entry_t) (acc : List Nat) (r : path_result_t),
      resolve_loop v img type parent acc rest = some r → r.not_found = true →
      search v img r.name r.parent.payload type = some SEARCH_FAILURE := by
  intro rest
  induction rest with
  | nil =>
    intro parent acc r h hnf
    simp only [resolve_loop] at h
    split at h
    · cases h
    · rename_i s hsr
      split at h
      · rename_i hs
        cases h
        rw [← hs]; exact hsr
      · split at h
        · cases h
        · cases h; simp [empty_result] at hnf
  | cons c rest ih =>
    intro parent acc r h hnf
    simp only [resolve_loop] at h
    split at h
    · split at h
      · cases h
      · split at h
        · cases h; simp [empty_result] at hnf
        · split at h
          · cases h
          · exact ih _ _ _ h hnf
    · split at h
      · cases h
      · exact ih _ _ _ h hnf

theorem mem_split_acc (rest : List Nat) :
    ∀ (acc comp : List Nat), comp ∈ split_acc rest acc → ∀ c, c ∈ comp → c ∈ acc ∨ c ∈ rest := by
  induction rest with
  | nil =>
    intro acc comp h c hc
    simp only [split_acc, List.mem_singleton] at h
    subst h
    exact Or.inl hc
  | cons x rest ih =>
    intro acc comp h c hc
    simp only [split_acc] at h
    split at h
    · rcases List.mem_cons.mp h with h1 | h1
      · subst h1; exact Or.inl hc
      · rcases ih [] comp h1 c hc with h2 | h2
        · cases h2
        · exact Or.inr (List.mem_cons_of_mem _ h2)
    · rcases ih (acc ++ [x]) comp h c hc with h2 | h2
      · rcases List.mem_append.mp h2 with h3 | h3
        · exact Or.inl h3
        · simp only [List.mem_singleton] at h3
          subst h3
          exact Or.inr (List.mem_cons_self _ _)
      · exact Or.inr (List.mem_cons_of_mem _ h2)

theorem getLastD_mem (l : List (List Nat)) (h : l ≠ []) : l.getLastD [] ∈ l := by
  induction l with
  | nil => exact absurd rfl h
  | cons a l ih =>
    by_cases hl : l = []
    · subst hl; simp [List.getLastD]
    · rw [getLastD_cons_of_ne_nil a l hl]
      exact List.mem_cons_of_mem _ (ih hl)

/-- The bytes of the last component are bytes of the path. -/
theorem mem_last_component (path : List Nat) (c : Nat) : c ∈ last_component path → c ∈ path := by
  have key : ∀ rest : List Nat, (∀ x, x ∈ rest → x ∈ path) →
      c ∈ (split_acc rest []).getLastD [] → c ∈ path := by
    intro rest hsub hc
    rcases mem_split_acc rest [] _ (getLastD_mem _ (split_acc_ne_nil rest [])) c hc with h | h
    · cases h
    · exact hsub _ h
  intro hc
  unfold last_component components at hc
  split at hc
  · exact key _ (fun x hx => List.mem_cons_of_mem _ hx) hc
  · exact key _ (fun x hx => hx) hc

theorem Geo.slots_lt {v : Vol} {S : Nat} (g : Geo v S) : v.slots < 2 ^ 55 := by
  have h1 := g.hslots
  have h2 := g.hendS
  have h3 := g.hS
  have h4 : v.dirsize * v.bytesperblock ≤ (16 + v.fatsize + v.dirsize) * v.bytesperblock :=
    Nat.mul_le_mul_right _ (by omega)
  omega

theorem Geo.bound_eq {v : Vol} {S : Nat} (g : Geo v S) :
    u64 (v.dirsize * v.ENTRIES_PER_BLOCK) = v.slots := by
  have := g.slots_lt
  unfold u64
  exact Nat.mod_eq_of_lt (by unfold Vol.slots at this; omega)

theorem DirInv.k_le {v : Vol} {img : Image} {n k : Nat} (h : DirInv v img n k) : k ≤ n := by
  have h1 := length_dir_ids_from v img 0 n
  have h2 := h.ids
  unfold dir_ids at h2
  rw [h2, List.length_range'] at h1
  exact h1

theorem DirInv.dir_payload {v : Vol} {img : Image} {n k : Nat} (h : DirInv v img n k)
    (j : Nat) (hj : j < n) (ht : (v.slot img j).type = DIRECTORY_TYPE) :
    1 ≤ (v.slot img j).payload ∧ (v.slot img j).payload ≤ k := by
  have hm := mem_dir_ids v img n j hj ht
  rw [h.ids, List.mem_range'_1] at hm
  omega

/-- The slots of the prefix are live. -/
theorem DirInv.live_lt {v : Vol} {img : Image} {n k : Nat} {S : Nat} (h : DirInv v img n k)
    (g : Geo v S) (j : Nat) (hj : j < n) :
    (v.slot img j).parent_id ≠ 0 ∧ (v.slot img j).parent_id ≠ DELETED_ENTRY := by
  have h1 := h.k_le
  have h2 := h.hn
  have h3 := g.slots_lt
  rcases h.parent_ok j hj with hp | hp
  · rw [hp]; simp [ROOT_ID, DELETED_ENTRY]
  · simp only [DELETED_ENTRY]
    omega

/-- The slots after the prefix read as never used. -/
theorem DirInv.zero_ge {v : Vol} {img : Image} {n k : Nat} (h : DirInv v img n k)
    (j : Nat) (h1 : n ≤ j) (h2 : j < v.slots) : (v.slot img j).parent_id = 0 := by
  show rdLE img 8 (v.entry_loc j) = 0
  apply rdLE_zero
  intro i hi
  apply h.rest_zero
  · simp only [entry_loc_eq]; omega
  · simp only [entry_loc_eq]; omega

/-- A slot `search` returns is one of the live prefix. -/
theorem DirInv.search_lt {v : Vol} {img : Image} {n k : Nat} {S : Nat} (h : DirInv v img n k)
    (g : Geo v S) (name : List Nat) (parent type s : Nat)
    (hs : search v img name parent type = some s) (hne : s ≠ SEARCH_FAILURE) :
    s < n ∧ (v.slot img s).parent_id = parent ∧ (v.slot img s).type = type ∧
      strcmp_eq (v.slot img s).name name = true := by
  obtain ⟨h1, _, h3, h4, h5, h6, _⟩ := search_sound v img name parent type s hs hne
  rw [g.bound_eq] at h1
  refine ⟨?_, h4, h5, h6⟩
  by_contra hge
  exact h3 (h.zero_ge s (by omega) h1)

/-- A failed `search` means that no live entry has the key searched for. -/
theorem DirInv.search_none {v : Vol} {img : Image} {n k : Nat} {S : Nat} (h : DirInv v img n k)
    (g : Geo v S) (name : List Nat) (parent type : Nat)
    (hs : search v img name parent type = some SEARCH_FAILURE) :
    ∀ j, j < n → ¬ ((v.slot img j).parent_id = parent ∧ (v.slot img j).type = type ∧
      strcmp_eq (v.slot img j).name name = true) := by
  apply search_miss v img name parent type n _ _ hs
  · rw [g.bound_eq]; exact h.hn
  · exact fun j hj => (h.live_lt g j hj).1

/-- What the resolver returns for a path whose last component is missing: a
parent that is the root or a directory of the table, a name that is a C
string of at most 200 bytes, and no live entry with that key. -/
theorem DirInv.resolver_new {v : Vol} {img : Image} {n k : Nat} {S : Nat}
    (h : DirInv v img n k) (g : Geo v S) (path : List Nat) (t : Nat) (r : path_result_t)
    (hpath : c_string path = true) (hr : path_resolver v img path t = some r)
    (hnf : r.not_found = true) :
    (r.parent.payload = ROOT_ID ∨ (1 ≤ r.parent.payload ∧ r.parent.payload ≤ k)) ∧
      r.parent.payload < 2 ^ 64 ∧
      r.name.length ≤ 200 ∧ (∀ c, c ∈ r.name → c ≠ 0) ∧ (∀ c, c ∈ r.name → c < 256) ∧
      (∀ e : entry_t, e.parent_id = r.parent.payload → e.type = t → cstr e.name = r.name →
        ∀ j, j < n → ¬ same_key (v.slot img j) e) := by
  have hchars : ∀ c, c ∈ path → 0 < c ∧ c < 256 := by
    intro c hc
    unfold c_string at hpath
    rw [List.all_eq_true] at hpath
    simpa using hpath c hc
  obtain ⟨hf, hlen, hp64, hb, hname⟩ :=
    path_resolver_props v img path t r hr hnf (fun c hc => (hchars c hc).2)
  obtain ⟨rest, hloop⟩ : ∃ rest,
      resolve_loop v img t { empty_entry with payload := ROOT_ID } [] rest = some r := by
    unfold path_resolver at hr
    split at hr
    · cases hr; simp [empty_result] at hnf
    · split at hr
      · cases hr; simp [empty_result] at hnf
      · exact ⟨_, hr⟩
  have hnz : ∀ c, c ∈ r.name → c ≠ 0 := by
    intro c hc
    rw [hname] at hc
    have := (hchars c (mem_last_component path c hc)).1
    omega
  have hparent := resolve_loop_parent v img t
    (fun e => e.payload = ROOT_ID ∨ (1 ≤ e.payload ∧ e.payload ≤ k))
    (by
      intro name pp s e hs hne hrd
      obtain ⟨he, _, _⟩ := rd_entry_some v img s e hrd
      obtain ⟨h1, _, h3, _⟩ := h.search_lt g name pp DIRECTORY_TYPE s hs hne
      subst he
      exact Or.inr (h.dir_payload s h1 h3))
    _ _ _ r (Or.inl rfl) hloop hf
  have hmiss := resolve_loop_miss v img t _ _ _ r hloop hnf
  refine ⟨hparent, hp64, hlen, hnz, hb, ?_⟩
  intro e he1 he2 he3 j hj hk
  apply h.search_none g r.name r.parent.payload t hmiss j hj
  refine ⟨by rw [hk.1, he1], by rw [hk.2.1, he2], ?_⟩
  rw [← he3, ← hk.2.2]
  exact strcmp_of_cstr _ (h.names j hj)

/-- What the resolver returns for a path that names a live file. -/
theorem DirInv.resolver_hit {v : Vol} {img : Image} {n k : Nat} {S : Nat}
    (h : DirInv v img n k) (g : Geo v S) (path : List Nat) (r : path_result_t)
    (hr : path_resolver v img path FILE_TYPE = some r)
    (hf : r.failure = false) (hnf : r.not_found = false) :
    r.target_entry < n ∧ r.target = v.slot img r.target_entry ∧
      (v.slot img r.target_entry).type = FILE_TYPE := by
  have hroot : path ≠ [47] := by
    intro hp
    subst hp
    simp [path_resolver, FILE_TYPE, DIRECTORY_TYPE] at hr
    subst hr
    simp at hf
  rw [path_resolver_general v img path FILE_TYPE hroot] at hr
  obtain ⟨h1, h2, h3, _, h5, _⟩ := resolve_loop_target v img FILE_TYPE _ _ _ r hr hf hnf
  obtain ⟨h6, _, h7, _⟩ := h.search_lt g _ _ _ _ h1 h2
  exact ⟨h6, h3, h7⟩

theorem dir_ids_from_cons (v : Vol) (img : Image) (i m : Nat) :
    dir_ids_from v img i (m + 1)
      = (if (v.slot img i).type = DIRECTORY_TYPE then [(v.slot img i).payload] else [])
        ++ dir_ids_from v img (i + 1) m := by
  simp only [dir_ids_from, List.range'_succ, List.filter_cons]
  by_cases h : (v.slot img i).type = DIRECTORY_TYPE
  · simp [h]
  · simp [h]

/-- The scan of `get_free_id` over `m` live slots whose directories carry
the consecutive IDs `id, id + 1, ..`: the running ID ends `k1` higher. -/
theorem get_free_id_loop_live (v : Vol) (img : Image) :
    ∀ (m i fuel id k1 : Nat),
      (∀ j, i ≤ j → j < i + m →
        v.entry_loc j + ENTRY_SIZE ≤ img.size ∧ (v.slot img j).parent_id ≠ 0) →
      dir_ids_from v img i m = List.range' id k1 → id + k1 < 2 ^ 64 →
      get_free_id_loop v img (fuel + m) i id = get_free_id_loop v img fuel (i + m) (id + k1) := by
  intro m
  induction m with
  | zero =>
    intro i fuel id k1 _ hids _
    have : k1 = 0 := by
      have := congrArg List.length hids
      simpa [dir_ids_from] using this.symm
    subst this
    rfl
  | succ m ih =>
    intro i fuel id k1 hlive hids hlt
    obtain ⟨hin, hp⟩ := hlive i (le_refl _) (by omega)
    have hp1 : (entry_at img (v.entry_loc i)).parent_id ≠ 0 := hp
    rw [show fuel + (m + 1) = (fuel + m) + 1 by omega]
    simp only [get_free_id_loop, fread_entry_eq img _ hin, if_neg hp1]
    rw [dir_ids_from_cons] at hids
    have hlive1 : ∀ j, i + 1 ≤ j → j < i + 1 + m →
        v.entry_loc j + ENTRY_SIZE ≤ img.size ∧ (v.slot img j).parent_id ≠ 0 :=
      fun j h1 h2 => hlive j (by omega) (by omega)
    by_cases ht : (v.slot img i).type = DIRECTORY_TYPE
    · rw [if_pos ht] at hids
      obtain ⟨k2, rfl⟩ : ∃ k2, k1 = k2 + 1 := by
        cases k1 with
        | zero => simp at hids
        | succ k2 => exact ⟨k2, rfl⟩
      rw [List.range'_succ] at hids
      simp only [List.singleton_append, List.cons.injEq] at hids
      have ht1 : (entry_at img (v.entry_loc i)).type = 1 := ht
      have hpl : (entry_at img (v.entry_loc i)).payload = id := hids.1
      rw [if_pos ⟨ht1, hpl⟩, hpl, show u64 (id + 1) = id + 1 from Nat.mod_eq_of_lt (by omega)]
      rw [ih (i + 1) fuel (id + 1) k2 hlive1 hids.2 (by omega)]
      rw [show i + 1 + m = i + (m + 1) by omega, show id + 1 + k2 = id + (k2 + 1) by omega]
    · rw [if_neg ht, List.nil_append] at hids
      have ht1 : ¬ ((entry_at img (v.entry_loc i)).type = 1 ∧
          (entry_at img (v.entry_loc i)).payload = id) := fun c => ht c.1
      rw [if_neg ht1, ih (i + 1) fuel id k1 hlive1 hids hlt]
      rw [show i + 1 + m = i + (m + 1) by omega]

/-- The running ID of `get_free_id` never decreases. -/
theorem get_free_id_loop_ge (v : Vol) (img : Image) :
    ∀ (fuel i id r : Nat), get_free_id_loop v img fuel i id = some r → id + fuel < 2 ^ 64 →
      id ≤ r := by
  intro fuel
  induction fuel with
  | zero => intro i id r h; simp [get_free_id_loop] at h
  | succ fuel ih =>
    intro i id r h hlt
    simp only [get_free_id_loop] at h
    split at h
    · cases h
    · split at h
      · cases h; exact le_refl _
      · split at h
        · rename_i hc
          have := ih _ _ _ h (by
            rw [hc.2, show u64 (id + 1) = id + 1 from Nat.mod_eq_of_lt (by omega)]; omega)
          rw [hc.2, show u64 (id + 1) = id + 1 from Nat.mod_eq_of_lt (by omega)] at this
          omega
        · have := ih _ _ _ h (by omega)
          omega

/-- In a table of shape `DirInv` with directory IDs `1 .. k`, `get_free_id`
returns `k + 1` when a never-used slot is left, and never less. -/
theorem DirInv.free_id {v : Vol} {img : Image} {n k : Nat} (h : DirInv v img n k)
    (g : Geo v img.size) :
    (∀ id, get_free_id v img = some id → k + 1 ≤ id) ∧
      (n < v.slots → get_free_id v img = some (k + 1)) := by
  have hn := h.hn
  have hk := h.k_le
  have hsl := g.slots_lt
  have hS := g.hS
  have hnS : v.slots * 256 ≤ img.size := by
    have h1 := g.hslots
    have h2 := g.hendS
    have h4 : v.dirsize * v.bytesperblock ≤ (16 + v.fatsize + v.dirsize) * v.bytesperblock :=
      Nat.mul_le_mul_right _ (by omega)
    omega
  have hfuel : v.slots ≤ img.size / ENTRY_SIZE :=
    (Nat.le_div_iff_mul_le (by decide : 0 < ENTRY_SIZE)).mpr hnS
  have hdiv : img.size / ENTRY_SIZE ≤ img.size := Nat.div_le_self _ _
  have hpre := get_free_id_loop_live v img n 0 (img.size / ENTRY_SIZE + 1 - n) 1 k
    (fun j _ hj => ⟨by
        have := (g.slot_in j (by omega)).2.2
        simp only [ENTRY_SIZE]; exact this,
      (h.live_lt g j (by omega)).1⟩)
    h.ids (by omega)
  rw [show img.size / ENTRY_SIZE + 1 - n + n = img.size / ENTRY_SIZE + 1 by omega,
    Nat.zero_add] at hpre
  have hstart : ¬ LONG_LIMIT ≤ v.dirstart * v.bytesperblock := by
    have h1 := g.hendS
    have h2 := g.hds
    simp only [LONG_LIMIT]
    rw [h2]
    have : (16 + v.fatsize) * v.bytesperblock ≤ (16 + v.fatsize + v.dirsize) * v.bytesperblock :=
      Nat.mul_le_mul_right _ (by omega)
    omega
  refine ⟨?_, ?_⟩
  · intro id hid
    unfold get_free_id at hid
    rw [if_neg hstart, hpre] at hid
    have := get_free_id_loop_ge v img _ _ _ _ hid (by omega)
    omega
  · intro hlt
    unfold get_free_id
    rw [if_neg hstart, hpre]
    obtain ⟨f, hf⟩ : ∃ f, img.size / ENTRY_SIZE + 1 - n = f + 1 :=
      ⟨img.size / ENTRY_SIZE - n, by omega⟩
    rw [hf]
    have hin : v.entry_loc n + ENTRY_SIZE ≤ img.size := by
      have := (g.slot_in n hlt).2.2
      simp only [ENTRY_SIZE]; exact this
    have hz : (entry_at img (v.entry_loc n)).parent_id = 0 := h.zero_ge n (le_refl _) hlt
    simp only [get_free_id_loop, fread_entry_eq img _ hin, hz, if_true]
    rw [Nat.add_comm]

/-- A write into a slot of the directory table keeps the size of the file,
the superblock and the allocation-table entries of the blocks below `N`; the
state invariant then holds as soon as the directory table has its shape. -/
theorem inv_write_slot (v : Vol) (img : Image) (hinv : Inv v img) (i : Nat) (hi : i < v.slots)
    (f : Nat → Nat) (n1 k1 : Nat)
    (hd : DirInv v (img.write (v.entry_loc i) ENTRY_SIZE f) n1 k1) :
    Inv v (img.write (v.entry_loc i) ENTRY_SIZE f) ∧
      (∀ b, b < v.blocks → v.fat (img.write (v.entry_loc i) ENTRY_SIZE f) b = v.fat img b) ∧
      (img.write (v.entry_loc i) ENTRY_SIZE f).size = img.size := by
  have g := hinv.geo
  obtain ⟨h1, h2, h3⟩ := g.slot_in i hi
  have hB := g.hB512
  have hsize : (img.write (v.entry_loc i) ENTRY_SIZE f).size = img.size :=
    size_write_of_le img _ _ _ (by simp only [ENTRY_SIZE]; exact h3)
  have hlow : ∀ p, p < (16 + v.fatsize) * v.bytesperblock →
      (img.write (v.entry_loc i) ENTRY_SIZE f).get p = img.get p := by
    intro p hp
    rw [get_write, if_neg (by omega)]
  have h16 : 36 < (16 + v.fatsize) * v.bytesperblock := by
    have : 16 * 512 ≤ (16 + v.fatsize) * v.bytesperblock :=
      Nat.mul_le_mul (by omega) hB
    omega
  have hfat : ∀ b, b < v.blocks →
      v.fat (img.write (v.entry_loc i) ENTRY_SIZE f) b = v.fat img b := by
    intro b hb
    apply fat_congr
    intro p _ hp2
    have := g.fat_in b hb
    exact hlow p (by omega)
  refine ⟨⟨?_, ?_, hinv.hB, hinv.hfit, ?_, ?_, ⟨n1, k1, hd⟩⟩, hfat, hsize⟩
  · rw [hsize, load_congr img _ img.size (fun p hp => hlow p (by omega))]
    exact hinv.hload
  · rw [hsize]; exact hinv.hsz
  · intro b hb
    rw [hfat b (by have := hinv.hfit; omega)]
    exact hinv.hI4 b hb
  · intro b hb1 hb2
    rw [hfat b hb2]
    exact hinv.links b hb1 hb2

/-- In a table of shape `DirInv` the slot `find_empty` returns, if it lies
inside the table, is the first slot after the live prefix. -/
theorem DirInv.find_empty_eq {v : Vol} {img : Image} {n k : Nat} {S : Nat}
    (h : DirInv v img n k) (g : Geo v S) (i : Nat) (hfe : find_empty v img = some i)
    (hi : i < v.slots) : i = n := by
  obtain ⟨_, hfree, hbefore⟩ := find_empty_sound v img i hfe
  have h1 : ¬ i < n := by
    intro hlt
    have := h.live_lt g i hlt
    rcases hfree with c | c
    · exact this.1 c
    · exact this.2 c
  have h2 : ¬ n < i := by
    intro hlt
    exact (hbefore n hlt).1 (h.zero_ge n (le_refl _) (by omega))
  omega

/-- A successful `wr_entry` writes inside the directory table. -/
theorem Geo.wr_entry_lt {v : Vol} {S : Nat} (g : Geo v S) (img img1 : Image) (i : Nat)
    (e : entry_t) (hwr : wr_entry v img i e = some img1) :
    i < v.slots ∧ img1 = img.write (v.entry_loc i) ENTRY_SIZE (entry_byte e) := by
  obtain ⟨_, himg, _, hb⟩ := wr_entry_some v img img1 i e hwr
  refine ⟨?_, himg⟩
  rw [g.hBPB, g.hds] at hb
  have h1 := g.hendS
  have h2 := g.hS
  have h3 := g.hend
  rw [show u64 ((16 + v.fatsize + v.dirsize) * v.bytesperblock)
      = (16 + v.fatsize + v.dirsize) * v.bytesperblock from Nat.mod_eq_of_lt (by omega),
    ← h3] at hb
  simp only [entry_loc_eq] at hb
  omega

/-- The command `mkdir` keeps the state invariant and the allocation table. -/
theorem mkdir_cmd_inv (v : Vol) (img img1 : Image) (path : List Nat) (tm : Nat) (m : List Msg)
    (hinv : Inv v img) (hpath : c_string path = true) (htm : tm < 2 ^ 64)
    (h : mkdir_cmd v img path tm = some (img1, m)) :
    Inv v img1 ∧ (∀ b, b < v.blocks → v.fat img1 b = v.fat img b) ∧ img1.size = img.size := by
  have g := hinv.geo
  obtain ⟨n, k, hd⟩ := hinv.dir
  obtain ⟨r, hr, hc⟩ := mkdir_cmd_cases v img img1 path tm m h
  rcases hc with ⟨_, himg, _⟩ | ⟨hnf, _, i, id, hfe, hgid, hwr⟩
  · subst himg
    exact ⟨hinv, fun _ _ => rfl, rfl⟩
  · obtain ⟨hi, himg⟩ := g.wr_entry_lt img img1 i _ hwr
    have hin : i = n := hd.find_empty_eq g i hfe hi
    subst hin
    have hid : id = k + 1 := by
      have := (hd.free_id g).2 hi
      rw [hgid] at this
      exact Option.some.inj this
    subst hid
    obtain ⟨hp, hp64, hlen, hnz, hb, hnew⟩ :=
      hd.resolver_new g path DIRECTORY_TYPE r hpath hr hnf
    obtain ⟨hnok, hcs⟩ := name_ok_strcpy r.name hlen hnz
    have hk64 : k + 1 < 2 ^ 64 := by
      have := hd.k_le
      have := g.slots_lt
      omega
    have hok := mkdir_entry_ok r.parent.payload r.name (k + 1) tm hp64 hlen hb hk64 htm
    have hadd := DirInv_add v img i k (k + 1) _ hd hi hok hp hnok
      (Or.inl ⟨rfl, rfl, rfl⟩) (hnew _ rfl rfl hcs)
    subst himg
    exact inv_write_slot v img hinv i hi _ (i + 1) (k + 1) hadd

/-- The "make directory" loop of `import_cmd` keeps the state invariant and
the allocation table. -/
theorem make_dirs_inv (v : Vol) (path : List Nat) (tm : Nat) (hpath : c_string path = true)
    (htm : tm < 2 ^ 64) :
    ∀ (fuel i : Nat) (img : Image) (msgs : List Msg) (img1 : Image) (m : List Msg),
      Inv v img → make_dirs v path tm fuel i img msgs = some (img1, m) →
      Inv v img1 ∧ (∀ b, b < v.blocks → v.fat img1 b = v.fat img b) ∧ img1.size = img.size := by
  have htake : ∀ j, c_string (path.take j) = true := by
    intro j
    unfold c_string at hpath ⊢
    rw [List.all_eq_true] at hpath ⊢
    exact fun c hc => hpath c (List.mem_of_mem_take hc)
  intro fuel
  induction fuel with
  | zero => intro i img msgs img1 m _ h; simp [make_dirs] at h
  | succ fuel ih =>
    intro i img msgs img1 m hinv h
    simp only [make_dirs] at h
    split at h
    · cases h
    · split at h
      · cases h
      · split at h
        · cases h
        · rename_i img2 m2 hmk
          obtain ⟨h1, h2, h3⟩ := mkdir_cmd_inv v img img2 _ tm m2 hinv (htake _) htm hmk
          split at h
          · cases h
          · split at h
            · obtain ⟨h4, h5, h6⟩ := ih _ img2 _ img1 m h1 h
              exact ⟨h4, fun b hb => by rw [h5 b hb, h2 b hb], by omega⟩
            · cases h
              exact ⟨h1, h2, h3⟩

theorem file_entry_ok (parent : Nat) (name : List Nat) (payload : Nat) (h : Host)
    (hp : parent < 2 ^ 64) (hn : name.length ≤ 200) (hb : ∀ c, c ∈ name → c < 256)
    (hpl : payload < 2 ^ 64) (hs : h.data.length < 2 ^ 64) :
    entry_ok (file_entry parent name payload h) := by
  have hu : ∀ x, u64 x < 2 ^ 64 := fun x => Nat.mod_lt _ (by norm_num)
  refine ⟨hp, by simp [file_entry, FILE_TYPE], ?_, ?_, hu _, hu _, ?_,
    by simp [file_entry, empty_entry], by simp [file_entry, empty_entry], hu _, hpl, hs⟩
  · simp only [file_entry, strcpy_empty name hn, List.length_append, List.length_replicate,
      FILENAME_LEN]
    omega
  · intro c hc
    simp only [file_entry, strcpy_empty name hn] at hc
    rcases List.mem_append.mp hc with hc | hc
    · exact hb c hc
    · rw [(List.mem_replicate.mp hc).2]; norm_num
  · simp only [file_entry]
    have := Nat.mod_lt h.st_mode (by norm_num : 0 < 512)
    omega

theorem block_ok_lt (v : Vol) (S : Nat) (g : Geo v S) (x : Nat) (h : block_ok v x) :
    x < 2 ^ 64 := by
  rcases h with h | h
  · rw [h]; simp [END_OF_CHAIN]
  · have h1 := g.hNB
    have h2 := g.hS
    have h3 : v.blocks * 512 ≤ v.blocks * v.bytesperblock := Nat.mul_le_mul_left _ g.hB512
    omega

theorem free_blocks_congr (v : Vol) (img img1 : Image) (M : Nat)
    (h : ∀ b, b < M → v.fat img1 b = v.fat img b) :
    free_blocks v img1 M = free_blocks v img M := by
  unfold free_blocks free_from
  apply List.filter_congr
  intro b hb
  rw [List.mem_range'_1] at hb
  rw [h b (by omega)]

theorem length_free_blocks (v : Vol) (img : Image) (M : Nat) :
    (free_blocks v img M).length ≤ M := by
  unfold free_blocks free_from
  calc _ ≤ (List.range' 0 M).length := List.length_filter_le _ _
    _ = M := List.length_range' _ _ _

theorem le_blocks_needed (v : Vol) (s : Nat) (hB : 0 < v.bytesperblock) :
    s ≤ blocks_needed v s * v.bytesperblock := by
  unfold blocks_needed
  have h1 := Nat.div_add_mod (s + v.bytesperblock - 1) v.bytesperblock
  have h2 := Nat.mod_lt (s + v.bytesperblock - 1) hB
  rw [Nat.mul_comm]
  omega

/-- With a source that fits in the free data blocks, `import_chain` keeps
the state invariant, leaves the directory table alone and returns a block
index that satisfies I1. -/
theorem import_chain_inv (v : Vol) (img img2 : Image) (src : List Nat) (pl : Nat)
    (hinv : Inv v img)
    (hfits : blocks_needed v src.length ≤ (free_blocks v img v.blocks).length)
    (h : import_chain v img src = some (pl, img2)) :
    Inv v img2 ∧ block_ok v pl ∧ src.length < 2 ^ 64 ∧
      (∀ j, j < v.slots → v.slot img2 j = v.slot img j) ∧
      (∀ n k, DirInv v img n k → DirInv v img2 n k) := by
  have g := hinv.geo
  have hB := g.hB512
  have hlenN := length_free_blocks v img v.blocks
  have hsrc : src.length ≤ v.blocks * v.bytesperblock := by
    have h1 := le_blocks_needed v src.length (by omega)
    have h2 : blocks_needed v src.length * v.bytesperblock ≤ v.blocks * v.bytesperblock :=
      Nat.mul_le_mul_right _ (by omega)
    omega
  have hNB := g.hNB
  have hS := g.hS
  by_cases hs0 : src.length = 0
  · unfold import_chain at h
    rw [if_pos hs0] at h
    cases h
    exact ⟨hinv, Or.inl rfl, by omega, fun _ _ => rfl, fun _ _ hd => hd⟩
  · have hFB := g.hFB
    have hendS := g.hendS
    have hfitN := g.hfit
    have hATend : v.fat_loc v.blocks ≤ (16 + v.fatsize) * v.bytesperblock := by
      simp only [Vol.fat_loc, fatstart, RESERVED_BLOCKS]
      rw [Nat.add_mul]
      omega
    have hle1 : (16 + v.fatsize) * v.bytesperblock
        ≤ (16 + v.fatsize + v.dirsize) * v.bytesperblock := Nat.mul_le_mul_right _ (by omega)
    obtain ⟨img2', hrun, hlen, hK, hpw, hmem, hhead, _, hsize, hframe, hlinks, _⟩ :=
      import_chain_run v img src v.blocks (by omega) (by omega) hinv.hsz
        (by simp only [LONG_LIMIT]; omega) (by simp only [LONG_LIMIT]; omega) (by omega) hfits
    rw [h] at hrun
    simp only [Option.some.injEq, Prod.mk.injEq] at hrun
    obtain ⟨hpl, himg⟩ := hrun
    subst himg
    generalize hbl : lowest_free v img v.blocks (blocks_needed v src.length) = bl at *
    have hrange : ∀ b, b ∈ bl → RESERVED_BLOCKS + v.fatsize + v.dirsize ≤ b ∧ b < v.blocks := by
      intro b hb
      obtain ⟨h1, h2⟩ := hmem b hb
      refine ⟨?_, h1⟩
      by_contra hlt
      have := hinv.hI4 b (by omega)
      rw [h2] at this
      simp [RESERVED_BLOCK] at this
    have hdata : ∀ b, b ∈ bl →
        (16 + v.fatsize + v.dirsize) * v.bytesperblock ≤ b * v.bytesperblock ∧
        b * v.bytesperblock + v.bytesperblock ≤ img.size := by
      intro b hb
      obtain ⟨h1, h2⟩ := hrange b hb
      simp only [RESERVED_BLOCKS] at h1
      refine ⟨Nat.mul_le_mul_right _ h1, ?_⟩
      have : (b + 1) * v.bytesperblock ≤ v.blocks * v.bytesperblock :=
        Nat.mul_le_mul_right _ (by omega)
      rw [Nat.add_mul, Nat.one_mul] at this
      omega
    have hsz2 : img2.size = img.size := hsize (fun b hb => (hdata b hb).2)
    have hfatin : ∀ b, b ∈ bl → fatstart * v.bytesperblock ≤ v.fat_loc b ∧
        v.fat_loc b + 8 ≤ (16 + v.fatsize) * v.bytesperblock := by
      intro b hb
      have := g.fat_in b (hrange b hb).2
      simp only [Vol.fat_loc] at this ⊢
      omega
    have h16 : 16 * 512 ≤ fatstart * v.bytesperblock := by
      simp only [fatstart, RESERVED_BLOCKS]
      exact Nat.mul_le_mul_left _ hB
    have hlow : ∀ p, p < 36 → img2.get p = img.get p := by
      intro p hp
      apply hframe
      intro b hb
      have := hdata b hb
      have := hfatin b hb
      constructor <;> omega
    have hdir : ∀ p, (16 + v.fatsize) * v.bytesperblock ≤ p →
        p < (16 + v.fatsize + v.dirsize) * v.bytesperblock → img2.get p = img.get p := by
      intro p h1 h2
      apply hframe
      intro b hb
      have := hdata b hb
      have := hfatin b hb
      constructor <;> omega
    have hfat_other : ∀ b, b < v.blocks → b ∉ bl → v.fat img2 b = v.fat img b := by
      intro b hb hnot
      apply fat_congr
      intro p hp1 hp2
      apply hframe
      intro b' hb'
      have hd1 := hdata b' hb'
      have hf1 := g.fat_in b hb
      have hne : b' ≠ b := fun c => hnot (c ▸ hb')
      simp only [Vol.fat_loc] at hp1 hp2 hf1 ⊢
      constructor <;> omega
    have hslots : ∀ j, j < v.slots → v.slot img2 j = v.slot img j := by
      intro j hj
      apply slot_congr
      intro p h1 h2
      obtain ⟨h3, h4, _⟩ := g.slot_in j hj
      exact hdir p (by omega) (by omega)
    have hpl_ok : block_ok v pl := by
      rw [hpl]
      exact Or.inr (hrange _ hhead)
    have hkeep : ∀ n k, DirInv v img n k → DirInv v img2 n k := by
      intro n k hd
      refine DirInv_congr v img img2 n k hd ?_
      intro p h1 h2
      rw [g.hend] at h2
      have h3 := g.hds
      simp only [entry_loc_eq] at h1
      rw [h3] at h1
      exact hdir p (by omega) h2
    refine ⟨⟨?_, ?_, hinv.hB, hinv.hfit, ?_, ?_, ?_⟩, hpl_ok, by omega, hslots, hkeep⟩
    · rw [hsz2, load_congr img img2 img.size hlow]
      exact hinv.hload
    · rw [hsz2]; exact hinv.hsz
    · intro b hb
      have hnot : b ∉ bl := fun c => by have := (hrange b c).1; omega
      rw [hfat_other b (by have := hinv.hfit; omega) hnot]
      exact hinv.hI4 b hb
    · intro b hb1 hb2
      by_cases hin : b ∈ bl
      · right
        obtain ⟨i, hi, hget⟩ := List.getElem_of_mem hin
        have hi' : i < blocks_needed v src.length := by omega
        have hgd : bl.getD i 0 = b := by
          rw [List.getD_eq_getElem _ _ hi, hget]
        have hl := hlinks i hi'
        rw [hgd] at hl
        rw [hl]
        by_cases hnext : i + 1 < bl.length
        · rw [List.getD_eq_getElem _ _ hnext]
          exact Or.inr (hrange _ (List.getElem_mem _))
        · rw [List.getD_eq_default _ _ (by omega)]
          exact Or.inl rfl
      · rw [hfat_other b hb2 hin]
        exact hinv.links b hb1 hb2
    · obtain ⟨n, k, hd⟩ := hinv.dir
      exact ⟨n, k, hkeep n k hd⟩

/-- The command `import`, run with a source that fits in the free data
blocks, keeps the state invariant. -/
theorem import_cmd_inv (v : Vol) (img img3 : Image) (h : Host) (path : List Nat) (m : List Msg)
    (hinv : Inv v img) (hpath : c_string path = true) (hnow : h.now < 2 ^ 64)
    (hfits : blocks_needed v h.data.length ≤ (free_blocks v img v.blocks).length)
    (hrun : import_cmd v img h path = some (img3, m)) : Inv v img3 := by
  rcases import_cmd_run v img img3 h path m hrun with
    ⟨_, h1⟩ | ⟨img1, msgs, r, hfst, hr, hrf, hrest⟩
  · subst h1; exact hinv
  · have hfirst : Inv v img1 ∧ (∀ b, b < v.blocks → v.fat img1 b = v.fat img b) := by
      rcases hfst with h1 | h1
      · subst h1; exact ⟨hinv, fun _ _ => rfl⟩
      · obtain ⟨h2, h3, _⟩ := make_dirs_inv v path h.now hpath hnow _ _ img [] img1 msgs hinv h1
        exact ⟨h2, h3⟩
    obtain ⟨hinv1, hfat1⟩ := hfirst
    rcases hrest with h3 | ⟨pl, img2, hch, hfin⟩
    · subst h3; exact hinv1
    · have hfits1 : blocks_needed v h.data.length ≤ (free_blocks v img1 v.blocks).length := by
        rw [free_blocks_congr v img img1 v.blocks hfat1]
        exact hfits
      obtain ⟨hinv2, hplok, hlen64, hslots, hkeep⟩ :=
        import_chain_inv v img1 img2 h.data pl hinv1 hfits1 hch
      have g1 := hinv1.geo
      have g2 := hinv2.geo
      obtain ⟨n, k, hd1⟩ := hinv1.dir
      have hd2 : DirInv v img2 n k := hkeep n k hd1
      have hpl64 := block_ok_lt v img2.size g2 pl hplok
      rcases hfin with ⟨hnf, hwr⟩ | ⟨hnf, i, hfe, hwr⟩
      · obtain ⟨ht, htgt, htype⟩ := hd1.resolver_hit g1 path r hr hrf hnf
        obtain ⟨hi, himg⟩ := g2.wr_entry_lt img2 img3 _ _ hwr
        have hs := hslots r.target_entry hi
        rw [htgt, ← hs] at himg
        rw [← hs] at htype
        have hupd := DirInv_update v img2 n k r.target_entry pl (u64 h.st_mtime) hd2 ht htype
          hplok hpl64 (Nat.mod_lt _ (by norm_num))
        subst himg
        exact (inv_write_slot v img2 hinv2 _ hi _ n k hupd).1
      · obtain ⟨hi, himg⟩ := g2.wr_entry_lt img2 img3 _ _ hwr
        have hin : i = n := hd2.find_empty_eq g2 i hfe hi
        subst hin
        obtain ⟨hp, hp64, hlen, hnz, hb, hnew⟩ :=
          hd1.resolver_new g1 path FILE_TYPE r hpath hr hnf
        obtain ⟨hnok, hcs⟩ := name_ok_strcpy r.name hlen hnz
        have hok := file_entry_ok r.parent.payload r.name pl h hp64 hlen hb hpl64 hlen64
        have hadd := DirInv_add v img2 i k k _ hd2 hi hok hp hnok
          (Or.inr ⟨rfl, hplok, rfl⟩)
          (fun j hj => by
            rw [hslots j (by omega)]
            exact hnew _ rfl rfl hcs j hj)
        subst himg
        exact (inv_write_slot v img2 hinv2 i hi _ (i + 1) k hadd).1

/-- A format that succeeds was given a block size that is a positive
multiple of 512 and divides the image size. -/
theorem format_cmd_pre (img imgF : Image) (B u0 u1 : Nat) (quick : Bool)
    (h : format_cmd img B u0 u1 quick = some imgF) :
    0 < B ∧ B % 512 = 0 ∧ img.size % B = 0 := by
  unfold format_cmd format_pass1 at h
  split at h
  · cases h
  · rename_i img1 hp1
    split at hp1
    · cases hp1
    · rename_i hB
      split at hp1
      · cases hp1
      · rename_i hS
        simp only [not_or, not_not] at hB hS
        exact ⟨Nat.pos_of_ne_zero hB.1, hB.2, hS⟩

/-- The state invariant holds on every image that is, byte for byte, what a
full format of an image of at least 20 blocks leaves: empty directory table,
all data blocks free. -/
theorem inv_of_format (img0 imgF img1 : Image) (B u0 u1 : Nat)
    (hsz : img0.size < 2 ^ 63) (hb : B < 2 ^ 31) (h20 : 20 * B ≤ img0.size)
    (hfmt : format_cmd img0 B u0 u1 false = some imgF)
    (hsize : img1.size = imgF.size) (hget : ∀ p, img1.get p = imgF.get p) :
    Inv (spec_geometry img0.size B) img1 ∧ DirInv (spec_geometry img0.size B) img1 0 0 := by
  obtain ⟨hB, h512, hS⟩ := format_cmd_pre img0 imgF B u0 u1 false hfmt
  obtain ⟨imgF', h1, _, hs1e, hload, hg⟩ := format_cmd_spec img0 B u0 u1 false hB h512 hS hsz hb
  rw [hfmt] at h1
  cases h1
  have hB512 : 512 ≤ B := by omega
  obtain ⟨hb1, hb2, hb3⟩ := spec_geometry_bounds img0.size B hB h512
  have hNB : img0.size / B * B = img0.size := Nat.div_mul_cancel (Nat.dvd_of_mod_eq_zero hS)
  have hN20 : 20 ≤ img0.size / B := by
    apply Nat.le_of_mul_le_mul_right _ hB
    rw [hNB]; exact h20
  have hfitN : 16 + spec_fatsize (img0.size / B) B + img0.size / B / 20 ≤ img0.size / B := by
    omega
  have hsum : (16 + spec_fatsize (img0.size / B) B + img0.size / B / 20) * B ≤ img0.size :=
    le_of_le_of_eq (Nat.mul_le_mul_right B hfitN) hNB
  have h16 : 8192 ≤ 16 * B := by omega
  have hX8 : 8 * (16 + spec_fatsize (img0.size / B) B + img0.size / B / 20)
      ≤ spec_fatsize (img0.size / B) B * B := by omega
  have hsumx : 16 * B + spec_fatsize (img0.size / B) B * B ≤ img0.size := by
    have : (16 + spec_fatsize (img0.size / B) B) * B
        ≤ (16 + spec_fatsize (img0.size / B) B + img0.size / B / 20) * B :=
      Nat.mul_le_mul_right _ (by omega)
    rw [Nat.add_mul] at this
    omega
  have hsF : imgF.size = img0.size := hs1e (by omega) (by omega)
  have hs1 : img1.size = img0.size := by rw [hsize, hsF]
  have hvB : (spec_geometry img0.size B).bytesperblock = B := rfl
  have hvF : (spec_geometry img0.size B).fatsize = spec_fatsize (img0.size / B) B := rfl
  have hvD : (spec_geometry img0.size B).dirsize = img0.size / B / 20 := rfl
  have hvN : (spec_geometry img0.size B).blocks = img0.size / B := rfl
  have hld : load img1 img1.size = Except.ok (spec_geometry img0.size B) := by
    rw [hs1, load_congr imgF img1 img0.size (fun p _ => hget p)]
    exact hload
  have hI4 : reserved_ok (spec_geometry img0.size B) img1 := by
    intro b hb
    rw [hvF, hvD] at hb
    simp only [RESERVED_BLOCKS] at hb
    unfold Vol.fat
    have hval : RESERVED_BLOCK = RESERVED_BLOCK % 2 ^ 64 := by decide
    rw [hval]
    apply rd_qword_eq
    intro i hi
    simp only [Vol.fat_loc, fatstart, RESERVED_BLOCKS, hvB]
    rw [hget, hg, if_pos (by omega)]
    congr 1
    omega
  have hzero : ∀ p, 16 * B + 8 * (16 + spec_fatsize (img0.size / B) B + img0.size / B / 20) ≤ p →
      p < img0.size → img1.get p = 0 := by
    intro p hp1 hp2
    rw [hget, hg, if_neg (by omega), if_pos ⟨rfl, by omega, hp2⟩]
  have hlinks : ∀ b, RESERVED_BLOCKS + (spec_geometry img0.size B).fatsize
        + (spec_geometry img0.size B).dirsize ≤ b → b < (spec_geometry img0.size B).blocks →
      (spec_geometry img0.size B).fat img1 b = 0 := by
    intro b hb1 hb2
    rw [hvF, hvD] at hb1
    rw [hvN] at hb2
    simp only [RESERVED_BLOCKS] at hb1
    unfold Vol.fat rd_qword
    apply rdLE_zero
    intro i hi
    simp only [Vol.fat_loc, fatstart, RESERVED_BLOCKS, hvB]
    apply hzero <;> omega
  have hszL : img1.size < LONG_LIMIT := by rw [hs1]; exact hsz
  have hfit : RESERVED_BLOCKS + (spec_geometry img0.size B).fatsize
      + (spec_geometry img0.size B).dirsize ≤ (spec_geometry img0.size B).blocks := by
    rw [hvF, hvD, hvN]; simp only [RESERVED_BLOCKS]; exact hfitN
  have g := geo_of_load img1 (spec_geometry img0.size B) hld hszL h512 hfit hI4
  have hd : DirInv (spec_geometry img0.size B) img1 0 0 := by
    refine ⟨Nat.zero_le _, ?_, fun j hj => by omega, fun j hj => by omega,
      fun j hj => by omega, fun j hj => by omega, rfl, fun i j hi => by omega⟩
    intro p hp1 hp2
    rw [g.hend, hvF, hvD, hvB] at hp2
    have hds := g.hds
    simp only [entry_loc_eq, hvB] at hp1
    rw [hds, hvF, Nat.add_mul] at hp1
    apply hzero <;> omega
  exact ⟨⟨hld, hszL, h512, hfit, hI4, fun b h1 h2 => Or.inl (hlinks b h1 h2), ⟨0, 0, hd⟩⟩, hd⟩

/-- One well-formed operation keeps the state invariant. -/
theorem apply_op_inv (v : Vol) (img img1 : Image) (op : Op) (hinv : Inv v img)
    (hok : op_ok img op = true) (h : apply_op img op = some img1) : Inv v img1 := by
  cases op with
  | mk_dir path tm =>
    simp only [apply_op, hinv.hload] at h
    simp only [op_ok, Bool.and_eq_true, decide_eq_true_eq] at hok
    cases hm : mkdir_cmd v img path tm with
    | none => rw [hm] at h; cases h
    | some r =>
      rw [hm] at h
      simp only [Option.map_some', Option.some.injEq] at h
      obtain ⟨img2, m⟩ := r
      simp only at h
      subst h
      exact (mkdir_cmd_inv v img img2 path tm m hinv hok.1 hok.2 hm).1
  | imp hst path =>
    simp only [apply_op, hinv.hload] at h
    simp only [op_ok, source_fits, hinv.hload, Bool.and_eq_true, decide_eq_true_eq] at hok
    cases hm : import_cmd v img hst path with
    | none => rw [hm] at h; cases h
    | some r =>
      rw [hm] at h
      simp only [Option.map_some', Option.some.injEq] at h
      obtain ⟨img2, m⟩ := r
      simp only at h
      subst h
      exact import_cmd_inv v img img2 hst path m hinv hok.1.1 hok.1.2 hok.2 hm
  | exp path =>
    simp only [apply_op, hinv.hload] at h
    cases hm : export_cmd v img path with
    | none => rw [hm] at h; cases h
    | some r =>
      rw [hm] at h
      simp only [Option.map_some', Option.some.injEq] at h
      subst h
      exact hinv

/-- A sequence of well-formed operations keeps the state invariant. -/
theorem apply_ops_inv (v : Vol) :
    ∀ (ops : List Op) (img img1 : Image), Inv v img → ops_ok img ops = true →
      apply_ops img ops = some img1 → Inv v img1 := by
  intro ops
  induction ops with
  | nil =>
    intro img img1 hinv _ h
    simp only [apply_ops, Option.some.injEq] at h
    subst h
    exact hinv
  | cons op rest ih =>
    intro img img1 hinv hok h
    simp only [apply_ops] at h
    simp only [ops_ok, Bool.and_eq_true] at hok
    cases hop : apply_op img op with
    | none => rw [hop] at h; cases h
    | some img2 =>
      rw [hop] at h hok
      exact ih img2 img1 (apply_op_inv v img img2 op hinv hok.1 hop) hok.2 h

/-- In a table of shape `DirInv` the live slots are those of the prefix. -/
theorem DirInv.live_iff {v : Vol} {img : Image} {n k : Nat} {S : Nat} (h : DirInv v img n k)
    (g : Geo v S) (j : Nat) (hj : j < v.slots) : live (v.slot img j) ↔ j < n := by
  constructor
  · intro hl
    by_contra hge
    exact hl.1 (h.zero_ge j (by omega) hj)
  · intro hlt
    exact h.live_lt g j hlt

/-- The state invariant after a run of well-formed operations on a freshly
full-formatted image of at least 20 blocks. -/
theorem inv_reachable (img0 imgF img1 : Image) (B u0 u1 : Nat) (ops : List Op) (img : Image)
    (hsz : img0.size < 2 ^ 63) (hb : B < 2 ^ 31) (h20 : 20 * B ≤ img0.size)
    (hfmt : format_cmd img0 B u0 u1 false = some imgF)
    (hsize : img1.size = imgF.size) (hget : ∀ p, img1.get p = imgF.get p)
    (hok : ops_ok img1 ops = true) (hrun : apply_ops img1 ops = some img) :
    Inv (spec_geometry img0.size B) img :=
  apply_ops_inv _ ops img1 img
    (inv_of_format img0 imgF img1 B u0 u1 hsz hb h20 hfmt hsize hget).1 hok hrun

set_option maxRecDepth 1000000 in
set_option maxHeartbeats 4000000 in
/-- C13 (as stated, refuted): a 10 KiB image is formatted with 512-byte
blocks (`N = 20`, data blocks 18 and 19) and a file of 1025 bytes, which
needs three blocks, is imported.  `import_chain` claims blocks 18, 19 and
then "block" 20, the next zero entry of the allocation table: afterwards the
chain link stored for block 19 is 20, which is neither `END_OF_CHAIN` nor
below `N`, so I1 does not hold. -/
theorem oversize_import_breaks_I1 :
    (format_cmd (blank 10240) 512 7 9 false).map (fun img1 => source_fits img1 three_block_file)
        = some false ∧
      (spec_geometry 10240 512).blocks = 20 ∧
      ∃ img, oversize_state = some img ∧ (spec_geometry 10240 512).fat img 19 = 20 ∧
        ¬ I1 (spec_geometry 10240 512) img := by
  refine ⟨by rfl, by rfl, ?_⟩
  have hsome : oversize_state.isSome = true := by rfl
  obtain ⟨img, himg⟩ := Option.isSome_iff_exists.mp hsome
  have hfat : oversize_state.map (fun i => (spec_geometry 10240 512).fat i 19) = some 20 := by rfl
  rw [himg] at hfat
  simp only [Option.map_some', Option.some.injEq] at hfat
  refine ⟨img, himg, hfat, ?_⟩
  intro hI1
  have := hI1.2 19 (by decide) (by decide)
  rw [hfat] at this
  rcases this with h | h | h
  · cases h
  · simp [END_OF_CHAIN] at h
  · have h2 : (20 : Nat) < (spec_geometry 10240 512).blocks := h.2
    have h3 : (spec_geometry 10240 512).blocks = 20 := by rfl
    omega

/-- C13 (amended): starting from an image that is, byte for byte, what a
full format of an image of at least 20 blocks leaves, after every sequence of
`mkdir`, `import` and `export` operations whose paths are C strings and
whose import sources each fit in the free data blocks, the image still loads
with the geometry of the format and I1 holds: the payload of every live file
entry and every non-zero allocation-table entry of a data block is
`END_OF_CHAIN` or lies in `[16 + F + D, N)`. -/
theorem I1_after_fitting_ops (img0 imgF img1 : Image) (B u0 u1 : Nat) (ops : List Op)
    (img : Image)
    (hsz : img0.size < 2 ^ 63) (hb : B < 2 ^ 31) (h20 : 20 * B ≤ img0.size)
    (hfmt : format_cmd img0 B u0 u1 false = some imgF)
    (hsize : img1.size = imgF.size) (hget : ∀ p, img1.get p = imgF.get p)
    (hok : ops_ok img1 ops = true) (hrun : apply_ops img1 ops = some img) :
    load img img.size = Except.ok (spec_geometry img0.size B) ∧
      I1 (spec_geometry img0.size B) img := by
  have hinv := inv_reachable img0 imgF img1 B u0 u1 ops img hsz hb h20 hfmt hsize hget hok hrun
  have g := hinv.geo
  obtain ⟨n, k, hd⟩ := hinv.dir
  refine ⟨hinv.hload, ?_, hinv.links⟩
  intro j hj hl ht
  exact hd.payload_ok j ((hd.live_iff g j hj).mp hl) ht

set_option maxRecDepth 1000000 in
set_option maxHeartbeats 4000000 in
theorem I1_after_fitting_ops_witness :
    ops_ok fresh32k sample_ops = true ∧
      ∃ img, apply_ops fresh32k sample_ops = some img ∧
        load img img.size = Except.ok vol32k ∧ I1 vol32k img := by
  obtain ⟨imgF, hF, hsize, _, hget⟩ := fresh32k_is_format
  have hok : ops_ok fresh32k sample_ops = true := by rfl
  have hsome : (apply_ops fresh32k sample_ops).isSome = true := by rfl
  obtain ⟨img, himg⟩ := Option.isSome_iff_exists.mp hsome
  exact ⟨hok, img, himg,
    I1_after_fitting_ops (blank 32768) imgF fresh32k 512 7 9 sample_ops img (by decide)
      (by decide) (by decide) hF hsize.symm (fun p => (hget p).symm) hok himg⟩

/-- In a table of shape `DirInv` two different slots of the prefix that hold
directories carry different IDs. -/
theorem DirInv.ids_inj {v : Vol} {img : Image} {n k : Nat} (h : DirInv v img n k)
    (i j : Nat) (hi : i < n) (hj : j < n)
    (hti : (v.slot img i).type = DIRECTORY_TYPE) (htj : (v.slot img j).type = DIRECTORY_TYPE)
    (heq : (v.slot img i).payload = (v.slot img j).payload) : i = j := by
  have hnd : (dir_ids v img n).Nodup := by
    rw [h.ids]
    exact List.nodup_range' 1 k
  unfold dir_ids dir_ids_from at hnd
  apply List.inj_on_of_nodup_map hnd
  · simp only [List.mem_filter, List.mem_range'_1]
    exact ⟨⟨by omega, by omega⟩, by simpa using hti⟩
  · simp only [List.mem_filter, List.mem_range'_1]
    exact ⟨⟨by omega, by omega⟩, by simpa using htj⟩
  · exact heq

/-- C15: in every state reached from an image that is, byte for byte, what
a full format of an image of at least 20 blocks leaves, by `mkdir` and
`import` operations (and `export`, which changes nothing) whose paths are C
strings and whose sources fit in the free data blocks: no two live directory
entries have the same payload; no live directory entry has payload 0 or
`ROOT_ID`; the value `get_free_id` returns differs from the payload of every
live directory entry; and `get_free_id` does return a value as long as the
directory table has a never-used slot. -/
theorem directory_ids_unique (img0 imgF img1 : Image) (B u0 u1 : Nat) (ops : List Op)
    (img : Image)
    (hsz : img0.size < 2 ^ 63) (hb : B < 2 ^ 31) (h20 : 20 * B ≤ img0.size)
    (hfmt : format_cmd img0 B u0 u1 false = some imgF)
    (hsize : img1.size = imgF.size) (hget : ∀ p, img1.get p = imgF.get p)
    (hok : ops_ok img1 ops = true) (hrun : apply_ops img1 ops = some img) :
    (∀ i j, i < (spec_geometry img0.size B).slots → j < (spec_geometry img0.size B).slots →
      i ≠ j → live ((spec_geometry img0.size B).slot img i) →
      live ((spec_geometry img0.size B).slot img j) →
      ((spec_geometry img0.size B).slot img i).type = DIRECTORY_TYPE →
      ((spec_geometry img0.size B).slot img j).type = DIRECTORY_TYPE →
      ((spec_geometry img0.size B).slot img i).payload
        ≠ ((spec_geometry img0.size B).slot img j).payload) ∧
    (∀ j, j < (spec_geometry img0.size B).slots →
      live ((spec_geometry img0.size B).slot img j) →
      ((spec_geometry img0.size B).slot img j).type = DIRECTORY_TYPE →
      ((spec_geometry img0.size B).slot img j).payload ≠ 0 ∧
      ((spec_geometry img0.size B).slot img j).payload ≠ ROOT_ID) ∧
    (∀ id, get_free_id (spec_geometry img0.size B) img = some id →
      ∀ j, j < (spec_geometry img0.size B).slots →
        live ((spec_geometry img0.size B).slot img j) →
        ((spec_geometry img0.size B).slot img j).type = DIRECTORY_TYPE →
        ((spec_geometry img0.size B).slot img j).payload ≠ id) ∧
    ((∃ j, j < (spec_geometry img0.size B).slots ∧
        ((spec_geometry img0.size B).slot img j).parent_id = 0) →
      ∃ id, get_free_id (spec_geometry img0.size B) img = some id) := by
  have hinv := inv_reachable img0 imgF img1 B u0 u1 ops img hsz hb h20 hfmt hsize hget hok hrun
  generalize spec_geometry img0.size B = v at hinv ⊢
  have g := hinv.geo
  obtain ⟨n, k, hd⟩ := hinv.dir
  have hkn := hd.k_le
  have hn := hd.hn
  have hsl := g.slots_lt
  refine ⟨?_, ?_, ?_, ?_⟩
  · intro i j hi hj hij hli hlj hti htj heq
    exact hij (hd.ids_inj i j ((hd.live_iff g i hi).mp hli) ((hd.live_iff g j hj).mp hlj)
      hti htj heq)
  · intro j hj hl ht
    have := hd.dir_payload j ((hd.live_iff g j hj).mp hl) ht
    simp only [ROOT_ID]
    omega
  · intro id hid j hj hl ht
    have h1 := hd.dir_payload j ((hd.live_iff g j hj).mp hl) ht
    have h2 := (hd.free_id g).1 id hid
    omega
  · rintro ⟨j, hj, hz⟩
    have hnj : n ≤ j := by
      by_contra hlt
      exact (hd.live_lt g j (by omega)).1 hz
    exact ⟨k + 1, (hd.free_id g).2 (by omega)⟩

set_option maxRecDepth 1000000 in
set_option maxHeartbeats 4000000 in
theorem directory_ids_unique_witness :
    ops_ok fresh32k sample_dirs = true ∧
      ∃ img, apply_ops fresh32k sample_dirs = some img ∧
        get_free_id vol32k img = some 5 ∧
        (∀ j, j < vol32k.slots → live (vol32k.slot img j) →
          (vol32k.slot img j).type = DIRECTORY_TYPE → (vol32k.slot img j).payload ≠ 5) := by
  obtain ⟨imgF, hF, hsize, _, hget⟩ := fresh32k_is_format
  have hok : ops_ok fresh32k sample_dirs = true := by rfl
  have hsome : (apply_ops fresh32k sample_dirs).isSome = true := by rfl
  obtain ⟨img, himg⟩ := Option.isSome_iff_exists.mp hsome
  have hid : (apply_ops fresh32k sample_dirs).bind (get_free_id vol32k) = some 5 := by rfl
  rw [himg] at hid
  exact ⟨hok, img, himg, hid,
    (directory_ids_unique (blank 32768) imgF fresh32k 512 7 9 sample_dirs img (by decide)
      (by decide) (by decide) hF hsize.symm (fun p => (hget p).symm) hok himg).2.2.1 5 hid⟩

theorem live_of_key (v : Vol) (img : Image) (j p t pl : Nat) (nm : List Nat)
    (h : (rd_entry v img j).map entry_key = some (p, t, nm, pl))
    (h0 : p ≠ 0) (h1 : p ≠ DELETED_ENTRY) : live (v.slot img j) := by
  cases hrd : rd_entry v img j with
  | none => rw [hrd] at h; cases h
  | some e =>
    rw [hrd] at h
    simp only [Option.map_some', Option.some.injEq, entry_key, Prod.mk.injEq] at h
    obtain ⟨he, _, _⟩ := rd_entry_some v img j e hrd
    unfold live Vol.slot
    rw [← he, h.1]
    exact ⟨h0, h1⟩

/-- C16: in every state reached from an image that is, byte for byte, what
a full format of an image of at least 20 blocks leaves, by `mkdir` and
`import` operations, with or without force (and `export`, which changes
nothing), whose paths are C strings and whose sources fit in the free data
blocks: no two live entries of the directory table have the same
`(parent_id, type, name)`, and the live entries are exactly the slots of a
prefix `0 .. n - 1` of the table. -/
theorem names_unique (img0 imgF img1 : Image) (B u0 u1 : Nat) (ops : List Op)
    (img : Image)
    (hsz : img0.size < 2 ^ 63) (hb : B < 2 ^ 31) (h20 : 20 * B ≤ img0.size)
    (hfmt : format_cmd img0 B u0 u1 false = some imgF)
    (hsize : img1.size = imgF.size) (hget : ∀ p, img1.get p = imgF.get p)
    (hok : ops_ok img1 ops = true) (hrun : apply_ops img1 ops = some img) :
    (∀ i j, i < (spec_geometry img0.size B).slots → j < (spec_geometry img0.size B).slots →
      i ≠ j → live ((spec_geometry img0.size B).slot img i) →
      live ((spec_geometry img0.size B).slot img j) →
      ¬ same_key ((spec_geometry img0.size B).slot img i)
        ((spec_geometry img0.size B).slot img j)) ∧
    ∃ n, n ≤ (spec_geometry img0.size B).slots ∧
      ∀ j, j < (spec_geometry img0.size B).slots →
        (live ((spec_geometry img0.size B).slot img j) ↔ j < n) := by
  have hinv := inv_reachable img0 imgF img1 B u0 u1 ops img hsz hb h20 hfmt hsize hget hok hrun
  generalize spec_geometry img0.size B = v at hinv ⊢
  have g := hinv.geo
  obtain ⟨n, k, hd⟩ := hinv.dir
  refine ⟨?_, n, hd.hn, fun j hj => hd.live_iff g j hj⟩
  intro i j hi hj hij hli hlj
  exact hd.uniq i j ((hd.live_iff g i hi).mp hli) ((hd.live_iff g j hj).mp hlj) hij

set_option maxRecDepth 1000000 in
set_option maxHeartbeats 4000000 in
theorem names_unique_witness :
    ops_ok fresh32k sample_names = true ∧
      ∃ img, apply_ops fresh32k sample_names = some img ∧
        (rd_entry vol32k img 0).map entry_key = some (ROOT_ID, FILE_TYPE, [120], 21) ∧
        (rd_entry vol32k img 1).map entry_key = some (ROOT_ID, DIRECTORY_TYPE, [120], 1) ∧
        ¬ same_key (vol32k.slot img 0) (vol32k.slot img 1) := by
  obtain ⟨imgF, hF, hsize, _, hget⟩ := fresh32k_is_format
  have hok : ops_ok fresh32k sample_names = true := by rfl
  have hsome : (apply_ops fresh32k sample_names).isSome = true := by rfl
  obtain ⟨img, himg⟩ := Option.isSome_iff_exists.mp hsome
  have h0 : (apply_ops fresh32k sample_names).bind
      (fun i => (rd_entry vol32k i 0).map entry_key) = some (ROOT_ID, FILE_TYPE, [120], 21) := by
    rfl
  have h1 : (apply_ops fresh32k sample_names).bind
      (fun i => (rd_entry vol32k i 1).map entry_key)
        = some (ROOT_ID, DIRECTORY_TYPE, [120], 1) := by
    rfl
  rw [himg] at h0 h1
  have hl0 : live (vol32k.slot img 0) := live_of_key _ _ _ _ _ _ _ h0 (by decide) (by decide)
  have hl1 : live (vol32k.slot img 1) := live_of_key _ _ _ _ _ _ _ h1 (by decide) (by decide)
  exact ⟨hok, img, himg, h0, h1,
    (names_unique (blank 32768) imgF fresh32k 512 7 9 sample_names img (by decide)
      (by decide) (by decide) hF hsize.symm (fun p => (hget p).symm) hok himg).1 0 1
      (by decide) (by decide) (by decide) hl0 hl1⟩

set_option maxRecDepth 100000 in
/-- C21 (code evaluated at the failing input): a directory table whose two
live directory entries carry the IDs 2 and 1, in this order, followed by a
never-used slot.  The scan of `get_free_id` advances only on an entry whose
payload equals the running ID: it skips the entry with ID 2, advances on the
entry with ID 1 and returns 2 - an ID that is in use - where the maximum
plus one is 3. -/
theorem get_free_id_returns_used_id :
    (rd_entry vol32k unordered_ids_image 0).map entry_key
        = some (ROOT_ID, DIRECTORY_TYPE, [97], 2) ∧
      (rd_entry vol32k unordered_ids_image 1).map entry_key
        = some (ROOT_ID, DIRECTORY_TYPE, [98], 1) ∧
      (rd_entry vol32k unordered_ids_image 2).map (fun e => e.parent_id) = some 0 ∧
      get_free_id vol32k unordered_ids_image = some 2 := by
  refine ⟨by rfl, by rfl, by rfl, by rfl⟩

theorem takeWhile_stop (s t : List Nat) (hs : ∀ c, c ∈ s → c ≠ 0) :
    (s ++ 0 :: t).takeWhile (fun c => c != 0) = s := by
  induction s with
  | nil => simp
  | cons c s ih =>
    have hc : c ≠ 0 := hs c (List.mem_cons_self _ _)
    simp only [List.cons_append, List.takeWhile_cons]
    rw [if_pos (by simpa using hc)]
    congr 1
    exact ih (fun x hx => hs x (List.mem_cons_of_mem _ hx))

theorem cstr_of_take (field s : List Nat) (hs : ∀ c, c ∈ s → c ≠ 0)
    (h : field.take (s.length + 1) = s ++ [0]) : cstr field = s := by
  have hsplit : field = s ++ 0 :: field.drop (s.length + 1) := by
    conv_lhs => rw [← List.take_append_drop (s.length + 1) field, h]
    simp
  rw [hsplit]
  exact takeWhile_stop s _ hs

theorem take_of_cstr (field : List Nat) :
    (cstr field).length < field.length →
    field.take ((cstr field).length + 1) = cstr field ++ [0] := by
  unfold cstr
  induction field with
  | nil => intro h; simp at h
  | cons c field ih =>
    intro h
    by_cases hc : c = 0
    · subst hc
      simp
    · have hc1 : (c != 0) = true := by simpa using hc
      simp only [List.takeWhile_cons, hc1, if_true, List.length_cons] at h ⊢
      rw [List.take_succ_cons, ih (by omega)]
      rfl

/-- For a 201-byte name field and a C string of at most 200 bytes, `strcmp`
returns 0 exactly when the NUL-terminated name in the field is the string. -/
theorem strcmp_eq_iff (field s : List Nat) (hf : field.length = 201) (hlen : s.length ≤ 200)
    (hs : ∀ c, c ∈ s → c ≠ 0) : strcmp_eq field s = true ↔ cstr field = s := by
  unfold strcmp_eq
  rw [decide_eq_true_eq]
  constructor
  · exact cstr_of_take field s hs
  · intro h
    have := take_of_cstr field (by rw [h]; omega)
    rw [h] at this
    exact this

/-- The loop of `search` returns when every slot below the bound can be
read. -/
theorem search_loop_total (v : Vol) (img : Image) (name : List Nat) (parent type : Nat)
    (hread : ∀ j, j < u64 (v.dirsize * v.ENTRIES_PER_BLOCK) →
      v.entry_loc j + ENTRY_SIZE ≤ img.size) :
    ∀ (fuel i : Nat), u64 (v.dirsize * v.ENTRIES_PER_BLOCK) - i < fuel →
      ∃ r, search_loop v img name parent type fuel i = some r := by
  intro fuel
  induction fuel with
  | zero => intro i h; omega
  | succ fuel ih =>
    intro i h
    simp only [search_loop]
    by_cases hb : u64 (v.dirsize * v.ENTRIES_PER_BLOCK) ≤ i
    · cases hrd : fread_entry img (v.entry_loc i) with
      | none => exact ⟨SEARCH_FAILURE, by simp only [if_pos hb]⟩
      | some e =>
        by_cases h0 : e.parent_id = 0
        · exact ⟨SEARCH_FAILURE, by simp only [if_pos h0]⟩
        · exact ⟨SEARCH_FAILURE, by simp only [if_neg h0, if_pos hb]⟩
    · rw [fread_entry_eq img _ (hread i (by omega))]
      simp only [if_neg hb]
      split
      · exact ⟨_, rfl⟩
      · split
        · exact ⟨_, rfl⟩
        · exact ih (i + 1) (by omega)

/-- A `search` that fails has found no slot that matches with every slot up
to it in use. -/
theorem search_loop_fail (v : Vol) (img : Image) (name : List Nat) (parent type : Nat) :
    ∀ (fuel i : Nat), search_loop v img name parent type fuel i = some SEARCH_FAILURE →
      (∀ j, j < i → ¬ ((entry_at img (v.entry_loc j)).parent_id = parent ∧
        (entry_at img (v.entry_loc j)).type = type ∧
        strcmp_eq (entry_at img (v.entry_loc j)).name name = true)) →
      ∀ k, k < u64 (v.dirsize * v.ENTRIES_PER_BLOCK) →
        (∀ j, j ≤ k → (entry_at img (v.entry_loc j)).parent_id ≠ 0) →
        ¬ ((entry_at img (v.entry_loc k)).parent_id = parent ∧
          (entry_at img (v.entry_loc k)).type = type ∧
          strcmp_eq (entry_at img (v.entry_loc k)).name name = true) := by
  have hu : u64 (v.dirsize * v.ENTRIES_PER_BLOCK) < 2 ^ 64 := Nat.mod_lt _ (by norm_num)
  intro fuel
  induction fuel with
  | zero => intro i h; simp [search_loop] at h
  | succ fuel ih =>
    intro i h hbefore k hk hnz
    simp only [search_loop] at h
    split at h
    · split at h
      · exact hbefore k (by omega)
      · cases h
    · rename_i entry hrd
      obtain ⟨he, _⟩ := fread_entry_some img _ entry hrd
      subst he
      split at h
      · rename_i h0
        by_cases hki : k < i
        · exact hbefore k hki
        · exact absurd h0 (hnz i (by omega))
      · split at h
        · exact hbefore k (by omega)
        · rename_i hb
          split at h
          · simp only [Option.some.injEq, SEARCH_FAILURE] at h
            omega
          · rename_i hm
            apply ih (i + 1) h _ k hk hnz
            intro j hj
            by_cases hji : j = i
            · subst hji; exact hm
            · exact hbefore j (by omega)

/-- C22 (as stated, refuted): on the freshly formatted 32 KiB volume slot 0
is all zero, so index 0 meets the condition of the claim for the empty name,
parent 0 and type file (the key matches and no slot precedes it); `search`
tests `parent_id = 0` before it compares and returns `SEARCH_FAILURE`. -/
theorem search_zero_parent_fails :
    search_hit vol32k fresh32k [] 0 FILE_TYPE 0 ∧
      search vol32k fresh32k [] 0 FILE_TYPE = some SEARCH_FAILURE := by
  refine ⟨⟨by decide, by rfl, by rfl, by rfl, fun j hj => by omega⟩, by rfl⟩

/-- C22 (amended): for a directory table that lies inside the image, a name
that is a C string of at most 200 bytes, a parent other than 0 and any type,
`search` returns a value `r`: either the smallest index that meets
`search_hit` - below `D * entries_per_block`, entry with the parent, type and
NUL-terminated name searched for, every slot before it in use - or, exactly
when no index meets it, `SEARCH_FAILURE`. -/
theorem search_first_match (v : Vol) (img : Image) (name : List Nat) (parent type : Nat)
    (hparent : parent ≠ 0) (hlen : name.length ≤ 200) (hname : ∀ c, c ∈ name → c ≠ 0)
    (htab : (v.dirstart + v.dirsize) * v.bytesperblock ≤ img.size)
    (hsz : img.size < LONG_LIMIT) :
    ∃ r, search v img name parent type = some r ∧
      ((r ≠ SEARCH_FAILURE ∧ search_hit v img name parent type r ∧
          ∀ j, j < r → ¬ search_hit v img name parent type j) ∨
        (r = SEARCH_FAILURE ∧ ∀ i, ¬ search_hit v img name parent type i)) := by
  have hepb : v.ENTRIES_PER_BLOCK * 256 ≤ v.bytesperblock := by
    simp only [Vol.ENTRIES_PER_BLOCK, Vol.SECTORS_PER_BLOCK, BYTES_PER_SECT, ENTRIES_PER_SECT]
    have := Nat.div_mul_le_self v.bytesperblock 512
    omega
  have hDB : v.dirsize * v.ENTRIES_PER_BLOCK * 256 ≤ v.dirsize * v.bytesperblock := by
    rw [Nat.mul_assoc]
    exact Nat.mul_le_mul_left _ hepb
  have hsum : v.dirstart * v.bytesperblock + v.dirsize * v.bytesperblock ≤ img.size := by
    rw [← Nat.add_mul]; exact htab
  simp only [LONG_LIMIT] at hsz
  have hbound : u64 (v.dirsize * v.ENTRIES_PER_BLOCK) = v.dirsize * v.ENTRIES_PER_BLOCK :=
    Nat.mod_eq_of_lt (by omega)
  have hread : ∀ j, j < u64 (v.dirsize * v.ENTRIES_PER_BLOCK) →
      v.entry_loc j + ENTRY_SIZE ≤ img.size := by
    intro j hj
    rw [hbound] at hj
    simp only [Vol.entry_loc, ENTRY_SIZE]
    omega
  have hfield : ∀ j, (entry_at img (v.entry_loc j)).name.length = 201 :=
    fun j => (entry_at_ok img (v.entry_loc j)).2.2.1
  have hiff : ∀ j, strcmp_eq (entry_at img (v.entry_loc j)).name name = true
      ↔ cstr (v.slot img j).name = name :=
    fun j => strcmp_eq_iff _ name (hfield j) hlen hname
  have hs : search v img name parent type
      = search_loop v img name parent type (u64 (v.dirsize * v.ENTRIES_PER_BLOCK) + 1) 0 := by
    unfold search
    rw [if_neg (by simp only [LONG_LIMIT]; omega)]
  obtain ⟨r, hr⟩ := search_loop_total v img name parent type hread
    (u64 (v.dirsize * v.ENTRIES_PER_BLOCK) + 1) 0 (by omega)
  refine ⟨r, by rw [hs, hr], ?_⟩
  by_cases hrf : r = SEARCH_FAILURE
  · right
    refine ⟨hrf, ?_⟩
    subst hrf
    rintro i ⟨h1, h2, h3, h4, h5⟩
    rw [← hbound] at h1
    apply search_loop_fail v img name parent type _ 0 hr (fun j hj => by omega) i h1
    · intro j hj
      by_cases hji : j = i
      · subst hji
        show (v.slot img j).parent_id ≠ 0
        rw [h2]; exact hparent
      · exact h5 j (by omega)
    · exact ⟨h2, h3, (hiff i).mpr h4⟩
  · left
    obtain ⟨_, h2, _, _, h5, h6, h7, h8⟩ := search_loop_sound v img name parent type _ 0 r hr hrf
    rw [hbound] at h2
    refine ⟨hrf, ⟨h2, h5, h6, (hiff r).mp h7, fun j hj => (h8 j (Nat.zero_le _) hj).1⟩, ?_⟩
    rintro j hj ⟨_, g2, g3, g4, _⟩
    exact (h8 j (Nat.zero_le _) hj).2 ⟨g2, g3, (hiff j).mpr g4⟩

set_option maxRecDepth 100000 in
theorem search_first_match_witness :
    search vol32k after_mkdir_a [97] ROOT_ID DIRECTORY_TYPE = some 0 ∧
      ∃ r, search vol32k after_mkdir_a [97] ROOT_ID DIRECTORY_TYPE = some r ∧
        ((r ≠ SEARCH_FAILURE ∧ search_hit vol32k after_mkdir_a [97] ROOT_ID DIRECTORY_TYPE r ∧
            ∀ j, j < r → ¬ search_hit vol32k after_mkdir_a [97] ROOT_ID DIRECTORY_TYPE j) ∨
          (r = SEARCH_FAILURE ∧
            ∀ i, ¬ search_hit vol32k after_mkdir_a [97] ROOT_ID DIRECTORY_TYPE i)) :=
  ⟨by rfl,
    search_first_match vol32k after_mkdir_a [97] ROOT_ID DIRECTORY_TYPE (by decide) (by decide)
      (by decide) (by decide) (by decide)⟩

theorem kept_refl (v : Vol) (t : Nat) (img : Image) : kept v t img img :=
  ⟨rfl, fun _ _ => rfl, fun _ _ => rfl, fun _ _ _ => rfl⟩

theorem kept_trans (v : Vol) (t : Nat) (img img1 img2 : Image) (h1 : kept v t img img1)
    (h2 : kept v t img1 img2) : kept v t img img2 :=
  ⟨by rw [h2.1, h1.1], fun p hp => by rw [h2.2.1 p hp, h1.2.1 p hp],
    fun p hp => by rw [h2.2.2.1 p hp, h1.2.2.1 p hp],
    fun p hp1 hp2 => by rw [h2.2.2.2 p hp1 hp2, h1.2.2.2 p hp1 hp2]⟩

theorem kept_slot (v : Vol) (t : Nat) (img img1 : Image) (h : kept v t img img1) :
    v.slot img1 t = v.slot img t :=
  slot_congr v img img1 t h.2.2.2

/-- On a volume with a block size that is a multiple of 512, a successful
`wr_entry` to a slot other than `t` that lies inside the file keeps
everything but that slot. -/
theorem wr_entry_kept (v : Vol) (img img1 : Image) (i t : Nat) (e : entry_t)
    (hB : v.bytesperblock % 512 = 0) (hit : i ≠ t)
    (hin : v.entry_loc i + ENTRY_SIZE ≤ img.size)
    (hwr : wr_entry v img i e = some img1) : kept v t img img1 := by
  obtain ⟨hB512, himg, _, hb⟩ := wr_entry_some v img img1 i e hwr
  have hBPB : v.BYTES_PER_BLOCK = v.bytesperblock := by
    simp only [Vol.BYTES_PER_BLOCK, Vol.SECTORS_PER_BLOCK, BYTES_PER_SECT]
    have := Nat.div_add_mod v.bytesperblock 512
    omega
  rw [hBPB] at hb
  have hle : u64 ((v.dirstart + v.dirsize) * v.bytesperblock)
      ≤ (v.dirstart + v.dirsize) * v.bytesperblock := Nat.mod_le _ _
  have hq : v.bytesperblock = v.bytesperblock / 512 * 512 := by
    have := Nat.div_add_mod v.bytesperblock 512
    omega
  have hDB : v.dirsize * v.bytesperblock = v.dirsize * (v.bytesperblock / 512) * 2 * 256 := by
    calc v.dirsize * v.bytesperblock = v.dirsize * (v.bytesperblock / 512 * 512) := by rw [← hq]
      _ = v.dirsize * (v.bytesperblock / 512) * 2 * 256 := by ring
  have hlt : v.entry_loc i < (v.dirstart + v.dirsize) * v.bytesperblock := by omega
  have hend : v.entry_loc i + 256 ≤ (v.dirstart + v.dirsize) * v.bytesperblock := by
    rw [Nat.add_mul, hDB] at hlt ⊢
    simp only [entry_loc_eq] at hlt ⊢
    omega
  have hframe : ∀ p, ¬ (v.entry_loc i ≤ p ∧ p < v.entry_loc i + 256) →
      img1.get p = img.get p := by
    intro p hp
    rw [himg, get_write, if_neg (by simp only [ENTRY_SIZE]; exact hp)]
  refine ⟨?_, ?_, ?_, ?_⟩
  · rw [himg]; exact size_write_of_le img _ _ _ hin
  · intro p hp
    apply hframe
    simp only [entry_loc_eq]
    omega
  · intro p hp
    apply hframe
    omega
  · intro p hp1 hp2
    apply hframe
    simp only [entry_loc_eq] at hp1 hp2 ⊢
    omega

/-- The command `mkdir` keeps everything but the free slot it fills. -/
theorem mkdir_cmd_kept (v : Vol) (img img1 : Image) (t : Nat) (path : List Nat) (tm : Nat)
    (m : List Msg) (hB : v.bytesperblock % 512 = 0) (hlive : live (v.slot img t))
    (h : mkdir_cmd v img path tm = some (img1, m)) : kept v t img img1 := by
  obtain ⟨r, _, hc⟩ := mkdir_cmd_cases v img img1 path tm m h
  rcases hc with ⟨_, himg, _⟩ | ⟨_, _, i, id, hfe, _, hwr⟩
  · subst himg; exact kept_refl v t _
  · obtain ⟨hin, hfree, _⟩ := find_empty_sound v img i hfe
    have hit : i ≠ t := by
      intro c
      subst c
      rcases hfree with c | c
      · exact hlive.1 c
      · exact hlive.2 c
    exact wr_entry_kept v img img1 i t _ hB hit hin hwr

/-- The "make directory" loop keeps everything but the free slots it
fills. -/
theorem make_dirs_kept (v : Vol) (t : Nat) (path : List Nat) (tm : Nat)
    (hB : v.bytesperblock % 512 = 0) :
    ∀ (fuel i : Nat) (img : Image) (msgs : List Msg) (img1 : Image) (m : List Msg),
      live (v.slot img t) → make_dirs v path tm fuel i img msgs = some (img1, m) →
      kept v t img img1 := by
  intro fuel
  induction fuel with
  | zero => intro i img msgs img1 m _ h; simp [make_dirs] at h
  | succ fuel ih =>
    intro i img msgs img1 m hlive h
    simp only [make_dirs] at h
    split at h
    · cases h
    · split at h
      · cases h
      · split at h
        · cases h
        · rename_i img2 m2 hmk
          have hk := mkdir_cmd_kept v img img2 t _ tm m2 hB hlive hmk
          split at h
          · cases h
          · split at h
            · have hlive2 : live (v.slot img2 t) := by rw [kept_slot v t img img2 hk]; exact hlive
              exact kept_trans v t img img2 img1 hk (ih _ img2 _ img1 m hlive2 h)
            · cases h
              exact hk

/-- Under invariant I4 the blocks of a well-formed chain are data blocks. -/
theorem is_chain_data (v : Vol) (img : Image) (hI4 : reserved_ok v img)
    (hsz : img.size < LONG_LIMIT) (hB : 0 < v.bytesperblock) :
    ∀ (bs : List Nat) (head : Nat), is_chain v img head bs = true →
      ∀ b, b ∈ bs → RESERVED_BLOCKS + v.fatsize + v.dirsize ≤ b ∧ v.fat img b ≠ 0 := by
  intro bs
  induction bs with
  | nil => intro head _ b hb; cases hb
  | cons c rest ih =>
    intro head h b hb
    obtain ⟨_, _, _, _, hrest⟩ := (is_chain_cons v img head c rest).mp h
    have hc : RESERVED_BLOCKS + v.fatsize + v.dirsize ≤ c ∧ v.fat img c ≠ 0 := by
      cases rest with
      | nil =>
        have hE := (is_chain_nil v img _).mp hrest
        refine ⟨?_, by rw [hE]; simp [END_OF_CHAIN]⟩
        by_contra hlt
        have := hI4 c (by omega)
        rw [this] at hE
        simp [RESERVED_BLOCK, END_OF_CHAIN] at hE
      | cons d rest2 =>
        obtain ⟨hd, _, hdsz, _, _⟩ := (is_chain_cons v img _ d rest2).mp hrest
        have hdX := (ih _ hrest d (List.mem_cons_self _ _)).1
        refine ⟨?_, by rw [hd]; simp only [RESERVED_BLOCKS] at hdX; omega⟩
        by_contra hlt
        have := hI4 c (by omega)
        rw [this] at hd
        have h1 : d + 1 ≤ (d + 1) * v.bytesperblock := Nat.le_mul_of_pos_right _ hB
        simp only [LONG_LIMIT] at hsz
        simp only [RESERVED_BLOCK] at hd
        omega
    rcases List.mem_cons.mp hb with h1 | h1
    · subst h1; exact hc
    · exact ih _ hrest b h1

/-- A well-formed chain stays one in an image that is at least as long and
has the same allocation-table entries for its blocks. -/
theorem is_chain_congr (v : Vol) (img img1 : Image) (hsize : img.size ≤ img1.size) :
    ∀ (bs : List Nat) (head : Nat), is_chain v img head bs = true →
      (∀ b, b ∈ bs → v.fat img1 b = v.fat img b) → is_chain v img1 head bs = true := by
  intro bs
  induction bs with
  | nil =>
    intro head h _
    rw [is_chain_nil] at h ⊢
    exact h
  | cons c rest ih =>
    intro head h hfat
    rw [is_chain_cons] at h ⊢
    obtain ⟨h1, h2, h3, h4, h5⟩ := h
    refine ⟨h1, h2, by omega, by omega, ?_⟩
    rw [hfat c (List.mem_cons_self _ _)]
    exact ih _ h5 (fun b hb => hfat b (List.mem_cons_of_mem _ hb))

/-- The loop of `export_chain` along a well-formed chain gives the same
output in an image that is at least as long and has the same allocation-table
entries and the same contents for the blocks of the chain. -/
theorem export_loop_congr (v : Vol) (img img1 : Image) (size : Nat)
    (hsize : img.size ≤ img1.size) (hB : 0 < v.bytesperblock) :
    ∀ (bs : List Nat) (head : Nat), is_chain v img head bs = true →
      (∀ b, b ∈ bs → v.fat img1 b = v.fat img b) →
      (∀ b, b ∈ bs → ∀ j, j < v.bytesperblock →
        img1.get (b * v.bytesperblock + j) = img.get (b * v.bytesperblock + j)) →
      ∀ (fuel : Nat) (dest : List Nat),
        export_loop v img1 size fuel head dest = export_loop v img size fuel head dest := by
  intro bs
  induction bs with
  | nil =>
    intro head h _ _ fuel dest
    rw [is_chain_nil] at h
    subst h
    cases fuel with
    | zero => rfl
    | succ fuel => simp only [export_loop, if_true]
  | cons c rest ih =>
    intro head h hfat hdata fuel dest
    obtain ⟨h1, h2, h3, h4, h5⟩ := (is_chain_cons v img head c rest).mp h
    subst h1
    have hc := hfat head (List.mem_cons_self _ _)
    have hd := hdata head (List.mem_cons_self _ _)
    have hread : ∀ n, n ≤ v.bytesperblock →
        img1.read (head * v.bytesperblock) n = img.read (head * v.bytesperblock) n := by
      intro n hn
      apply read_congr
      intro i hi
      exact hd i (by omega)
    rw [Nat.add_mul, Nat.one_mul] at h3
    cases fuel with
    | zero => rfl
    | succ fuel =>
      simp only [export_loop, if_neg h2]
      by_cases hlim : LONG_LIMIT ≤ head * v.bytesperblock
      · simp only [if_pos hlim]
      · simp only [if_neg hlim]
        by_cases hlast : size ≤ u64 (dest.length + v.bytesperblock)
        · simp only [if_pos hlast]
          by_cases hm : size % v.bytesperblock = 0
          · simp only [if_pos hm]
          · simp only [if_neg hm]
            have hml := Nat.mod_lt size hB
            rw [if_pos (show head * v.bytesperblock + size % v.bytesperblock ≤ img1.size by omega),
              if_pos (show head * v.bytesperblock + size % v.bytesperblock ≤ img.size by omega),
              hread _ (by omega)]
        · simp only [if_neg hlast]
          rw [if_pos (show head * v.bytesperblock + v.bytesperblock ≤ img1.size by omega),
            if_pos (show head * v.bytesperblock + v.bytesperblock ≤ img.size by omega)]
          by_cases hl2 : LONG_LIMIT ≤ v.fat_loc head
          · simp only [if_pos hl2]
          · simp only [if_neg hl2]
            have hc' : rd_qword img1 (v.fat_loc head) = rd_qword img (v.fat_loc head) := hc
            rw [hc', hread _ (le_refl _)]
            exact ih _ h5 (fun b hb => hfat b (List.mem_cons_of_mem _ hb))
              (fun b hb => hdata b (List.mem_cons_of_mem _ hb)) fuel _

/-- The ways `import_cmd` returns, with the resolution `import_dest` of the
destination: `img1` is the image after the "make directory" loop, `img2` the
image after `import_chain`. -/
theorem import_cmd_dest (v : Vol) (img img3 : Image) (h : Host) (path : List Nat)
    (m : List Msg) (hrun : import_cmd v img h path = some (img3, m)) :
    (h.is_reg = false ∧ img3 = img) ∨
    ∃ img1 msgs r,
      (img1 = img ∨ make_dirs v path h.now (path.length + 1) 0 img [] = some (img1, msgs)) ∧
      import_dest v img h path = some r ∧
      path_resolver v img1 path FILE_TYPE = some r ∧ r.failure = false ∧
      (img3 = img1 ∨ ∃ pl img2, import_chain v img1 h.data = some (pl, img2) ∧
        ((r.not_found = false ∧
            wr_entry v img2 r.target_entry
              { r.target with payload := pl, mtime := u64 h.st_mtime } = some img3) ∨
          (r.not_found = true ∧ ∃ i, find_empty v img2 = some i ∧
            wr_entry v img2 i (file_entry r.parent.payload r.name pl h) = some img3))) := by
  unfold import_cmd at hrun
  split at hrun
  · rename_i hreg
    cases hrun
    exact Or.inl ⟨hreg, rfl⟩
  · right
    split at hrun
    · cases hrun
    · rename_i r0 hr0
      split at hrun
      · cases hrun
      · rename_i img1 msgs hmk
        have hfirst : (img1 = img ∨
            make_dirs v path h.now (path.length + 1) 0 img [] = some (img1, msgs)) ∧
            ∃ r, import_dest v img h path = some r ∧
              path_resolver v img1 path FILE_TYPE = some r ∧ r.failure = false := by
          split at hmk
          · rename_i hf
            obtain ⟨r, hr, hrf⟩ := make_dirs_resolved v path h.now _ _ _ _ img1 msgs hmk
            refine ⟨Or.inr hmk, r, ?_, hr, hrf⟩
            unfold import_dest
            simp only [hr0]
            rw [if_pos hf]
            simp only [hmk, hr]
          · rename_i hf
            cases hmk
            refine ⟨Or.inl rfl, r0, ?_, hr0, by simpa using hf⟩
            unfold import_dest
            simp only [hr0]
            rw [if_neg hf]
        obtain ⟨hfst, r, hdst, hr, hrf⟩ := hfirst
        refine ⟨img1, msgs, r, hfst, hdst, hr, hrf, ?_⟩
        rw [hr] at hrun
        simp only at hrun
        split at hrun
        · cases hrun; exact Or.inl rfl
        · split at hrun
          · cases hrun; exact Or.inl rfl
          · split at hrun
            · cases hrun
            · rename_i pl img2 hch
              right
              refine ⟨pl, img2, hch, ?_⟩
              split at hrun
              · rename_i hnf
                split at hrun
                · cases hrun
                · rename_i img4 hwr
                  cases hrun
                  exact Or.inl ⟨hnf, hwr⟩
              · rename_i hnf
                split at hrun
                · cases hrun
                · rename_i i hfe
                  split at hrun
                  · cases hrun
                  · rename_i img4 hwr
                    cases hrun
                    exact Or.inr ⟨by simpa using hnf, i, hfe, hwr⟩

/-- What `import_chain` changes when the source fits in the free data
blocks: no byte of the superblock or the directory table, only
allocation-table entries that were 0 (and are non-zero afterwards), and no
byte of a data block whose allocation-table entry was not 0. -/
theorem import_chain_kept (v : Vol) (img img2 : Image) (src : List Nat) (pl : Nat)
    (hB512 : 512 ≤ v.bytesperblock) (hNB : v.blocks * v.bytesperblock = img.size)
    (hFB : v.blocks * 8 ≤ v.fatsize * v.bytesperblock) (hds : v.dirstart = 16 + v.fatsize)
    (hsz : img.size < LONG_LIMIT) (hI4 : reserved_ok v img)
    (hfits : blocks_needed v src.length ≤ (free_blocks v img v.blocks).length)
    (h : import_chain v img src = some (pl, img2)) :
    img2.size = img.size ∧
      (∀ p, p < fatstart * v.bytesperblock → img2.get p = img.get p) ∧
      (∀ p, v.dirstart * v.bytesperblock ≤ p →
        p < (v.dirstart + v.dirsize) * v.bytesperblock → img2.get p = img.get p) ∧
      (∀ b, b < v.blocks → v.fat img2 b ≠ v.fat img b → v.fat img b = 0 ∧ v.fat img2 b ≠ 0) ∧
      (∀ b, b < v.blocks → v.fat img b ≠ 0 → RESERVED_BLOCKS + v.fatsize + v.dirsize ≤ b →
        ∀ j, j < v.bytesperblock →
          img2.get (b * v.bytesperblock + j) = img.get (b * v.bytesperblock + j)) := by
  by_cases hs0 : src.length = 0
  · unfold import_chain at h
    rw [if_pos hs0] at h
    cases h
    exact ⟨rfl, fun _ _ => rfl, fun _ _ _ => rfl, fun b _ hne => absurd rfl hne,
      fun _ _ _ _ _ _ => rfl⟩
  · have hs' : 0 < src.length := Nat.pos_of_ne_zero hs0
    have hKpos : 0 < blocks_needed v src.length := Nat.div_pos (by omega) (by omega)
    have hATend : fatstart * v.bytesperblock + v.blocks * 8 ≤ v.dirstart * v.bytesperblock := by
      rw [hds, Nat.add_mul]; simp only [fatstart, RESERVED_BLOCKS]; omega
    have hdata : ∀ b, b < v.blocks → v.fat img b = 0 →
        RESERVED_BLOCKS + v.fatsize + v.dirsize ≤ b ∧
        (v.dirstart + v.dirsize) * v.bytesperblock ≤ b * v.bytesperblock ∧
        b * v.bytesperblock + v.bytesperblock ≤ img.size := by
      intro b hbN hb
      have hge : RESERVED_BLOCKS + v.fatsize + v.dirsize ≤ b := by
        by_contra hlt
        have := hI4 b (by omega)
        rw [hb] at this
        simp [RESERVED_BLOCK] at this
      refine ⟨hge, ?_, ?_⟩
      · apply Nat.mul_le_mul_right
        rw [hds]; simp only [RESERVED_BLOCKS] at hge; omega
      · have : (b + 1) * v.bytesperblock ≤ v.blocks * v.bytesperblock :=
          Nat.mul_le_mul_right _ hbN
        rw [Nat.add_mul, Nat.one_mul, hNB] at this
        exact this
    obtain ⟨b0, hb0⟩ : ∃ b0, b0 ∈ free_blocks v img v.blocks := by
      cases hfb : free_blocks v img v.blocks with
      | nil => rw [hfb] at hfits; simp at hfits; omega
      | cons b rest => exact ⟨b, List.mem_cons_self _ _⟩
    have hb0' := (mem_free_from v img 0 v.blocks b0).mp hb0
    have hd0 := hdata b0 (by omega) hb0'.2
    have hle1 : v.dirstart * v.bytesperblock ≤ (v.dirstart + v.dirsize) * v.bytesperblock :=
      Nat.mul_le_mul_right _ (by omega)
    have hM : v.fat_loc v.blocks ≤ img.size := by
      simp only [Vol.fat_loc]
      omega
    have hsrc : src.length < LONG_LIMIT := by
      have h1 := le_blocks_needed v src.length (by omega)
      have h2 := length_free_blocks v img v.blocks
      have h3 : blocks_needed v src.length * v.bytesperblock ≤ v.blocks * v.bytesperblock :=
        Nat.mul_le_mul_right _ (by omega)
      omega
    obtain ⟨img2', g1, _, _, _, g5, _, _, g8, g9, g10, _⟩ := import_chain_run v img src v.blocks
      (by omega) hM hsz (by rw [hNB]; omega) hsrc hs' hfits
    rw [h] at g1
    simp only [Option.some.injEq, Prod.mk.injEq] at g1
    obtain ⟨_, himg⟩ := g1
    subst himg
    generalize lowest_free v img v.blocks (blocks_needed v src.length) = bl at *
    have hframe_fat : ∀ b, b < v.blocks → b ∉ bl → v.fat img2 b = v.fat img b := by
      intro b hb hnot
      apply fat_congr
      intro p hp1 hp2
      apply g9
      intro b' hb'
      have hb'' := g5 b' hb'
      have hd1 := hdata b' hb''.1 hb''.2
      have hne : b' ≠ b := fun c => hnot (c ▸ hb')
      simp only [Vol.fat_loc] at hp1 hp2 ⊢
      constructor <;> omega
    refine ⟨g8 (fun b hb => (hdata b (g5 b hb).1 (g5 b hb).2).2.2), ?_, ?_, ?_, ?_⟩
    · intro p hp
      apply g9
      intro b hb
      have hb' := g5 b hb
      have hd1 := hdata b hb'.1 hb'.2
      simp only [Vol.fat_loc]
      constructor <;> omega
    · intro p hp1 hp2
      apply g9
      intro b hb
      have hb' := g5 b hb
      have hd1 := hdata b hb'.1 hb'.2
      simp only [Vol.fat_loc]
      constructor <;> omega
    · intro b hb hne
      by_cases hin : b ∈ bl
      · refine ⟨(g5 b hin).2, ?_⟩
        obtain ⟨i, hi, hget⟩ := List.getElem_of_mem hin
        have hgd : bl.getD i 0 = b := by rw [List.getD_eq_getElem _ _ hi, hget]
        have hl := g10 i (by omega)
        rw [hgd] at hl
        rw [hl]
        by_cases hnext : i + 1 < bl.length
        · rw [List.getD_eq_getElem _ _ hnext]
          have hm := g5 _ (List.getElem_mem (h := hnext))
          have := (hdata _ hm.1 hm.2).1
          simp only [RESERVED_BLOCKS] at this
          omega
        · rw [List.getD_eq_default _ _ (by omega)]
          simp [END_OF_CHAIN]
      · exact absurd (hframe_fat b hb hin) hne
    · intro b hb hfat hX j hj
      apply g9
      intro b' hb'
      have hb'' := g5 b' hb'
      have hne : b ≠ b' := fun c => hfat (c ▸ hb''.2)
      refine ⟨block_disjoint v.bytesperblock b b' j hne hj, ?_⟩
      have hX' : (v.dirstart + v.dirsize) * v.bytesperblock ≤ b * v.bytesperblock := by
        apply Nat.mul_le_mul_right
        rw [hds]; simp only [RESERVED_BLOCKS] at hX; omega
      simp only [Vol.fat_loc]
      omega

/-- C23: on a loaded volume with a block size that is a multiple of 512 on
which I4 holds, let slot `t` of the directory table hold a live entry `e`
whose payload heads the well-formed chain `bs`, and let an `import` run whose
source fits in the free data blocks and whose destination, as `import_cmd`
resolves it, is not slot `t`.  Then slot `t` still holds `e`, the
allocation-table entries and the contents of the blocks of `bs` are
unchanged, the chain is still well formed and `export_chain` of `e` yields
the same bytes as before; and an allocation-table entry of a block below `N`
that the import changes was 0 before and is non-zero afterwards. -/
theorem import_keeps_other_file (v : Vol) (img img3 : Image) (h : Host) (path : List Nat)
    (m : List Msg) (t : Nat) (bs : List Nat)
    (hload : load img img.size = Except.ok v) (hsz : img.size < LONG_LIMIT)
    (hB : v.bytesperblock % 512 = 0) (hI4 : reserved_ok v img)
    (ht : t < v.slots) (hlive : live (v.slot img t))
    (hchain : is_chain v img (v.slot img t).payload bs = true)
    (hfits : blocks_needed v h.data.length ≤ (free_blocks v img v.blocks).length)
    (hdest : ∀ r, import_dest v img h path = some r → r.not_found = false →
      r.target_entry ≠ t)
    (hrun : import_cmd v img h path = some (img3, m)) :
    v.slot img3 t = v.slot img t ∧
      (∀ b, b ∈ bs → v.fat img3 b = v.fat img b) ∧
      (∀ b, b ∈ bs → ∀ j, j < v.bytesperblock →
        img3.get (b * v.bytesperblock + j) = img.get (b * v.bytesperblock + j)) ∧
      is_chain v img3 (v.slot img3 t).payload bs = true ∧
      export_chain v img3 (v.slot img3 t) = export_chain v img (v.slot img t) ∧
      (∀ b, b < v.blocks → v.fat img3 b ≠ v.fat img b →
        v.fat img b = 0 ∧ v.fat img3 b ≠ 0) := by
  have hB0 : v.bytesperblock ≠ 0 := (load_fields img img.size v hload).2.2.1
  have hB512 : 512 ≤ v.bytesperblock := by omega
  obtain ⟨hNB, hFB, hds, _, _⟩ := loaded_geometry img v hload hsz hB512
  have hATend : fatstart * v.bytesperblock + v.blocks * 8 ≤ v.dirstart * v.bytesperblock := by
    rw [hds, Nat.add_mul]; simp only [fatstart, RESERVED_BLOCKS]; omega
  have h16 : fatstart * v.bytesperblock ≤ v.dirstart * v.bytesperblock := by omega
  have hq : v.bytesperblock = v.bytesperblock / 512 * 512 := by
    have := Nat.div_add_mod v.bytesperblock 512
    omega
  have hslots : v.slots * 256 = v.dirsize * v.bytesperblock := by
    simp only [Vol.slots, Vol.ENTRIES_PER_BLOCK, Vol.SECTORS_PER_BLOCK, BYTES_PER_SECT,
      ENTRIES_PER_SECT]
    calc v.dirsize * (v.bytesperblock / 512 * 2) * 256
        = v.dirsize * (v.bytesperblock / 512 * 512) := by ring
      _ = v.dirsize * v.bytesperblock := by rw [← hq]
  have htin : v.dirstart * v.bytesperblock ≤ v.entry_loc t ∧
      v.entry_loc t + 256 ≤ (v.dirstart + v.dirsize) * v.bytesperblock := by
    rw [Nat.add_mul, ← hslots]
    simp only [entry_loc_eq]
    omega
  -- the chain of `e`
  have hbs : ∀ b, b ∈ bs → b < v.blocks ∧ v.fat img b ≠ 0 ∧
      RESERVED_BLOCKS + v.fatsize + v.dirsize ≤ b ∧
      (v.dirstart + v.dirsize) * v.bytesperblock ≤ b * v.bytesperblock := by
    intro b hb
    obtain ⟨h1, _, _⟩ := is_chain_mem v img bs _ hchain b hb
    obtain ⟨h2, h3⟩ := is_chain_data v img hI4 hsz (by omega) bs _ hchain b hb
    refine ⟨?_, h3, h2, ?_⟩
    · rw [← hNB] at h1
      have := Nat.le_of_mul_le_mul_right h1 (by omega : 0 < v.bytesperblock)
      omega
    · apply Nat.mul_le_mul_right
      rw [hds]; simp only [RESERVED_BLOCKS] at h2; omega
  -- everything follows from four frame facts
  have hfinal : ∀ img3 : Image, img.size ≤ img3.size → v.slot img3 t = v.slot img t →
      (∀ b, b < v.blocks → v.fat img3 b ≠ v.fat img b → v.fat img b = 0 ∧ v.fat img3 b ≠ 0) →
      (∀ b, b < v.blocks → v.fat img b ≠ 0 → RESERVED_BLOCKS + v.fatsize + v.dirsize ≤ b →
        ∀ j, j < v.bytesperblock →
          img3.get (b * v.bytesperblock + j) = img.get (b * v.bytesperblock + j)) →
      v.slot img3 t = v.slot img t ∧
      (∀ b, b ∈ bs → v.fat img3 b = v.fat img b) ∧
      (∀ b, b ∈ bs → ∀ j, j < v.bytesperblock →
        img3.get (b * v.bytesperblock + j) = img.get (b * v.bytesperblock + j)) ∧
      is_chain v img3 (v.slot img3 t).payload bs = true ∧
      export_chain v img3 (v.slot img3 t) = export_chain v img (v.slot img t) ∧
      (∀ b, b < v.blocks → v.fat img3 b ≠ v.fat img b →
        v.fat img b = 0 ∧ v.fat img3 b ≠ 0) := by
    intro img3 hsize hslot hfat hdata
    have hfat_bs : ∀ b, b ∈ bs → v.fat img3 b = v.fat img b := by
      intro b hb
      obtain ⟨h1, h2, _, _⟩ := hbs b hb
      by_contra hne
      exact h2 (hfat b h1 hne).1
    have hdata_bs : ∀ b, b ∈ bs → ∀ j, j < v.bytesperblock →
        img3.get (b * v.bytesperblock + j) = img.get (b * v.bytesperblock + j) := by
      intro b hb
      obtain ⟨h1, h2, h3, _⟩ := hbs b hb
      exact hdata b h1 h2 h3
    refine ⟨hslot, hfat_bs, hdata_bs, ?_, ?_, hfat⟩
    · rw [hslot]
      exact is_chain_congr v img img3 hsize bs _ hchain hfat_bs
    · rw [hslot]
      unfold export_chain
      rw [if_neg hB0, if_neg hB0]
      exact export_loop_congr v img img3 _ hsize (by omega) bs _ hchain hfat_bs hdata_bs _ _
  -- a `kept` image satisfies the four facts
  have hkept : ∀ a c : Image, kept v t a c →
      c.size = a.size ∧ v.slot c t = v.slot a t ∧ (∀ b, b < v.blocks → v.fat c b = v.fat a b) ∧
      (∀ b, RESERVED_BLOCKS + v.fatsize + v.dirsize ≤ b → ∀ j, j < v.bytesperblock →
        c.get (b * v.bytesperblock + j) = a.get (b * v.bytesperblock + j)) := by
    intro a c hk
    refine ⟨hk.1, kept_slot v t a c hk, ?_, ?_⟩
    · intro b hb
      apply fat_congr
      intro p _ hp2
      apply hk.2.1
      simp only [Vol.fat_loc] at hp2
      omega
    · intro b hX j _
      apply hk.2.2.1
      have : (v.dirstart + v.dirsize) * v.bytesperblock ≤ b * v.bytesperblock := by
        apply Nat.mul_le_mul_right
        rw [hds]; simp only [RESERVED_BLOCKS] at hX; omega
      omega
  rcases import_cmd_dest v img img3 h path m hrun with
    ⟨_, h1⟩ | ⟨img1, msgs, r, hfst, hdst, hr, hrf, hrest⟩
  · subst h1
    exact hfinal _ (le_refl _) rfl (fun b _ hne => absurd rfl hne) (fun _ _ _ _ _ _ => rfl)
  · have hk1 : kept v t img img1 := by
      rcases hfst with h1 | h1
      · subst h1; exact kept_refl v t _
      · exact make_dirs_kept v t path h.now hB _ _ img [] img1 msgs hlive h1
    have hI41 : reserved_ok v img1 := by
      rcases hfst with h1 | h1
      · subst h1; exact hI4
      · exact (make_dirs_reserved v path h.now (fun _ => by rw [hds]; simp [fatstart,
          RESERVED_BLOCKS]) _ _ img [] img1 msgs hI4 h1).1
    obtain ⟨hs1, hsl1, hf1, hd1⟩ := hkept img img1 hk1
    rcases hrest with h3 | ⟨pl, img2, hch, hfin⟩
    · subst h3
      exact hfinal _ (by omega) hsl1 (fun b hb hne => absurd (hf1 b hb) hne)
        (fun b _ _ hX j hj => hd1 b hX j hj)
    · have hfits1 : blocks_needed v h.data.length ≤ (free_blocks v img1 v.blocks).length := by
        rw [free_blocks_congr v img img1 v.blocks hf1]
        exact hfits
      obtain ⟨hs2, _, hdir2, hfat2, hdata2⟩ := import_chain_kept v img1 img2 h.data pl hB512
        (by rw [hs1]; exact hNB) hFB hds (by rw [hs1]; exact hsz) hI41 hfits1 hch
      have hsl2 : v.slot img2 t = v.slot img1 t := by
        apply slot_congr
        intro p hp1 hp2
        exact hdir2 p (by omega) (by omega)
      have hlive2 : live (v.slot img2 t) := by rw [hsl2, hsl1]; exact hlive
      have hk3 : kept v t img2 img3 := by
        rcases hfin with ⟨hnf, hwr⟩ | ⟨hnf, i, hfe, hwr⟩
        · have hne := hdest r hdst hnf
          obtain ⟨_, hin, _⟩ := rd_entry_some v img1 _ _ (path_resolver_found v img1 path r hr hrf hnf)
          exact wr_entry_kept v img2 img3 _ t _ hB hne (by rw [hs2]; exact hin) hwr
        · obtain ⟨hin, hfree, _⟩ := find_empty_sound v img2 i hfe
          have hit : i ≠ t := by
            intro c
            subst c
            rcases hfree with c | c
            · exact hlive2.1 c
            · exact hlive2.2 c
          exact wr_entry_kept v img2 img3 i t _ hB hit hin hwr
      obtain ⟨hs3, hsl3, hf3, hd3⟩ := hkept img2 img3 hk3
      apply hfinal img3 (by omega) (by rw [hsl3, hsl2, hsl1])
      · intro b hb hne
        rw [hf3 b hb, ← hf1 b hb] at hne ⊢
        exact hfat2 b hb hne
      · intro b hb hfat hX j hj
        rw [hd3 b hX j hj, hdata2 b hb (by rw [hf1 b hb]; exact hfat) hX j hj]
        exact hd1 b hX j hj

theorem reserved_ok_after_import_x : reserved_ok vol32k after_import_x := by
  intro b hb
  have hb20 : b < 20 := hb
  interval_cases b <;> rfl

set_option maxRecDepth 1000000 in
set_option maxHeartbeats 4000000 in
theorem import_keeps_other_file_witness :
    is_chain vol32k after_import_x (vol32k.slot after_import_x 0).payload [20] = true ∧
      export_chain vol32k after_import_x (vol32k.slot after_import_x 0) = some small_file ∧
      ∃ img3, second_import = some (img3, []) ∧
        vol32k.slot img3 0 = vol32k.slot after_import_x 0 ∧
        export_chain vol32k img3 (vol32k.slot img3 0) = some small_file ∧
        vol32k.fat img3 21 = 22 := by
  have hchain : is_chain vol32k after_import_x (vol32k.slot after_import_x 0).payload [20]
      = true := by rfl
  have hexp : export_chain vol32k after_import_x (vol32k.slot after_import_x 0)
      = some small_file := by rfl
  have hmsg : second_import.map (fun r => r.2) = some [] := by rfl
  have hfat : second_import.map (fun r => vol32k.fat r.1 21) = some 22 := by rfl
  have hdst : (import_dest vol32k after_import_x (host_file (pattern_file 1000)) path_y).map
      (fun r => r.not_found) = some true := by rfl
  cases hrun : second_import with
  | none => rw [hrun] at hmsg; cases hmsg
  | some res =>
    obtain ⟨img3, m⟩ := res
    rw [hrun] at hmsg hfat
    simp only [Option.map_some', Option.some.injEq] at hmsg hfat
    subst hmsg
    have hthm := import_keeps_other_file vol32k after_import_x img3
      (host_file (pattern_file 1000)) path_y [] 0 [20] (by rfl) (by decide) (by decide)
      reserved_ok_after_import_x (by decide) ⟨by decide, by decide⟩ hchain (by decide)
      (by
        intro r hr hnf
        rw [hr] at hdst
        simp only [Option.map_some', Option.some.injEq] at hdst
        rw [hdst] at hnf
        cases hnf)
      hrun
    exact ⟨hchain, hexp, img3, rfl, hthm.1, by rw [hthm.2.2.2.2.1]; exact hexp, hfat⟩

end Echfs
